import Mathlib

/-!
# Skip list (`list.go`): shallow embedding and verification

The Go program keeps nodes on the garbage-collected heap and links them with
pointers.  Here the heap is a list of nodes, a `*Node` is an `Option Nat`
(`none` is `nil`, `some a` is the node stored at index `a`), and every
operation returns `Except Fault _`, so that a nil dereference or a slice index
out of range is a value that can be reasoned about.  Loops that follow pointers
take a bound on the number of iterations; the public operations pass the number
of allocated nodes, and running out of it is the separate outcome `Fault.fuel`.

The random source is a parameter: `coins k` is the outcome of the `k`-th flip
made during one call (`true` is heads, the value `1`).  The comparator, a field
of the Go struct, is a parameter `cmp` of every operation.  The lock is not
modelled: the development is about sequential executions.
-/

namespace Skiplist

/-! ## Data model -/

/-- Abnormal outcomes of a call. -/
inductive Fault where
  /-- dereference of a nil `*Node` -/
  | nilDeref
  /-- slice index out of range -/
  | indexOutOfRange
  /-- the comparator was handed the nil item of the header -/
  | nilItem
  /-- an address outside the modelled heap (no Go pointer is like this) -/
  | dangling
  /-- the iteration bound of the model was exhausted -/
  | fuel
  deriving DecidableEq, Repr

/-- The constant `maxLevel`. -/
def maxLevel : Nat := 32

/-- The Go `Node`: `item` is `none` for the header, `next` is the slice of
forward pointers (one per level), `prev` the level-0 backward pointer. -/
structure Node (α : Type) where
  item : Option α
  next : List (Option Nat)
  prev : Option Nat
  deriving DecidableEq, Repr

/-- The Go `SkipList` without its comparator and lock: the heap of allocated
nodes, the address of the header, `len` and `level`. -/
structure SkipList (α : Type) where
  heap : List (Node α)
  header : Nat
  len : Int
  level : Nat
  deriving DecidableEq, Repr

/-- The outcomes of the flips made during one call. -/
abbrev Coins := Nat → Bool

/-- `NewList`: a header with `maxLevel` nil forward pointers, length and level 0. -/
def NewList {α : Type} : SkipList α :=
  { heap := [{ item := none, next := List.replicate maxLevel none, prev := none }],
    header := 0, len := 0, level := 0 }

/-! ## Heap accesses -/

/-- The read `x.next[i]`. -/
def nextOf {α : Type} (heap : List (Node α)) (x i : Nat) : Except Fault (Option Nat) :=
  match heap[x]? with
  | none => .error .dangling
  | some n =>
    match n.next[i]? with
    | none => .error .indexOutOfRange
    | some p => .ok p

/-- The read `x.item`, as handed to the comparator. -/
def itemOf {α : Type} (heap : List (Node α)) (x : Nat) : Except Fault α :=
  match heap[x]? with
  | none => .error .dangling
  | some n =>
    match n.item with
    | none => .error .nilItem
    | some v => .ok v

/-- The read `x.prev`. -/
def prevOf {α : Type} (heap : List (Node α)) (x : Nat) : Except Fault (Option Nat) :=
  match heap[x]? with
  | none => .error .dangling
  | some n => .ok n.prev

/-- The write `x.next[i] = p`. -/
def setNext {α : Type} (heap : List (Node α)) (x i : Nat) (p : Option Nat) :
    Except Fault (List (Node α)) :=
  match heap[x]? with
  | none => .error .dangling
  | some n =>
    if i < n.next.length then .ok (heap.set x { n with next := n.next.set i p })
    else .error .indexOutOfRange

/-- The write `x.prev = p`. -/
def setPrev {α : Type} (heap : List (Node α)) (x : Nat) (p : Option Nat) :
    Except Fault (List (Node α)) :=
  match heap[x]? with
  | none => .error .dangling
  | some n => .ok (heap.set x { n with prev := p })

/-- The guarded write `if y != nil { y.prev = p }`. -/
def setPrevIf {α : Type} (heap : List (Node α)) (y : Option Nat) (p : Option Nat) :
    Except Fault (List (Node α)) :=
  match y with
  | some a => setPrev heap a p
  | none => .ok heap

/-! ## The search loop shared by every operation -/

/-- How the inner loop `for x.next[i] != nil { ... }` ended. -/
inductive Stop where
  /-- the loop condition failed: `x.next[i] == nil` -/
  | atNil
  /-- the comparator returned `COMPARESAME` (0) -/
  | same
  /-- the comparator returned `COMPAREGREAT` (1) -/
  | great
  deriving DecidableEq, Repr

/-- The inner loop of `Insert`, `InsertV2`, `Exists` and `Delete` at level `i`,
started at node `x`: it returns the node at which it stopped and the reason.
Any comparator result other than 0 and 1 moves forward. -/
def walk {α : Type} (cmp : α → α → Int) (item : α) (heap : List (Node α)) (i : Nat) :
    Nat → Nat → Except Fault (Nat × Stop)
  | 0, _ => .error .fuel
  | fuel + 1, x => do
    match ← nextOf heap x i with
    | none => pure (x, .atNil)
    | some y =>
      let c := cmp (← itemOf heap y) item
      if c = 0 then pure (x, .same)
      else if c = 1 then pure (x, .great)
      else walk cmp item heap i fuel y

/-! ## Insert (bottom-up) -/

/-- One iteration of the outer loop of `Insert` at level `i`.  The first
component is `none` when the body executed `return false`; otherwise it holds
the node `x` and the map `knots` for the next iteration. -/
def insertStep {α : Type} (cmp : α → α → Int) (item : α) (node fuel i x : Nat)
    (knots : Nat → Option Nat) (l : SkipList α) :
    Except Fault (Option (Nat × (Nat → Option Nat)) × SkipList α) := do
  let (x, stop) ← walk cmp item l.heap i fuel x
  if stop = .same then
    pure (none, l)
  else if i ≠ 0 then
    pure (some (x, Function.update knots i (some x)), l)
  else
    let nx ← nextOf l.heap x i
    let h1 ← setNext l.heap node i nx
    let h2 ← setPrev h1 node (some x)
    let h3 ← setPrevIf h2 nx (some node)
    let h4 ← setNext h3 x i (some node)
    pure (some (x, knots), { l with heap := h4, len := l.len + 1 })

/-- The outer loop `for i := l.level; i >= 0; i--` of `Insert`. -/
def insertLoop {α : Type} (cmp : α → α → Int) (item : α) (node fuel : Nat) :
    Nat → Nat → (Nat → Option Nat) → SkipList α →
    Except Fault (Option (Nat → Option Nat) × SkipList α)
  | 0, x, knots, l => do
    match ← insertStep cmp item node fuel 0 x knots l with
    | (none, l1) => pure (none, l1)
    | (some (_, knots1), l1) => pure (some knots1, l1)
  | i + 1, x, knots, l => do
    match ← insertStep cmp item node fuel (i + 1) x knots l with
    | (none, l1) => pure (none, l1)
    | (some (x1, knots1), l1) => insertLoop cmp item node fuel i x1 knots1 l1

/-- The coin loop of `Insert`:
`for level = 1; flipCoin() == COINHEADS && level < maxLevel; level++`.
`k` counts the flips made so far. -/
def promote {α : Type} (coins : Coins) (node : Nat) (knots : Nat → Option Nat) :
    Nat → Nat → Nat → SkipList α → Except Fault (SkipList α)
  | 0, _, _, _ => .error .fuel
  | fuel + 1, level, k, l =>
    if coins k = true ∧ level < maxLevel then
      if level > l.level then do
        let h ← setNext l.heap l.header level (some node)
        pure { l with heap := h, level := level }
      else
        match knots level with
        | none => .error .nilDeref
        | some kn => do
          let p ← nextOf l.heap kn level
          let h1 ← setNext l.heap node level p
          let h2 ← setNext h1 kn level (some node)
          promote coins node knots fuel (level + 1) (k + 1) { l with heap := h2 }
    else pure l

/-- The method `Insert`: the result and the state after the call. -/
def Insert {α : Type} (cmp : α → α → Int) (coins : Coins) (item : α) (l : SkipList α) :
    Except Fault (Bool × SkipList α) := do
  let node := l.heap.length
  let l1 : SkipList α :=
    { l with heap := l.heap ++ [{ item := some item, next := List.replicate (l.level + 2) none,
                                  prev := none }] }
  match ← insertLoop cmp item node l1.heap.length l1.level l1.header (fun _ => none) l1 with
  | (none, l2) => pure (false, l2)
  | (some knots, l2) => do
    let l3 ← promote coins node knots (maxLevel + 1) 1 0 l2
    pure (true, l3)

/-! ## InsertV2 (top-down) -/

/-- The loop of `randLevel`:
`for level = 0; r.Int31n(probability) == 1 && level < maxLevel; level++`. -/
def randLevelLoop (coins : Coins) (listLevel : Nat) : Nat → Nat → Nat → Except Fault Nat
  | 0, _, _ => .error .fuel
  | fuel + 1, level, k =>
    if coins k = true ∧ level < maxLevel then
      if level > listLevel then pure level
      else randLevelLoop coins listLevel fuel (level + 1) (k + 1)
    else pure level

/-- The method `randLevel`. -/
def randLevel {α : Type} (coins : Coins) (l : SkipList α) : Except Fault Nat :=
  randLevelLoop coins l.level (maxLevel + 1) 0 0

/-- One iteration of the outer loop of `InsertV2` at level `i`; the first
component is `none` when the body executed `return false`. -/
def insertV2Step {α : Type} (cmp : α → α → Int) (item : α) (node level fuel i x : Nat)
    (inserted : Bool) (l : SkipList α) :
    Except Fault (Option (Nat × Bool) × SkipList α) := do
  let (x, stop) ← walk cmp item l.heap i fuel x
  if stop = .same then
    pure (none, l)
  else if i > level then
    pure (some (x, inserted), l)
  else
    let nx ← nextOf l.heap x i
    let h1 ← setNext l.heap node i nx
    let h2 ← if i = 0 then do
        let h ← setPrev h1 node (some x)
        setPrevIf h nx (some node)
      else pure h1
    let h3 ← setNext h2 x i (some node)
    pure (some (x, true), { l with heap := h3 })

/-- The outer loop `for i := l.level; i >= 0; i--` of `InsertV2`. -/
def insertV2Loop {α : Type} (cmp : α → α → Int) (item : α) (node level fuel : Nat) :
    Nat → Nat → Bool → SkipList α → Except Fault (Option Bool × SkipList α)
  | 0, x, inserted, l => do
    match ← insertV2Step cmp item node level fuel 0 x inserted l with
    | (none, l1) => pure (none, l1)
    | (some (_, ins), l1) => pure (some ins, l1)
  | i + 1, x, inserted, l => do
    match ← insertV2Step cmp item node level fuel (i + 1) x inserted l with
    | (none, l1) => pure (none, l1)
    | (some (x1, ins), l1) => insertV2Loop cmp item node level fuel i x1 ins l1

/-- The method `InsertV2`. -/
def InsertV2 {α : Type} (cmp : α → α → Int) (coins : Coins) (item : α) (l : SkipList α) :
    Except Fault (Bool × SkipList α) := do
  let level ← randLevel coins l
  let l0 : SkipList α := if level > l.level then { l with level := level } else l
  let node := l0.heap.length
  let l1 : SkipList α :=
    { l0 with heap := l0.heap ++ [{ item := some item, next := List.replicate (level + 1) none,
                                    prev := none }] }
  match ← insertV2Loop cmp item node level l1.heap.length l1.level l1.header false l1 with
  | (none, l2) => pure (false, l2)
  | (some inserted, l2) =>
    if inserted then pure (true, { l2 with len := l2.len + 1 })
    else pure (false, l2)

/-! ## Exists, Delete, Len -/

/-- The outer loop of `Exists`. -/
def existsLoop {α : Type} (cmp : α → α → Int) (item : α) (heap : List (Node α)) (fuel : Nat) :
    Nat → Nat → Except Fault Bool
  | 0, v => do
    let (_, stop) ← walk cmp item heap 0 fuel v
    if stop = .same then pure true else pure false
  | i + 1, v => do
    let (v1, stop) ← walk cmp item heap (i + 1) fuel v
    if stop = .same then pure true else existsLoop cmp item heap fuel i v1

/-- The method `Exists`; the state is returned as the code leaves it. -/
def Exists {α : Type} (cmp : α → α → Int) (item : α) (l : SkipList α) :
    Except Fault (Bool × SkipList α) := do
  let b ← existsLoop cmp item l.heap l.heap.length l.level l.header
  pure (b, l)

/-- One iteration of the outer loop of `Delete` at level `i`. -/
def deleteStep {α : Type} (cmp : α → α → Int) (item : α) (fuel i v : Nat) (found : Bool)
    (l : SkipList α) : Except Fault (Nat × Bool × SkipList α) := do
  let (v, stop) ← walk cmp item l.heap i fuel v
  let found := found || decide (stop = .same)
  if !found then
    pure (v, found, l)
  else
    match ← nextOf l.heap v i with
    | none => .error .nilDeref
    | some t =>
      let next ← nextOf l.heap t i
      let h1 ← setNext l.heap v i next
      let h2 ← if i = 0 then setPrevIf h1 next (some v) else pure h1
      let lvl := if next = none ∧ v = l.header ∧ i > 0 then i - 1 else l.level
      pure (v, found, { l with heap := h2, level := lvl })

/-- The outer loop `for i = l.level; i >= 0; i--` of `Delete`. -/
def deleteLoop {α : Type} (cmp : α → α → Int) (item : α) (fuel : Nat) :
    Nat → Nat → Bool → SkipList α → Except Fault (Bool × SkipList α)
  | 0, v, found, l => do
    let (_, found1, l1) ← deleteStep cmp item fuel 0 v found l
    pure (found1, l1)
  | i + 1, v, found, l => do
    let (v1, found1, l1) ← deleteStep cmp item fuel (i + 1) v found l
    deleteLoop cmp item fuel i v1 found1 l1

/-- The method `Delete`. -/
def Delete {α : Type} (cmp : α → α → Int) (item : α) (l : SkipList α) :
    Except Fault (Bool × SkipList α) := do
  let (found, l1) ← deleteLoop cmp item l.heap.length l.level l.header false l
  if found then pure (true, { l1 with len := l1.len - 1 })
  else pure (false, l1)

/-- The method `Len`. -/
def Len {α : Type} (l : SkipList α) : Int := l.len

/-! ## Observations: traversals -/

/-- The items met by following `next[i]` from node `x` until nil. -/
def itemsFrom {α : Type} (heap : List (Node α)) (i : Nat) : Nat → Nat → Except Fault (List α)
  | 0, _ => .error .fuel
  | fuel + 1, x => do
    match ← nextOf heap x i with
    | none => pure []
    | some y =>
      let v ← itemOf heap y
      let rest ← itemsFrom heap i fuel y
      pure (v :: rest)

/-- The items of the level-`i` chain: `header.next[i]`, then `next[i]` until nil. -/
def levelItems {α : Type} (l : SkipList α) (i : Nat) : Except Fault (List α) :=
  itemsFrom l.heap i l.heap.length l.header

/-- The level-0 forward traversal. -/
def forward {α : Type} (l : SkipList α) : Except Fault (List α) := levelItems l 0

/-- The addresses met by following `next[i]` from node `x` until nil. -/
def addrsFrom {α : Type} (heap : List (Node α)) (i : Nat) : Nat → Nat → Except Fault (List Nat)
  | 0, _ => .error .fuel
  | fuel + 1, x => do
    match ← nextOf heap x i with
    | none => pure []
    | some y =>
      let rest ← addrsFrom heap i fuel y
      pure (y :: rest)

/-- The addresses of the nodes of the level-`i` chain, header excluded. -/
def levelAddrs {α : Type} (l : SkipList α) (i : Nat) : Except Fault (List Nat) :=
  addrsFrom l.heap i l.heap.length l.header

/-- The last node of the level-0 chain that starts at `x` (`x` itself when
`x.next[0]` is nil). -/
def lastFrom {α : Type} (heap : List (Node α)) : Nat → Nat → Except Fault Nat
  | 0, _ => .error .fuel
  | fuel + 1, x => do
    match ← nextOf heap x 0 with
    | none => pure x
    | some y => lastFrom heap fuel y

/-- The items met from node `x` by following `prev` until the header is reached. -/
def backFrom {α : Type} (heap : List (Node α)) (header : Nat) : Nat → Nat → Except Fault (List α)
  | 0, _ => .error .fuel
  | fuel + 1, x =>
    if x = header then pure []
    else do
      let v ← itemOf heap x
      match ← prevOf heap x with
      | none => .error .nilDeref
      | some p =>
        let rest ← backFrom heap header fuel p
        pure (v :: rest)

/-- The level-0 backward traversal: from the last node, along `prev`, to the header. -/
def backward {α : Type} (l : SkipList α) : Except Fault (List α) := do
  let last ← lastFrom l.heap l.heap.length l.header
  backFrom l.heap l.header (l.heap.length + 1) last

/-! ## Sequences of calls -/

/-- Calls `Insert` on each item in turn, each call with its own coin outcomes;
returns the results of the calls and the final state. -/
def insertAll {α : Type} (cmp : α → α → Int) :
    List (α × Coins) → SkipList α → Except Fault (List Bool × SkipList α)
  | [], l => pure ([], l)
  | (x, coins) :: rest, l => do
    let (b, l1) ← Insert cmp coins x l
    let (bs, l2) ← insertAll cmp rest l1
    pure (b :: bs, l2)

/-- Calls `Delete` on each item in turn; returns the results and the final state. -/
def deleteAll {α : Type} (cmp : α → α → Int) :
    List α → SkipList α → Except Fault (List Bool × SkipList α)
  | [], l => pure ([], l)
  | x :: rest, l => do
    let (b, l1) ← Delete cmp x l
    let (bs, l2) ← deleteAll cmp rest l1
    pure (b :: bs, l2)

/-- The states reachable from `NewList` by `Insert` and `Delete` calls that return. -/
inductive Reachable {α : Type} (cmp : α → α → Int) : SkipList α → Prop where
  | new : Reachable cmp NewList
  | insert {l l1 : SkipList α} (coins : Coins) (item : α) (b : Bool) :
      Reachable cmp l → Insert cmp coins item l = .ok (b, l1) → Reachable cmp l1
  | delete {l l1 : SkipList α} (item : α) (b : Bool) :
      Reachable cmp l → Delete cmp item l = .ok (b, l1) → Reachable cmp l1

/-! ## Comparators -/

/-- A three-way comparator of a total order: results are -1, 0 or 1, swapping
the arguments negates the result, and "not greater" is transitive. -/
structure IsTotalOrder {α : Type} (cmp : α → α → Int) : Prop where
  range : ∀ a b, cmp a b = -1 ∨ cmp a b = 0 ∨ cmp a b = 1
  antisymm : ∀ a b, cmp b a = -cmp a b
  trans : ∀ a b c, cmp a b ≤ 0 → cmp b c ≤ 0 → cmp a c ≤ 0

/-- The comparator `compareIntAsc` of the test file. -/
def compareIntAsc (a b : Int) : Int :=
  if a < b then -1 else if a > b then 1 else 0

/-- The comparator `compareIntDesc` of the test file. -/
def compareIntDesc (a b : Int) : Int :=
  let r := compareIntAsc a b
  if r = 1 then -1 else if r = -1 then 1 else r

/-! ## Inputs of the test file and of the worked examples -/

/-- Coin outcomes: the first `n` flips are heads, all later ones tails. -/
def heads (n : Nat) : Coins := fun k => decide (k < n)

/-- The items 2, 1, 3, 5, 4, 7, 6 of `TestInsertAndDelete`, with some coin outcomes. -/
def ascInput : List (Int × Coins) :=
  [(2, heads 0), (1, heads 1), (3, heads 2), (5, heads 0), (4, heads 3), (7, heads 1),
   (6, heads 0)]

/-- The items 1, 2 of `TestInsertAndDelete`, with some coin outcomes. -/
def descInput : List (Int × Coins) := [(1, heads 1), (2, heads 0)]

/-- The list of the concrete scenario: 2, 1, 3, 5, 4, 7, 6 inserted in that
order into a new list with the ascending comparator. -/
def ascList : SkipList Int :=
  match insertAll compareIntAsc ascInput NewList with
  | .ok r => r.2
  | .error _ => NewList

/-- The list that holds the single item 5, as `Insert(5)` leaves a new list
when the first coin is tails. -/
def c7Before : SkipList Int :=
  { heap := [{ item := none, next := some 1 :: List.replicate 31 none, prev := none },
             { item := some 5, next := [none, none], prev := some 0 }],
    header := 0, len := 1, level := 0 }

/-- The state in which `InsertV2(5)` leaves `c7Before` when the first coin is
heads: a second node with item 5 hangs off the header on level 1. -/
def c7After : SkipList Int :=
  { heap := [{ item := none, next := some 1 :: some 2 :: List.replicate 30 none, prev := none },
             { item := some 5, next := [none, none], prev := some 0 },
             { item := some 5, next := [none, none], prev := none }],
    header := 0, len := 1, level := 1 }

/-- The items 0, 1, ..., 30, each inserted with every coin heads. -/
def tallInput : List (Int × Coins) :=
  (List.range 31).map (fun (i : Nat) => (Int.ofNat i, fun _ => true))

/-! ## The representation invariant

A reachable list is described by its towers in level-0 order: the address of
each node, its item, and its height (the highest level it is linked on). -/

/-- One linked node: address, item and the highest level it is linked on. -/
structure Tower (α : Type) where
  addr : Nat
  item : α
  height : Nat

/-- The address of the last tower of `ts`, or `a` when `ts` is empty. -/
def lastAddr {α : Type} : Nat → List (Tower α) → Nat
  | a, [] => a
  | _, t :: ts => lastAddr t.addr ts

/-- Following `next[i]` from node `a` visits the towers `ts` in order
(nothing is said about what follows the last one). -/
def Seg {α : Type} (heap : List (Node α)) (i : Nat) : Nat → List (Tower α) → Prop
  | _, [] => True
  | a, t :: ts =>
    nextOf heap a i = .ok (some t.addr) ∧ itemOf heap t.addr = .ok t.item ∧ Seg heap i t.addr ts

/-- Following `next[i]` from node `a` visits exactly the towers `ts` and then nil. -/
def Chain {α : Type} (heap : List (Node α)) (i a : Nat) (ts : List (Tower α)) : Prop :=
  Seg heap i a ts ∧ nextOf heap (lastAddr a ts) i = .ok none

/-- Each tower of `ts` has as `prev` the tower before it, the first one `a`. -/
def PrevOK {α : Type} (heap : List (Node α)) : Nat → List (Tower α) → Prop
  | _, [] => True
  | a, t :: ts => prevOf heap t.addr = .ok (some a) ∧ PrevOK heap t.addr ts

/-- The towers linked on level `i`. -/
def atLevel {α : Type} (i : Nat) (ts : List (Tower α)) : List (Tower α) :=
  ts.filter (fun t => decide (i ≤ t.height))

/-- The length of the slice `x.next`. -/
def nextLen {α : Type} (heap : List (Node α)) (x : Nat) : Option Nat :=
  (heap[x]?).map (fun n => n.next.length)

/-- The heap links the towers `L` under the header `hdr`: distinct addresses,
an itemless header with `maxLevel` forward pointers and no `prev`, every level
below `maxLevel` is the chain of the towers that reach it, and level 0 is
doubly linked. -/
structure Shape {α : Type} (heap : List (Node α)) (hdr : Nat) (L : List (Tower α)) : Prop where
  nodup : (hdr :: L.map Tower.addr).Nodup
  inHeap : ∀ t ∈ L, t.addr < heap.length
  hdrItem : itemOf heap hdr = .error .nilItem
  hdrPrev : prevOf heap hdr = .ok none
  hdrLen : nextLen heap hdr = some maxLevel
  chains : ∀ i, i < maxLevel → Chain heap i hdr (atLevel i L)
  prevs : PrevOK heap hdr L

/-- The state `l` represents the towers `L`: they are sorted, linked as `Shape`
says, and `len` and `level` are their number and greatest height. -/
structure InvL {α : Type} (cmp : α → α → Int) (l : SkipList α) (L : List (Tower α)) : Prop where
  sorted : L.Pairwise (fun s t => cmp s.item t.item = -1)
  shape : Shape l.heap l.header L
  len : l.len = L.length
  size : L.length < l.heap.length
  lvl_le : ∀ t ∈ L, t.height ≤ l.level
  lvl_top : l.level = 0 ∨ ∃ t ∈ L, t.height = l.level
  lvl_lt : l.level < maxLevel

/-- The map `knots` after the descent of `Insert` from level `i` to level 1:
level `j` holds the last tower of level `j` among `A`, or the header. -/
def knotsAfter {α : Type} (hdr : Nat) (A : List (Tower α)) (i : Nat)
    (knots : Nat → Option Nat) : Nat → Option Nat :=
  fun j => if 1 ≤ j ∧ j ≤ i then some (lastAddr hdr (atLevel j A)) else knots j

/-- The number `lvl` is the greatest height among the towers `L` (0 when empty). -/
def LvlOK {α : Type} (lvl : Nat) (L : List (Tower α)) : Prop :=
  (∀ t ∈ L, t.height ≤ lvl) ∧ (lvl = 0 ∨ ∃ t ∈ L, t.height = lvl)

/-- The reason for which the inner loop stops in front of the towers `zs`. -/
def stopOf {α : Type} (cmp : α → α → Int) (item : α) : List (Tower α) → Stop
  | [] => .atNil
  | z :: _ => if cmp z.item item = 0 then .same else .great

/-! ## Notions and examples of the invariants, of the level generator and of runs
under any comparator -/

/-- The list holding 1 and 2, inserted with one and two heads. -/
def c13Mid : SkipList Int :=
  match insertAll compareIntAsc [(1, heads 1), (2, heads 2)] NewList with
  | .ok r => r.2
  | .error _ => NewList

/-- The list of the level-collapse example: `c13Mid` with 1 deleted; the node
of 2 is the only node on levels 1 and 2. -/
def c13Before : SkipList Int :=
  match Delete compareIntAsc 1 c13Mid with
  | .ok r => r.2
  | .error _ => NewList

/-- The number of heads among the flips `k`, `k + 1`, ... before the first
tails, counting at most `n` flips. -/
def headRunFrom (coins : Coins) : Nat → Nat → Nat
  | _, 0 => 0
  | k, n + 1 => if coins k = true then 1 + headRunFrom coins (k + 1) n else 0

/-- The states reachable from `NewList` by `Insert`, `InsertV2` and `Delete`
calls that return. -/
inductive ReachableV2 {α : Type} (cmp : α → α → Int) : SkipList α → Prop where
  | new : ReachableV2 cmp NewList
  | insert {l l1 : SkipList α} (coins : Coins) (item : α) (b : Bool) :
      ReachableV2 cmp l → Insert cmp coins item l = .ok (b, l1) → ReachableV2 cmp l1
  | insertV2 {l l1 : SkipList α} (coins : Coins) (item : α) (b : Bool) :
      ReachableV2 cmp l → InsertV2 cmp coins item l = .ok (b, l1) → ReachableV2 cmp l1
  | delete {l l1 : SkipList α} (item : α) (b : Bool) :
      ReachableV2 cmp l → Delete cmp item l = .ok (b, l1) → ReachableV2 cmp l1

/-- Every forward link of the heap leads to a node that has an item and a slot
on the level of the link, and whose item is greater than that of the node the
link leaves (when that node has an item). -/
def Links {α : Type} (cmp : α → α → Int) (heap : List (Node α)) : Prop :=
  ∀ n i m, nextOf heap n i = .ok (some m) →
    ∃ w, itemOf heap m = .ok w ∧ (∃ q, nextOf heap m i = .ok q) ∧
      ∀ v, itemOf heap n = .ok v → cmp v w = -1

/-- The invariant of the states of `ReachableV2`: the links ascend, the header
has no item and `maxLevel` slots, and `level` is below `maxLevel`. -/
structure LinkInv {α : Type} (cmp : α → α → Int) (l : SkipList α) : Prop where
  links : Links cmp l.heap
  hdrItem : itemOf l.heap l.header = .error .nilItem
  hdrLen : nextLen l.heap l.header = some maxLevel
  lvl_lt : l.level < maxLevel

/-- The node `x` has no item, or an item less than `item`. -/
def Before {α : Type} (cmp : α → α → Int) (item : α) (heap : List (Node α)) (x : Nat) : Prop :=
  ∀ v, itemOf heap x = .ok v → cmp v item = -1

/-- The number of nodes of the heap whose item is greater than that of node
`x`; every node with an item counts when `x` has none. -/
def above {α : Type} (cmp : α → α → Int) (heap : List (Node α)) (x : Nat) : Nat :=
  heap.countP (fun nd =>
    match nd.item, itemOf heap x with
    | some w, .ok v => decide (cmp v w = -1)
    | some _, .error _ => true
    | none, _ => false)

/-- Every entry of `knots` on a level from `lo` up is a node before `item`
whose link on that level is nil or leads to a node greater than `item`. -/
def KnotsOK {α : Type} (cmp : α → α → Int) (item : α) (heap : List (Node α)) (lo : Nat)
    (knots : Nat → Option Nat) : Prop :=
  ∀ j kn, lo ≤ j → knots j = some kn → Before cmp item heap kn ∧
    ∃ q, nextOf heap kn j = .ok q ∧ ∀ y, q = some y → ∃ w, itemOf heap y = .ok w ∧ cmp w item = 1

/-- During the descent of `InsertV2` the heap `h` agrees with the heap `base`
of its start on the forward links of the levels up to `i` and on items, `prev`
links, slice lengths and size. -/
def SameBelow {α : Type} (base h : List (Node α)) (i : Nat) : Prop :=
  (∀ j, j ≤ i → ∀ b, nextOf h b j = nextOf base b j) ∧ (∀ b, itemOf h b = itemOf base b) ∧
    (∀ b, prevOf h b = prevOf base b) ∧ (∀ b, nextLen h b = nextLen base b) ∧
    h.length = base.length

/-- The structural part of the representation invariant: `InvL` without the
order of the items. -/
structure InvS {α : Type} (l : SkipList α) (L : List (Tower α)) : Prop where
  shape : Shape l.heap l.header L
  len : l.len = L.length
  size : L.length < l.heap.length
  lvl_le : ∀ t ∈ L, t.height ≤ l.level
  lvl_top : l.level = 0 ∨ ∃ t ∈ L, t.height = l.level
  lvl_lt : l.level < maxLevel

/-- The tower list `A` is empty or ends with a tower of height at least `k`. -/
def Ends {α : Type} (k : Nat) (A : List (Tower α)) : Prop :=
  A = [] ∨ ∃ A1 t, A = A1 ++ [t] ∧ k ≤ t.height

/-- The inner loop moves past the tower `t`: the comparator returns neither 0
nor 1 on its item. -/
def Passes {α : Type} (cmp : α → α → Int) (item : α) (t : Tower α) : Prop :=
  cmp t.item item ≠ 0 ∧ cmp t.item item ≠ 1

/-- The inner loop stops in front of the tower `t`: the comparator returns 0
or 1 on its item. -/
def Stops {α : Type} (cmp : α → α → Int) (item : α) (t : Tower α) : Prop :=
  cmp t.item item = 0 ∨ cmp t.item item = 1

/-- One call of the public interface: `Insert` with its coin outcomes,
`Delete`, `Exists` or `Len`. -/
inductive Op (α : Type) where
  | insert (coins : Coins) (item : α)
  | delete (item : α)
  | exist (item : α)
  | len

/-- The state after one call (the result of the call is dropped). -/
def runOp {α : Type} (cmp : α → α → Int) : Op α → SkipList α → Except Fault (SkipList α)
  | .insert coins item, l => do
    let (_, l1) ← Insert cmp coins item l
    pure l1
  | .delete item, l => do
    let (_, l1) ← Delete cmp item l
    pure l1
  | .exist item, l => do
    let (_, l1) ← Exists cmp item l
    pure l1
  | .len, l =>
    let _ := Len l
    pure l

/-- The state after a sequence of calls, or the first fault. -/
def runOps {α : Type} (cmp : α → α → Int) : List (Op α) → SkipList α → Except Fault (SkipList α)
  | [], l => pure l
  | op :: rest, l => do
    let l1 ← runOp cmp op l
    runOps cmp rest l1

/-- A comparator that is no order: it returns values from -2 to 2, is not
antisymmetric, and returns -2, not 0, on two equal integers. -/
def cycleCmp (a b : Int) : Int := (a * 7 + b * 3) % 5 - 2

/-- A run of calls used with `cycleCmp`. -/
def cycleOps : List (Op Int) :=
  [.insert (heads 2) 3, .insert (heads 1) 1, .insert (heads 0) 4, .delete 2, .exist 0, .len]

/-- The states reachable from `NewList` by `Insert` and `Delete` calls that
return and by `InsertV2` calls that return true. -/
inductive ReachableFresh {α : Type} (cmp : α → α → Int) : SkipList α → Prop where
  | new : ReachableFresh cmp NewList
  | insert {l l1 : SkipList α} (coins : Coins) (item : α) (b : Bool) :
      ReachableFresh cmp l → Insert cmp coins item l = .ok (b, l1) → ReachableFresh cmp l1
  | insertV2 {l l1 : SkipList α} (coins : Coins) (item : α) :
      ReachableFresh cmp l → InsertV2 cmp coins item l = .ok (true, l1) →
      ReachableFresh cmp l1
  | delete {l l1 : SkipList α} (item : α) (b : Bool) :
      ReachableFresh cmp l → Delete cmp item l = .ok (b, l1) → ReachableFresh cmp l1

/-- The state a call leaves (`NewList` if the call faults). -/
def stateOf {α : Type} (r : Except Fault (Bool × SkipList α)) : SkipList α :=
  match r with
  | .ok p => p.2
  | .error _ => NewList

/-- The list holding 5 on levels 0 and 1. -/
def c16a : SkipList Int := stateOf (Insert compareIntAsc (heads 1) 5 NewList)

/-- The list `c16a` after `InsertV2(5)` with two heads: the call returns false
and leaves a second node with item 5 on level 2. -/
def c16b : SkipList Int := stateOf (InsertV2 compareIntAsc (heads 2) 5 c16a)

/-- The list `c16b` after `Insert(7)` with two heads. -/
def c16c : SkipList Int := stateOf (Insert compareIntAsc (heads 2) 7 c16b)

/-- The list `c16c` after `Delete(5)`: `level` is 0 and the header still has a
link on level 2. -/
def c16d : SkipList Int := stateOf (Delete compareIntAsc 5 c16c)

/-- The list `c16d` after `InsertV2(8)` with one head: `level` is 1. -/
def c16State : SkipList Int := stateOf (InsertV2 compareIntAsc (heads 1) 8 c16d)

/-- The list built by `InsertV2` of 3, 1 and 4 and `Insert` of 2. -/
def freshList : SkipList Int :=
  stateOf (Insert compareIntAsc (heads 0) 2
    (stateOf (InsertV2 compareIntAsc (heads 0) 4
      (stateOf (InsertV2 compareIntAsc (heads 2) 1
        (stateOf (InsertV2 compareIntAsc (heads 1) 3 NewList)))))))

/-- The list 1, 3 after `InsertV2(1)` with two heads was rejected as a
duplicate: a second node with item 1 is linked on levels 2 and 1, and its link
on level 0 is nil. -/
def ghostList : SkipList Int :=
  stateOf (InsertV2 compareIntAsc (heads 2) 1
    (stateOf (Insert compareIntAsc (heads 0) 1
      (stateOf (InsertV2 compareIntAsc (heads 2) 3 NewList)))))

/-! ## The monad of results -/

@[simp] theorem bind_ok {ε α β : Type} (a : α) (f : α → Except ε β) :
    (Except.ok a >>= f) = f a := rfl

@[simp] theorem bind_error {ε α β : Type} (e : ε) (f : α → Except ε β) :
    (Except.error e >>= f) = Except.error e := rfl

@[simp] theorem pure_eq_ok {ε α : Type} (a : α) : (pure a : Except ε α) = Except.ok a := rfl

/-! ## Reads after writes -/

theorem nextOf_eq_ok {α : Type} {heap : List (Node α)} {x i : Nat} {p : Option Nat} :
    nextOf heap x i = .ok p ↔ ∃ n, heap[x]? = some n ∧ n.next[i]? = some p := by
  unfold nextOf
  cases h : heap[x]? with
  | none => simp
  | some n =>
    cases h2 : n.next[i]? with
    | none => simp [h2]
    | some q => simp [h2]

theorem nextOf_lt {α : Type} {heap : List (Node α)} {x i : Nat} {p : Option Nat}
    (h : nextOf heap x i = .ok p) : x < heap.length := by
  obtain ⟨n, hn, _⟩ := nextOf_eq_ok.mp h
  exact (List.getElem?_eq_some.mp hn).1

theorem itemOf_lt {α : Type} {heap : List (Node α)} {x : Nat} {v : α}
    (h : itemOf heap x = .ok v) : x < heap.length := by
  unfold itemOf at h
  cases hx : heap[x]? with
  | none => simp [hx] at h
  | some n => exact (List.getElem?_eq_some.mp hx).1

theorem nextOf_setNext {α : Type} {heap heap1 : List (Node α)} {x i : Nat} {p : Option Nat}
    (h : setNext heap x i p = .ok heap1) (b j : Nat) :
    nextOf heap1 b j = if b = x ∧ j = i then .ok p else nextOf heap b j := by
  unfold setNext at h
  cases hx : heap[x]? with
  | none => simp [hx] at h
  | some n =>
    simp only [hx] at h
    split at h
    · rename_i hi
      injection h with h
      subst h
      have hxl : x < heap.length := (List.getElem?_eq_some.mp hx).1
      unfold nextOf
      by_cases hb : b = x
      · subst hb
        rw [List.getElem?_set_self hxl, hx]
        by_cases hj : j = i
        · subst hj
          simp [List.getElem?_set_self hi]
        · have hji : i ≠ j := fun e => hj e.symm
          simp [hj, List.getElem?_set_ne hji]
      · have hxb : x ≠ b := fun e => hb e.symm
        simp [hb, List.getElem?_set_ne hxb]
    · simp at h

theorem itemOf_setNext {α : Type} {heap heap1 : List (Node α)} {x i : Nat} {p : Option Nat}
    (h : setNext heap x i p = .ok heap1) (b : Nat) : itemOf heap1 b = itemOf heap b := by
  unfold setNext at h
  cases hx : heap[x]? with
  | none => simp [hx] at h
  | some n =>
    simp only [hx] at h
    split at h
    · injection h with h
      subst h
      have hxl : x < heap.length := (List.getElem?_eq_some.mp hx).1
      unfold itemOf
      by_cases hb : b = x
      · subst hb
        rw [List.getElem?_set_self hxl, hx]
      · have hxb : x ≠ b := fun e => hb e.symm
        simp [List.getElem?_set_ne hxb]
    · simp at h

theorem prevOf_setNext {α : Type} {heap heap1 : List (Node α)} {x i : Nat} {p : Option Nat}
    (h : setNext heap x i p = .ok heap1) (b : Nat) : prevOf heap1 b = prevOf heap b := by
  unfold setNext at h
  cases hx : heap[x]? with
  | none => simp [hx] at h
  | some n =>
    simp only [hx] at h
    split at h
    · injection h with h
      subst h
      have hxl : x < heap.length := (List.getElem?_eq_some.mp hx).1
      unfold prevOf
      by_cases hb : b = x
      · subst hb
        rw [List.getElem?_set_self hxl, hx]
      · have hxb : x ≠ b := fun e => hb e.symm
        simp [List.getElem?_set_ne hxb]
    · simp at h

theorem nextLen_setNext {α : Type} {heap heap1 : List (Node α)} {x i : Nat} {p : Option Nat}
    (h : setNext heap x i p = .ok heap1) (b : Nat) : nextLen heap1 b = nextLen heap b := by
  unfold setNext at h
  cases hx : heap[x]? with
  | none => simp [hx] at h
  | some n =>
    simp only [hx] at h
    split at h
    · injection h with h
      subst h
      have hxl : x < heap.length := (List.getElem?_eq_some.mp hx).1
      unfold nextLen
      by_cases hb : b = x
      · subst hb
        rw [List.getElem?_set_self hxl, hx]
        simp
      · have hxb : x ≠ b := fun e => hb e.symm
        simp [List.getElem?_set_ne hxb]
    · simp at h

theorem length_setNext {α : Type} {heap heap1 : List (Node α)} {x i : Nat} {p : Option Nat}
    (h : setNext heap x i p = .ok heap1) : heap1.length = heap.length := by
  unfold setNext at h
  cases hx : heap[x]? with
  | none => simp [hx] at h
  | some n =>
    simp only [hx] at h
    split at h
    · injection h with h
      subst h
      simp
    · simp at h

theorem setNext_ok {α : Type} {heap : List (Node α)} {x i : Nat} {q : Option Nat}
    (h : nextOf heap x i = .ok q) (p : Option Nat) : ∃ heap1, setNext heap x i p = .ok heap1 := by
  obtain ⟨n, hn, hq⟩ := nextOf_eq_ok.mp h
  have hi : i < n.next.length := (List.getElem?_eq_some.mp hq).1
  refine ⟨heap.set x { n with next := n.next.set i p }, ?_⟩
  simp [setNext, hn, hi]

theorem nextOf_setPrev {α : Type} {heap heap1 : List (Node α)} {x : Nat} {p : Option Nat}
    (h : setPrev heap x p = .ok heap1) (b j : Nat) : nextOf heap1 b j = nextOf heap b j := by
  unfold setPrev at h
  cases hx : heap[x]? with
  | none => simp [hx] at h
  | some n =>
    simp only [hx] at h
    injection h with h
    subst h
    have hxl : x < heap.length := (List.getElem?_eq_some.mp hx).1
    unfold nextOf
    by_cases hb : b = x
    · subst hb
      rw [List.getElem?_set_self hxl, hx]
    · have hxb : x ≠ b := fun e => hb e.symm
      simp [List.getElem?_set_ne hxb]

theorem itemOf_setPrev {α : Type} {heap heap1 : List (Node α)} {x : Nat} {p : Option Nat}
    (h : setPrev heap x p = .ok heap1) (b : Nat) : itemOf heap1 b = itemOf heap b := by
  unfold setPrev at h
  cases hx : heap[x]? with
  | none => simp [hx] at h
  | some n =>
    simp only [hx] at h
    injection h with h
    subst h
    have hxl : x < heap.length := (List.getElem?_eq_some.mp hx).1
    unfold itemOf
    by_cases hb : b = x
    · subst hb
      rw [List.getElem?_set_self hxl, hx]
    · have hxb : x ≠ b := fun e => hb e.symm
      simp [List.getElem?_set_ne hxb]

theorem nextLen_setPrev {α : Type} {heap heap1 : List (Node α)} {x : Nat} {p : Option Nat}
    (h : setPrev heap x p = .ok heap1) (b : Nat) : nextLen heap1 b = nextLen heap b := by
  unfold setPrev at h
  cases hx : heap[x]? with
  | none => simp [hx] at h
  | some n =>
    simp only [hx] at h
    injection h with h
    subst h
    have hxl : x < heap.length := (List.getElem?_eq_some.mp hx).1
    unfold nextLen
    by_cases hb : b = x
    · subst hb
      rw [List.getElem?_set_self hxl, hx]
      simp
    · have hxb : x ≠ b := fun e => hb e.symm
      simp [List.getElem?_set_ne hxb]

theorem prevOf_setPrev {α : Type} {heap heap1 : List (Node α)} {x : Nat} {p : Option Nat}
    (h : setPrev heap x p = .ok heap1) (b : Nat) :
    prevOf heap1 b = if b = x then .ok p else prevOf heap b := by
  unfold setPrev at h
  cases hx : heap[x]? with
  | none => simp [hx] at h
  | some n =>
    simp only [hx] at h
    injection h with h
    subst h
    have hxl : x < heap.length := (List.getElem?_eq_some.mp hx).1
    unfold prevOf
    by_cases hb : b = x
    · subst hb
      rw [List.getElem?_set_self hxl]
      simp
    · have hxb : x ≠ b := fun e => hb e.symm
      simp [hb, List.getElem?_set_ne hxb]

theorem length_setPrev {α : Type} {heap heap1 : List (Node α)} {x : Nat} {p : Option Nat}
    (h : setPrev heap x p = .ok heap1) : heap1.length = heap.length := by
  unfold setPrev at h
  cases hx : heap[x]? with
  | none => simp [hx] at h
  | some n =>
    simp only [hx] at h
    injection h with h
    subst h
    simp

theorem setPrev_ok {α : Type} {heap : List (Node α)} {x : Nat} (h : x < heap.length)
    (p : Option Nat) : ∃ heap1, setPrev heap x p = .ok heap1 := by
  have hx : heap[x]? = some heap[x] := List.getElem?_eq_getElem h
  refine ⟨heap.set x { heap[x] with prev := p }, ?_⟩
  simp [setPrev, hx]

theorem nextOf_alloc {α : Type} (heap : List (Node α)) (n : Node α) {b : Nat}
    (hb : b ≠ heap.length) (j : Nat) : nextOf (heap ++ [n]) b j = nextOf heap b j := by
  unfold nextOf
  rcases Nat.lt_or_gt_of_ne hb with h | h
  · rw [List.getElem?_append_left h]
  · have h1 : heap[b]? = none := List.getElem?_eq_none (Nat.le_of_lt h)
    have h2 : (heap ++ [n])[b]? = none := List.getElem?_eq_none (by simp; omega)
    rw [h1, h2]

theorem itemOf_alloc {α : Type} (heap : List (Node α)) (n : Node α) {b : Nat}
    (hb : b ≠ heap.length) : itemOf (heap ++ [n]) b = itemOf heap b := by
  unfold itemOf
  rcases Nat.lt_or_gt_of_ne hb with h | h
  · rw [List.getElem?_append_left h]
  · have h1 : heap[b]? = none := List.getElem?_eq_none (Nat.le_of_lt h)
    have h2 : (heap ++ [n])[b]? = none := List.getElem?_eq_none (by simp; omega)
    rw [h1, h2]

theorem prevOf_alloc {α : Type} (heap : List (Node α)) (n : Node α) {b : Nat}
    (hb : b ≠ heap.length) : prevOf (heap ++ [n]) b = prevOf heap b := by
  unfold prevOf
  rcases Nat.lt_or_gt_of_ne hb with h | h
  · rw [List.getElem?_append_left h]
  · have h1 : heap[b]? = none := List.getElem?_eq_none (Nat.le_of_lt h)
    have h2 : (heap ++ [n])[b]? = none := List.getElem?_eq_none (by simp; omega)
    rw [h1, h2]

theorem nextLen_alloc {α : Type} (heap : List (Node α)) (n : Node α) {b : Nat}
    (hb : b ≠ heap.length) : nextLen (heap ++ [n]) b = nextLen heap b := by
  unfold nextLen
  rcases Nat.lt_or_gt_of_ne hb with h | h
  · rw [List.getElem?_append_left h]
  · have h1 : heap[b]? = none := List.getElem?_eq_none (Nat.le_of_lt h)
    have h2 : (heap ++ [n])[b]? = none := List.getElem?_eq_none (by simp; omega)
    rw [h1, h2]

theorem nextOf_alloc_new {α : Type} (heap : List (Node α)) (v : Option α) (m : Nat)
    (q : Option Nat) {j : Nat} (hj : j < m) :
    nextOf (heap ++ [{ item := v, next := List.replicate m none, prev := q }]) heap.length j
      = .ok none := by
  unfold nextOf
  rw [List.getElem?_concat_length]
  simp [List.getElem?_replicate, hj]

theorem itemOf_alloc_new {α : Type} (heap : List (Node α)) (v : α) (nx : List (Option Nat))
    (q : Option Nat) :
    itemOf (heap ++ [{ item := some v, next := nx, prev := q }]) heap.length = .ok v := by
  unfold itemOf
  rw [List.getElem?_concat_length]

/-! ## Chains of towers -/

theorem lastAddr_append {α : Type} (a : Nat) (ys zs : List (Tower α)) :
    lastAddr a (ys ++ zs) = lastAddr (lastAddr a ys) zs := by
  induction ys generalizing a with
  | nil => rfl
  | cons y ys ih => simp [lastAddr, ih]

theorem lastAddr_mem {α : Type} (a : Nat) (ts : List (Tower α)) :
    lastAddr a ts ∈ a :: ts.map Tower.addr := by
  induction ts generalizing a with
  | nil => simp [lastAddr]
  | cons t ts ih =>
    have h := ih t.addr
    simp only [lastAddr, List.map_cons]
    exact List.mem_cons_of_mem _ h

theorem seg_append {α : Type} {heap : List (Node α)} {i : Nat} (a : Nat)
    (ys zs : List (Tower α)) :
    Seg heap i a (ys ++ zs) ↔ Seg heap i a ys ∧ Seg heap i (lastAddr a ys) zs := by
  induction ys generalizing a with
  | nil => simp [Seg, lastAddr]
  | cons y ys ih => simp [Seg, lastAddr, ih, and_assoc]

theorem chain_append {α : Type} {heap : List (Node α)} {i : Nat} (a : Nat)
    (ys zs : List (Tower α)) :
    Chain heap i a (ys ++ zs) ↔ Seg heap i a ys ∧ Chain heap i (lastAddr a ys) zs := by
  unfold Chain
  rw [seg_append, lastAddr_append, and_assoc]

theorem seg_frame {α : Type} {heap heap1 : List (Node α)} {i : Nat} {a : Nat}
    {ts : List (Tower α)}
    (hn : ∀ b ∈ a :: ts.map Tower.addr, nextOf heap1 b i = nextOf heap b i)
    (hi : ∀ b ∈ ts.map Tower.addr, itemOf heap1 b = itemOf heap b)
    (h : Seg heap i a ts) : Seg heap1 i a ts := by
  induction ts generalizing a with
  | nil => trivial
  | cons t ts ih =>
    obtain ⟨h1, h2, h3⟩ := h
    refine ⟨?_, ?_, ih ?_ ?_ h3⟩
    · rw [hn a (List.mem_cons_self _ _)]; exact h1
    · rw [hi t.addr (by simp)]; exact h2
    · intro b hb
      exact hn b (List.mem_cons_of_mem _ (by simpa using hb))
    · intro b hb
      exact hi b (by simp only [List.map_cons]; exact List.mem_cons_of_mem _ hb)

theorem chain_frame {α : Type} {heap heap1 : List (Node α)} {i : Nat} {a : Nat}
    {ts : List (Tower α)}
    (hn : ∀ b ∈ a :: ts.map Tower.addr, nextOf heap1 b i = nextOf heap b i)
    (hi : ∀ b ∈ ts.map Tower.addr, itemOf heap1 b = itemOf heap b)
    (h : Chain heap i a ts) : Chain heap1 i a ts := by
  refine ⟨seg_frame hn hi h.1, ?_⟩
  rw [hn _ (lastAddr_mem a ts)]
  exact h.2

theorem seg_frame_init {α : Type} {heap heap1 : List (Node α)} {i : Nat} {a : Nat}
    {ts : List (Tower α)} (nd : (a :: ts.map Tower.addr).Nodup)
    (hn : ∀ b ∈ a :: ts.map Tower.addr, b ≠ lastAddr a ts → nextOf heap1 b i = nextOf heap b i)
    (hi : ∀ b ∈ ts.map Tower.addr, itemOf heap1 b = itemOf heap b)
    (h : Seg heap i a ts) : Seg heap1 i a ts := by
  induction ts generalizing a with
  | nil => trivial
  | cons t ts ih =>
    obtain ⟨h1, h2, h3⟩ := h
    have hnd := List.nodup_cons.mp nd
    have hla : a ≠ lastAddr a (t :: ts) := by
      intro e
      apply hnd.1
      have hm := lastAddr_mem t.addr ts
      simp only [lastAddr] at e
      rw [← e] at hm
      simpa using hm
    refine ⟨?_, ?_, ih hnd.2 ?_ ?_ h3⟩
    · rw [hn a (List.mem_cons_self _ _) hla]; exact h1
    · rw [hi t.addr (by simp)]; exact h2
    · intro b hb hne
      exact hn b (List.mem_cons_of_mem _ (by simpa using hb)) hne
    · intro b hb
      exact hi b (by simp only [List.map_cons]; exact List.mem_cons_of_mem _ hb)

/-- A chain that hangs off node `a` hangs off node `b` in another heap when
`b` has there the forward pointer of `a` and the nodes of the chain agree. -/
theorem chain_rebase {α : Type} {heap heap1 : List (Node α)} {i : Nat} {a b : Nat}
    {ts : List (Tower α)}
    (hb : nextOf heap1 b i = nextOf heap a i)
    (hn : ∀ c ∈ ts.map Tower.addr, nextOf heap1 c i = nextOf heap c i)
    (hi : ∀ c ∈ ts.map Tower.addr, itemOf heap1 c = itemOf heap c)
    (h : Chain heap i a ts) : Chain heap1 i b ts := by
  cases ts with
  | nil =>
    refine ⟨trivial, ?_⟩
    have h2 := h.2
    simp only [lastAddr] at h2 ⊢
    rw [hb]; exact h2
  | cons t ts =>
    obtain ⟨⟨h1, h2, h3⟩, h4⟩ := h
    refine ⟨⟨?_, ?_, seg_frame (fun c hc => hn c (by simpa using hc))
      (fun c hc => hi c (by simp only [List.map_cons]; exact List.mem_cons_of_mem _ hc)) h3⟩, ?_⟩
    · rw [hb]; exact h1
    · rw [hi t.addr (by simp)]; exact h2
    · simp only [lastAddr] at h4 ⊢
      rw [hn _ (lastAddr_mem t.addr ts)]
      exact h4

theorem nodup_append_addr {α : Type} {a : Nat} {ys zs : List (Tower α)}
    (nd : (a :: (ys ++ zs).map Tower.addr).Nodup) :
    (a :: ys.map Tower.addr).Nodup ∧ ∀ c ∈ zs.map Tower.addr, c ∉ a :: ys.map Tower.addr := by
  rw [List.map_append, ← List.cons_append] at nd
  have h := List.nodup_append.mp nd
  refine ⟨h.1, fun c hc hm => ?_⟩
  exact h.2.2 hm hc

theorem chain_insert {α : Type} {heap heap1 : List (Node α)} {i a new : Nat}
    {ys zs : List (Tower α)} (v : α) (ht : Nat)
    (hc : Chain heap i a (ys ++ zs))
    (nd : (a :: (ys ++ zs).map Tower.addr).Nodup)
    (hnew : new ∉ a :: (ys ++ zs).map Tower.addr)
    (hn : ∀ b, b ≠ lastAddr a ys → b ≠ new → nextOf heap1 b i = nextOf heap b i)
    (hit : ∀ b, b ≠ new → itemOf heap1 b = itemOf heap b)
    (hx : nextOf heap1 (lastAddr a ys) i = .ok (some new))
    (hnn : nextOf heap1 new i = nextOf heap (lastAddr a ys) i)
    (hni : itemOf heap1 new = .ok v) :
    Chain heap1 i a (ys ++ ⟨new, v, ht⟩ :: zs) := by
  rw [chain_append] at hc ⊢
  obtain ⟨hs, hz⟩ := hc
  obtain ⟨nd1, nd2⟩ := nodup_append_addr nd
  have hnew1 : ∀ c, c ∈ a :: (ys ++ zs).map Tower.addr → c ≠ new := by
    intro c hc e
    exact hnew (e ▸ hc)
  constructor
  · apply seg_frame_init nd1 _ _ hs
    · intro b hb hne
      exact hn b hne (hnew1 b (by
        rcases List.mem_cons.mp hb with h | h
        · simp [h]
        · simp only [List.map_append, List.mem_cons, List.mem_append]; right; left; exact h))
    · intro b hb
      exact hit b (hnew1 b (by
        simp only [List.map_append, List.mem_cons, List.mem_append]; right; left; exact hb))
  · have hz2 : Chain heap1 i new zs := by
      apply chain_rebase hnn _ _ hz
      · intro c hc
        apply hn c
        · intro e
          exact nd2 c hc (e ▸ lastAddr_mem a ys)
        · exact hnew1 c (by
            simp only [List.map_append, List.mem_cons, List.mem_append]; right; right; exact hc)
      · intro c hc
        exact hit c (hnew1 c (by
          simp only [List.map_append, List.mem_cons, List.mem_append]; right; right; exact hc))
    exact ⟨⟨hx, hni, hz2.1⟩, hz2.2⟩

theorem chain_delete {α : Type} {heap heap1 : List (Node α)} {i a : Nat}
    {ys zs : List (Tower α)} {t : Tower α}
    (hc : Chain heap i a (ys ++ t :: zs))
    (nd : (a :: (ys ++ t :: zs).map Tower.addr).Nodup)
    (hn : ∀ b, b ≠ lastAddr a ys → nextOf heap1 b i = nextOf heap b i)
    (hit : ∀ b, itemOf heap1 b = itemOf heap b)
    (hx : nextOf heap1 (lastAddr a ys) i = nextOf heap t.addr i) :
    Chain heap1 i a (ys ++ zs) := by
  rw [chain_append] at hc ⊢
  obtain ⟨hs, hz⟩ := hc
  obtain ⟨nd1, nd2⟩ := nodup_append_addr nd
  constructor
  · apply seg_frame_init nd1 _ _ hs
    · intro b _ hne
      exact hn b hne
    · intro b _
      exact hit b
  · have hz1 : Chain heap i t.addr zs := ⟨hz.1.2.2, hz.2⟩
    apply chain_rebase hx _ _ hz1
    · intro c hc
      apply hn c
      intro e
      exact nd2 c (by simp only [List.map_cons]; exact List.mem_cons_of_mem _ hc)
        (e ▸ lastAddr_mem a ys)
    · intro c _
      exact hit c

theorem prev_append {α : Type} {heap : List (Node α)} (a : Nat) (ys zs : List (Tower α)) :
    PrevOK heap a (ys ++ zs) ↔ PrevOK heap a ys ∧ PrevOK heap (lastAddr a ys) zs := by
  induction ys generalizing a with
  | nil => simp [PrevOK, lastAddr]
  | cons y ys ih => simp [PrevOK, lastAddr, ih, and_assoc]

theorem prev_frame {α : Type} {heap heap1 : List (Node α)} {a : Nat} {ts : List (Tower α)}
    (hp : ∀ b ∈ ts.map Tower.addr, prevOf heap1 b = prevOf heap b)
    (h : PrevOK heap a ts) : PrevOK heap1 a ts := by
  induction ts generalizing a with
  | nil => trivial
  | cons t ts ih =>
    obtain ⟨h1, h2⟩ := h
    refine ⟨?_, ih ?_ h2⟩
    · rw [hp t.addr (by simp)]; exact h1
    · intro b hb
      exact hp b (by simp only [List.map_cons]; exact List.mem_cons_of_mem _ hb)

/-- Backward links of `zs` after its predecessor changed from `a` to `b`. -/
theorem prev_rebase {α : Type} {heap heap1 : List (Node α)} {a b : Nat} {zs : List (Tower α)}
    (hh : ∀ z ∈ zs.head?, prevOf heap1 z.addr = .ok (some b))
    (hp : ∀ c ∈ zs.tail.map Tower.addr, prevOf heap1 c = prevOf heap c)
    (h : PrevOK heap a zs) : PrevOK heap1 b zs := by
  cases zs with
  | nil => trivial
  | cons z zs =>
    exact ⟨hh z (by simp), prev_frame (by simpa using hp) h.2⟩

/-! ## The inner loop on a chain -/

theorem walk_chain {α : Type} (cmp : α → α → Int) (item : α) {heap : List (Node α)} {i : Nat}
    (ys zs : List (Tower α)) (a fuel : Nat)
    (hc : Chain heap i a (ys ++ zs))
    (hlt : ∀ y ∈ ys, cmp y.item item = -1)
    (hge : ∀ z ∈ zs.head?, cmp z.item item = 0 ∨ cmp z.item item = 1)
    (hf : ys.length < fuel) :
    walk cmp item heap i fuel a = .ok (lastAddr a ys, stopOf cmp item zs) := by
  induction ys generalizing a fuel with
  | nil =>
    obtain ⟨f, rfl⟩ : ∃ f, fuel = f + 1 := ⟨fuel - 1, by simp at hf; omega⟩
    cases zs with
    | nil =>
      have h := hc.2
      simp only [List.append_nil, lastAddr] at h
      simp [walk, h, lastAddr, stopOf]
    | cons z zs =>
      obtain ⟨⟨h1, h2, _⟩, _⟩ := hc
      rcases hge z (by simp) with h0 | h0
      · simp [walk, h1, h2, h0, lastAddr, stopOf]
      · simp [walk, h1, h2, h0, lastAddr, stopOf]
  | cons y ys ih =>
    obtain ⟨f, rfl⟩ : ∃ f, fuel = f + 1 := ⟨fuel - 1, by simp at hf; omega⟩
    have hc1 : Chain heap i y.addr (ys ++ zs) := ⟨hc.1.2.2, hc.2⟩
    have hy := hlt y (by simp)
    have h := ih y.addr f hc1 (fun t ht => hlt t (List.mem_cons_of_mem _ ht))
      (by simp at hf; omega)
    simp [walk, hc.1.1, hc.1.2.1, hy, lastAddr, h]

/-! ## Levels of a tower list -/

theorem atLevel_append {α : Type} (i : Nat) (A B : List (Tower α)) :
    atLevel i (A ++ B) = atLevel i A ++ atLevel i B := by
  simp [atLevel]

theorem atLevel_cons_le {α : Type} {i : Nat} {t : Tower α} (h : i ≤ t.height)
    (B : List (Tower α)) : atLevel i (t :: B) = t :: atLevel i B := by
  simp [atLevel, h]

theorem atLevel_cons_gt {α : Type} {i : Nat} {t : Tower α} (h : t.height < i)
    (B : List (Tower α)) : atLevel i (t :: B) = atLevel i B := by
  simp [atLevel, Nat.not_le.mpr h]

theorem atLevel_zero {α : Type} (L : List (Tower α)) : atLevel 0 L = L := by
  simp [atLevel]

theorem atLevel_eq_nil {α : Type} {i : Nat} {L : List (Tower α)}
    (h : ∀ t ∈ L, t.height < i) : atLevel i L = [] := by
  simp only [atLevel, List.filter_eq_nil_iff, decide_eq_true_eq]
  intro t ht
  exact Nat.not_le.mpr (h t ht)

theorem atLevel_sublist {α : Type} (i : Nat) (L : List (Tower α)) :
    (atLevel i L).Sublist L := List.filter_sublist L

theorem atLevel_succ {α : Type} (i : Nat) (L : List (Tower α)) :
    atLevel (i + 1) L = (atLevel i L).filter (fun t => decide (i + 1 ≤ t.height)) := by
  simp only [atLevel, List.filter_filter]
  congr 1
  funext t
  by_cases h : i + 1 ≤ t.height
  · have h2 : i ≤ t.height := by omega
    simp [h, h2]
  · simp [h]

theorem mem_atLevel {α : Type} {i : Nat} {L : List (Tower α)} {t : Tower α}
    (h : t ∈ atLevel i L) : t ∈ L := (atLevel_sublist i L).subset h

theorem nodup_atLevel {α : Type} {hdr : Nat} {L : List (Tower α)} (i : Nat)
    (h : (hdr :: L.map Tower.addr).Nodup) : (hdr :: (atLevel i L).map Tower.addr).Nodup :=
  h.sublist (((atLevel_sublist i L).map Tower.addr).cons₂ hdr)

theorem not_mem_atLevel {α : Type} {c hdr : Nat} {L : List (Tower α)} (i : Nat)
    (h : c ∉ hdr :: L.map Tower.addr) : c ∉ hdr :: (atLevel i L).map Tower.addr :=
  fun hm => h ((((atLevel_sublist i L).map Tower.addr).cons₂ hdr).subset hm)

theorem nodup_remove_mid {α : Type} {hdr : Nat} {A B : List (Tower α)} {t : Tower α}
    (h : (hdr :: (A ++ t :: B).map Tower.addr).Nodup) :
    (hdr :: (A ++ B).map Tower.addr).Nodup ∧ t.addr ∉ hdr :: (A ++ B).map Tower.addr := by
  have hs : (hdr :: (A ++ B).map Tower.addr).Nodup := by
    apply h.sublist
    apply List.Sublist.cons₂
    apply List.Sublist.map
    exact List.Sublist.append (List.Sublist.refl A) (List.sublist_cons_self t B)
  refine ⟨hs, ?_⟩
  have h1 := List.nodup_cons.mp h
  have h2 : (A.map Tower.addr ++ t.addr :: B.map Tower.addr).Nodup := by
    simpa using h1.2
  have h3 := List.nodup_middle.mp h2
  have h4 := (List.nodup_cons.mp h3).1
  intro hm
  rcases List.mem_cons.mp hm with e | hm
  · apply h1.1
    rw [← e]
    simp
  · apply h4
    simpa using hm

/-- The chain of level `i` seen from the last tower of `A` that satisfies `q`
(from `a` when there is none): it runs through the rest of `A`, then `B`. -/
theorem chain_from_sub {α : Type} {heap : List (Node α)} {i : Nat} (q : Tower α → Bool)
    (A B : List (Tower α)) (a : Nat) (hc : Chain heap i a (A ++ B)) :
    ∃ rest, Chain heap i (lastAddr a (A.filter q)) (rest ++ B) ∧
      (∀ y ∈ rest, y ∈ A) ∧ rest.length ≤ A.length ∧
      lastAddr (lastAddr a (A.filter q)) rest = lastAddr a A := by
  induction A generalizing a with
  | nil => exact ⟨[], by simpa [lastAddr] using hc, by simp, by simp, by simp [lastAddr]⟩
  | cons t A ih =>
    have hc1 : Chain heap i t.addr (A ++ B) := ⟨hc.1.2.2, hc.2⟩
    obtain ⟨rest, h1, h2, h3, h4⟩ := ih t.addr hc1
    by_cases hq : q t = true
    · refine ⟨rest, ?_, ?_, ?_, ?_⟩
      · simpa [List.filter_cons, hq, lastAddr] using h1
      · intro y hy
        exact List.mem_cons_of_mem _ (h2 y hy)
      · simp only [List.length_cons]; omega
      · simpa [List.filter_cons, hq, lastAddr] using h4
    · cases hF : A.filter q with
      | nil =>
        refine ⟨t :: A, ?_, ?_, ?_, ?_⟩
        · simpa [List.filter_cons, hq, hF, lastAddr] using hc
        · intro y hy; exact hy
        · exact Nat.le_refl _
        · simp [List.filter_cons, hq, hF, lastAddr]
      | cons f F =>
        rw [hF] at h1 h4
        refine ⟨rest, ?_, ?_, ?_, ?_⟩
        · simpa [List.filter_cons, hq, hF, lastAddr] using h1
        · intro y hy
          exact List.mem_cons_of_mem _ (h2 y hy)
        · simp only [List.length_cons]; omega
        · simpa [List.filter_cons, hq, hF, lastAddr] using h4

/-- The inner loop at level `i`, entered at the node where level `i + 1` ended:
it stops at the last tower of level `i` that is less than the item. -/
theorem level_step {α : Type} (cmp : α → α → Int) (item : α) {heap : List (Node α)}
    {hdr i fuel : Nat} {A B : List (Tower α)}
    (hc : Chain heap i hdr (atLevel i (A ++ B)))
    (hlt : ∀ t ∈ A, cmp t.item item = -1)
    (hge : ∀ t ∈ B, cmp t.item item = 0 ∨ cmp t.item item = 1)
    (hf : A.length < fuel) :
    walk cmp item heap i fuel (lastAddr hdr (atLevel (i + 1) A))
      = .ok (lastAddr hdr (atLevel i A), stopOf cmp item (atLevel i B)) := by
  rw [atLevel_append] at hc
  obtain ⟨rest, h1, h2, h3, h4⟩ :=
    chain_from_sub (fun t => decide (i + 1 ≤ t.height)) (atLevel i A) (atLevel i B) hdr hc
  rw [← atLevel_succ] at h1 h4
  have hlen : (atLevel i A).length ≤ A.length := (atLevel_sublist i A).length_le
  have hw := walk_chain cmp item rest (atLevel i B) _ fuel h1
    (fun y hy => hlt y (mem_atLevel (h2 y hy)))
    (fun z hz => hge z (mem_atLevel (List.mem_of_mem_head? hz)))
    (by omega)
  rw [hw, h4]

/-! ## The order -/

theorem cmp_after {α : Type} {cmp : α → α → Int} (hc : IsTotalOrder cmp) {t s item : α}
    (hts : cmp t s = -1) (ht : cmp t item = 0 ∨ cmp t item = 1) : cmp s item = 1 := by
  have r1 := hc.range s item
  have a1 := hc.antisymm t s
  have a2 := hc.antisymm t item
  have a3 := hc.antisymm s item
  have t1 := hc.trans t s item
  have t2 := hc.trans item t s
  have t3 := hc.trans s item t
  omega

theorem cmp_before {α : Type} {cmp : α → α → Int} (hc : IsTotalOrder cmp) {t s item : α}
    (hts : cmp t s = -1) (hs : cmp s item = -1 ∨ cmp s item = 0) : cmp t item = -1 := by
  have r1 := hc.range t item
  have a1 := hc.antisymm t s
  have a2 := hc.antisymm t item
  have a3 := hc.antisymm s item
  have t1 := hc.trans t s item
  have t2 := hc.trans item t s
  have t3 := hc.trans s item t
  omega

/-- A sorted tower list splits at an item: the towers less than it, then either
only greater ones, or one that compares equal followed by greater ones. -/
theorem split_sorted {α : Type} {cmp : α → α → Int} (hc : IsTotalOrder cmp) (item : α)
    (L : List (Tower α)) (hs : L.Pairwise (fun s t => cmp s.item t.item = -1)) :
    ∃ A B, L = A ++ B ∧ (∀ t ∈ A, cmp t.item item = -1) ∧
      ((∀ t ∈ B, cmp t.item item = 1) ∨
        ∃ T B1, B = T :: B1 ∧ cmp T.item item = 0 ∧ ∀ t ∈ B1, cmp t.item item = 1) := by
  induction L with
  | nil => exact ⟨[], [], rfl, by simp, Or.inl (by simp)⟩
  | cons t L ih =>
    obtain ⟨h1, h2⟩ := List.pairwise_cons.mp hs
    rcases hc.range t.item item with h | h | h
    · obtain ⟨A, B, e, hA, hB⟩ := ih h2
      refine ⟨t :: A, B, by simp [e], ?_, hB⟩
      intro s hs
      rcases List.mem_cons.mp hs with e | hs
      · rw [e]; exact h
      · exact hA s hs
    · refine ⟨[], t :: L, rfl, by simp, Or.inr ⟨t, L, rfl, h, ?_⟩⟩
      intro s hs
      exact cmp_after hc (h1 s hs) (Or.inl h)
    · refine ⟨[], t :: L, rfl, by simp, Or.inl ?_⟩
      intro s hs
      rcases List.mem_cons.mp hs with e | hs
      · rw [e]; exact h
      · exact cmp_after hc (h1 s hs) (Or.inr h)

theorem stopOf_ne_same {α : Type} {cmp : α → α → Int} {item : α} {zs : List (Tower α)}
    (h : ∀ t ∈ zs, cmp t.item item = 1) : stopOf cmp item zs ≠ .same := by
  cases zs with
  | nil => simp [stopOf]
  | cons z zs =>
    have hz := h z (by simp)
    simp [stopOf, hz]

theorem stopOf_same {α : Type} {cmp : α → α → Int} {item : α} {T : Tower α}
    {zs : List (Tower α)} (h : cmp T.item item = 0) : stopOf cmp item (T :: zs) = .same := by
  simp [stopOf, h]

/-! ## Linking and unlinking one level of one tower -/

theorem seg_item {α : Type} {heap : List (Node α)} {i a : Nat} {ts : List (Tower α)}
    (h : Seg heap i a ts) {t : Tower α} (ht : t ∈ ts) : itemOf heap t.addr = .ok t.item := by
  induction ts generalizing a with
  | nil => simp at ht
  | cons s ts ih =>
    rcases List.mem_cons.mp ht with e | ht
    · rw [e]; exact h.2.1
    · exact ih h.2.2 ht

theorem shape_item {α : Type} {heap : List (Node α)} {hdr : Nat} {L : List (Tower α)}
    (hs : Shape heap hdr L) {t : Tower α} (ht : t ∈ L) : itemOf heap t.addr = .ok t.item := by
  have h := hs.chains 0 (by decide)
  rw [atLevel_zero] at h
  exact seg_item h.1 ht

theorem chain_height {α : Type} {heap : List (Node α)} {i a : Nat} {ys zs : List (Tower α)}
    {n : Nat} {v : α} (h h1 : Nat) (hc : Chain heap i a (ys ++ ⟨n, v, h⟩ :: zs)) :
    Chain heap i a (ys ++ ⟨n, v, h1⟩ :: zs) := by
  rw [chain_append] at hc ⊢
  exact ⟨hc.1, ⟨hc.2.1.1, hc.2.1.2.1, hc.2.1.2.2⟩, hc.2.2⟩

theorem prev_height {α : Type} {heap : List (Node α)} {a : Nat} {ys zs : List (Tower α)}
    {n : Nat} {v : α} (h h1 : Nat) (hc : PrevOK heap a (ys ++ ⟨n, v, h⟩ :: zs)) :
    PrevOK heap a (ys ++ ⟨n, v, h1⟩ :: zs) := by
  rw [prev_append] at hc ⊢
  exact ⟨hc.1, hc.2.1, hc.2.2⟩

/-- Level `i` of a list in which the height of one tower changed between two
values that are both below `i` or both at least `i`. -/
theorem chain_relevel {α : Type} {heap : List (Node α)} {i hdr : Nat} {A B : List (Tower α)}
    {n : Nat} {v : α} (h h1 : Nat) (hh : i ≤ h ↔ i ≤ h1)
    (hc : Chain heap i hdr (atLevel i (A ++ ⟨n, v, h⟩ :: B))) :
    Chain heap i hdr (atLevel i (A ++ ⟨n, v, h1⟩ :: B)) := by
  rw [atLevel_append] at hc ⊢
  by_cases hi : i ≤ h
  · rw [atLevel_cons_le (t := ⟨n, v, h⟩) hi] at hc
    rw [atLevel_cons_le (t := ⟨n, v, h1⟩) (hh.mp hi)]
    exact chain_height h h1 hc
  · have hi1 : ¬ i ≤ h1 := fun e => hi (hh.mpr e)
    rw [atLevel_cons_gt (t := ⟨n, v, h⟩) (Nat.not_le.mp hi)] at hc
    rw [atLevel_cons_gt (t := ⟨n, v, h1⟩) (Nat.not_le.mp hi1)]
    exact hc

theorem shape_link {α : Type} {heap heap1 : List (Node α)} {hdr new k : Nat}
    {A B : List (Tower α)} {v : α}
    (hs : Shape heap hdr (A ++ ⟨new, v, k⟩ :: B))
    (hlen : heap1.length = heap.length)
    (hother : ∀ b j, j ≠ k + 1 → nextOf heap1 b j = nextOf heap b j)
    (hn : ∀ b, b ≠ lastAddr hdr (atLevel (k + 1) A) → b ≠ new →
      nextOf heap1 b (k + 1) = nextOf heap b (k + 1))
    (hx : nextOf heap1 (lastAddr hdr (atLevel (k + 1) A)) (k + 1) = .ok (some new))
    (hnn : nextOf heap1 new (k + 1) = nextOf heap (lastAddr hdr (atLevel (k + 1) A)) (k + 1))
    (hit : ∀ b, itemOf heap1 b = itemOf heap b)
    (hpr : ∀ b, prevOf heap1 b = prevOf heap b)
    (hnl : ∀ b, nextLen heap1 b = nextLen heap b) :
    Shape heap1 hdr (A ++ ⟨new, v, k + 1⟩ :: B) := by
  have hmap : (A ++ (⟨new, v, k + 1⟩ : Tower α) :: B).map Tower.addr
      = (A ++ (⟨new, v, k⟩ : Tower α) :: B).map Tower.addr := by simp
  obtain ⟨nd1, nd2⟩ := nodup_remove_mid hs.nodup
  constructor
  · rw [hmap]; exact hs.nodup
  · intro t ht
    rw [hlen]
    rcases List.mem_append.mp ht with h | h
    · exact hs.inHeap t (List.mem_append_left _ h)
    · rcases List.mem_cons.mp h with e | h
      · rw [e]
        exact hs.inHeap ⟨new, v, k⟩ (by simp)
      · exact hs.inHeap t (List.mem_append_right _ (List.mem_cons_of_mem _ h))
  · rw [hit]; exact hs.hdrItem
  · rw [hpr]; exact hs.hdrPrev
  · rw [hnl]; exact hs.hdrLen
  · intro i hi
    by_cases hik : i = k + 1
    · subst hik
      have hc := hs.chains (k + 1) hi
      rw [atLevel_append, atLevel_cons_gt (t := ⟨new, v, k⟩) (by simp)] at hc
      rw [atLevel_append, atLevel_cons_le (t := ⟨new, v, k + 1⟩) (Nat.le_refl _)]
      have hni : itemOf heap1 new = .ok v := by
        rw [hit]
        exact shape_item hs (t := ⟨new, v, k⟩) (by simp)
      refine chain_insert v (k + 1) hc ?_ ?_ hn (fun b _ => hit b) hx hnn hni
      · rw [← atLevel_append]; exact nodup_atLevel _ nd1
      · rw [← atLevel_append]; exact not_mem_atLevel _ nd2
    · apply chain_relevel k (k + 1) (by omega)
      exact chain_frame (fun b _ => hother b i hik) (fun b _ => hit b) (hs.chains i hi)
  · apply prev_height k (k + 1)
    exact prev_frame (fun b _ => hpr b) hs.prevs

theorem shape_unlink {α : Type} {heap heap1 : List (Node α)} {hdr a k : Nat}
    {A B : List (Tower α)} {v : α}
    (hs : Shape heap hdr (A ++ ⟨a, v, k + 1⟩ :: B))
    (hlen : heap1.length = heap.length)
    (hother : ∀ b j, j ≠ k + 1 → nextOf heap1 b j = nextOf heap b j)
    (hn : ∀ b, b ≠ lastAddr hdr (atLevel (k + 1) A) →
      nextOf heap1 b (k + 1) = nextOf heap b (k + 1))
    (hx : nextOf heap1 (lastAddr hdr (atLevel (k + 1) A)) (k + 1) = nextOf heap a (k + 1))
    (hit : ∀ b, itemOf heap1 b = itemOf heap b)
    (hpr : ∀ b, prevOf heap1 b = prevOf heap b)
    (hnl : ∀ b, nextLen heap1 b = nextLen heap b) :
    Shape heap1 hdr (A ++ ⟨a, v, k⟩ :: B) := by
  have hmap : (A ++ (⟨a, v, k⟩ : Tower α) :: B).map Tower.addr
      = (A ++ (⟨a, v, k + 1⟩ : Tower α) :: B).map Tower.addr := by simp
  constructor
  · rw [hmap]; exact hs.nodup
  · intro t ht
    rw [hlen]
    rcases List.mem_append.mp ht with h | h
    · exact hs.inHeap t (List.mem_append_left _ h)
    · rcases List.mem_cons.mp h with e | h
      · rw [e]
        exact hs.inHeap ⟨a, v, k + 1⟩ (by simp)
      · exact hs.inHeap t (List.mem_append_right _ (List.mem_cons_of_mem _ h))
  · rw [hit]; exact hs.hdrItem
  · rw [hpr]; exact hs.hdrPrev
  · rw [hnl]; exact hs.hdrLen
  · intro i hi
    by_cases hik : i = k + 1
    · subst hik
      have hc := hs.chains (k + 1) hi
      rw [atLevel_append, atLevel_cons_le (t := ⟨a, v, k + 1⟩) (Nat.le_refl _)] at hc
      rw [atLevel_append, atLevel_cons_gt (t := ⟨a, v, k⟩) (by simp)]
      refine chain_delete hc ?_ hn hit hx
      have hnd := nodup_atLevel (k + 1) hs.nodup
      rw [atLevel_append, atLevel_cons_le (t := ⟨a, v, k + 1⟩) (Nat.le_refl _)] at hnd
      exact hnd
    · apply chain_relevel (k + 1) k (by omega)
      exact chain_frame (fun b _ => hother b i hik) (fun b _ => hit b) (hs.chains i hi)
  · apply prev_height (k + 1) k
    exact prev_frame (fun b _ => hpr b) hs.prevs

theorem shape_link0 {α : Type} {heap heap1 : List (Node α)} {hdr new : Nat}
    {A B : List (Tower α)} {v : α}
    (hs : Shape heap hdr (A ++ B))
    (hnew : new ∉ hdr :: (A ++ B).map Tower.addr)
    (hlen : heap.length ≤ heap1.length) (hnl : new < heap1.length)
    (hother : ∀ b j, j ≠ 0 → b ≠ new → nextOf heap1 b j = nextOf heap b j)
    (hn : ∀ b, b ≠ lastAddr hdr A → b ≠ new → nextOf heap1 b 0 = nextOf heap b 0)
    (hx : nextOf heap1 (lastAddr hdr A) 0 = .ok (some new))
    (hnn : nextOf heap1 new 0 = nextOf heap (lastAddr hdr A) 0)
    (hit : ∀ b, b ≠ new → itemOf heap1 b = itemOf heap b)
    (hni : itemOf heap1 new = .ok v)
    (hpn : prevOf heap1 new = .ok (some (lastAddr hdr A)))
    (hpz : ∀ z ∈ B.head?, prevOf heap1 z.addr = .ok (some new))
    (hpo : ∀ b, b ≠ new → (∀ z ∈ B.head?, b ≠ z.addr) → prevOf heap1 b = prevOf heap b)
    (hnlen : nextLen heap1 hdr = nextLen heap hdr) :
    Shape heap1 hdr (A ++ ⟨new, v, 0⟩ :: B) := by
  have hne : ∀ c, c ∈ hdr :: (A ++ B).map Tower.addr → c ≠ new := fun c hc e => hnew (e ▸ hc)
  have hhead : ∀ c, c ∈ hdr :: (A.map Tower.addr ++ B.tail.map Tower.addr) →
      ∀ z ∈ B.head?, c ≠ z.addr := by
    intro c hc z hz
    cases B with
    | nil => simp at hz
    | cons z1 B1 =>
      simp only [List.head?_cons, Option.mem_def, Option.some.injEq] at hz
      subst hz
      have h2 := (nodup_remove_mid hs.nodup).2
      intro e
      apply h2
      rw [← e]
      simpa using hc
  constructor
  · have h1 : (hdr :: (A ++ (⟨new, v, 0⟩ : Tower α) :: B).map Tower.addr)
        = [hdr] ++ (A.map Tower.addr ++ new :: B.map Tower.addr) := by simp
    have h2 : (hdr :: (A ++ B).map Tower.addr)
        = [hdr] ++ (A.map Tower.addr ++ B.map Tower.addr) := by simp
    rw [h1, ← List.append_assoc, List.nodup_middle, List.nodup_cons, List.append_assoc, ← h2]
    exact ⟨hnew, hs.nodup⟩
  · intro t ht
    rcases List.mem_append.mp ht with h | h
    · exact Nat.lt_of_lt_of_le (hs.inHeap t (List.mem_append_left _ h)) hlen
    · rcases List.mem_cons.mp h with e | h
      · rw [e]; exact hnl
      · exact Nat.lt_of_lt_of_le (hs.inHeap t (List.mem_append_right _ h)) hlen
  · rw [hit hdr (hne hdr (by simp))]; exact hs.hdrItem
  · rw [hpo hdr (hne hdr (by simp)) (hhead hdr (by simp))]; exact hs.hdrPrev
  · rw [hnlen]; exact hs.hdrLen
  · intro i hi
    by_cases hik : i = 0
    · subst hik
      have hc := hs.chains 0 hi
      rw [atLevel_zero] at hc ⊢
      exact chain_insert v 0 hc hs.nodup hnew hn hit hx hnn hni
    · have hc := hs.chains i hi
      rw [atLevel_append, atLevel_cons_gt (t := ⟨new, v, 0⟩) (by simp; omega), ← atLevel_append]
      refine chain_frame ?_ ?_ hc
      · intro b hb
        exact hother b i hik (fun e => not_mem_atLevel i hnew (e ▸ hb))
      · intro b hb
        exact hit b (fun e => not_mem_atLevel i hnew (e ▸ List.mem_cons_of_mem _ hb))
  · have hp := hs.prevs
    rw [prev_append] at hp ⊢
    refine ⟨prev_frame ?_ hp.1, hpn, prev_rebase hpz ?_ hp.2⟩
    · intro b hb
      exact hpo b (hne b (by simp only [List.map_append, List.mem_cons, List.mem_append]
                             right; left; exact hb))
        (hhead b (by simp only [List.mem_cons, List.mem_append]; right; left; exact hb))
    · intro b hb
      have hbB : b ∈ B.map Tower.addr := by
        cases B with
        | nil => simp at hb
        | cons z B1 => simp only [List.map_cons]; exact List.mem_cons_of_mem _ (by simpa using hb)
      exact hpo b (hne b (by simp only [List.map_append, List.mem_cons, List.mem_append]
                             right; right; exact hbB))
        (hhead b (by simp only [List.mem_cons, List.mem_append]; right; right; exact hb))

theorem shape_unlink0 {α : Type} {heap heap1 : List (Node α)} {hdr a : Nat}
    {A B : List (Tower α)} {v : α}
    (hs : Shape heap hdr (A ++ ⟨a, v, 0⟩ :: B))
    (hlen : heap1.length = heap.length)
    (hother : ∀ b j, j ≠ 0 → nextOf heap1 b j = nextOf heap b j)
    (hn : ∀ b, b ≠ lastAddr hdr A → nextOf heap1 b 0 = nextOf heap b 0)
    (hx : nextOf heap1 (lastAddr hdr A) 0 = nextOf heap a 0)
    (hit : ∀ b, itemOf heap1 b = itemOf heap b)
    (hpz : ∀ z ∈ B.head?, prevOf heap1 z.addr = .ok (some (lastAddr hdr A)))
    (hpo : ∀ b, (∀ z ∈ B.head?, b ≠ z.addr) → prevOf heap1 b = prevOf heap b)
    (hnl : ∀ b, nextLen heap1 b = nextLen heap b) :
    Shape heap1 hdr (A ++ B) := by
  obtain ⟨nd1, nd2⟩ := nodup_remove_mid hs.nodup
  have hhead : ∀ c, c ∈ hdr :: (A.map Tower.addr ++ B.tail.map Tower.addr) →
      ∀ z ∈ B.head?, c ≠ z.addr := by
    intro c hc z hz
    cases B with
    | nil => simp at hz
    | cons z1 B1 =>
      simp only [List.head?_cons, Option.mem_def, Option.some.injEq] at hz
      subst hz
      have h2 := (nodup_remove_mid nd1).2
      intro e
      apply h2
      rw [← e]
      simpa using hc
  constructor
  · exact nd1
  · intro t ht
    rw [hlen]
    rcases List.mem_append.mp ht with h | h
    · exact hs.inHeap t (List.mem_append_left _ h)
    · exact hs.inHeap t (List.mem_append_right _ (List.mem_cons_of_mem _ h))
  · rw [hit]; exact hs.hdrItem
  · rw [hpo hdr (hhead hdr (by simp))]; exact hs.hdrPrev
  · rw [hnl]; exact hs.hdrLen
  · intro i hi
    by_cases hik : i = 0
    · subst hik
      have hc := hs.chains 0 hi
      rw [atLevel_zero] at hc ⊢
      exact chain_delete hc hs.nodup hn hit hx
    · have hc := hs.chains i hi
      rw [atLevel_append, atLevel_cons_gt (t := ⟨a, v, 0⟩) (by simp; omega),
        ← atLevel_append] at hc
      exact chain_frame (fun b _ => hother b i hik) (fun b _ => hit b) hc
  · have hp := hs.prevs
    rw [prev_append] at hp ⊢
    refine ⟨prev_frame ?_ hp.1, prev_rebase hpz ?_ hp.2.2⟩
    · intro b hb
      exact hpo b (hhead b (by simp only [List.mem_cons, List.mem_append]; right; left; exact hb))
    · intro b hb
      exact hpo b (hhead b (by simp only [List.mem_cons, List.mem_append]; right; right; exact hb))

/-! ## Exists -/

theorem chain_next {α : Type} {heap : List (Node α)} {i a : Nat} {ts : List (Tower α)}
    (h : Chain heap i a ts) : nextOf heap a i = .ok (ts.head?.map Tower.addr) := by
  cases ts with
  | nil => simpa [lastAddr] using h.2
  | cons t ts => simpa using h.1.1

theorem pred_top {α : Type} {A : List (Tower α)} {lvl : Nat} (hdr : Nat)
    (h : ∀ t ∈ A, t.height ≤ lvl) : lastAddr hdr (atLevel (lvl + 1) A) = hdr := by
  rw [atLevel_eq_nil (fun t ht => Nat.lt_succ_of_le (h t ht))]
  rfl

theorem shape_alloc {α : Type} {heap : List (Node α)} {hdr : Nat} {L : List (Tower α)}
    (hs : Shape heap hdr L) (hh : hdr < heap.length) (n : Node α) :
    Shape (heap ++ [n]) hdr L := by
  have hne : ∀ b ∈ hdr :: L.map Tower.addr, b ≠ heap.length := by
    intro b hb
    rcases List.mem_cons.mp hb with e | hb
    · omega
    · obtain ⟨t, ht, e⟩ := List.mem_map.mp hb
      have := hs.inHeap t ht
      omega
  constructor
  · exact hs.nodup
  · intro t ht
    have := hs.inHeap t ht
    simp only [List.length_append, List.length_singleton]
    omega
  · rw [itemOf_alloc heap n (hne hdr (by simp))]; exact hs.hdrItem
  · rw [prevOf_alloc heap n (hne hdr (by simp))]; exact hs.hdrPrev
  · rw [nextLen_alloc heap n (hne hdr (by simp))]; exact hs.hdrLen
  · intro i hi
    refine chain_frame ?_ ?_ (hs.chains i hi)
    · intro b hb
      exact nextOf_alloc heap n (hne b ((((atLevel_sublist i L).map Tower.addr).cons₂ hdr).subset hb)) i
    · intro b hb
      exact itemOf_alloc heap n
        (hne b (List.mem_cons_of_mem _ (((atLevel_sublist i L).map Tower.addr).subset hb)))
  · refine prev_frame ?_ hs.prevs
    intro b hb
    exact prevOf_alloc heap n (hne b (List.mem_cons_of_mem _ hb))

theorem shape_hdr_lt {α : Type} {heap : List (Node α)} {hdr : Nat} {L : List (Tower α)}
    (hs : Shape heap hdr L) : hdr < heap.length := by
  have h := hs.hdrPrev
  unfold prevOf at h
  cases hx : heap[hdr]? with
  | none => simp [hx] at h
  | some n => exact (List.getElem?_eq_some.mp hx).1

theorem existsLoop_absent {α : Type} (cmp : α → α → Int) (item : α) {heap : List (Node α)}
    {hdr : Nat} (fuel : Nat) {A B : List (Tower α)}
    (hs : Shape heap hdr (A ++ B))
    (hlt : ∀ t ∈ A, cmp t.item item = -1)
    (hgt : ∀ t ∈ B, cmp t.item item = 1)
    (hf : A.length < fuel) (i : Nat) (hi : i < maxLevel) :
    existsLoop cmp item heap fuel i (lastAddr hdr (atLevel (i + 1) A)) = .ok false := by
  induction i with
  | zero =>
    have hw := level_step cmp item (hs.chains 0 hi) hlt (fun t ht => Or.inr (hgt t ht)) hf
    have hne : stopOf cmp item (atLevel 0 B) ≠ .same := stopOf_ne_same
      (fun t ht => hgt t (mem_atLevel ht))
    simp [existsLoop, hw, hne]
  | succ i ih =>
    have hw := level_step cmp item (hs.chains (i + 1) hi) hlt (fun t ht => Or.inr (hgt t ht)) hf
    have hne : stopOf cmp item (atLevel (i + 1) B) ≠ .same := stopOf_ne_same
      (fun t ht => hgt t (mem_atLevel ht))
    simp [existsLoop, hw, hne, ih (by omega)]

theorem existsLoop_present {α : Type} (cmp : α → α → Int) (item : α) {heap : List (Node α)}
    {hdr : Nat} (fuel : Nat) {A B : List (Tower α)} {T : Tower α}
    (hs : Shape heap hdr (A ++ T :: B))
    (hlt : ∀ t ∈ A, cmp t.item item = -1)
    (hT : cmp T.item item = 0)
    (hgt : ∀ t ∈ B, cmp t.item item = 1)
    (hf : A.length < fuel) (i : Nat) (hi : i < maxLevel) :
    existsLoop cmp item heap fuel i (lastAddr hdr (atLevel (i + 1) A)) = .ok true := by
  have hge : ∀ t ∈ T :: B, cmp t.item item = 0 ∨ cmp t.item item = 1 := by
    intro t ht
    rcases List.mem_cons.mp ht with e | ht
    · rw [e]; exact Or.inl hT
    · exact Or.inr (hgt t ht)
  induction i with
  | zero =>
    have hw := level_step cmp item (hs.chains 0 hi) hlt hge hf
    rw [atLevel_zero (T :: B)] at hw
    simp [existsLoop, hw, stopOf_same hT]
  | succ i ih =>
    have hw := level_step cmp item (hs.chains (i + 1) hi) hlt hge hf
    by_cases hh : i + 1 ≤ T.height
    · rw [atLevel_cons_le hh] at hw
      simp [existsLoop, hw, stopOf_same hT]
    · rw [atLevel_cons_gt (Nat.not_le.mp hh)] at hw
      have hne : stopOf cmp item (atLevel (i + 1) B) ≠ .same := stopOf_ne_same
        (fun t ht => hgt t (mem_atLevel ht))
      simp [existsLoop, hw, hne, ih (by omega)]

/-! ## Insert: the descent -/

theorem nextOf_setPrevIf {α : Type} {heap heap1 : List (Node α)} {y p : Option Nat}
    (h : setPrevIf heap y p = .ok heap1) (b j : Nat) : nextOf heap1 b j = nextOf heap b j := by
  cases y with
  | none => simp only [setPrevIf, Except.ok.injEq] at h; rw [← h]
  | some a => exact nextOf_setPrev h b j

theorem itemOf_setPrevIf {α : Type} {heap heap1 : List (Node α)} {y p : Option Nat}
    (h : setPrevIf heap y p = .ok heap1) (b : Nat) : itemOf heap1 b = itemOf heap b := by
  cases y with
  | none => simp only [setPrevIf, Except.ok.injEq] at h; rw [← h]
  | some a => exact itemOf_setPrev h b

theorem nextLen_setPrevIf {α : Type} {heap heap1 : List (Node α)} {y p : Option Nat}
    (h : setPrevIf heap y p = .ok heap1) (b : Nat) : nextLen heap1 b = nextLen heap b := by
  cases y with
  | none => simp only [setPrevIf, Except.ok.injEq] at h; rw [← h]
  | some a => exact nextLen_setPrev h b

theorem length_setPrevIf {α : Type} {heap heap1 : List (Node α)} {y p : Option Nat}
    (h : setPrevIf heap y p = .ok heap1) : heap1.length = heap.length := by
  cases y with
  | none => simp only [setPrevIf, Except.ok.injEq] at h; rw [← h]
  | some a => exact length_setPrev h

theorem prevOf_setPrevIf {α : Type} {heap heap1 : List (Node α)} {y p : Option Nat}
    (h : setPrevIf heap y p = .ok heap1) (b : Nat) :
    prevOf heap1 b = if y = some b then .ok p else prevOf heap b := by
  cases y with
  | none => simp only [setPrevIf, Except.ok.injEq] at h; rw [← h]; simp
  | some a =>
    rw [prevOf_setPrev h b]
    by_cases e : b = a
    · simp [e]
    · have e2 : a ≠ b := fun x => e x.symm
      simp [e, e2]

theorem setPrevIf_ok {α : Type} {heap : List (Node α)} {y : Option Nat}
    (h : ∀ a, y = some a → a < heap.length) (p : Option Nat) :
    ∃ heap1, setPrevIf heap y p = .ok heap1 := by
  cases y with
  | none => exact ⟨heap, rfl⟩
  | some a => exact setPrev_ok (h a rfl) p

theorem insertLoop_dup {α : Type} (cmp : α → α → Int) (item : α) (l : SkipList α)
    (node fuel : Nat) {A B : List (Tower α)} {T : Tower α}
    (hs : Shape l.heap l.header (A ++ T :: B))
    (hlt : ∀ t ∈ A, cmp t.item item = -1)
    (hT : cmp T.item item = 0)
    (hgt : ∀ t ∈ B, cmp t.item item = 1)
    (hf : A.length < fuel) (i : Nat) (hi : i < maxLevel) (knots : Nat → Option Nat) :
    insertLoop cmp item node fuel i (lastAddr l.header (atLevel (i + 1) A)) knots l
      = .ok (none, l) := by
  have hge : ∀ t ∈ T :: B, cmp t.item item = 0 ∨ cmp t.item item = 1 := by
    intro t ht
    rcases List.mem_cons.mp ht with e | ht
    · rw [e]; exact Or.inl hT
    · exact Or.inr (hgt t ht)
  induction i generalizing knots with
  | zero =>
    have hw := level_step cmp item (hs.chains 0 hi) hlt hge hf
    rw [atLevel_zero (T :: B)] at hw
    simp [insertLoop, insertStep, hw, stopOf_same hT]
  | succ i ih =>
    have hw := level_step cmp item (hs.chains (i + 1) hi) hlt hge hf
    by_cases hh : i + 1 ≤ T.height
    · rw [atLevel_cons_le hh] at hw
      simp [insertLoop, insertStep, hw, stopOf_same hT]
    · rw [atLevel_cons_gt (Nat.not_le.mp hh)] at hw
      have hne : stopOf cmp item (atLevel (i + 1) B) ≠ .same := stopOf_ne_same
        (fun t ht => hgt t (mem_atLevel ht))
      simp [insertLoop, insertStep, hw, hne, ih (by omega)]

theorem knotsAfter_zero {α : Type} (hdr : Nat) (A : List (Tower α)) (knots : Nat → Option Nat) :
    knotsAfter hdr A 0 knots = knots := by
  funext j
  have h : ¬ (1 ≤ j ∧ j ≤ 0) := by omega
  unfold knotsAfter
  rw [if_neg h]

theorem knotsAfter_succ {α : Type} (hdr : Nat) (A : List (Tower α)) (i : Nat)
    (knots : Nat → Option Nat) :
    knotsAfter hdr A i (Function.update knots (i + 1) (some (lastAddr hdr (atLevel (i + 1) A))))
      = knotsAfter hdr A (i + 1) knots := by
  funext j
  unfold knotsAfter
  by_cases h1 : 1 ≤ j ∧ j ≤ i
  · have h2 : 1 ≤ j ∧ j ≤ i + 1 := by omega
    simp [h1, h2]
  · by_cases h3 : j = i + 1
    · subst h3
      simp
    · have h2 : ¬ (1 ≤ j ∧ j ≤ i + 1) := by omega
      simp [h1, h2, Function.update, h3]

theorem insertLoop_descend {α : Type} (cmp : α → α → Int) (item : α) (l : SkipList α)
    (node fuel : Nat) {A B : List (Tower α)}
    (hs : Shape l.heap l.header (A ++ B))
    (hlt : ∀ t ∈ A, cmp t.item item = -1)
    (hgt : ∀ t ∈ B, cmp t.item item = 1)
    (hf : A.length < fuel) (i : Nat) (hi : i < maxLevel) (knots : Nat → Option Nat) :
    insertLoop cmp item node fuel i (lastAddr l.header (atLevel (i + 1) A)) knots l
      = insertLoop cmp item node fuel 0 (lastAddr l.header (atLevel 1 A))
          (knotsAfter l.header A i knots) l := by
  induction i generalizing knots with
  | zero => rw [knotsAfter_zero]
  | succ i ih =>
    have hw := level_step cmp item (hs.chains (i + 1) hi) hlt (fun t ht => Or.inr (hgt t ht)) hf
    have hne : stopOf cmp item (atLevel (i + 1) B) ≠ .same := stopOf_ne_same
      (fun t ht => hgt t (mem_atLevel ht))
    rw [← knotsAfter_succ, ← ih (by omega)]
    simp [insertLoop, insertStep, hw, hne]

/-! ## Insert: linking level 0 -/

theorem head_addr_mem {α : Type} {B : List (Tower α)} {c : Nat}
    (h : B.head?.map Tower.addr = some c) : c ∈ B.map Tower.addr := by
  cases B with
  | nil => simp at h
  | cons z B =>
    simp only [List.head?_cons, Option.map_some', Option.some.injEq] at h
    simp [h]

theorem insertLoop_link {α : Type} (cmp : α → α → Int) (item : α) (l : SkipList α)
    (new fuel m : Nat) {A B : List (Tower α)}
    (hs : Shape l.heap l.header (A ++ B))
    (hlt : ∀ t ∈ A, cmp t.item item = -1)
    (hgt : ∀ t ∈ B, cmp t.item item = 1)
    (hf : A.length < fuel)
    (hnew : new ∉ l.header :: (A ++ B).map Tower.addr)
    (hnl : new < l.heap.length)
    (hni : itemOf l.heap new = .ok item)
    (hm : 0 < m) (hnn : ∀ j, j < m → nextOf l.heap new j = .ok none)
    (knots : Nat → Option Nat) :
    ∃ h4, insertLoop cmp item new fuel 0 (lastAddr l.header (atLevel 1 A)) knots l
        = .ok (some knots, { l with heap := h4, len := l.len + 1 }) ∧
      Shape h4 l.header (A ++ ⟨new, item, 0⟩ :: B) ∧ h4.length = l.heap.length ∧
      ∀ j, 1 ≤ j → j < m → nextOf h4 new j = .ok none := by
  have hw := level_step cmp item (hs.chains 0 (by decide)) hlt (fun t ht => Or.inr (hgt t ht)) hf
  rw [atLevel_zero A] at hw
  have hne : stopOf cmp item (atLevel 0 B) ≠ .same := stopOf_ne_same
    (fun t ht => hgt t (mem_atLevel ht))
  have hc0 := hs.chains 0 (by decide)
  rw [atLevel_zero, chain_append] at hc0
  have hnx := chain_next hc0.2
  have hxm : lastAddr l.header A ∈ l.header :: (A ++ B).map Tower.addr := by
    have h := lastAddr_mem l.header A
    rcases List.mem_cons.mp h with e | h
    · rw [e]; simp
    · simp only [List.map_append, List.mem_cons, List.mem_append]
      right; left; exact h
  have hxn : lastAddr l.header A ≠ new := fun e => hnew (e ▸ hxm)
  have hBn : ∀ c, B.head?.map Tower.addr = some c → c ≠ new := by
    intro c hc e
    apply hnew
    rw [← e]
    simp only [List.map_append, List.mem_cons, List.mem_append]
    right; right; exact head_addr_mem hc
  obtain ⟨h1, e1⟩ := setNext_ok (hnn 0 hm) (B.head?.map Tower.addr)
  obtain ⟨h2, e2⟩ : ∃ h2, setPrev h1 new (some (lastAddr l.header A)) = .ok h2 :=
    setPrev_ok (by rw [length_setNext e1]; exact hnl) _
  obtain ⟨h3, e3⟩ : ∃ h3, setPrevIf h2 (B.head?.map Tower.addr) (some new) = .ok h3 :=
    setPrevIf_ok (by
    intro a ha
    rw [length_setPrev e2, length_setNext e1]
    obtain ⟨t, ht, e⟩ := List.mem_map.mp (head_addr_mem ha)
    rw [← e]
    exact hs.inHeap t (List.mem_append_right _ ht)) _
  have hx3 : nextOf h3 (lastAddr l.header A) 0 = .ok (B.head?.map Tower.addr) := by
    rw [nextOf_setPrevIf e3, nextOf_setPrev e2, nextOf_setNext e1, if_neg (by simp [hxn])]
    exact hnx
  obtain ⟨h4, e4⟩ := setNext_ok hx3 (some new)
  refine ⟨h4, ?_, ?_, ?_, ?_⟩
  · simp [insertLoop, insertStep, hw, hne, hnx, e1, e2, e3, e4]
  · apply shape_link0 hs hnew
    · rw [length_setNext e4, length_setPrevIf e3, length_setPrev e2, length_setNext e1]
    · rw [length_setNext e4, length_setPrevIf e3, length_setPrev e2, length_setNext e1]
      exact hnl
    · intro b j hj hb
      rw [nextOf_setNext e4, nextOf_setPrevIf e3, nextOf_setPrev e2, nextOf_setNext e1]
      simp [hj]
    · intro b hb hbn
      rw [nextOf_setNext e4, nextOf_setPrevIf e3, nextOf_setPrev e2, nextOf_setNext e1]
      simp [hb, hbn]
    · rw [nextOf_setNext e4]
      simp
    · rw [nextOf_setNext e4, if_neg (by simp [Ne.symm hxn]), nextOf_setPrevIf e3,
        nextOf_setPrev e2, nextOf_setNext e1, if_pos ⟨rfl, rfl⟩]
      exact hnx.symm
    · intro b _
      rw [itemOf_setNext e4, itemOf_setPrevIf e3, itemOf_setPrev e2, itemOf_setNext e1]
    · rw [itemOf_setNext e4, itemOf_setPrevIf e3, itemOf_setPrev e2, itemOf_setNext e1]
      exact hni
    · rw [prevOf_setNext e4, prevOf_setPrevIf e3, if_neg (fun e => hBn new e rfl),
        prevOf_setPrev e2, if_pos rfl]
    · intro z hz
      have hz1 : B.head?.map Tower.addr = some z.addr := by
        rw [Option.mem_def.mp hz]; rfl
      rw [prevOf_setNext e4, prevOf_setPrevIf e3, if_pos hz1]
    · intro b hb hbz
      have hz1 : ¬ B.head?.map Tower.addr = some b := by
        intro e
        cases hB : B.head? with
        | none => simp [hB] at e
        | some z =>
          simp only [hB, Option.map_some', Option.some.injEq] at e
          exact hbz z (Option.mem_def.mpr hB) e.symm
      rw [prevOf_setNext e4, prevOf_setPrevIf e3, if_neg hz1, prevOf_setPrev e2, if_neg hb,
        prevOf_setNext e1]
    · rw [nextLen_setNext e4, nextLen_setPrevIf e3, nextLen_setPrev e2, nextLen_setNext e1]
  · rw [length_setNext e4, length_setPrevIf e3, length_setPrev e2, length_setNext e1]
  · intro j hj hjm
    have hj0 : j ≠ 0 := by omega
    rw [nextOf_setNext e4, nextOf_setPrevIf e3, nextOf_setPrev e2, nextOf_setNext e1]
    simp only [hj0, and_false, if_false]
    exact hnn j hjm

/-! ## Insert: the coin loop -/

theorem promote_ok {α : Type} (coins : Coins) (hdr new lvl0 : Nat) (A B : List (Tower α))
    (item : α) (knots : Nat → Option Nat)
    (hk : ∀ j, 1 ≤ j → j ≤ lvl0 → knots j = some (lastAddr hdr (atLevel j A)))
    (hAB : ∀ t ∈ A ++ B, t.height ≤ lvl0) (hl0 : lvl0 < maxLevel)
    (fuel k c : Nat) (l : SkipList α)
    (hs : Shape l.heap l.header (A ++ ⟨new, item, k⟩ :: B))
    (hh : l.header = hdr) (hlv : l.level = lvl0) (hkl : k ≤ lvl0)
    (hf : maxLevel ≤ fuel + k)
    (hnn : ∀ j, k + 1 ≤ j → j < lvl0 + 2 → nextOf l.heap new j = .ok none) :
    ∃ l1 h, promote coins new knots fuel (k + 1) c l = .ok l1 ∧ k ≤ h ∧ h < maxLevel ∧
      Shape l1.heap l1.header (A ++ ⟨new, item, h⟩ :: B) ∧ l1.header = l.header ∧
      l1.len = l.len ∧ l1.heap.length = l.heap.length ∧ l1.level = max lvl0 h ∧
      ((∀ j, coins j = true) → lvl0 + 1 < maxLevel → h = lvl0 + 1) := by
  induction fuel generalizing k c l with
  | zero => omega
  | succ fuel ih =>
    rw [promote]
    by_cases hcond : coins c = true ∧ k + 1 < maxLevel
    · rw [if_pos hcond]
      obtain ⟨nd1, nd2⟩ := nodup_remove_mid hs.nodup
      have hxm : lastAddr l.header (atLevel (k + 1) A) ∈ l.header :: (A ++ B).map Tower.addr := by
        have h := lastAddr_mem l.header (atLevel (k + 1) A)
        rcases List.mem_cons.mp h with e | h
        · rw [e]; simp
        · simp only [List.map_append, List.mem_cons, List.mem_append]
          right; left
          exact ((atLevel_sublist (k + 1) A).map Tower.addr).subset h
      have hxn : lastAddr l.header (atLevel (k + 1) A) ≠ new := fun e => nd2 (e ▸ hxm)
      have hc := hs.chains (k + 1) hcond.2
      rw [atLevel_append, atLevel_cons_gt (t := ⟨new, item, k⟩) (by simp), chain_append] at hc
      have hnx := chain_next hc.2
      by_cases hgt : k + 1 > l.level
      · rw [if_pos hgt]
        have hk0 : k = lvl0 := by omega
        have hA : atLevel (k + 1) A = [] :=
          atLevel_eq_nil (fun t ht => by
            have := hAB t (List.mem_append_left _ ht); omega)
        have hB : atLevel (k + 1) B = [] :=
          atLevel_eq_nil (fun t ht => by
            have := hAB t (List.mem_append_right _ ht); omega)
        have hx0 : lastAddr l.header (atLevel (k + 1) A) = l.header := by rw [hA]; rfl
        rw [hx0] at hnx hxn
        rw [hB] at hnx
        obtain ⟨h1, e1⟩ := setNext_ok hnx (some new)
        refine ⟨{ l with heap := h1, level := k + 1 }, k + 1, ?_, by omega, hcond.2, ?_, rfl, rfl,
          length_setNext e1, ?_, fun _ _ => by omega⟩
        · simp [e1]
        · apply shape_link hs (length_setNext e1)
          · intro b j hj
            rw [nextOf_setNext e1]
            simp [hj]
          · intro b hb _
            rw [hx0] at hb
            rw [nextOf_setNext e1]
            simp [hb]
          · rw [hx0, nextOf_setNext e1]
            simp
          · rw [hx0, nextOf_setNext e1, if_neg (by simp [Ne.symm hxn]), hnx]
            exact hnn (k + 1) (Nat.le_refl _) (by omega)
          · intro b; exact itemOf_setNext e1 b
          · intro b; exact prevOf_setNext e1 b
          · intro b; exact nextLen_setNext e1 b
        · simp only
          omega
      · rw [if_neg hgt]
        have hkl1 : k + 1 ≤ lvl0 := by omega
        have hkn := hk (k + 1) (by omega) hkl1
        rw [← hh] at hkn
        obtain ⟨h1, e1⟩ := setNext_ok (hnn (k + 1) (Nat.le_refl _) (by omega))
          ((atLevel (k + 1) B).head?.map Tower.addr)
        have hx1 : nextOf h1 (lastAddr l.header (atLevel (k + 1) A)) (k + 1)
            = .ok ((atLevel (k + 1) B).head?.map Tower.addr) := by
          rw [nextOf_setNext e1, if_neg (by simp [hxn])]
          exact hnx
        obtain ⟨h2, e2⟩ := setNext_ok hx1 (some new)
        have hs2 : Shape h2 l.header (A ++ ⟨new, item, k + 1⟩ :: B) := by
          apply shape_link hs (by rw [length_setNext e2, length_setNext e1])
          · intro b j hj
            rw [nextOf_setNext e2, nextOf_setNext e1]
            simp [hj]
          · intro b hb hbn
            rw [nextOf_setNext e2, nextOf_setNext e1]
            simp [hb, hbn]
          · rw [nextOf_setNext e2]
            simp
          · rw [nextOf_setNext e2, if_neg (by simp [Ne.symm hxn]), nextOf_setNext e1,
              if_pos ⟨rfl, rfl⟩]
            exact hnx.symm
          · intro b; rw [itemOf_setNext e2, itemOf_setNext e1]
          · intro b; rw [prevOf_setNext e2, prevOf_setNext e1]
          · intro b; rw [nextLen_setNext e2, nextLen_setNext e1]
        obtain ⟨l1, h, r1, r2, r3, r4, r5, r6, r7, r8, r9⟩ :=
          ih (k + 1) (c + 1) { l with heap := h2 } hs2 hh hlv hkl1 (by omega) (by
            intro j hj hj2
            have hjk : j ≠ k + 1 := by omega
            show nextOf h2 new j = .ok none
            rw [nextOf_setNext e2, nextOf_setNext e1]
            simp only [hjk, and_false, if_false]
            exact hnn j (by omega) hj2)
        refine ⟨l1, h, ?_, by omega, r3, r4, r5, r6, ?_, r8, r9⟩
        · simp [hkn, hnx, e1, e2, r1]
        · rw [r7]
          show h2.length = l.heap.length
          rw [length_setNext e2, length_setNext e1]
    · rw [if_neg hcond]
      refine ⟨l, k, rfl, Nat.le_refl _, by omega, hs, rfl, rfl, rfl, ?_, ?_⟩
      · rw [hlv]
        omega
      · intro hall hlt1
        exact absurd ⟨hall c, by omega⟩ hcond

/-! ## Insert: the whole call -/

theorem invL_fresh {α : Type} {cmp : α → α → Int} {l : SkipList α} {L : List (Tower α)}
    (hinv : InvL cmp l L) : l.heap.length ∉ l.header :: L.map Tower.addr := by
  intro hm
  rcases List.mem_cons.mp hm with e | hm
  · have := shape_hdr_lt hinv.shape
    omega
  · obtain ⟨t, ht, e⟩ := List.mem_map.mp hm
    have := hinv.shape.inHeap t ht
    omega

theorem insert_fresh {α : Type} {cmp : α → α → Int} (hc : IsTotalOrder cmp) (coins : Coins)
    (item : α) {l : SkipList α} {A B : List (Tower α)}
    (hinv : InvL cmp l (A ++ B))
    (hlt : ∀ t ∈ A, cmp t.item item = -1)
    (hgt : ∀ t ∈ B, cmp t.item item = 1) :
    ∃ l1 h, Insert cmp coins item l = .ok (true, l1) ∧
      InvL cmp l1 (A ++ ⟨l.heap.length, item, h⟩ :: B) ∧ l1.header = l.header ∧
      l1.heap.length = l.heap.length + 1 ∧
      ((∀ j, coins j = true) → l.level + 1 < maxLevel → l1.level = l.level + 1) := by
  have hhl := shape_hdr_lt hinv.shape
  have hs1 := shape_alloc hinv.shape hhl
    { item := some item, next := List.replicate (l.level + 2) none, prev := none }
  have hAle : ∀ t ∈ A, t.height ≤ l.level := fun t ht => hinv.lvl_le t (List.mem_append_left _ ht)
  have hsize := hinv.size
  simp only [List.length_append] at hsize
  obtain ⟨h4, r1, r2, r3, r4⟩ := insertLoop_link cmp item
    { l with heap := l.heap ++
        [{ item := some item, next := List.replicate (l.level + 2) none, prev := none }] }
    l.heap.length (l.heap.length + 1) (l.level + 2)
    hs1 hlt hgt (by omega) (invL_fresh hinv) (by simp)
    (itemOf_alloc_new _ _ _ _) (by omega)
    (fun j hj => nextOf_alloc_new _ _ _ _ hj)
    (knotsAfter l.header A l.level (fun _ => none))
  have hd := insertLoop_descend cmp item
    { l with heap := l.heap ++
        [{ item := some item, next := List.replicate (l.level + 2) none, prev := none }] }
    l.heap.length (l.heap.length + 1)
    hs1 hlt hgt (by omega) l.level hinv.lvl_lt (fun _ => none)
  simp only [pred_top l.header hAle] at hd
  obtain ⟨l1, h, p1, p2, p3, p4, p5, p6, p7, p8, p9⟩ := promote_ok coins
    l.header l.heap.length l.level A B item
    (knotsAfter l.header A l.level (fun _ => none))
    (by
      intro j hj1 hj2
      unfold knotsAfter
      rw [if_pos ⟨hj1, hj2⟩])
    hinv.lvl_le hinv.lvl_lt (maxLevel + 1) 0 0
    { heap := h4, header := l.header, len := l.len + 1, level := l.level }
    r2 rfl rfl (Nat.zero_le _) (by omega)
    (fun j hj1 hj2 => r4 j hj1 hj2)
  refine ⟨l1, h, ?_, ?_, p5, ?_, ?_⟩
  · simp only [Insert, List.length_append, List.length_singleton]
    rw [hd, r1]
    simp [p1]
  · constructor
    · have hso := List.pairwise_append.mp hinv.sorted
      rw [List.pairwise_append]
      refine ⟨hso.1, ?_, ?_⟩
      · rw [List.pairwise_cons]
        refine ⟨?_, hso.2.1⟩
        intro b hb
        have h1 := hgt b hb
        have h2 := hc.antisymm b.item item
        show cmp item b.item = -1
        omega
      · intro a ha b hb
        rcases List.mem_cons.mp hb with e | hb
        · rw [e]; exact hlt a ha
        · exact hso.2.2 a ha b hb
    · exact p4
    · rw [p6]
      have := hinv.len
      simp only [List.length_append, List.length_cons] at this ⊢
      show l.len + 1 = _
      rw [this]
      push_cast
      ring
    · rw [p7, r3]
      simp only [List.length_append, List.length_cons, List.length_singleton]
      omega
    · intro t ht
      rw [p8]
      rcases List.mem_append.mp ht with h1 | h1
      · have := hinv.lvl_le t (List.mem_append_left _ h1); omega
      · rcases List.mem_cons.mp h1 with e | h1
        · rw [e]; simp
        · have := hinv.lvl_le t (List.mem_append_right _ h1); omega
    · rw [p8]
      by_cases hh : h ≤ l.level
      · rw [Nat.max_eq_left hh]
        rcases hinv.lvl_top with h0 | ⟨t, ht, e⟩
        · exact Or.inl h0
        · refine Or.inr ⟨t, ?_, e⟩
          rcases List.mem_append.mp ht with h1 | h1
          · exact List.mem_append_left _ h1
          · exact List.mem_append_right _ (List.mem_cons_of_mem _ h1)
      · rw [Nat.max_eq_right (by omega)]
        exact Or.inr ⟨⟨l.heap.length, item, h⟩, by simp, rfl⟩
    · rw [p8]
      have := hinv.lvl_lt
      omega
  · rw [p7, r3]
    simp
  · intro hall hlt1
    rw [p8, p9 hall hlt1]
    omega

theorem insert_dup {α : Type} {cmp : α → α → Int} (coins : Coins)
    (item : α) {l : SkipList α} {A B : List (Tower α)} {T : Tower α}
    (hinv : InvL cmp l (A ++ T :: B))
    (hlt : ∀ t ∈ A, cmp t.item item = -1)
    (hT : cmp T.item item = 0)
    (hgt : ∀ t ∈ B, cmp t.item item = 1) :
    Insert cmp coins item l = .ok (false, { l with heap := l.heap ++
        [{ item := some item, next := List.replicate (l.level + 2) none, prev := none }] }) ∧
    InvL cmp { l with heap := l.heap ++
        [{ item := some item, next := List.replicate (l.level + 2) none, prev := none }] }
      (A ++ T :: B) := by
  have hhl := shape_hdr_lt hinv.shape
  have hs1 := shape_alloc hinv.shape hhl
    { item := some item, next := List.replicate (l.level + 2) none, prev := none }
  have hAle : ∀ t ∈ A, t.height ≤ l.level := fun t ht => hinv.lvl_le t (List.mem_append_left _ ht)
  have hsize := hinv.size
  simp only [List.length_append] at hsize
  have hd := insertLoop_dup cmp item
    { l with heap := l.heap ++
        [{ item := some item, next := List.replicate (l.level + 2) none, prev := none }] }
    l.heap.length (l.heap.length + 1)
    hs1 hlt hT hgt (by omega) l.level hinv.lvl_lt (fun _ => none)
  simp only [pred_top l.header hAle] at hd
  constructor
  · simp only [Insert, List.length_append, List.length_singleton]
    rw [hd]
    simp
  · exact ⟨hinv.sorted, hs1, hinv.len, by
      have := hinv.size
      simp only [List.length_append, List.length_singleton] at this ⊢
      omega, hinv.lvl_le, hinv.lvl_top, hinv.lvl_lt⟩

/-! ## Delete -/

theorem deleteLoop_absent {α : Type} (cmp : α → α → Int) (item : α) (l : SkipList α)
    (fuel : Nat) {A B : List (Tower α)}
    (hs : Shape l.heap l.header (A ++ B))
    (hlt : ∀ t ∈ A, cmp t.item item = -1)
    (hgt : ∀ t ∈ B, cmp t.item item = 1)
    (hf : A.length < fuel) (i : Nat) (hi : i < maxLevel) :
    deleteLoop cmp item fuel i (lastAddr l.header (atLevel (i + 1) A)) false l
      = .ok (false, l) := by
  induction i with
  | zero =>
    have hw := level_step cmp item (hs.chains 0 hi) hlt (fun t ht => Or.inr (hgt t ht)) hf
    have hne : stopOf cmp item (atLevel 0 B) ≠ .same := stopOf_ne_same
      (fun t ht => hgt t (mem_atLevel ht))
    simp [deleteLoop, deleteStep, hw, hne]
  | succ i ih =>
    have hw := level_step cmp item (hs.chains (i + 1) hi) hlt (fun t ht => Or.inr (hgt t ht)) hf
    have hne : stopOf cmp item (atLevel (i + 1) B) ≠ .same := stopOf_ne_same
      (fun t ht => hgt t (mem_atLevel ht))
    simp [deleteLoop, deleteStep, hw, hne, ih (by omega)]

theorem lastAddr_eq_hdr {α : Type} {hdr : Nat} {ts : List (Tower α)}
    (hn : hdr ∉ ts.map Tower.addr) (h : lastAddr hdr ts = hdr) : ts = [] := by
  cases ts with
  | nil => rfl
  | cons t ts =>
    exfalso
    apply hn
    have hm := lastAddr_mem t.addr ts
    simp only [lastAddr] at h
    rw [h] at hm
    simpa using hm

theorem deleteStep_miss {α : Type} (cmp : α → α → Int) (item : α) (l : SkipList α)
    (fuel i : Nat) {A B : List (Tower α)} {T : Tower α}
    (hs : Shape l.heap l.header (A ++ T :: B))
    (hlt : ∀ t ∈ A, cmp t.item item = -1)
    (hT : cmp T.item item = 0)
    (hgt : ∀ t ∈ B, cmp t.item item = 1)
    (hf : A.length < fuel) (hi : i < maxLevel) (hh : T.height < i) :
    deleteStep cmp item fuel i (lastAddr l.header (atLevel (i + 1) A)) false l
      = .ok (lastAddr l.header (atLevel i A), false, l) := by
  have hge : ∀ t ∈ T :: B, cmp t.item item = 0 ∨ cmp t.item item = 1 := by
    intro t ht
    rcases List.mem_cons.mp ht with e | ht
    · rw [e]; exact Or.inl hT
    · exact Or.inr (hgt t ht)
  have hw := level_step cmp item (hs.chains i hi) hlt hge hf
  rw [atLevel_cons_gt hh] at hw
  have hne : stopOf cmp item (atLevel i B) ≠ .same := stopOf_ne_same
    (fun t ht => hgt t (mem_atLevel ht))
  simp [deleteStep, hw, hne]

theorem deleteStep_hit {α : Type} (cmp : α → α → Int) (item : α) (l : SkipList α)
    (fuel i : Nat) (found : Bool) {A B : List (Tower α)} {a : Nat} {v : α}
    (hs : Shape l.heap l.header (A ++ ⟨a, v, i⟩ :: B))
    (hlt : ∀ t ∈ A, cmp t.item item = -1)
    (hT : cmp v item = 0)
    (hgt : ∀ t ∈ B, cmp t.item item = 1)
    (hf : A.length < fuel) (hi : i < maxLevel) :
    ∃ h2, deleteStep cmp item fuel i (lastAddr l.header (atLevel (i + 1) A)) found l
        = .ok (lastAddr l.header (atLevel i A), true,
            { l with heap := h2, level :=
                if (atLevel i B).head?.map Tower.addr = none ∧
                    lastAddr l.header (atLevel i A) = l.header ∧ i > 0
                then i - 1 else l.level }) ∧
      h2.length = l.heap.length ∧
      (i = 0 → Shape h2 l.header (A ++ B)) ∧
      (∀ k, i = k + 1 → Shape h2 l.header (A ++ ⟨a, v, k⟩ :: B)) := by
  have hge : ∀ t ∈ (⟨a, v, i⟩ : Tower α) :: B, cmp t.item item = 0 ∨ cmp t.item item = 1 := by
    intro t ht
    rcases List.mem_cons.mp ht with e | ht
    · rw [e]; exact Or.inl hT
    · exact Or.inr (hgt t ht)
  have hw := level_step cmp item (hs.chains i hi) hlt hge hf
  rw [atLevel_cons_le (t := ⟨a, v, i⟩) (Nat.le_refl _), stopOf_same (T := ⟨a, v, i⟩) hT] at hw
  have hc := hs.chains i hi
  rw [atLevel_append, atLevel_cons_le (t := ⟨a, v, i⟩) (Nat.le_refl _), chain_append] at hc
  have hxa : nextOf l.heap (lastAddr l.header (atLevel i A)) i = .ok (some a) := hc.2.1.1
  have hca : Chain l.heap i a (atLevel i B) := ⟨hc.2.1.2.2, hc.2.2⟩
  have hnx := chain_next hca
  obtain ⟨h1, e1⟩ := setNext_ok hxa ((atLevel i B).head?.map Tower.addr)
  cases i with
  | zero =>
    obtain ⟨h2, e2⟩ : ∃ h2, setPrevIf h1 ((atLevel 0 B).head?.map Tower.addr)
        (some (lastAddr l.header (atLevel 0 A))) = .ok h2 :=
      setPrevIf_ok (by
        intro c hc2
        rw [length_setNext e1]
        obtain ⟨t, ht, e⟩ := List.mem_map.mp (head_addr_mem hc2)
        rw [← e]
        exact hs.inHeap t (List.mem_append_right _ (List.mem_cons_of_mem _ (mem_atLevel ht)))) _
    refine ⟨h2, ?_, ?_, ?_, ?_⟩
    · simp [deleteStep, hw, hxa, hnx, e1, e2]
    · rw [length_setPrevIf e2, length_setNext e1]
    · intro _
      rw [atLevel_zero] at e1 e2 hnx hxa
      rw [atLevel_zero] at e1 e2
      apply shape_unlink0 hs
      · rw [length_setPrevIf e2, length_setNext e1]
      · intro b j hj
        rw [nextOf_setPrevIf e2, nextOf_setNext e1]
        simp [hj]
      · intro b hb
        rw [nextOf_setPrevIf e2, nextOf_setNext e1]
        simp [hb]
      · rw [nextOf_setPrevIf e2, nextOf_setNext e1, if_pos ⟨rfl, rfl⟩]
        exact hnx.symm
      · intro b
        rw [itemOf_setPrevIf e2, itemOf_setNext e1]
      · intro z hz
        have hz1 : B.head?.map Tower.addr = some z.addr := by
          rw [Option.mem_def.mp hz]; rfl
        rw [prevOf_setPrevIf e2, if_pos hz1]
      · intro b hbz
        have hz1 : ¬ B.head?.map Tower.addr = some b := by
          intro e
          cases hB : B.head? with
          | none => simp [hB] at e
          | some z =>
            simp only [hB, Option.map_some', Option.some.injEq] at e
            exact hbz z (Option.mem_def.mpr hB) e.symm
        rw [prevOf_setPrevIf e2, if_neg hz1, prevOf_setNext e1]
      · intro b
        rw [nextLen_setPrevIf e2, nextLen_setNext e1]
    · intro k hk
      omega
  | succ k =>
    refine ⟨h1, ?_, length_setNext e1, ?_, ?_⟩
    · have hpos : k + 1 > 0 := Nat.succ_pos k
      simp [deleteStep, hw, hxa, hnx, e1]
      by_cases hcnd : Option.map Tower.addr (atLevel (k + 1) B).head? = none ∧
          lastAddr l.header (atLevel (k + 1) A) = l.header
      · rw [if_pos hcnd, if_pos ⟨hcnd.1, hcnd.2, hpos⟩]
      · rw [if_neg hcnd, if_neg (fun h => hcnd ⟨h.1, h.2.1⟩)]
    · intro h0
      omega
    · intro k1 hk1
      have hkk : k1 = k := by omega
      subst hkk
      apply shape_unlink hs (length_setNext e1)
      · intro b j hj
        rw [nextOf_setNext e1]
        simp [hj]
      · intro b hb
        rw [nextOf_setNext e1]
        simp [hb]
      · rw [nextOf_setNext e1, if_pos ⟨rfl, rfl⟩]
        exact hnx.symm
      · intro b; exact itemOf_setNext e1 b
      · intro b; exact prevOf_setNext e1 b
      · intro b; exact nextLen_setNext e1 b

theorem atLevel_nil_lt {α : Type} {i : Nat} {L : List (Tower α)} (h : atLevel i L = [])
    {t : Tower α} (ht : t ∈ L) : t.height < i := by
  simp only [atLevel, List.filter_eq_nil_iff, decide_eq_true_eq] at h
  exact Nat.not_le.mp (h t ht)

theorem lvlOK_unlink {α : Type} {lvl k a : Nat} {A B : List (Tower α)} {v : α}
    {c : Prop} [Decidable c] (hcc : c ↔ (atLevel (k + 1) A = [] ∧ atLevel (k + 1) B = []))
    (hl : LvlOK lvl (A ++ ⟨a, v, k + 1⟩ :: B)) :
    LvlOK (if c then k else lvl) (A ++ ⟨a, v, k⟩ :: B) := by
  have hT : k + 1 ≤ lvl := hl.1 ⟨a, v, k + 1⟩ (by simp)
  by_cases hc : atLevel (k + 1) A = [] ∧ atLevel (k + 1) B = []
  · rw [if_pos (hcc.mpr hc)]
    constructor
    · intro t ht
      rcases List.mem_append.mp ht with h | h
      · have := atLevel_nil_lt hc.1 h; omega
      · rcases List.mem_cons.mp h with e | h
        · rw [e]
        · have := atLevel_nil_lt hc.2 h; omega
    · exact Or.inr ⟨⟨a, v, k⟩, by simp, rfl⟩
  · rw [if_neg (fun h => hc (hcc.mp h))]
    constructor
    · intro t ht
      rcases List.mem_append.mp ht with h | h
      · exact hl.1 t (List.mem_append_left _ h)
      · rcases List.mem_cons.mp h with e | h
        · rw [e]; show k ≤ lvl; omega
        · exact hl.1 t (List.mem_append_right _ (List.mem_cons_of_mem _ h))
    · right
      have hex : ∃ u, u ∈ A ++ B ∧ k + 1 ≤ u.height := by
        by_cases hA : atLevel (k + 1) A = []
        · have hB : atLevel (k + 1) B ≠ [] := fun e => hc ⟨hA, e⟩
          obtain ⟨u, hu⟩ := List.exists_mem_of_ne_nil _ hB
          refine ⟨u, List.mem_append_right _ (mem_atLevel hu), ?_⟩
          simp only [atLevel, List.mem_filter, decide_eq_true_eq] at hu
          exact hu.2
        · obtain ⟨u, hu⟩ := List.exists_mem_of_ne_nil _ hA
          refine ⟨u, List.mem_append_left _ (mem_atLevel hu), ?_⟩
          simp only [atLevel, List.mem_filter, decide_eq_true_eq] at hu
          exact hu.2
      have hmem : ∀ u, u ∈ A ++ B → u ∈ A ++ (⟨a, v, k⟩ : Tower α) :: B ∧
          u ∈ A ++ (⟨a, v, k + 1⟩ : Tower α) :: B := by
        intro u hu
        rcases List.mem_append.mp hu with h | h
        · exact ⟨List.mem_append_left _ h, List.mem_append_left _ h⟩
        · exact ⟨List.mem_append_right _ (List.mem_cons_of_mem _ h),
            List.mem_append_right _ (List.mem_cons_of_mem _ h)⟩
      rcases hl.2 with h0 | ⟨t, ht, e⟩
      · omega
      · rcases List.mem_append.mp ht with h | h
        · exact ⟨t, List.mem_append_left _ h, e⟩
        · rcases List.mem_cons.mp h with e1 | h
          · obtain ⟨u, hu, hk⟩ := hex
            have hu2 := hl.1 u (hmem u hu).2
            rw [e1] at e
            simp only at e
            exact ⟨u, (hmem u hu).1, by omega⟩
          · exact ⟨t, List.mem_append_right _ (List.mem_cons_of_mem _ h), e⟩

theorem lvlOK_remove {α : Type} {lvl a : Nat} {A B : List (Tower α)} {v : α}
    (hl : LvlOK lvl (A ++ ⟨a, v, 0⟩ :: B)) : LvlOK lvl (A ++ B) := by
  constructor
  · intro t ht
    rcases List.mem_append.mp ht with h | h
    · exact hl.1 t (List.mem_append_left _ h)
    · exact hl.1 t (List.mem_append_right _ (List.mem_cons_of_mem _ h))
  · rcases hl.2 with h0 | ⟨t, ht, e⟩
    · exact Or.inl h0
    · by_cases h0 : lvl = 0
      · exact Or.inl h0
      · right
        rcases List.mem_append.mp ht with h | h
        · exact ⟨t, List.mem_append_left _ h, e⟩
        · rcases List.mem_cons.mp h with e1 | h
          · rw [e1] at e
            simp only at e
            omega
          · exact ⟨t, List.mem_append_right _ h, e⟩

theorem collapse_cond {α : Type} {hdr k : Nat} {A B : List (Tower α)}
    (hn : hdr ∉ A.map Tower.addr) :
    ((atLevel (k + 1) B).head?.map Tower.addr = none ∧
        lastAddr hdr (atLevel (k + 1) A) = hdr ∧ k + 1 > 0) ↔
      (atLevel (k + 1) A = [] ∧ atLevel (k + 1) B = []) := by
  constructor
  · rintro ⟨h1, h2, _⟩
    refine ⟨lastAddr_eq_hdr (fun hm => hn (((atLevel_sublist _ A).map Tower.addr).subset hm)) h2, ?_⟩
    cases hB : atLevel (k + 1) B with
    | nil => rfl
    | cons z zs => simp [hB] at h1
  · rintro ⟨h1, h2⟩
    rw [h1, h2]
    exact ⟨rfl, rfl, Nat.succ_pos k⟩

theorem deleteLoop_present {α : Type} (cmp : α → α → Int) (item : α) (fuel hdr a : Nat)
    (A B : List (Tower α)) (v : α)
    (hlt : ∀ t ∈ A, cmp t.item item = -1)
    (hT : cmp v item = 0)
    (hgt : ∀ t ∈ B, cmp t.item item = 1)
    (hf : A.length < fuel) (i : Nat) :
    ∀ (l : SkipList α) (found : Bool) (ht : Nat),
      i < maxLevel → l.header = hdr →
      Shape l.heap l.header (A ++ ⟨a, v, ht⟩ :: B) →
      LvlOK l.level (A ++ ⟨a, v, ht⟩ :: B) →
      ht ≤ i → (found = true → ht = i) →
      ∃ l1, deleteLoop cmp item fuel i (lastAddr hdr (atLevel (i + 1) A)) found l
          = .ok (true, l1) ∧
        Shape l1.heap l1.header (A ++ B) ∧ LvlOK l1.level (A ++ B) ∧ l1.level ≤ l.level ∧
        l1.header = l.header ∧ l1.len = l.len ∧ l1.heap.length = l.heap.length := by
  induction i with
  | zero =>
    intro l found ht hi hh hs hl hle _
    have h0 : ht = 0 := by omega
    subst h0
    subst hh
    obtain ⟨h2, r1, r2, r3, _⟩ := deleteStep_hit cmp item l fuel 0 found hs hlt hT hgt hf hi
    have hlvl : (if (atLevel 0 B).head?.map Tower.addr = none ∧
        lastAddr l.header (atLevel 0 A) = l.header ∧ 0 > 0 then 0 - 1 else l.level) = l.level := by
      simp
    rw [hlvl] at r1
    refine ⟨{ l with heap := h2 }, ?_, r3 rfl, lvlOK_remove hl, Nat.le_refl _, rfl, rfl, r2⟩
    simp [deleteLoop, r1]
  | succ k ih =>
    intro l found ht hi hh hs hl hle hfd
    subst hh
    by_cases hk : ht = k + 1
    · subst hk
      obtain ⟨h2, r1, r2, _, r4⟩ :=
        deleteStep_hit cmp item l fuel (k + 1) found hs hlt hT hgt hf hi
      have hnA : l.header ∉ A.map Tower.addr := by
        have h1 := (List.nodup_cons.mp hs.nodup).1
        intro hm
        apply h1
        simp only [List.map_append, List.mem_append]
        left; exact hm
      have hlvl : (if (atLevel (k + 1) B).head?.map Tower.addr = none ∧
          lastAddr l.header (atLevel (k + 1) A) = l.header ∧ k + 1 > 0 then k + 1 - 1
            else l.level)
          = (if (atLevel (k + 1) B).head?.map Tower.addr = none ∧
          lastAddr l.header (atLevel (k + 1) A) = l.header ∧ k + 1 > 0 then k
            else l.level) := by
        rw [Nat.add_sub_cancel]
      rw [hlvl] at r1
      have hle2 : (if (atLevel (k + 1) B).head?.map Tower.addr = none ∧
          lastAddr l.header (atLevel (k + 1) A) = l.header ∧ k + 1 > 0 then k
            else l.level) ≤ l.level := by
        have hT1 : k + 1 ≤ l.level := hl.1 ⟨a, v, k + 1⟩ (by simp)
        split <;> omega
      obtain ⟨l1, q1, q2, q3, q4, q5, q6, q7⟩ := ih
        { l with heap := h2,
                 level := if (atLevel (k + 1) B).head?.map Tower.addr = none ∧
                    lastAddr l.header (atLevel (k + 1) A) = l.header ∧ k + 1 > 0 then k
                    else l.level }
        true k (by omega) rfl (r4 k rfl) (lvlOK_unlink (collapse_cond hnA) hl) (Nat.le_refl _)
        (fun _ => rfl)
      refine ⟨l1, ?_, q2, q3, Nat.le_trans q4 hle2, q5, q6, ?_⟩
      · simp [deleteLoop, r1, q1]
      · rw [q7]; exact r2
    · have hlt2 : ht < k + 1 := by omega
      have hfalse : found = false := by
        cases found with
        | false => rfl
        | true => exact absurd (hfd rfl) hk
      subst hfalse
      have r := deleteStep_miss cmp item l fuel (k + 1) hs hlt hT hgt hf hi hlt2
      obtain ⟨l1, q1, q2, q3, q4, q5, q6, q7⟩ := ih l false ht (by omega) rfl hs hl (by omega)
        (by intro h; cases h)
      exact ⟨l1, by simp [deleteLoop, r, q1], q2, q3, q4, q5, q6, q7⟩

theorem delete_absent {α : Type} {cmp : α → α → Int} (item : α) {l : SkipList α}
    {A B : List (Tower α)} (hinv : InvL cmp l (A ++ B))
    (hlt : ∀ t ∈ A, cmp t.item item = -1)
    (hgt : ∀ t ∈ B, cmp t.item item = 1) :
    Delete cmp item l = .ok (false, l) := by
  have hAle : ∀ t ∈ A, t.height ≤ l.level := fun t ht => hinv.lvl_le t (List.mem_append_left _ ht)
  have hsize := hinv.size
  simp only [List.length_append] at hsize
  have hd := deleteLoop_absent cmp item l l.heap.length hinv.shape hlt hgt (by omega)
    l.level hinv.lvl_lt
  simp only [pred_top l.header hAle] at hd
  simp [Delete, hd]

theorem delete_present {α : Type} {cmp : α → α → Int} (item : α) {l : SkipList α}
    {A B : List (Tower α)} {T : Tower α} (hinv : InvL cmp l (A ++ T :: B))
    (hlt : ∀ t ∈ A, cmp t.item item = -1)
    (hT : cmp T.item item = 0)
    (hgt : ∀ t ∈ B, cmp t.item item = 1) :
    ∃ l1, Delete cmp item l = .ok (true, l1) ∧ InvL cmp l1 (A ++ B) ∧ l1.len = l.len - 1 ∧
      l1.header = l.header ∧ l1.heap.length = l.heap.length ∧ l1.level ≤ l.level := by
  obtain ⟨a, v, ht⟩ := T
  have hAle : ∀ t ∈ A, t.height ≤ l.level := fun t ht => hinv.lvl_le t (List.mem_append_left _ ht)
  have hsize := hinv.size
  simp only [List.length_append, List.length_cons] at hsize
  obtain ⟨l1, q1, q2, q3, q4, q5, q6, q7⟩ := deleteLoop_present cmp item l.heap.length
    l.header a A B v hlt hT hgt (by omega) l.level l false ht hinv.lvl_lt rfl hinv.shape
    ⟨hinv.lvl_le, hinv.lvl_top⟩ (hinv.lvl_le ⟨a, v, ht⟩ (by simp)) (by intro h; cases h)
  simp only [pred_top l.header hAle] at q1
  refine ⟨{ l1 with len := l1.len - 1 }, ?_, ?_, ?_, q5, q7, q4⟩
  · simp [Delete, q1]
  · constructor
    · exact hinv.sorted.sublist
        (List.Sublist.append (List.Sublist.refl A) (List.sublist_cons_self _ B))
    · exact q2
    · show l1.len - 1 = _
      rw [q6, hinv.len]
      simp only [List.length_append, List.length_cons]
      push_cast
      ring
    · show (A ++ B).length < l1.heap.length
      rw [q7]
      simp only [List.length_append]
      omega
    · exact q3.1
    · exact q3.2
    · have := hinv.lvl_lt
      show l1.level < maxLevel
      omega
  · show l1.len - 1 = l.len - 1
    rw [q6]

theorem exists_absent {α : Type} {cmp : α → α → Int} (item : α) {l : SkipList α}
    {A B : List (Tower α)} (hinv : InvL cmp l (A ++ B))
    (hlt : ∀ t ∈ A, cmp t.item item = -1)
    (hgt : ∀ t ∈ B, cmp t.item item = 1) :
    Exists cmp item l = .ok (false, l) := by
  have hAle : ∀ t ∈ A, t.height ≤ l.level := fun t ht => hinv.lvl_le t (List.mem_append_left _ ht)
  have hsize := hinv.size
  simp only [List.length_append] at hsize
  have hd := existsLoop_absent cmp item l.heap.length hinv.shape hlt hgt (by omega)
    l.level hinv.lvl_lt
  simp only [pred_top l.header hAle] at hd
  simp [Exists, hd]

theorem exists_present {α : Type} {cmp : α → α → Int} (item : α) {l : SkipList α}
    {A B : List (Tower α)} {T : Tower α} (hinv : InvL cmp l (A ++ T :: B))
    (hlt : ∀ t ∈ A, cmp t.item item = -1)
    (hT : cmp T.item item = 0)
    (hgt : ∀ t ∈ B, cmp t.item item = 1) :
    Exists cmp item l = .ok (true, l) := by
  have hAle : ∀ t ∈ A, t.height ≤ l.level := fun t ht => hinv.lvl_le t (List.mem_append_left _ ht)
  have hsize := hinv.size
  simp only [List.length_append] at hsize
  have hd := existsLoop_present cmp item l.heap.length hinv.shape hlt hT hgt (by omega)
    l.level hinv.lvl_lt
  simp only [pred_top l.header hAle] at hd
  simp [Exists, hd]

/-! ## Traversals of a represented list -/

theorem itemsFrom_chain {α : Type} {heap : List (Node α)} {i : Nat} (ts : List (Tower α))
    (a fuel : Nat) (hc : Chain heap i a ts) (hf : ts.length < fuel) :
    itemsFrom heap i fuel a = .ok (ts.map Tower.item) := by
  induction ts generalizing a fuel with
  | nil =>
    obtain ⟨f, rfl⟩ : ∃ f, fuel = f + 1 := ⟨fuel - 1, by simp at hf; omega⟩
    have h := hc.2
    simp only [lastAddr] at h
    simp [itemsFrom, h]
  | cons t ts ih =>
    obtain ⟨f, rfl⟩ : ∃ f, fuel = f + 1 := ⟨fuel - 1, by simp at hf; omega⟩
    have hc1 : Chain heap i t.addr ts := ⟨hc.1.2.2, hc.2⟩
    have h := ih t.addr f hc1 (by simp at hf; omega)
    simp [itemsFrom, hc.1.1, hc.1.2.1, h]

theorem addrsFrom_chain {α : Type} {heap : List (Node α)} {i : Nat} (ts : List (Tower α))
    (a fuel : Nat) (hc : Chain heap i a ts) (hf : ts.length < fuel) :
    addrsFrom heap i fuel a = .ok (ts.map Tower.addr) := by
  induction ts generalizing a fuel with
  | nil =>
    obtain ⟨f, rfl⟩ : ∃ f, fuel = f + 1 := ⟨fuel - 1, by simp at hf; omega⟩
    have h := hc.2
    simp only [lastAddr] at h
    simp [addrsFrom, h]
  | cons t ts ih =>
    obtain ⟨f, rfl⟩ : ∃ f, fuel = f + 1 := ⟨fuel - 1, by simp at hf; omega⟩
    have hc1 : Chain heap i t.addr ts := ⟨hc.1.2.2, hc.2⟩
    have h := ih t.addr f hc1 (by simp at hf; omega)
    simp [addrsFrom, hc.1.1, h]

theorem lastFrom_chain {α : Type} {heap : List (Node α)} (ts : List (Tower α))
    (a fuel : Nat) (hc : Chain heap 0 a ts) (hf : ts.length < fuel) :
    lastFrom heap fuel a = .ok (lastAddr a ts) := by
  induction ts generalizing a fuel with
  | nil =>
    obtain ⟨f, rfl⟩ : ∃ f, fuel = f + 1 := ⟨fuel - 1, by simp at hf; omega⟩
    have h := hc.2
    simp only [lastAddr] at h
    simp [lastFrom, h, lastAddr]
  | cons t ts ih =>
    obtain ⟨f, rfl⟩ : ∃ f, fuel = f + 1 := ⟨fuel - 1, by simp at hf; omega⟩
    have hc1 : Chain heap 0 t.addr ts := ⟨hc.1.2.2, hc.2⟩
    have h := ih t.addr f hc1 (by simp at hf; omega)
    simp [lastFrom, hc.1.1, h, lastAddr]

theorem backFrom_prev {α : Type} {heap : List (Node α)} {hdr : Nat} (ts : List (Tower α))
    (fuel : Nat) (hp : PrevOK heap hdr ts)
    (hi : ∀ t ∈ ts, itemOf heap t.addr = .ok t.item)
    (hn : ∀ t ∈ ts, t.addr ≠ hdr) (hf : ts.length < fuel) :
    backFrom heap hdr fuel (lastAddr hdr ts) = .ok (ts.map Tower.item).reverse := by
  induction ts using List.reverseRecOn generalizing fuel with
  | nil =>
    obtain ⟨f, rfl⟩ : ∃ f, fuel = f + 1 := ⟨fuel - 1, by simp at hf; omega⟩
    simp [backFrom, lastAddr]
  | append_singleton ts t ih =>
    obtain ⟨f, rfl⟩ : ∃ f, fuel = f + 1 := ⟨fuel - 1, by simp at hf; omega⟩
    rw [prev_append] at hp
    have hpt : prevOf heap t.addr = .ok (some (lastAddr hdr ts)) := hp.2.1
    have hit := hi t (by simp)
    have hnt := hn t (by simp)
    have h := ih f hp.1 (fun s hs => hi s (List.mem_append_left _ hs))
      (fun s hs => hn s (List.mem_append_left _ hs)) (by simp at hf; omega)
    rw [lastAddr_append]
    simp [backFrom, lastAddr, hnt, hit, hpt, h]

theorem levelItems_inv {α : Type} {cmp : α → α → Int} {l : SkipList α} {L : List (Tower α)}
    (hinv : InvL cmp l L) {i : Nat} (hi : i < maxLevel) :
    levelItems l i = .ok ((atLevel i L).map Tower.item) := by
  have hlen : (atLevel i L).length ≤ L.length := (atLevel_sublist i L).length_le
  have := hinv.size
  exact itemsFrom_chain _ _ _ (hinv.shape.chains i hi) (by omega)

theorem forward_inv {α : Type} {cmp : α → α → Int} {l : SkipList α} {L : List (Tower α)}
    (hinv : InvL cmp l L) : forward l = .ok (L.map Tower.item) := by
  have h := levelItems_inv hinv (i := 0) (by decide)
  rw [atLevel_zero] at h
  exact h

theorem levelAddrs_inv {α : Type} {cmp : α → α → Int} {l : SkipList α} {L : List (Tower α)}
    (hinv : InvL cmp l L) {i : Nat} (hi : i < maxLevel) :
    levelAddrs l i = .ok ((atLevel i L).map Tower.addr) := by
  have hlen : (atLevel i L).length ≤ L.length := (atLevel_sublist i L).length_le
  have := hinv.size
  exact addrsFrom_chain _ _ _ (hinv.shape.chains i hi) (by omega)

theorem backward_inv {α : Type} {cmp : α → α → Int} {l : SkipList α} {L : List (Tower α)}
    (hinv : InvL cmp l L) : backward l = .ok (L.map Tower.item).reverse := by
  have hc := hinv.shape.chains 0 (by decide)
  rw [atLevel_zero] at hc
  have h1 := lastFrom_chain L l.header l.heap.length hc hinv.size
  have h2 := backFrom_prev L (l.heap.length + 1) hinv.shape.prevs
    (fun t ht => shape_item hinv.shape ht)
    (fun t ht e => (List.nodup_cons.mp hinv.shape.nodup).1
      (e ▸ List.mem_map_of_mem Tower.addr ht))
    (by have := hinv.size; omega)
  simp [backward, h1, h2]

/-! ## Every reachable state is represented -/

theorem invL_new {α : Type} (cmp : α → α → Int) : InvL cmp (NewList : SkipList α) [] := by
  have h32 : (0 : Nat) < maxLevel := by decide
  refine ⟨List.Pairwise.nil, ⟨by simp, by simp, rfl, rfl, rfl, ?_, trivial⟩, rfl, by simp [NewList],
    by simp, Or.inl rfl, h32⟩
  intro i hi
  refine ⟨trivial, ?_⟩
  simp [lastAddr, atLevel, nextOf, NewList, List.getElem?_replicate, hi]

/-- What one call of `Insert` does to a represented list. -/
theorem insert_spec {α : Type} {cmp : α → α → Int} (hc : IsTotalOrder cmp) (coins : Coins)
    (item : α) {l : SkipList α} {L : List (Tower α)} (hinv : InvL cmp l L) :
    ((∃ t ∈ L, cmp t.item item = 0) ∧
      Insert cmp coins item l = .ok (false, { l with heap := l.heap ++
        [{ item := some item, next := List.replicate (l.level + 2) none, prev := none }] }) ∧
      InvL cmp { l with heap := l.heap ++
        [{ item := some item, next := List.replicate (l.level + 2) none, prev := none }] } L) ∨
    ((∀ t ∈ L, cmp t.item item ≠ 0) ∧
      ∃ l1 A B h, L = A ++ B ∧ (∀ t ∈ A, cmp t.item item = -1) ∧
        (∀ t ∈ B, cmp t.item item = 1) ∧
        Insert cmp coins item l = .ok (true, l1) ∧
        InvL cmp l1 (A ++ ⟨l.heap.length, item, h⟩ :: B) ∧ l1.header = l.header) := by
  obtain ⟨A, B, e, hlt, hB⟩ := split_sorted hc item L hinv.sorted
  subst e
  rcases hB with hgt | ⟨T, B1, e, hT, hgt⟩
  · right
    refine ⟨?_, ?_⟩
    · intro t ht
      rcases List.mem_append.mp ht with h | h
      · rw [hlt t h]; decide
      · rw [hgt t h]; decide
    · obtain ⟨l1, h, r1, r2, r3, _, _⟩ := insert_fresh hc coins item hinv hlt hgt
      exact ⟨l1, A, B, h, rfl, hlt, hgt, r1, r2, r3⟩
  · left
    subst e
    have h := insert_dup coins item hinv hlt hT hgt
    exact ⟨⟨T, by simp, hT⟩, h.1, h.2⟩

/-- What one call of `Delete` does to a represented list. -/
theorem delete_spec {α : Type} {cmp : α → α → Int} (hc : IsTotalOrder cmp)
    (item : α) {l : SkipList α} {L : List (Tower α)} (hinv : InvL cmp l L) :
    ((∀ t ∈ L, cmp t.item item ≠ 0) ∧ Delete cmp item l = .ok (false, l)) ∨
    (∃ l1 A T B, L = A ++ T :: B ∧ cmp T.item item = 0 ∧
        (∀ t ∈ A ++ B, cmp t.item item ≠ 0) ∧
        Delete cmp item l = .ok (true, l1) ∧ InvL cmp l1 (A ++ B) ∧ l1.len = l.len - 1 ∧
        l1.header = l.header) := by
  obtain ⟨A, B, e, hlt, hB⟩ := split_sorted hc item L hinv.sorted
  subst e
  rcases hB with hgt | ⟨T, B1, e, hT, hgt⟩
  · left
    refine ⟨?_, delete_absent item hinv hlt hgt⟩
    intro t ht
    rcases List.mem_append.mp ht with h | h
    · rw [hlt t h]; decide
    · rw [hgt t h]; decide
  · right
    subst e
    obtain ⟨l1, r1, r2, r3, r4, _, _⟩ := delete_present item hinv hlt hT hgt
    refine ⟨l1, A, T, B1, rfl, hT, ?_, r1, r2, r3, r4⟩
    intro t ht
    rcases List.mem_append.mp ht with h | h
    · rw [hlt t h]; decide
    · rw [hgt t h]; decide

/-- What one call of `Exists` does on a represented list. -/
theorem exists_spec {α : Type} {cmp : α → α → Int} (hc : IsTotalOrder cmp)
    (item : α) {l : SkipList α} {L : List (Tower α)} (hinv : InvL cmp l L) :
    ((∀ t ∈ L, cmp t.item item ≠ 0) ∧ Exists cmp item l = .ok (false, l)) ∨
    ((∃ t ∈ L, cmp t.item item = 0) ∧ Exists cmp item l = .ok (true, l)) := by
  obtain ⟨A, B, e, hlt, hB⟩ := split_sorted hc item L hinv.sorted
  subst e
  rcases hB with hgt | ⟨T, B1, e, hT, hgt⟩
  · left
    refine ⟨?_, exists_absent item hinv hlt hgt⟩
    intro t ht
    rcases List.mem_append.mp ht with h | h
    · rw [hlt t h]; decide
    · rw [hgt t h]; decide
  · right
    subst e
    exact ⟨⟨T, by simp, hT⟩, exists_present item hinv hlt hT hgt⟩

theorem reachable_inv {α : Type} {cmp : α → α → Int} (hc : IsTotalOrder cmp)
    {l : SkipList α} (hr : Reachable cmp l) : ∃ L, InvL cmp l L := by
  induction hr with
  | new => exact ⟨[], invL_new cmp⟩
  | insert coins item b _ hi ih =>
    obtain ⟨L, hinv⟩ := ih
    rcases insert_spec hc coins item hinv with ⟨_, h1, h2⟩ | ⟨_, l1, A, B, h, _, _, _, h1, h2, _⟩
    · rw [h1] at hi
      injection hi with hi
      injection hi with _ hi
      subst hi
      exact ⟨L, h2⟩
    · rw [h1] at hi
      injection hi with hi
      injection hi with _ hi
      subst hi
      exact ⟨_, h2⟩
  | delete item b _ hi ih =>
    obtain ⟨L, hinv⟩ := ih
    rcases delete_spec hc item hinv with ⟨_, h1⟩ | ⟨l1, A, T, B, _, _, _, h1, h2, _, _⟩
    · rw [h1] at hi
      injection hi with hi
      injection hi with _ hi
      subst hi
      exact ⟨L, hinv⟩
    · rw [h1] at hi
      injection hi with hi
      injection hi with _ hi
      subst hi
      exact ⟨_, h2⟩

/-! ## Sequences of calls -/

theorem cmp_self {α : Type} {cmp : α → α → Int} (hc : IsTotalOrder cmp) (a : α) :
    cmp a a = 0 := by
  have h := hc.antisymm a a
  omega

theorem cmp_eq_trans {α : Type} {cmp : α → α → Int} (hc : IsTotalOrder cmp) {t d e : α}
    (h1 : cmp t d = 0) (h2 : cmp t e = 0) : cmp d e = 0 := by
  have r := hc.range d e
  have a1 := hc.antisymm t d
  have a2 := hc.antisymm t e
  have a3 := hc.antisymm d e
  have t1 := hc.trans d t e
  have t2 := hc.trans e t d
  omega

theorem insertAll_inv {α : Type} {cmp : α → α → Int} (hc : IsTotalOrder cmp)
    (xs : List (α × Coins)) :
    ∀ (l : SkipList α) (L : List (Tower α)), InvL cmp l L →
      (∀ t ∈ L, ∀ x ∈ xs.map Prod.fst, cmp t.item x ≠ 0) →
      (xs.map Prod.fst).Pairwise (fun a b => cmp a b ≠ 0) →
      ∃ l1 L1, insertAll cmp xs l = .ok (List.replicate xs.length true, l1) ∧ InvL cmp l1 L1 ∧
        (L1.map Tower.item).Perm (L.map Tower.item ++ xs.map Prod.fst) ∧
        l1.header = l.header := by
  induction xs with
  | nil =>
    intro l L hinv _ _
    exact ⟨l, L, rfl, hinv, by simp, rfl⟩
  | cons xc rest ih =>
    intro l L hinv hne hpw
    obtain ⟨x, c⟩ := xc
    simp only [List.map_cons, List.pairwise_cons] at hpw
    rcases insert_spec hc c x hinv with ⟨⟨t, ht, e⟩, _, _⟩ | ⟨_, l1, A, B, h, eL, _, _, r1, r2, r3⟩
    · exact absurd e (hne t ht x (by simp))
    · subst eL
      have hne1 : ∀ t ∈ A ++ (⟨l.heap.length, x, h⟩ : Tower α) :: B,
          ∀ y ∈ rest.map Prod.fst, cmp t.item y ≠ 0 := by
        intro t ht y hy
        have hy2 : y ∈ ((x, c) :: rest).map Prod.fst := by
          simp only [List.map_cons]
          exact List.mem_cons_of_mem _ hy
        rcases List.mem_append.mp ht with h1 | h1
        · exact hne t (List.mem_append_left _ h1) y hy2
        · rcases List.mem_cons.mp h1 with e | h1
          · rw [e]
            exact hpw.1 y hy
          · exact hne t (List.mem_append_right _ h1) y hy2
      obtain ⟨l2, L2, q1, q2, q3, q4⟩ := ih l1 _ r2 hne1 hpw.2
      refine ⟨l2, L2, ?_, q2, ?_, by rw [q4, r3]⟩
      · simp [insertAll, r1, q1, List.replicate_succ]
      · refine q3.trans ?_
        simp only [List.map_append, List.map_cons, List.append_assoc, List.cons_append]
        refine List.Perm.append_left _ ?_
        exact List.perm_middle.symm

theorem deleteAll_inv {α : Type} {cmp : α → α → Int} (hc : IsTotalOrder cmp) (ds : List α) :
    ∀ (l : SkipList α) (L : List (Tower α)), InvL cmp l L →
      (∀ d ∈ ds, ∃ t ∈ L, cmp t.item d = 0) →
      ds.Pairwise (fun a b => cmp a b ≠ 0) →
      ∃ l1 L1, deleteAll cmp ds l = .ok (List.replicate ds.length true, l1) ∧ InvL cmp l1 L1 ∧
        L1.length + ds.length = L.length ∧ l1.header = l.header := by
  induction ds with
  | nil =>
    intro l L hinv _ _
    exact ⟨l, L, rfl, hinv, by simp, rfl⟩
  | cons d rest ih =>
    intro l L hinv hex hpw
    rw [List.pairwise_cons] at hpw
    rcases delete_spec hc d hinv with ⟨hno, _⟩ | ⟨l1, A, T, B, eL, hT, _, r1, r2, _, r4⟩
    · obtain ⟨t, ht, e⟩ := hex d (by simp)
      exact absurd e (hno t ht)
    · subst eL
      have hex1 : ∀ e ∈ rest, ∃ t ∈ A ++ B, cmp t.item e = 0 := by
        intro e he
        obtain ⟨t, ht, et⟩ := hex e (List.mem_cons_of_mem _ he)
        rcases List.mem_append.mp ht with h1 | h1
        · exact ⟨t, List.mem_append_left _ h1, et⟩
        · rcases List.mem_cons.mp h1 with e1 | h1
          · rw [e1] at et
            exact absurd (cmp_eq_trans hc hT et) (hpw.1 e he)
          · exact ⟨t, List.mem_append_right _ h1, et⟩
      obtain ⟨l2, L2, q1, q2, q3, q4⟩ := ih l1 _ r2 hex1 hpw.2
      refine ⟨l2, L2, ?_, q2, ?_, by rw [q4, r4]⟩
      · simp [deleteAll, r1, q1, List.replicate_succ]
      · simp only [List.length_append, List.length_cons] at q3 ⊢
        omega

theorem compareIntAsc_total : IsTotalOrder compareIntAsc := by
  constructor
  · intro a b
    unfold compareIntAsc
    split_ifs <;> simp
  · intro a b
    unfold compareIntAsc
    split_ifs <;> omega
  · intro a b c h1 h2
    unfold compareIntAsc at h1 h2 ⊢
    split_ifs at h1 h2 ⊢ <;> omega

theorem compareIntDesc_eq (a b : Int) : compareIntDesc a b = compareIntAsc b a := by
  unfold compareIntDesc compareIntAsc
  rcases lt_trichotomy a b with h | h | h
  · have h2 : ¬ b < a := by omega
    simp [h, h2]
  · subst h
    simp
  · have h2 : ¬ a < b := by omega
    simp [h, h2]

theorem compareIntDesc_total : IsTotalOrder compareIntDesc := by
  constructor
  · intro a b
    rw [compareIntDesc_eq]
    exact compareIntAsc_total.range b a
  · intro a b
    rw [compareIntDesc_eq, compareIntDesc_eq]
    exact compareIntAsc_total.antisymm b a
  · intro a b c h1 h2
    rw [compareIntDesc_eq] at h1 h2 ⊢
    exact compareIntAsc_total.trans c b a h2 h1

/-! ## Claims about Insert, Delete, Exists and Len -/

theorem insertAll_reachable {α : Type} {cmp : α → α → Int} (xs : List (α × Coins)) :
    ∀ (l l1 : SkipList α) (bs : List Bool), Reachable cmp l →
      insertAll cmp xs l = .ok (bs, l1) → Reachable cmp l1 := by
  induction xs with
  | nil =>
    intro l l1 bs hr h
    simp only [insertAll, pure_eq_ok, Except.ok.injEq, Prod.mk.injEq] at h
    rw [← h.2]
    exact hr
  | cons xc rest ih =>
    intro l l1 bs hr h
    obtain ⟨x, c⟩ := xc
    cases h1 : Insert cmp c x l with
    | error e => simp [insertAll, h1] at h
    | ok r =>
      obtain ⟨b, l2⟩ := r
      cases h2 : insertAll cmp rest l2 with
      | error e => simp [insertAll, h1, h2] at h
      | ok r2 =>
        obtain ⟨bs2, l3⟩ := r2
        simp only [insertAll, h1, h2, bind_ok, pure_eq_ok, Except.ok.injEq, Prod.mk.injEq] at h
        rw [← h.2]
        exact ih l2 l3 bs2 (Reachable.insert c x b hr h1) h2

theorem ascList_run : insertAll compareIntAsc ascInput NewList
    = .ok (List.replicate 7 true, ascList) := rfl

theorem ascList_reachable : Reachable compareIntAsc ascList :=
  insertAll_reachable ascInput NewList ascList _ Reachable.new ascList_run

theorem pairwise_items {α : Type} {cmp : α → α → Int} {l : SkipList α} {L : List (Tower α)}
    (hinv : InvL cmp l L) : (L.map Tower.item).Pairwise (fun a b => cmp a b = -1) := by
  rw [List.pairwise_map]
  exact hinv.sorted

/-- C1: with a total-order comparator, pairwise-distinct items and any coin
outcomes, every `Insert` of a run that starts on `NewList` returns true, and
afterwards the level-0 forward traversal holds exactly the inserted items (a
permutation of them) in ascending order (each item less than all later ones). -/
theorem C1_insert_all_sorted {α : Type} (cmp : α → α → Int) (hc : IsTotalOrder cmp)
    (xs : List (α × Coins)) (hd : (xs.map Prod.fst).Pairwise (fun a b => cmp a b ≠ 0)) :
    ∃ l ys, insertAll cmp xs NewList = .ok (List.replicate xs.length true, l) ∧
      forward l = .ok ys ∧ ys.Perm (xs.map Prod.fst) ∧
      ys.Pairwise (fun a b => cmp a b = -1) := by
  obtain ⟨l1, L1, r1, r2, r3, _⟩ := insertAll_inv hc xs NewList [] (invL_new cmp) (by simp) hd
  exact ⟨l1, L1.map Tower.item, r1, forward_inv r2, by simpa using r3, pairwise_items r2⟩

theorem C1_insert_all_sorted_witness :
    (∃ l ys, insertAll compareIntAsc ascInput NewList
        = .ok (List.replicate ascInput.length true, l) ∧
      forward l = .ok ys ∧ ys.Perm (ascInput.map Prod.fst) ∧
      ys.Pairwise (fun a b => compareIntAsc a b = -1)) ∧
    (∃ l ys, insertAll compareIntDesc descInput NewList
        = .ok (List.replicate descInput.length true, l) ∧
      forward l = .ok ys ∧ ys.Perm (descInput.map Prod.fst) ∧
      ys.Pairwise (fun a b => compareIntDesc a b = -1)) ∧
    (insertAll compareIntAsc ascInput NewList >>= fun r => forward r.2)
      = .ok [1, 2, 3, 4, 5, 6, 7] ∧
    (insertAll compareIntDesc descInput NewList >>= fun r => forward r.2) = .ok [2, 1] :=
  ⟨C1_insert_all_sorted compareIntAsc compareIntAsc_total ascInput (by decide),
   C1_insert_all_sorted compareIntDesc compareIntDesc_total descInput (by decide), rfl, rfl⟩

/-- C2: in a state reachable by `Insert` and `Delete` calls, `Delete` of an item
that compares equal to a stored one returns true, lowers `Len` by one, removes
exactly that item from the level-0 traversal (the others keep their order) and
leaves no item equal to it on the chain of any level. -/
theorem C2_delete_present {α : Type} (cmp : α → α → Int) (hc : IsTotalOrder cmp)
    (l : SkipList α) (hr : Reachable cmp l) (item : α) (ys : List α)
    (hf : forward l = .ok ys) (hy : ∃ y ∈ ys, cmp y item = 0) :
    ∃ l1 ys1 y ys2, Delete cmp item l = .ok (true, l1) ∧ Len l1 = Len l - 1 ∧
      ys = ys1 ++ y :: ys2 ∧ cmp y item = 0 ∧ forward l1 = .ok (ys1 ++ ys2) ∧
      ∀ i, i < maxLevel → ∃ zs, levelItems l1 i = .ok zs ∧ ∀ z ∈ zs, cmp z item ≠ 0 := by
  obtain ⟨L, hinv⟩ := reachable_inv hc hr
  rw [forward_inv hinv] at hf
  injection hf with hf
  subst hf
  rcases delete_spec hc item hinv with ⟨hno, _⟩ | ⟨l1, A, T, B, eL, hT, hne, r1, r2, r3, _⟩
  · obtain ⟨y, hy1, hy2⟩ := hy
    obtain ⟨t, ht, e⟩ := List.mem_map.mp hy1
    rw [← e] at hy2
    exact absurd hy2 (hno t ht)
  · subst eL
    refine ⟨l1, A.map Tower.item, T.item, B.map Tower.item, r1, r3, by simp, hT, ?_, ?_⟩
    · rw [forward_inv r2]
      simp
    · intro i hi
      refine ⟨_, levelItems_inv r2 hi, ?_⟩
      intro z hz
      obtain ⟨t, ht, e⟩ := List.mem_map.mp hz
      rw [← e]
      exact hne t (mem_atLevel ht)

theorem C2_delete_present_witness :
    (∃ l1 ys1 y ys2, Delete compareIntAsc 4 ascList = .ok (true, l1) ∧
      Len l1 = Len ascList - 1 ∧
      [1, 2, 3, 4, 5, 6, 7] = ys1 ++ y :: ys2 ∧ compareIntAsc y 4 = 0 ∧
      forward l1 = .ok (ys1 ++ ys2) ∧
      ∀ i, i < maxLevel → ∃ zs, levelItems l1 i = .ok zs ∧ ∀ z ∈ zs, compareIntAsc z 4 ≠ 0) ∧
    (Delete compareIntAsc 4 ascList >>= fun r => pure (r.1, Len r.2, forward r.2))
      = .ok (true, 6, .ok [1, 2, 3, 5, 6, 7]) :=
  ⟨C2_delete_present compareIntAsc compareIntAsc_total ascList ascList_reachable 4
    [1, 2, 3, 4, 5, 6, 7] rfl (by decide), rfl⟩

/-- C3: in a state reachable by `Insert` and `Delete` calls, `Insert` of an item
that compares equal to a stored one returns false whatever the coins, and changes
nothing of the list: `Len`, `level`, the header, every node that existed before
the call (item, forward links, `prev`), the chain of every level and both
level-0 traversals are the same (the heap only gains the node that was allocated
and never linked). -/
theorem C3_insert_duplicate {α : Type} (cmp : α → α → Int) (hc : IsTotalOrder cmp)
    (l : SkipList α) (hr : Reachable cmp l) (coins : Coins) (item : α) (ys : List α)
    (hf : forward l = .ok ys) (hy : ∃ y ∈ ys, cmp y item = 0) :
    ∃ l1, Insert cmp coins item l = .ok (false, l1) ∧ Len l1 = Len l ∧
      forward l1 = .ok ys ∧ l1.level = l.level ∧ l1.header = l.header ∧
      (∀ a, a < l.heap.length → l1.heap[a]? = l.heap[a]?) ∧
      (∀ i, i < maxLevel → levelAddrs l1 i = levelAddrs l i) ∧
      backward l1 = backward l := by
  obtain ⟨L, hinv⟩ := reachable_inv hc hr
  rw [forward_inv hinv] at hf
  injection hf with hf
  subst hf
  rcases insert_spec hc coins item hinv with ⟨_, r1, r2⟩ | ⟨hno, _⟩
  · refine ⟨_, r1, rfl, forward_inv r2, rfl, rfl, ?_, ?_, ?_⟩
    · intro a ha
      exact List.getElem?_append_left ha
    · intro i hi
      rw [levelAddrs_inv r2 hi, levelAddrs_inv hinv hi]
    · rw [backward_inv r2, backward_inv hinv]
  · obtain ⟨y, hy1, hy2⟩ := hy
    obtain ⟨t, ht, e⟩ := List.mem_map.mp hy1
    rw [← e] at hy2
    exact absurd hy2 (hno t ht)

theorem C3_insert_duplicate_witness :
    (∃ l1, Insert compareIntAsc (heads 5) 4 ascList = .ok (false, l1) ∧ Len l1 = Len ascList ∧
      forward l1 = .ok [1, 2, 3, 4, 5, 6, 7] ∧ l1.level = ascList.level ∧
      l1.header = ascList.header ∧
      (∀ a, a < ascList.heap.length → l1.heap[a]? = ascList.heap[a]?) ∧
      (∀ i, i < maxLevel → levelAddrs l1 i = levelAddrs ascList i) ∧
      backward l1 = backward ascList) ∧
    (Insert compareIntAsc (heads 5) 4 ascList >>= fun r => pure (r.1, Len r.2))
      = .ok (false, 7) :=
  ⟨C3_insert_duplicate compareIntAsc compareIntAsc_total ascList ascList_reachable (heads 5) 4
    [1, 2, 3, 4, 5, 6, 7] rfl (by decide), rfl⟩

/-- C4: in a state reachable by `Insert` and `Delete` calls, `Exists` returns
true exactly when some item of the level-0 traversal compares equal to the
queried item, and it returns the state it was given; it is false on a new list
and true for an item right after an `Insert` of it that returned true. -/
theorem C4_exists_iff_stored {α : Type} (cmp : α → α → Int) (hc : IsTotalOrder cmp)
    (l : SkipList α) (hr : Reachable cmp l) (item : α) :
    (∃ b ys, Exists cmp item l = .ok (b, l) ∧ forward l = .ok ys ∧
      (b = true ↔ ∃ y ∈ ys, cmp y item = 0)) ∧
    Exists cmp item (NewList : SkipList α) = .ok (false, NewList) ∧
    ∀ coins l1, Insert cmp coins item l = .ok (true, l1) →
      Exists cmp item l1 = .ok (true, l1) := by
  obtain ⟨L, hinv⟩ := reachable_inv hc hr
  refine ⟨?_, ?_, ?_⟩
  · rcases exists_spec hc item hinv with ⟨hno, r⟩ | ⟨⟨t, ht, e⟩, r⟩
    · refine ⟨false, _, r, forward_inv hinv, ?_⟩
      constructor
      · intro h; cases h
      · rintro ⟨y, hy1, hy2⟩
        obtain ⟨t, ht, e⟩ := List.mem_map.mp hy1
        rw [← e] at hy2
        exact absurd hy2 (hno t ht)
    · exact ⟨true, _, r, forward_inv hinv,
        ⟨fun _ => ⟨t.item, List.mem_map_of_mem Tower.item ht, e⟩, fun _ => rfl⟩⟩
  · rcases exists_spec hc item (invL_new cmp) with ⟨_, r⟩ | ⟨⟨t, ht, _⟩, _⟩
    · exact r
    · simp at ht
  · intro coins l1 hi
    rcases insert_spec hc coins item hinv with ⟨_, r1, _⟩ | ⟨_, l2, A, B, h, _, _, _, r1, r2, _⟩
    · rw [r1] at hi
      injection hi with hi
      injection hi with hb _
      cases hb
    · rw [r1] at hi
      injection hi with hi
      injection hi with _ hl
      subst hl
      rcases exists_spec hc item r2 with ⟨hno, _⟩ | ⟨_, r⟩
      · exact absurd (cmp_self hc item) (hno ⟨l.heap.length, item, h⟩ (by simp))
      · exact r

theorem C4_exists_iff_stored_witness :
    ((∃ b ys, Exists compareIntAsc 4 ascList = .ok (b, ascList) ∧ forward ascList = .ok ys ∧
      (b = true ↔ ∃ y ∈ ys, compareIntAsc y 4 = 0)) ∧
    Exists compareIntAsc 4 (NewList : SkipList Int) = .ok (false, NewList) ∧
    ∀ coins l1, Insert compareIntAsc coins 4 ascList = .ok (true, l1) →
      Exists compareIntAsc 4 l1 = .ok (true, l1)) ∧
    Exists compareIntAsc 4 ascList = .ok (true, ascList) ∧
    Exists compareIntAsc 8 ascList = .ok (false, ascList) :=
  ⟨C4_exists_iff_stored compareIntAsc compareIntAsc_total ascList ascList_reachable 4, rfl, rfl⟩

/-- C5: `Len` is 0 on a list made by `NewList`, and in a run of `Insert` calls on
pairwise-distinct items, whatever the coins, every call returns true and `Len`
is `k` after the `k`-th call, for every `k` up to the number of items. -/
theorem C5_len_counts_inserts {α : Type} (cmp : α → α → Int) (hc : IsTotalOrder cmp)
    (xs : List (α × Coins)) (hd : (xs.map Prod.fst).Pairwise (fun a b => cmp a b ≠ 0)) :
    Len (NewList : SkipList α) = 0 ∧
    ∀ k, k ≤ xs.length →
      ∃ l, insertAll cmp (xs.take k) NewList = .ok (List.replicate k true, l) ∧ Len l = k := by
  refine ⟨rfl, ?_⟩
  intro k hk
  have hd2 : ((xs.take k).map Prod.fst).Pairwise (fun a b => cmp a b ≠ 0) :=
    hd.sublist ((List.take_sublist k xs).map Prod.fst)
  obtain ⟨l1, L1, r1, r2, r3, _⟩ :=
    insertAll_inv hc (xs.take k) NewList [] (invL_new cmp) (by simp) hd2
  have hlen : (xs.take k).length = k := by
    rw [List.length_take]
    omega
  rw [hlen] at r1
  refine ⟨l1, r1, ?_⟩
  have h1 := r3.length_eq
  simp only [List.length_map, List.map_nil, List.nil_append, hlen] at h1
  show l1.len = k
  rw [r2.len, h1]

theorem C5_len_counts_inserts_witness :
    Len (NewList : SkipList Int) = 0 ∧
    ∀ k, k ≤ ascInput.length →
      ∃ l, insertAll compareIntAsc (ascInput.take k) NewList = .ok (List.replicate k true, l) ∧
        Len l = k :=
  C5_len_counts_inserts compareIntAsc compareIntAsc_total ascInput (by decide)

/-- C6: in a state reachable by `Insert` and `Delete` calls, `Delete` of an item
that compares equal to no stored item returns false and returns the state it
was given: the heap (every forward and backward link), `Len` and `level`. -/
theorem C6_delete_absent {α : Type} (cmp : α → α → Int) (hc : IsTotalOrder cmp)
    (l : SkipList α) (hr : Reachable cmp l) (item : α) (ys : List α)
    (hf : forward l = .ok ys) (hn : ∀ y ∈ ys, cmp y item ≠ 0) :
    Delete cmp item l = .ok (false, l) := by
  obtain ⟨L, hinv⟩ := reachable_inv hc hr
  rw [forward_inv hinv] at hf
  injection hf with hf
  subst hf
  rcases delete_spec hc item hinv with ⟨_, r⟩ | ⟨l1, A, T, B, eL, hT, _, _, _, _, _⟩
  · exact r
  · subst eL
    exact absurd hT (hn T.item (by simp))

theorem C6_delete_absent_witness : Delete compareIntAsc 8 ascList = .ok (false, ascList) :=
  C6_delete_absent compareIntAsc compareIntAsc_total ascList ascList_reachable 8
    [1, 2, 3, 4, 5, 6, 7] rfl (by decide)

theorem hdr_node {α : Type} {heap : List (Node α)} {hdr : Nat} {L : List (Tower α)}
    (hs : Shape heap hdr L) :
    ∃ n, heap[hdr]? = some n ∧ n.item = none ∧ n.prev = none ∧ n.next.length = maxLevel := by
  have h1 := hs.hdrPrev
  have h2 := hs.hdrItem
  have h3 := hs.hdrLen
  unfold prevOf at h1
  unfold itemOf at h2
  unfold nextLen at h3
  cases hx : heap[hdr]? with
  | none => simp [hx] at h1
  | some n =>
    simp only [hx, Except.ok.injEq, Option.map_some', Option.some.injEq] at h1 h2 h3
    refine ⟨n, rfl, ?_, h1, h3⟩
    cases hi : n.item with
    | none => rfl
    | some v => simp [hi] at h2

theorem prev_of_next {α : Type} {heap : List (Node α)} (L : List (Tower α)) (a0 : Nat)
    (hseg : Seg heap 0 a0 L) (hp : PrevOK heap a0 L) :
    ∀ n ∈ L.map Tower.addr, ∃ a ∈ a0 :: L.map Tower.addr,
      nextOf heap a 0 = .ok (some n) ∧ prevOf heap n = .ok (some a) := by
  induction L generalizing a0 with
  | nil => intro n hn; simp at hn
  | cons t ts ih =>
    intro n hn
    simp only [List.map_cons] at hn ⊢
    rcases List.mem_cons.mp hn with e | hn
    · rw [e]
      exact ⟨a0, List.mem_cons_self _ _, hseg.1, hp.1⟩
    · obtain ⟨a, ha, r1, r2⟩ := ih t.addr hseg.2.2 hp.2 n hn
      exact ⟨a, List.mem_cons_of_mem _ ha, r1, r2⟩

/-- C9: in a state reachable by `Insert` and `Delete` calls the header has no
item and a nil `prev`; every node `n` of the level-0 chain has as `prev` the node
(the header or a node of the chain) whose `next[0]` is `n`; and the backward
traversal, from the last node along `prev` to the header, is the reverse of the
level-0 forward traversal. -/
theorem C9_base_level_doubly_linked {α : Type} (cmp : α → α → Int) (hc : IsTotalOrder cmp)
    (l : SkipList α) (hr : Reachable cmp l) :
    (∃ hn, l.heap[l.header]? = some hn ∧ hn.item = none ∧ hn.prev = none) ∧
    ∃ addrs ys, levelAddrs l 0 = .ok addrs ∧ forward l = .ok ys ∧
      (∀ n ∈ addrs, ∃ a ∈ l.header :: addrs,
        nextOf l.heap a 0 = .ok (some n) ∧ prevOf l.heap n = .ok (some a)) ∧
      backward l = .ok ys.reverse := by
  obtain ⟨L, hinv⟩ := reachable_inv hc hr
  obtain ⟨hn, h1, h2, h3, _⟩ := hdr_node hinv.shape
  refine ⟨⟨hn, h1, h2, h3⟩, L.map Tower.addr, L.map Tower.item, ?_, forward_inv hinv, ?_,
    backward_inv hinv⟩
  · have h := levelAddrs_inv hinv (i := 0) (by decide)
    rw [atLevel_zero] at h
    exact h
  · have hc0 := hinv.shape.chains 0 (by decide)
    rw [atLevel_zero] at hc0
    exact prev_of_next L l.header hc0.1 hinv.shape.prevs

theorem C9_base_level_doubly_linked_witness :
    ((∃ hn, ascList.heap[ascList.header]? = some hn ∧ hn.item = none ∧ hn.prev = none) ∧
    ∃ addrs ys, levelAddrs ascList 0 = .ok addrs ∧ forward ascList = .ok ys ∧
      (∀ n ∈ addrs, ∃ a ∈ ascList.header :: addrs,
        nextOf ascList.heap a 0 = .ok (some n) ∧ prevOf ascList.heap n = .ok (some a)) ∧
      backward ascList = .ok ys.reverse) ∧
    forward ascList = .ok [1, 2, 3, 4, 5, 6, 7] ∧
    backward ascList = .ok [7, 6, 5, 4, 3, 2, 1] :=
  ⟨C9_base_level_doubly_linked compareIntAsc compareIntAsc_total ascList ascList_reachable,
    rfl, rfl⟩

/-- C10: after a run of `Insert` calls on pairwise-distinct items into a new
list, `Delete` of the same items in any order returns true every time and ends
in the state of a new list: `Len` 0, an empty level-0 traversal, `level` 0, every
forward link of the header nil, and a header node equal to that of `NewList`. -/
theorem C10_delete_all_empties {α : Type} (cmp : α → α → Int) (hc : IsTotalOrder cmp)
    (xs : List (α × Coins)) (hd : (xs.map Prod.fst).Pairwise (fun a b => cmp a b ≠ 0))
    (ds : List α) (hp : ds.Perm (xs.map Prod.fst)) :
    ∃ l1 l2, insertAll cmp xs NewList = .ok (List.replicate xs.length true, l1) ∧
      deleteAll cmp ds l1 = .ok (List.replicate ds.length true, l2) ∧
      Len l2 = 0 ∧ forward l2 = .ok [] ∧ l2.level = 0 ∧
      (∀ i, i < maxLevel → nextOf l2.heap l2.header i = .ok none) ∧
      l2.heap[l2.header]? = (NewList : SkipList α).heap[(NewList : SkipList α).header]? := by
  obtain ⟨l1, L1, r1, r2, r3, _⟩ := insertAll_inv hc xs NewList [] (invL_new cmp) (by simp) hd
  simp only [List.map_nil, List.nil_append] at r3
  have hsym : ∀ {x y : α}, cmp x y ≠ 0 → cmp y x ≠ 0 := by
    intro x y h e
    have := hc.antisymm x y
    omega
  have hd2 : ds.Pairwise (fun a b => cmp a b ≠ 0) := (hp.pairwise_iff hsym).mpr hd
  have hex : ∀ d ∈ ds, ∃ t ∈ L1, cmp t.item d = 0 := by
    intro d hd1
    have h1 : d ∈ L1.map Tower.item := r3.mem_iff.mpr (hp.mem_iff.mp hd1)
    obtain ⟨t, ht, e⟩ := List.mem_map.mp h1
    exact ⟨t, ht, by rw [e]; exact cmp_self hc d⟩
  obtain ⟨l2, L2, q1, q2, q3, _⟩ := deleteAll_inv hc ds l1 L1 r2 hex hd2
  have hL2 : L2 = [] := by
    have h1 := r3.length_eq
    have h2 := hp.length_eq
    simp only [List.length_map] at h1 h2
    exact List.length_eq_zero.mp (by omega)
  subst hL2
  have hnil : ∀ i, i < maxLevel → nextOf l2.heap l2.header i = .ok none := by
    intro i hi
    exact (q2.shape.chains i hi).2
  refine ⟨l1, l2, r1, q1, ?_, forward_inv q2, ?_, hnil, ?_⟩
  · show l2.len = 0
    rw [q2.len]
    rfl
  · rcases q2.lvl_top with h | ⟨t, ht, _⟩
    · exact h
    · simp at ht
  · obtain ⟨hn, h1, h2, h3, h4⟩ := hdr_node q2.shape
    have h5 : hn.next = List.replicate maxLevel none := by
      rw [List.eq_replicate_iff]
      refine ⟨h4, ?_⟩
      intro b hb
      obtain ⟨i, hi, e⟩ := List.mem_iff_getElem.mp hb
      have h6 := hnil i (by rw [← h4]; exact hi)
      obtain ⟨n2, hn2, e2⟩ := nextOf_eq_ok.mp h6
      rw [h1] at hn2
      injection hn2 with hn2
      subst hn2
      rw [List.getElem?_eq_getElem hi, e] at e2
      injection e2
    rw [h1]
    obtain ⟨it, nx, pv⟩ := hn
    simp only at h2 h3 h5
    subst h2
    subst h3
    subst h5
    rfl

theorem C10_delete_all_empties_witness :
    (∃ l1 l2, insertAll compareIntAsc ascInput NewList
        = .ok (List.replicate ascInput.length true, l1) ∧
      deleteAll compareIntAsc [4, 2, 7, 1, 6, 3, 5] l1
        = .ok (List.replicate [4, 2, 7, 1, 6, 3, 5].length true, l2) ∧
      Len l2 = 0 ∧ forward l2 = .ok [] ∧ l2.level = 0 ∧
      (∀ i, i < maxLevel → nextOf l2.heap l2.header i = .ok none) ∧
      l2.heap[l2.header]? = (NewList : SkipList Int).heap[(NewList : SkipList Int).header]?) ∧
    (deleteAll compareIntAsc [4, 2, 7, 1, 6, 3, 5] ascList
        >>= fun r => pure (r.1, Len r.2, r.2.level, forward r.2))
      = .ok (List.replicate 7 true, 0, 0, .ok []) :=
  ⟨C10_delete_all_empties compareIntAsc compareIntAsc_total ascInput (by decide)
    [4, 2, 7, 1, 6, 3, 5] (by decide), rfl⟩

/-! ## Claims about InsertV2 -/

/-- C7: `InsertV2` of an item that is already stored returns false but has
mutated the list.  On the reachable list that holds only 5, `InsertV2(5)` with
the first coin heads raises `level` from 0 to 1 and links a second node with
item 5 to the header on level 1; `Len` stays 1, so that node is reachable from
the header and not counted. -/
theorem C7_insertV2_duplicate_mutates :
    Insert compareIntAsc (heads 0) 5 NewList = .ok (true, c7Before) ∧
    InsertV2 compareIntAsc (heads 1) 5 c7Before = .ok (false, c7After) ∧
    c7Before.level = 0 ∧ c7After.level = 1 ∧
    nextOf c7Before.heap c7Before.header 1 = .ok none ∧
    nextOf c7After.heap c7After.header 1 = .ok (some 2) ∧
    levelItems c7After 1 = .ok [5] ∧ forward c7After = .ok [5] ∧ Len c7After = 1 :=
  ⟨rfl, rfl, rfl, rfl, rfl, rfl, rfl, rfl, rfl⟩

theorem randLevel_at_cap {α : Type} (l : SkipList α) (h : l.level = 31) :
    randLevel (fun _ => true) l = .ok 32 := by
  unfold randLevel
  rw [h]
  rfl

theorem insertV2_cap_fault {α : Type} (cmp : α → α → Int) (item : α) (l : SkipList α)
    (h : l.level = 31) (hn : nextLen l.heap l.header = some maxLevel) :
    InsertV2 cmp (fun _ => true) item l = .error .indexOutOfRange := by
  unfold nextLen at hn
  cases hx : l.heap[l.header]? with
  | none => simp [hx] at hn
  | some n =>
    simp only [hx, Option.map_some', Option.some.injEq] at hn
    have hlt : l.header < l.heap.length := (List.getElem?_eq_some.mp hx).1
    have hnx : ∀ n0 : Node α, nextOf (l.heap ++ [n0]) l.header 32 = .error .indexOutOfRange := by
      intro n0
      unfold nextOf
      rw [List.getElem?_append_left hlt, hx]
      have : n.next[32]? = none := List.getElem?_eq_none (by rw [hn]; decide)
      simp [this]
    have hgt : 32 > l.level := by omega
    have hloop : ∀ (n0 : Node α) (node fuel : Nat),
        insertV2Loop cmp item node 32 (fuel + 1) (31 + 1) l.header false
          { heap := l.heap ++ [n0], header := l.header, len := l.len, level := 32 }
          = .error .indexOutOfRange := by
      intro n0 node fuel
      simp only [insertV2Loop, insertV2Step, walk, hnx, bind_error]
    unfold InsertV2
    rw [randLevel_at_cap l h]
    simp only [bind_ok, if_pos hgt, List.length_append, List.length_singleton]
    rw [show (32 : Nat) = 31 + 1 from rfl, hloop]
    rfl

theorem insertAll_append {α : Type} (cmp : α → α → Int) (xs ys : List (α × Coins)) :
    ∀ (l l1 l2 : SkipList α) (bs cs : List Bool),
      insertAll cmp xs l = .ok (bs, l1) → insertAll cmp ys l1 = .ok (cs, l2) →
      insertAll cmp (xs ++ ys) l = .ok (bs ++ cs, l2) := by
  induction xs with
  | nil =>
    intro l l1 l2 bs cs h1 h2
    simp only [insertAll, pure_eq_ok, Except.ok.injEq, Prod.mk.injEq] at h1
    rw [← h1.1, h1.2]
    simpa using h2
  | cons xc rest ih =>
    intro l l1 l2 bs cs h1 h2
    obtain ⟨x, c⟩ := xc
    cases h3 : Insert cmp c x l with
    | error e => simp [insertAll, h3] at h1
    | ok r =>
      obtain ⟨b, l3⟩ := r
      cases h4 : insertAll cmp rest l3 with
      | error e => simp [insertAll, h3, h4] at h1
      | ok r2 =>
        obtain ⟨bs2, l4⟩ := r2
        simp only [insertAll, h3, h4, bind_ok, pure_eq_ok, Except.ok.injEq, Prod.mk.injEq] at h1
        obtain ⟨hb, hl⟩ := h1
        subst hl
        subst hb
        have h5 := ih l3 l4 l2 bs2 cs h4 h2
        simp [insertAll, h3, h5]

theorem tall_run (n : Nat) (hn : n ≤ 31) :
    ∃ l L, insertAll compareIntAsc
        ((List.range n).map (fun (i : Nat) => (Int.ofNat i, fun _ => true))) NewList
          = .ok (List.replicate n true, l) ∧
      InvL compareIntAsc l L ∧ l.level = n ∧ ∀ t ∈ L, t.item < Int.ofNat n := by
  induction n with
  | zero => exact ⟨NewList, [], rfl, invL_new _, rfl, by simp⟩
  | succ n ih =>
    obtain ⟨l, L, r1, r2, r3, r4⟩ := ih (by omega)
    have hinv : InvL compareIntAsc l (L ++ []) := by simpa using r2
    have hlt : ∀ t ∈ L, compareIntAsc t.item (Int.ofNat n) = -1 := by
      intro t ht
      unfold compareIntAsc
      rw [if_pos (r4 t ht)]
    obtain ⟨l1, h, q1, q2, _, _, q5⟩ :=
      insert_fresh compareIntAsc_total (fun _ => true) (Int.ofNat n) hinv hlt (by simp)
    have hlv : l1.level = n + 1 := by
      rw [q5 (fun _ => rfl) (by rw [r3]; unfold maxLevel; omega), r3]
    have hone : insertAll compareIntAsc [(Int.ofNat n, fun _ => true)] l
        = .ok ([true], l1) := by
      rw [insertAll, q1]
      rfl
    refine ⟨l1, _, ?_, q2, hlv, ?_⟩
    · rw [List.range_succ, List.map_append, List.replicate_succ', List.map_singleton]
      exact insertAll_append compareIntAsc _ _ NewList l l1 _ _ r1 hone
    · intro t ht
      rcases List.mem_append.mp ht with h1 | h1
      · have := r4 t h1
        simp only [Int.ofNat_eq_coe] at this ⊢
        omega
      · simp only [List.mem_singleton] at h1
        rw [h1]
        simp only [Int.ofNat_eq_coe]
        omega

/-- C8: the height cap fails at the top level.  After `Insert` of 0, 1, ..., 30
with every coin heads the list's level is 31; there `randLevel` with every coin
heads returns 32, and `InsertV2` faults with an index out of range on the
header's 32-slot forward array. -/
theorem C8_height_cap_violated :
    ∃ l, insertAll compareIntAsc tallInput NewList = .ok (List.replicate 31 true, l) ∧
      Reachable compareIntAsc l ∧ l.level = 31 ∧
      randLevel (fun _ => true) l = .ok 32 ∧
      InsertV2 compareIntAsc (fun _ => true) 100 l = .error .indexOutOfRange := by
  obtain ⟨l, L, r1, r2, r3, _⟩ := tall_run 31 (Nat.le_refl _)
  exact ⟨l, r1, insertAll_reachable _ NewList l _ Reachable.new r1, r3, randLevel_at_cap l r3,
    insertV2_cap_fault compareIntAsc 100 l r3 r2.shape.hdrLen⟩

/-! ## Further properties of reachable states -/

/-- With a total-order comparator no call faults on a state reachable by
`Insert` and `Delete` calls: `Insert`, `Delete` and `Exists` all return. -/
theorem reachable_no_fault {α : Type} (cmp : α → α → Int) (hc : IsTotalOrder cmp)
    (l : SkipList α) (hr : Reachable cmp l) (coins : Coins) (item : α) :
    (∃ b l1, Insert cmp coins item l = .ok (b, l1)) ∧
    (∃ b l1, Delete cmp item l = .ok (b, l1)) ∧
    (∃ b, Exists cmp item l = .ok (b, l)) := by
  obtain ⟨L, hinv⟩ := reachable_inv hc hr
  refine ⟨?_, ?_, ?_⟩
  · rcases insert_spec hc coins item hinv with ⟨_, r, _⟩ | ⟨_, l1, _, _, _, _, _, _, r, _, _⟩
    · exact ⟨false, _, r⟩
    · exact ⟨true, l1, r⟩
  · rcases delete_spec hc item hinv with ⟨_, r⟩ | ⟨l1, _, _, _, _, _, _, r, _, _, _⟩
    · exact ⟨false, l, r⟩
    · exact ⟨true, l1, r⟩
  · rcases exists_spec hc item hinv with ⟨_, r⟩ | ⟨_, r⟩
    · exact ⟨false, r⟩
    · exact ⟨true, r⟩

theorem reachable_no_fault_witness :
    (∃ b l1, Insert compareIntAsc (heads 2) 9 ascList = .ok (b, l1)) ∧
    (∃ b l1, Delete compareIntAsc 9 ascList = .ok (b, l1)) ∧
    (∃ b, Exists compareIntAsc 9 ascList = .ok (b, ascList)) :=
  reachable_no_fault compareIntAsc compareIntAsc_total ascList ascList_reachable (heads 2) 9

/-- Count invariant: on a state reachable by `Insert` and `Delete` calls, `Len`
is the number of items of the level-0 forward traversal. -/
theorem reachable_len_counts {α : Type} (cmp : α → α → Int) (hc : IsTotalOrder cmp)
    (l : SkipList α) (hr : Reachable cmp l) :
    ∃ ys, forward l = .ok ys ∧ Len l = ys.length := by
  obtain ⟨L, hinv⟩ := reachable_inv hc hr
  refine ⟨L.map Tower.item, forward_inv hinv, ?_⟩
  show l.len = _
  rw [hinv.len, List.length_map]

theorem reachable_len_counts_witness :
    ∃ ys, forward ascList = .ok ys ∧ Len ascList = ys.length :=
  reachable_len_counts compareIntAsc compareIntAsc_total ascList ascList_reachable

/-- On a state reachable by `Insert` and `Delete` calls, `Insert` of an item that
compares equal to no stored item returns true whatever the coins, raises `Len`
by one, and puts the item into the level-0 traversal between the items less
than it and the items greater than it. -/
theorem insert_absent_sorted {α : Type} (cmp : α → α → Int) (hc : IsTotalOrder cmp)
    (l : SkipList α) (hr : Reachable cmp l) (coins : Coins) (item : α) (ys : List α)
    (hf : forward l = .ok ys) (hn : ∀ y ∈ ys, cmp y item ≠ 0) :
    ∃ l1 ys1 ys2, Insert cmp coins item l = .ok (true, l1) ∧ Len l1 = Len l + 1 ∧
      ys = ys1 ++ ys2 ∧ forward l1 = .ok (ys1 ++ item :: ys2) ∧
      (∀ y ∈ ys1, cmp y item = -1) ∧ (∀ y ∈ ys2, cmp y item = 1) := by
  obtain ⟨L, hinv⟩ := reachable_inv hc hr
  rw [forward_inv hinv] at hf
  injection hf with hf
  subst hf
  rcases insert_spec hc coins item hinv with ⟨⟨t, ht, e⟩, _, _⟩ |
    ⟨_, l1, A, B, h, eL, hlt, hgt, r1, r2, _⟩
  · exact absurd e (hn t.item (List.mem_map_of_mem Tower.item ht))
  · subst eL
    refine ⟨l1, A.map Tower.item, B.map Tower.item, r1, ?_, by simp, ?_, ?_, ?_⟩
    · show l1.len = l.len + 1
      rw [r2.len, hinv.len]
      simp only [List.length_append, List.length_cons]
      push_cast
      ring
    · rw [forward_inv r2]
      simp
    · intro y hy
      obtain ⟨t, ht, e⟩ := List.mem_map.mp hy
      rw [← e]
      exact hlt t ht
    · intro y hy
      obtain ⟨t, ht, e⟩ := List.mem_map.mp hy
      rw [← e]
      exact hgt t ht

theorem insert_absent_sorted_witness :
    (∃ l1 ys1 ys2, Insert compareIntAsc (heads 2) 0 ascList = .ok (true, l1) ∧
      Len l1 = Len ascList + 1 ∧
      [1, 2, 3, 4, 5, 6, 7] = ys1 ++ ys2 ∧ forward l1 = .ok (ys1 ++ 0 :: ys2) ∧
      (∀ y ∈ ys1, compareIntAsc y 0 = -1) ∧ (∀ y ∈ ys2, compareIntAsc y 0 = 1)) ∧
    (Insert compareIntAsc (heads 2) 0 ascList >>= fun r => forward r.2)
      = .ok [0, 1, 2, 3, 4, 5, 6, 7] :=
  ⟨insert_absent_sorted compareIntAsc compareIntAsc_total ascList ascList_reachable (heads 2) 0
    [1, 2, 3, 4, 5, 6, 7] rfl (by decide), rfl⟩

/-! ## Level bound, level collapse, towers -/

theorem chain_next_some {α : Type} {heap : List (Node α)} {i a : Nat} {ts : List (Tower α)}
    (h : Chain heap i a ts) (hne : ts ≠ []) : ∃ b, nextOf heap a i = .ok (some b) := by
  cases ts with
  | nil => exact absurd rfl hne
  | cons t ts => exact ⟨t.addr, h.1.1⟩

theorem atLevel_ne_nil {α : Type} {i : Nat} {L : List (Tower α)} {t : Tower α}
    (ht : t ∈ L) (hh : i ≤ t.height) : atLevel i L ≠ [] := by
  intro e
  have := atLevel_nil_lt e ht
  omega

/-- C12: in a state reachable by `Insert` and `Delete` calls, `level` is below
`maxLevel`, every forward link of the header above `level` is nil, and either
the header's link at `level` is not nil (so `level` is the highest index with a
non-nil link) or the list is empty, `level` is 0 and every header link is nil. -/
theorem C12_level_bound {α : Type} (cmp : α → α → Int) (hc : IsTotalOrder cmp)
    (l : SkipList α) (hr : Reachable cmp l) :
    l.level < maxLevel ∧
    (∀ j, l.level < j → j < maxLevel → nextOf l.heap l.header j = .ok none) ∧
    ((∃ a, nextOf l.heap l.header l.level = .ok (some a)) ∨
      (l.level = 0 ∧ forward l = .ok [] ∧
        ∀ j, j < maxLevel → nextOf l.heap l.header j = .ok none)) := by
  obtain ⟨L, hinv⟩ := reachable_inv hc hr
  have habove : ∀ j, l.level < j → j < maxLevel → nextOf l.heap l.header j = .ok none := by
    intro j hj hjm
    have hc1 := hinv.shape.chains j hjm
    rw [atLevel_eq_nil (fun t ht => Nat.lt_of_le_of_lt (hinv.lvl_le t ht) hj)] at hc1
    exact hc1.2
  refine ⟨hinv.lvl_lt, habove, ?_⟩
  cases hL : L with
  | nil =>
    right
    subst hL
    have h0 : l.level = 0 := by
      rcases hinv.lvl_top with h | ⟨t, ht, _⟩
      · exact h
      · simp at ht
    refine ⟨h0, forward_inv hinv, ?_⟩
    intro j hjm
    exact (hinv.shape.chains j hjm).2
  | cons t0 L0 =>
    left
    have hex : ∃ t ∈ L, l.level ≤ t.height := by
      rcases hinv.lvl_top with h | ⟨t, ht, e⟩
      · exact ⟨t0, by rw [hL]; simp, by omega⟩
      · exact ⟨t, ht, by omega⟩
    obtain ⟨t, ht, hh⟩ := hex
    exact chain_next_some (hinv.shape.chains l.level hinv.lvl_lt) (atLevel_ne_nil ht hh)

theorem C12_level_bound_witness :
    ascList.level < maxLevel ∧
    (∀ j, ascList.level < j → j < maxLevel → nextOf ascList.heap ascList.header j = .ok none) ∧
    ((∃ a, nextOf ascList.heap ascList.header ascList.level = .ok (some a)) ∨
      (ascList.level = 0 ∧ forward ascList = .ok [] ∧
        ∀ j, j < maxLevel → nextOf ascList.heap ascList.header j = .ok none)) :=
  C12_level_bound compareIntAsc compareIntAsc_total ascList ascList_reachable

theorem deleteAll_reachable {α : Type} {cmp : α → α → Int} (ds : List α) :
    ∀ (l l1 : SkipList α) (bs : List Bool), Reachable cmp l →
      deleteAll cmp ds l = .ok (bs, l1) → Reachable cmp l1 := by
  induction ds with
  | nil =>
    intro l l1 bs hr h
    simp only [deleteAll, pure_eq_ok, Except.ok.injEq, Prod.mk.injEq] at h
    rw [← h.2]
    exact hr
  | cons d rest ih =>
    intro l l1 bs hr h
    cases h1 : Delete cmp d l with
    | error e => simp [deleteAll, h1] at h
    | ok r =>
      obtain ⟨b, l2⟩ := r
      cases h2 : deleteAll cmp rest l2 with
      | error e => simp [deleteAll, h1, h2] at h
      | ok r2 =>
        obtain ⟨bs2, l3⟩ := r2
        simp only [deleteAll, h1, h2, bind_ok, pure_eq_ok, Except.ok.injEq, Prod.mk.injEq] at h
        rw [← h.2]
        exact ih l2 l3 bs2 (Reachable.delete d b hr h1) h2

theorem c13Before_reachable : Reachable compareIntAsc c13Before := by
  have h1 : insertAll compareIntAsc [(1, heads 1), (2, heads 2)] NewList
      = .ok ([true, true], c13Mid) := rfl
  have hr1 := insertAll_reachable _ NewList _ _ Reachable.new h1
  have h2 : Delete compareIntAsc 1 c13Mid = .ok (true, c13Before) := rfl
  exact Reachable.delete 1 true hr1 h2

/-- C13 fails as stated: on the reachable list `c13Before` the node of 2 is the
only node on levels 1 and 2, the level is 2, and one `Delete(2)` lowers the
level to 0, by two. -/
theorem C13_level_drops_by_two :
    Reachable compareIntAsc c13Before ∧ c13Before.level = 2 ∧
    levelItems c13Before 2 = .ok [2] ∧ levelItems c13Before 1 = .ok [2] ∧
    (Delete compareIntAsc 2 c13Before >>= fun r => pure (r.1, r.2.level)) = .ok (true, 0) ∧
    ¬ (∀ l1, Delete compareIntAsc 2 c13Before = .ok (true, l1) →
        c13Before.level ≤ l1.level + 1) := by
  refine ⟨c13Before_reachable, rfl, rfl, rfl, rfl, ?_⟩
  intro h
  cases hd : Delete compareIntAsc 2 c13Before with
  | error e =>
    have h2 : (Delete compareIntAsc 2 c13Before >>= fun r => pure (r.1, r.2.level))
        = .ok (true, 0) := rfl
    rw [hd] at h2
    cases h2
  | ok r =>
    obtain ⟨b, l1⟩ := r
    have h2 : (Delete compareIntAsc 2 c13Before >>= fun r => pure (r.1, r.2.level))
        = .ok (true, 0) := rfl
    rw [hd] at h2
    simp only [bind_ok, pure_eq_ok, Except.ok.injEq, Prod.mk.injEq] at h2
    obtain ⟨hb, hl⟩ := h2
    subst hb
    have h3 := h l1 hd
    rw [hl] at h3
    exact absurd h3 (by decide)

/-- C13 (amended): `Delete` of a stored item never raises `level` and leaves it
at the highest level that still has a node (0 when no level above 0 has one):
every level above the new `level` is empty, the new top level is not empty
unless `level` is 0, and `level` is unchanged when the old top level holds an
item other than the removed one. -/
theorem C13_level_collapse {α : Type} (cmp : α → α → Int) (hc : IsTotalOrder cmp)
    (l : SkipList α) (hr : Reachable cmp l) (item : α) (ys : List α)
    (hf : forward l = .ok ys) (hy : ∃ y ∈ ys, cmp y item = 0) :
    ∃ l1, Delete cmp item l = .ok (true, l1) ∧ l1.level ≤ l.level ∧
      (∀ j, l1.level < j → j < maxLevel → levelItems l1 j = .ok []) ∧
      (l1.level = 0 ∨ ∃ z zs, levelItems l1 l1.level = .ok (z :: zs)) ∧
      (∀ zs, levelItems l l.level = .ok zs → (∃ z ∈ zs, cmp z item ≠ 0) →
        l1.level = l.level) := by
  obtain ⟨L, hinv⟩ := reachable_inv hc hr
  rw [forward_inv hinv] at hf
  injection hf with hf
  subst hf
  rcases delete_spec hc item hinv with ⟨hno, _⟩ | ⟨l1, A, T, B, eL, hT, hne, r1, r2, r3, _⟩
  · obtain ⟨y, hy1, hy2⟩ := hy
    obtain ⟨t, ht, e⟩ := List.mem_map.mp hy1
    rw [← e] at hy2
    exact absurd hy2 (hno t ht)
  · subst eL
    have hsub : ∀ t ∈ A ++ B, t ∈ A ++ T :: B := by
      intro t ht
      rcases List.mem_append.mp ht with h | h
      · exact List.mem_append_left _ h
      · exact List.mem_append_right _ (List.mem_cons_of_mem _ h)
    have hle : l1.level ≤ l.level := by
      rcases r2.lvl_top with h | ⟨t, ht, e⟩
      · omega
      · rw [← e]
        exact hinv.lvl_le t (hsub t ht)
    refine ⟨l1, r1, hle, ?_, ?_, ?_⟩
    · intro j hj hjm
      rw [levelItems_inv r2 hjm,
        atLevel_eq_nil (fun t ht => Nat.lt_of_le_of_lt (r2.lvl_le t ht) hj)]
      rfl
    · rcases r2.lvl_top with h | ⟨t, ht, e⟩
      · exact Or.inl h
      · right
        rw [levelItems_inv r2 r2.lvl_lt]
        have hne2 : atLevel l1.level (A ++ B) ≠ [] := atLevel_ne_nil ht (by omega)
        cases hq : atLevel l1.level (A ++ B) with
        | nil => exact absurd hq hne2
        | cons q qs => exact ⟨q.item, qs.map Tower.item, rfl⟩
    · intro zs hz hex
      rw [levelItems_inv hinv hinv.lvl_lt] at hz
      injection hz with hz
      subst hz
      obtain ⟨z, hz1, hz2⟩ := hex
      obtain ⟨t, ht, e⟩ := List.mem_map.mp hz1
      subst e
      have htL : t ∈ A ++ T :: B := mem_atLevel ht
      have hth : l.level ≤ t.height := by
        have := (List.mem_filter.mp ht).2
        simpa using this
      have htAB : t ∈ A ++ B := by
        rcases List.mem_append.mp htL with h | h
        · exact List.mem_append_left _ h
        · rcases List.mem_cons.mp h with h | h
          · subst h
            exact absurd hT hz2
          · exact List.mem_append_right _ h
      have := r2.lvl_le t htAB
      omega

theorem C13_level_collapse_witness :
    (∃ l1, Delete compareIntAsc 2 c13Before = .ok (true, l1) ∧ l1.level ≤ c13Before.level ∧
      (∀ j, l1.level < j → j < maxLevel → levelItems l1 j = .ok []) ∧
      (l1.level = 0 ∨ ∃ z zs, levelItems l1 l1.level = .ok (z :: zs)) ∧
      (∀ zs, levelItems c13Before c13Before.level = .ok zs →
        (∃ z ∈ zs, compareIntAsc z 2 ≠ 0) → l1.level = c13Before.level)) ∧
    (Delete compareIntAsc 3 ascList >>= fun r => pure (ascList.level, r.2.level,
        levelItems r.2 r.2.level)) = .ok (3, 3, .ok [4]) ∧
    (Delete compareIntAsc 4 ascList >>= fun r => pure (ascList.level, r.2.level,
        levelItems r.2 r.2.level)) = .ok (3, 2, .ok [3]) :=
  ⟨C13_level_collapse compareIntAsc compareIntAsc_total c13Before c13Before_reachable 2
    [2] rfl (by decide), rfl, rfl⟩

/-- C15: in a state reachable by `Insert` and `Delete` calls the chain of
addresses of every level is a subsequence of the chain of every lower level,
so a node linked on level `i` is linked on every level below `i`; and after a
`Delete` that returns true the chains are those of before without the removed
node, on every level: the removed address is on no chain and every other
address stays on the levels it was on. -/
theorem C15_tower_invariant {α : Type} (cmp : α → α → Int) (hc : IsTotalOrder cmp)
    (l : SkipList α) (hr : Reachable cmp l) :
    (∀ i j, j ≤ i → i < maxLevel → ∃ xi xj, levelAddrs l i = .ok xi ∧
      levelAddrs l j = .ok xj ∧ xi.Sublist xj ∧ xj.Nodup) ∧
    (∀ item l1, Delete cmp item l = .ok (true, l1) →
      ∃ a, (∃ x0 u, levelAddrs l 0 = .ok x0 ∧ a ∈ x0 ∧ itemOf l.heap a = .ok u ∧
          cmp u item = 0) ∧
        ∀ i, i < maxLevel → ∃ xi, levelAddrs l i = .ok xi ∧
          levelAddrs l1 i = .ok (xi.filter (fun b => decide (b ≠ a)))) := by
  obtain ⟨L, hinv⟩ := reachable_inv hc hr
  have hnd : (L.map Tower.addr).Nodup := (List.nodup_cons.mp hinv.shape.nodup).2
  constructor
  · intro i j hji hi
    refine ⟨_, _, levelAddrs_inv hinv hi, levelAddrs_inv hinv (Nat.lt_of_le_of_lt hji hi), ?_, ?_⟩
    · apply List.Sublist.map
      unfold atLevel
      apply List.monotone_filter_right
      intro t ht
      simp only [decide_eq_true_eq] at ht ⊢
      omega
    · exact hnd.sublist ((atLevel_sublist j L).map Tower.addr)
  · intro item l1 hd
    rcases delete_spec hc item hinv with ⟨_, h1⟩ | ⟨l2, A, T, B, eL, hT, hne, r1, r2, _, _⟩
    · rw [h1] at hd
      injection hd with hd
      injection hd with hd _
      cases hd
    · rw [r1] at hd
      injection hd with hd
      injection hd with _ hd
      subst hd
      subst eL
      refine ⟨T.addr, ⟨_, T.item, levelAddrs_inv hinv (i := 0) (by decide), ?_,
        shape_item hinv.shape (by simp), hT⟩, ?_⟩
      · rw [atLevel_zero]
        simp
      · intro i hi
        refine ⟨_, levelAddrs_inv hinv hi, ?_⟩
        rw [levelAddrs_inv r2 hi]
        congr 1
        rw [List.map_append, List.map_cons] at hnd
        have hnd2 := List.nodup_append.mp hnd
        have hA : ∀ t ∈ A, t.addr ≠ T.addr := by
          intro t ht e
          exact hnd2.2.2 (List.mem_map_of_mem Tower.addr ht) (e ▸ List.mem_cons_self _ _)
        have hB : ∀ t ∈ B, t.addr ≠ T.addr := by
          intro t ht e
          exact (List.nodup_cons.mp hnd2.2.1).1 (e ▸ List.mem_map_of_mem Tower.addr ht)
        have hfA : ∀ (X : List (Tower α)), (∀ t ∈ X, t.addr ≠ T.addr) →
            ((atLevel i X).map Tower.addr).filter (fun b => decide (b ≠ T.addr))
              = (atLevel i X).map Tower.addr := by
          intro X hX
          apply List.filter_eq_self.mpr
          intro b hb
          obtain ⟨t, ht, e⟩ := List.mem_map.mp hb
          subst e
          simpa using hX t (mem_atLevel ht)
        rw [atLevel_append, atLevel_append, List.map_append, List.map_append,
          List.filter_append, hfA A hA]
        congr 1
        by_cases hh : i ≤ T.height
        · rw [atLevel_cons_le hh, List.map_cons, List.filter_cons_of_neg (by simp), hfA B hB]
        · rw [atLevel_cons_gt (by omega), hfA B hB]

theorem C15_tower_invariant_witness :
    ((∀ i j, j ≤ i → i < maxLevel → ∃ xi xj, levelAddrs ascList i = .ok xi ∧
      levelAddrs ascList j = .ok xj ∧ xi.Sublist xj ∧ xj.Nodup) ∧
    (∀ item l1, Delete compareIntAsc item ascList = .ok (true, l1) →
      ∃ a, (∃ x0 u, levelAddrs ascList 0 = .ok x0 ∧ a ∈ x0 ∧ itemOf ascList.heap a = .ok u ∧
          compareIntAsc u item = 0) ∧
        ∀ i, i < maxLevel → ∃ xi, levelAddrs ascList i = .ok xi ∧
          levelAddrs l1 i = .ok (xi.filter (fun b => decide (b ≠ a))))) ∧
    [levelAddrs ascList 0, levelAddrs ascList 1, levelAddrs ascList 2, levelAddrs ascList 3,
        levelAddrs ascList 4]
      = [.ok [2, 1, 3, 5, 4, 7, 6], .ok [2, 3, 5, 6], .ok [3, 5], .ok [5], .ok []] ∧
    (Delete compareIntAsc 3 ascList >>= fun r => pure [levelAddrs r.2 0, levelAddrs r.2 1,
        levelAddrs r.2 2, levelAddrs r.2 3])
      = .ok [.ok [2, 1, 5, 4, 7, 6], .ok [2, 5, 6], .ok [5], .ok [5]] :=
  ⟨C15_tower_invariant compareIntAsc compareIntAsc_total ascList ascList_reachable, rfl, rfl⟩

theorem lvlOK_unique {α : Type} {a b : Nat} {L : List (Tower α)}
    (ha : LvlOK a L) (hb : LvlOK b L) : a = b := by
  obtain ⟨ha1, ha2⟩ := ha
  obtain ⟨hb1, hb2⟩ := hb
  rcases ha2 with h | ⟨t, ht, e⟩
  · rcases hb2 with h2 | ⟨s, hs, e2⟩
    · omega
    · have := ha1 s hs
      omega
  · rcases hb2 with h2 | ⟨s, hs, e2⟩
    · have := hb1 t ht
      omega
    · have := ha1 s hs
      have := hb1 t ht
      omega

/-- C20: in a state reachable by `Insert` and `Delete` calls, `Insert` of an
item equal to no stored one followed by `Delete` of the same item returns true
twice and restores `Len`, `level`, the header, the item sequence and the node
sequence of every level, and the backward traversal, whatever the coins (so
also when the insert had opened a new top level). -/
theorem C20_insert_delete_identity {α : Type} (cmp : α → α → Int) (hc : IsTotalOrder cmp)
    (l : SkipList α) (hr : Reachable cmp l) (coins : Coins) (item : α) (ys : List α)
    (hf : forward l = .ok ys) (hn : ∀ y ∈ ys, cmp y item ≠ 0) :
    ∃ l1 l2, Insert cmp coins item l = .ok (true, l1) ∧ Delete cmp item l1 = .ok (true, l2) ∧
      Len l2 = Len l ∧ l2.level = l.level ∧ l2.header = l.header ∧
      (∀ i, i < maxLevel → ∃ zs xs, levelItems l i = .ok zs ∧ levelItems l2 i = .ok zs ∧
        levelAddrs l i = .ok xs ∧ levelAddrs l2 i = .ok xs) ∧
      (∃ bs, backward l = .ok bs ∧ backward l2 = .ok bs) := by
  obtain ⟨L, hinv⟩ := reachable_inv hc hr
  rw [forward_inv hinv] at hf
  injection hf with hf
  subst hf
  rcases insert_spec hc coins item hinv with ⟨⟨t, ht, e⟩, _⟩ |
    ⟨_, l1, A, B, h, eL, hlt, hgt, r1, r2, r3⟩
  · exact absurd e (hn t.item (List.mem_map_of_mem Tower.item ht))
  · subst eL
    obtain ⟨l2, q1, q2, q3, q4, _, _⟩ :=
      delete_present (T := ⟨l.heap.length, item, h⟩) item r2 hlt (cmp_self hc item) hgt
    refine ⟨l1, l2, r1, q1, ?_, ?_, ?_, ?_, ?_⟩
    · show l2.len = l.len
      rw [q3, r2.len, hinv.len]
      simp only [List.length_append, List.length_cons]
      push_cast
      ring
    · exact lvlOK_unique ⟨q2.lvl_le, q2.lvl_top⟩ ⟨hinv.lvl_le, hinv.lvl_top⟩
    · rw [q4, r3]
    · intro i hi
      exact ⟨_, _, levelItems_inv hinv hi, levelItems_inv q2 hi, levelAddrs_inv hinv hi,
        levelAddrs_inv q2 hi⟩
    · exact ⟨_, backward_inv hinv, backward_inv q2⟩

theorem C20_insert_delete_identity_witness :
    (∃ l1 l2, Insert compareIntAsc (heads 9) 8 ascList = .ok (true, l1) ∧
      Delete compareIntAsc 8 l1 = .ok (true, l2) ∧
      Len l2 = Len ascList ∧ l2.level = ascList.level ∧ l2.header = ascList.header ∧
      (∀ i, i < maxLevel → ∃ zs xs, levelItems ascList i = .ok zs ∧ levelItems l2 i = .ok zs ∧
        levelAddrs ascList i = .ok xs ∧ levelAddrs l2 i = .ok xs) ∧
      (∃ bs, backward ascList = .ok bs ∧ backward l2 = .ok bs)) ∧
    (Insert compareIntAsc (heads 9) 8 ascList >>= fun r =>
      Delete compareIntAsc 8 r.2 >>= fun r2 =>
        pure (ascList.level, r.1, r.2.level, levelItems r.2 4, r2.1, r2.2.level,
          levelItems r2.2 4, Len ascList, Len r.2, Len r2.2))
      = .ok (3, true, 4, .ok [8], true, 3, .ok [], 7, 8, 7) :=
  ⟨C20_insert_delete_identity compareIntAsc compareIntAsc_total ascList ascList_reachable
    (heads 9) 8 [1, 2, 3, 4, 5, 6, 7] rfl (by decide), rfl⟩

/-! ## The level generator -/

theorem randLevelLoop_eq (coins : Coins) (lvl : Nat) :
    ∀ (fuel level : Nat), level ≤ lvl + 1 → level ≤ maxLevel → maxLevel < fuel + level →
      randLevelLoop coins lvl fuel level level
        = .ok (min (level + headRunFrom coins level (maxLevel - level)) (lvl + 1)) := by
  intro fuel
  induction fuel with
  | zero =>
    intro level _ h2 h3
    omega
  | succ fuel ih =>
    intro level h1 h2 h3
    rw [randLevelLoop]
    by_cases hcond : coins level = true ∧ level < maxLevel
    · rw [if_pos hcond]
      obtain ⟨m, hm⟩ : ∃ m, maxLevel - level = m + 1 := ⟨maxLevel - level - 1, by omega⟩
      have hm2 : maxLevel - (level + 1) = m := by omega
      rw [hm, headRunFrom, if_pos hcond.1]
      by_cases hgt : level > lvl
      · rw [if_pos hgt]
        have : min (level + (1 + headRunFrom coins (level + 1) m)) (lvl + 1) = level := by
          omega
        rw [this]
        rfl
      · rw [if_neg hgt, ih (level + 1) (by omega) (by omega) (by omega), hm2]
        congr 2
        omega
    · rw [if_neg hcond]
      have h0 : headRunFrom coins level (maxLevel - level) = 0 := by
        by_cases hl : level < maxLevel
        · obtain ⟨m, hm⟩ : ∃ m, maxLevel - level = m + 1 := ⟨maxLevel - level - 1, by omega⟩
          have hcn : ¬ coins level = true := fun e => hcond ⟨e, hl⟩
          rw [hm, headRunFrom, if_neg hcn]
        · have : maxLevel - level = 0 := by omega
          rw [this, headRunFrom]
      rw [h0]
      have : min (level + 0) (lvl + 1) = level := by omega
      rw [this]
      rfl

theorem randLevel_eq {α : Type} (coins : Coins) (l : SkipList α) :
    randLevel coins l = .ok (min (headRunFrom coins 0 maxLevel) (l.level + 1)) := by
  have h := randLevelLoop_eq coins l.level (maxLevel + 1) 0 (by omega) (by omega)
    (by omega)
  simp only [Nat.zero_add, Nat.sub_zero] at h
  exact h

/-- C17 fails as stated: with every coin heads `randLevel` on a new list
(level 0) returns 1, not the 32 consecutive heads counted up to the cap. -/
theorem C17_randLevel_depends_on_level :
    randLevel (fun _ => true) (NewList : SkipList Int) = .ok 1 ∧
    headRunFrom (fun _ => true) 0 maxLevel = 32 ∧
    randLevel (fun _ => true) ascList = .ok 4 ∧
    ¬ (∀ (coins : Coins) (l : SkipList Int),
        randLevel coins l = .ok (headRunFrom coins 0 maxLevel)) := by
  refine ⟨rfl, rfl, rfl, ?_⟩
  intro h
  have h1 := h (fun _ => true) NewList
  have h2 : randLevel (fun _ => true) (NewList : SkipList Int) = .ok 1 := rfl
  have h3 : headRunFrom (fun _ => true) 0 maxLevel = 32 := rfl
  rw [h2, h3] at h1
  injection h1 with h1
  exact absurd h1 (by decide)

/-- C17 (amended): when the list's level is below 31, `randLevel` returns the
number of consecutive heads before the first tails, capped at the list's
current level plus one. -/
theorem C17_randLevel_stopping_rule {α : Type} (coins : Coins) (l : SkipList α)
    (hl : l.level < maxLevel - 1) :
    randLevel coins l = .ok (min (headRunFrom coins 0 maxLevel) (l.level + 1)) ∧
    min (headRunFrom coins 0 maxLevel) (l.level + 1) < maxLevel := by
  refine ⟨randLevel_eq coins l, ?_⟩
  have : maxLevel = 32 := rfl
  omega

theorem C17_randLevel_stopping_rule_witness :
    (randLevel (heads 2) ascList = .ok (min (headRunFrom (heads 2) 0 maxLevel)
      (ascList.level + 1)) ∧
      min (headRunFrom (heads 2) 0 maxLevel) (ascList.level + 1) < maxLevel) ∧
    randLevel (heads 2) ascList = .ok 2 ∧ randLevel (heads 7) ascList = .ok 4 :=
  ⟨C17_randLevel_stopping_rule (heads 2) ascList (by decide), rfl, rfl⟩

/-! ## States reached with InsertV2: the links ascend -/

theorem cmp_lt_trans {α : Type} {cmp : α → α → Int} (hc : IsTotalOrder cmp) {a b c : α}
    (h1 : cmp a b = -1) (h2 : cmp b c = -1) : cmp a c = -1 :=
  cmp_before hc h1 (Or.inl h2)

theorem cmp_flip {α : Type} {cmp : α → α → Int} (hc : IsTotalOrder cmp) {a b : α}
    (h : cmp a b = 1) : cmp b a = -1 := by
  have := hc.antisymm a b
  omega

theorem countP_lt_of {β : Type} (p q : β → Bool) (xs : List β)
    (hpq : ∀ x ∈ xs, p x = true → q x = true)
    (hex : ∃ x ∈ xs, q x = true ∧ p x = false) : xs.countP p < xs.countP q := by
  induction xs with
  | nil =>
    obtain ⟨x, hx, _⟩ := hex
    simp at hx
  | cons y ys ih =>
    have hle : ys.countP p ≤ ys.countP q :=
      List.countP_mono_left (fun x hx h => hpq x (List.mem_cons_of_mem _ hx) h)
    obtain ⟨x, hx, hq, hp⟩ := hex
    rcases List.mem_cons.mp hx with e | hx
    · subst e
      rw [List.countP_cons_of_pos _ _ hq, List.countP_cons_of_neg _ _ (by simp [hp])]
      omega
    · have hlt := ih (fun x hx h => hpq x (List.mem_cons_of_mem _ hx) h) ⟨x, hx, hq, hp⟩
      by_cases hpy : p y = true
      · rw [List.countP_cons_of_pos _ _ hpy,
          List.countP_cons_of_pos _ _ (hpq y (List.mem_cons_self _ _) hpy)]
        omega
      · rw [List.countP_cons_of_neg _ _ hpy]
        by_cases hqy : q y = true
        · rw [List.countP_cons_of_pos _ _ hqy]
          omega
        · rw [List.countP_cons_of_neg _ _ hqy]
          exact hlt

theorem itemOf_eq_ok {α : Type} {heap : List (Node α)} {x : Nat} {v : α} :
    itemOf heap x = .ok v ↔ ∃ n, heap[x]? = some n ∧ n.item = some v := by
  unfold itemOf
  cases h : heap[x]? with
  | none => simp
  | some n =>
    cases h2 : n.item with
    | none => simp [h2]
    | some w => simp [h2]

theorem above_lt {α : Type} {cmp : α → α → Int} (hc : IsTotalOrder cmp)
    {heap : List (Node α)} (hl : Links cmp heap) {n i m : Nat}
    (h : nextOf heap n i = .ok (some m)) : above cmp heap m < above cmp heap n := by
  obtain ⟨w, hw, _, hlt⟩ := hl n i m h
  obtain ⟨nd, hnd, hit⟩ := itemOf_eq_ok.mp hw
  unfold above
  apply countP_lt_of
  · intro x _ hx
    rw [hw] at hx
    cases hxi : x.item with
    | none => simp [hxi] at hx
    | some u =>
      simp only [hxi, decide_eq_true_eq] at hx
      cases hn : itemOf heap n with
      | error e => rfl
      | ok v =>
        simp only [decide_eq_true_eq]
        exact cmp_lt_trans hc (hlt v hn) hx
  · refine ⟨nd, List.getElem?_mem hnd, ?_, ?_⟩
    · cases hn : itemOf heap n with
      | error e => simp [hit]
      | ok v => simp [hit, hlt v hn]
    · simp [hit, hw, cmp_self hc w]

theorem above_hdr {α : Type} (cmp : α → α → Int) {heap : List (Node α)} {x : Nat}
    (h : itemOf heap x = .error .nilItem) : above cmp heap x < heap.length := by
  unfold above
  apply lt_of_le_of_ne (List.countP_le_length _)
  intro e
  rw [List.countP_eq_length] at e
  unfold itemOf at h
  cases hx : heap[x]? with
  | none => simp [hx] at h
  | some nd =>
    have hm := e nd (List.getElem?_mem hx)
    cases hi : nd.item with
    | none => simp [hi] at hm
    | some w => simp [hx, hi] at h

theorem nextOf_of_nextLen {α : Type} {heap : List (Node α)} {x n i : Nat}
    (h : nextLen heap x = some n) (hi : i < n) : ∃ q, nextOf heap x i = .ok q := by
  unfold nextLen at h
  cases hx : heap[x]? with
  | none => simp [hx] at h
  | some nd =>
    simp only [hx, Option.map_some', Option.some.injEq] at h
    have hi2 : i < nd.next.length := by omega
    exact ⟨nd.next[i], nextOf_eq_ok.mpr ⟨nd, hx, List.getElem?_eq_getElem hi2⟩⟩

theorem nextLen_of_nextOf {α : Type} {heap : List (Node α)} {x i : Nat} {q : Option Nat}
    (h : nextOf heap x i = .ok q) : ∃ n, nextLen heap x = some n ∧ i < n := by
  obtain ⟨nd, hx, hq⟩ := nextOf_eq_ok.mp h
  refine ⟨nd.next.length, by simp [nextLen, hx], (List.getElem?_eq_some.mp hq).1⟩

theorem itemsFrom_links {α : Type} {cmp : α → α → Int} (hc : IsTotalOrder cmp)
    {heap : List (Node α)} (hl : Links cmp heap) (i : Nat) :
    ∀ (fuel x : Nat), above cmp heap x < fuel → (∃ q, nextOf heap x i = .ok q) →
      ∃ zs, itemsFrom heap i fuel x = .ok zs ∧ zs.Pairwise (fun a b => cmp a b = -1) ∧
        ∀ z ∈ zs, ∀ v, itemOf heap x = .ok v → cmp v z = -1 := by
  intro fuel
  induction fuel with
  | zero =>
    intro x h _
    omega
  | succ fuel ih =>
    intro x hf hq
    obtain ⟨q, hq⟩ := hq
    cases q with
    | none => exact ⟨[], by simp [itemsFrom, hq], List.Pairwise.nil, by simp⟩
    | some y =>
      obtain ⟨w, hw, hny, hlt⟩ := hl x i y hq
      have hab := above_lt hc hl hq
      obtain ⟨zs, h1, h2, h3⟩ := ih y (by omega) hny
      refine ⟨w :: zs, by simp [itemsFrom, hq, hw, h1], ?_, ?_⟩
      · exact List.Pairwise.cons (fun z hz => h3 z hz w hw) h2
      · intro z hz v hv
        rcases List.mem_cons.mp hz with e | hz
        · rw [e]
          exact hlt v hv
        · exact cmp_lt_trans hc (hlt v hv) (h3 z hz w hw)

theorem levelItems_links {α : Type} {cmp : α → α → Int} (hc : IsTotalOrder cmp)
    {l : SkipList α} (hinv : LinkInv cmp l) {i : Nat} (hi : i < maxLevel) :
    ∃ zs, levelItems l i = .ok zs ∧ zs.Pairwise (fun a b => cmp a b = -1) := by
  obtain ⟨zs, h1, h2, _⟩ := itemsFrom_links hc hinv.links i l.heap.length l.header
    (above_hdr cmp hinv.hdrItem) (nextOf_of_nextLen hinv.hdrLen hi)
  exact ⟨zs, h1, h2⟩

theorem links_setNext {α : Type} {cmp : α → α → Int} {heap heap1 : List (Node α)}
    {x i : Nat} {p : Option Nat} (hl : Links cmp heap) (h : setNext heap x i p = .ok heap1)
    (hp : ∀ m, p = some m → ∃ w, itemOf heap m = .ok w ∧
      (m = x ∨ ∃ q, nextOf heap m i = .ok q) ∧ ∀ v, itemOf heap x = .ok v → cmp v w = -1) :
    Links cmp heap1 := by
  intro n j m hn
  rw [nextOf_setNext h] at hn
  by_cases hcx : n = x ∧ j = i
  · rw [if_pos hcx] at hn
    injection hn with hn
    obtain ⟨e1, e2⟩ := hcx
    subst e1
    subst e2
    obtain ⟨w, h1, h2, h3⟩ := hp m hn
    refine ⟨w, by rw [itemOf_setNext h]; exact h1, ?_, ?_⟩
    · rw [nextOf_setNext h]
      by_cases hm : m = n ∧ j = j
      · rw [if_pos hm]
        exact ⟨_, rfl⟩
      · rw [if_neg hm]
        rcases h2 with e | h2
        · exact absurd ⟨e, rfl⟩ hm
        · exact h2
    · intro v hv
      rw [itemOf_setNext h] at hv
      exact h3 v hv
  · rw [if_neg hcx] at hn
    obtain ⟨w, h1, h2, h3⟩ := hl n j m hn
    refine ⟨w, by rw [itemOf_setNext h]; exact h1, ?_, ?_⟩
    · rw [nextOf_setNext h]
      by_cases hm : m = x ∧ j = i
      · rw [if_pos hm]
        exact ⟨_, rfl⟩
      · rw [if_neg hm]
        exact h2
    · intro v hv
      rw [itemOf_setNext h] at hv
      exact h3 v hv

theorem links_frame {α : Type} {cmp : α → α → Int} {heap heap1 : List (Node α)}
    (hl : Links cmp heap) (hn : ∀ b j, nextOf heap1 b j = nextOf heap b j)
    (hi : ∀ b, itemOf heap1 b = itemOf heap b) : Links cmp heap1 := by
  intro n j m h
  rw [hn] at h
  obtain ⟨w, h1, h2, h3⟩ := hl n j m h
  refine ⟨w, by rw [hi]; exact h1, by rw [hn]; exact h2, ?_⟩
  intro v hv
  rw [hi] at hv
  exact h3 v hv

theorem links_setPrev {α : Type} {cmp : α → α → Int} {heap heap1 : List (Node α)}
    {x : Nat} {p : Option Nat} (hl : Links cmp heap) (h : setPrev heap x p = .ok heap1) :
    Links cmp heap1 :=
  links_frame hl (nextOf_setPrev h) (itemOf_setPrev h)

theorem links_setPrevIf {α : Type} {cmp : α → α → Int} {heap heap1 : List (Node α)}
    {y p : Option Nat} (hl : Links cmp heap) (h : setPrevIf heap y p = .ok heap1) :
    Links cmp heap1 :=
  links_frame hl (nextOf_setPrevIf h) (itemOf_setPrevIf h)

theorem links_alloc {α : Type} {cmp : α → α → Int} {heap : List (Node α)}
    (hl : Links cmp heap) (v : Option α) (m : Nat) :
    Links cmp (heap ++ [{ item := v, next := List.replicate m none, prev := none }]) := by
  intro n j y h
  by_cases hn : n = heap.length
  · subst hn
    obtain ⟨nd, h1, h2⟩ := nextOf_eq_ok.mp h
    rw [List.getElem?_concat_length] at h1
    injection h1 with h1
    subst h1
    simp only at h2
    have := List.getElem?_mem h2
    simp at this
  · rw [nextOf_alloc heap _ hn] at h
    obtain ⟨w, h1, ⟨q, h2⟩, h3⟩ := hl n j y h
    have hy : y ≠ heap.length := Nat.ne_of_lt (itemOf_lt h1)
    refine ⟨w, by rw [itemOf_alloc heap _ hy]; exact h1,
      ⟨q, by rw [nextOf_alloc heap _ hy]; exact h2⟩, ?_⟩
    intro u hu
    rw [itemOf_alloc heap _ hn] at hu
    exact h3 u hu

theorem walk_inv {α : Type} (cmp : α → α → Int) (item : α) (heap : List (Node α)) (i : Nat) :
    ∀ (fuel x x1 : Nat) (st : Stop), walk cmp item heap i fuel x = .ok (x1, st) →
      (∃ q, nextOf heap x i = .ok q) ∧
      (x1 = x ∨ ∃ v, itemOf heap x1 = .ok v ∧ cmp v item ≠ 0 ∧ cmp v item ≠ 1) ∧
      ∃ q, nextOf heap x1 i = .ok q ∧ (st = .atNil → q = none) ∧
        (st ≠ .atNil → ∃ y w, q = some y ∧ itemOf heap y = .ok w ∧
          ((st = .same ∧ cmp w item = 0) ∨ (st = .great ∧ cmp w item = 1))) := by
  intro fuel
  induction fuel with
  | zero =>
    intro x x1 st h
    simp [walk] at h
  | succ fuel ih =>
    intro x x1 st h
    rw [walk] at h
    cases hn : nextOf heap x i with
    | error e => simp [hn] at h
    | ok q =>
      refine ⟨⟨q, rfl⟩, ?_⟩
      cases q with
      | none =>
        simp only [hn, bind_ok, pure_eq_ok, Except.ok.injEq, Prod.mk.injEq] at h
        obtain ⟨e1, e2⟩ := h
        subst e1
        subst e2
        exact ⟨Or.inl rfl, none, hn, fun _ => rfl, fun hne => absurd rfl hne⟩
      | some y =>
        cases hi : itemOf heap y with
        | error e => simp [hn, hi] at h
        | ok w =>
          simp only [hn, hi, bind_ok] at h
          by_cases h0 : cmp w item = 0
          · simp only [h0, if_true, pure_eq_ok, Except.ok.injEq, Prod.mk.injEq] at h
            obtain ⟨e1, e2⟩ := h
            subst e1
            subst e2
            exact ⟨Or.inl rfl, some y, hn, (fun hh => by cases hh),
              fun _ => ⟨y, w, rfl, hi, Or.inl ⟨rfl, h0⟩⟩⟩
          · by_cases h1 : cmp w item = 1
            · rw [if_neg h0, if_pos h1] at h
              simp only [pure_eq_ok, Except.ok.injEq, Prod.mk.injEq] at h
              obtain ⟨e1, e2⟩ := h
              subst e1
              subst e2
              exact ⟨Or.inl rfl, some y, hn, (fun hh => by cases hh),
                fun _ => ⟨y, w, rfl, hi, Or.inr ⟨rfl, h1⟩⟩⟩
            · rw [if_neg h0, if_neg h1] at h
              obtain ⟨_, r1, r2⟩ := ih y x1 st h
              refine ⟨?_, r2⟩
              rcases r1 with e | r1
              · right
                rw [e]
                exact ⟨w, hi, h0, h1⟩
              · exact Or.inr r1

theorem walk_before {α : Type} {cmp : α → α → Int} (hc : IsTotalOrder cmp) {item : α}
    {heap : List (Node α)} {i fuel x x1 : Nat} {st : Stop}
    (h : walk cmp item heap i fuel x = .ok (x1, st)) (hb : Before cmp item heap x) :
    Before cmp item heap x1 := by
  obtain ⟨_, r1, _⟩ := walk_inv cmp item heap i fuel x x1 st h
  rcases r1 with e | ⟨v, hv, h0, h1⟩
  · rw [e]
    exact hb
  · intro u hu
    rw [hv] at hu
    injection hu with hu
    subst hu
    have := hc.range v item
    omega

theorem deleteStep_links {α : Type} {cmp : α → α → Int} (hc : IsTotalOrder cmp) (item : α)
    (fuel i v : Nat) (found : Bool) (l : SkipList α) (hl : Links cmp l.heap)
    {v1 : Nat} {f1 : Bool} {l1 : SkipList α}
    (h : deleteStep cmp item fuel i v found l = .ok (v1, f1, l1)) :
    Links cmp l1.heap ∧ (∀ b, itemOf l1.heap b = itemOf l.heap b) ∧
      (∀ b, nextLen l1.heap b = nextLen l.heap b) ∧ l1.header = l.header ∧
      (l1.level = l.level ∨ l1.level < i) := by
  unfold deleteStep at h
  cases hw : walk cmp item l.heap i fuel v with
  | error e => simp [hw] at h
  | ok r =>
    obtain ⟨x, st⟩ := r
    simp only [hw, bind_ok] at h
    by_cases hf : (!(found || decide (st = .same))) = true
    · rw [if_pos hf] at h
      simp only [pure_eq_ok, Except.ok.injEq, Prod.mk.injEq] at h
      obtain ⟨_, _, e⟩ := h
      subst e
      exact ⟨hl, fun _ => rfl, fun _ => rfl, rfl, Or.inl rfl⟩
    · rw [if_neg hf] at h
      cases hn : nextOf l.heap x i with
      | error e => simp [hn] at h
      | ok q =>
        cases q with
        | none => simp [hn] at h
        | some t =>
          simp only [hn, bind_ok] at h
          cases hn2 : nextOf l.heap t i with
          | error e => simp [hn2] at h
          | ok next =>
            simp only [hn2, bind_ok] at h
            cases hs1 : setNext l.heap x i next with
            | error e => simp [hs1] at h
            | ok h1 =>
              simp only [hs1, bind_ok] at h
              have hl1 : Links cmp h1 := by
                apply links_setNext hl hs1
                intro m hm
                subst hm
                obtain ⟨wt, ht1, _, ht3⟩ := hl x i t hn
                obtain ⟨wm, hm1, hm2, hm3⟩ := hl t i m hn2
                refine ⟨wm, hm1, Or.inr hm2, ?_⟩
                intro u hu
                exact cmp_lt_trans hc (ht3 u hu) (hm3 wt ht1)
              have hex : ∃ h2, l1 = { l with heap := h2, level :=
                    if next = none ∧ x = l.header ∧ i > 0 then i - 1 else l.level } ∧
                  (∀ b j, nextOf h2 b j = nextOf h1 b j) ∧
                  (∀ b, itemOf h2 b = itemOf h1 b) ∧ (∀ b, nextLen h2 b = nextLen h1 b) := by
                by_cases hi : i = 0
                · rw [if_pos hi] at h
                  cases hs2 : setPrevIf h1 next (some x) with
                  | error e => simp [hs2] at h
                  | ok h2 =>
                    simp only [hs2, bind_ok, pure_eq_ok, Except.ok.injEq, Prod.mk.injEq] at h
                    exact ⟨h2, h.2.2.symm, nextOf_setPrevIf hs2, itemOf_setPrevIf hs2,
                      nextLen_setPrevIf hs2⟩
                · rw [if_neg hi] at h
                  simp only [pure_eq_ok, bind_ok, Except.ok.injEq, Prod.mk.injEq] at h
                  exact ⟨h1, h.2.2.symm, fun _ _ => rfl, fun _ => rfl, fun _ => rfl⟩
              obtain ⟨h2, e, hfr⟩ := hex
              subst e
              refine ⟨links_frame hl1 hfr.1 hfr.2.1, ?_, ?_, rfl, ?_⟩
              · intro b
                show itemOf h2 b = _
                rw [hfr.2.1, itemOf_setNext hs1]
              · intro b
                show nextLen h2 b = _
                rw [hfr.2.2, nextLen_setNext hs1]
              · show (if next = none ∧ x = l.header ∧ i > 0 then i - 1 else l.level) = l.level ∨
                  (if next = none ∧ x = l.header ∧ i > 0 then i - 1 else l.level) < i
                by_cases hcd : next = none ∧ x = l.header ∧ i > 0
                · rw [if_pos hcd]
                  right
                  omega
                · rw [if_neg hcd]
                  exact Or.inl rfl

theorem deleteLoop_links {α : Type} {cmp : α → α → Int} (hc : IsTotalOrder cmp) (item : α)
    (fuel : Nat) : ∀ (i v : Nat) (found : Bool) (l : SkipList α), Links cmp l.heap →
      ∀ (f1 : Bool) (l1 : SkipList α), deleteLoop cmp item fuel i v found l = .ok (f1, l1) →
        Links cmp l1.heap ∧ (∀ b, itemOf l1.heap b = itemOf l.heap b) ∧
          (∀ b, nextLen l1.heap b = nextLen l.heap b) ∧ l1.header = l.header ∧
          (l1.level = l.level ∨ l1.level < i) := by
  intro i
  induction i with
  | zero =>
    intro v found l hl f1 l1 h
    rw [deleteLoop] at h
    cases hs : deleteStep cmp item fuel 0 v found l with
    | error e => simp [hs] at h
    | ok r =>
      obtain ⟨v2, f2, l2⟩ := r
      simp only [hs, bind_ok, pure_eq_ok, Except.ok.injEq, Prod.mk.injEq] at h
      obtain ⟨_, e⟩ := h
      subst e
      exact deleteStep_links hc item fuel 0 v found l hl hs
  | succ i ih =>
    intro v found l hl f1 l1 h
    rw [deleteLoop] at h
    cases hs : deleteStep cmp item fuel (i + 1) v found l with
    | error e => simp [hs] at h
    | ok r =>
      obtain ⟨v2, f2, l2⟩ := r
      simp only [hs, bind_ok] at h
      obtain ⟨r1, r2, r3, r4, r5⟩ := deleteStep_links hc item fuel (i + 1) v found l hl hs
      obtain ⟨q1, q2, q3, q4, q5⟩ := ih v2 f2 l2 r1 f1 l1 h
      refine ⟨q1, fun b => by rw [q2, r2], fun b => by rw [q3, r3], by rw [q4, r4], ?_⟩
      omega

theorem delete_links {α : Type} {cmp : α → α → Int} (hc : IsTotalOrder cmp) (item : α)
    {l l1 : SkipList α} {b : Bool} (hinv : LinkInv cmp l)
    (h : Delete cmp item l = .ok (b, l1)) : LinkInv cmp l1 ∧ l1.level ≤ l.level := by
  unfold Delete at h
  cases hd : deleteLoop cmp item l.heap.length l.level l.header false l with
  | error e => simp [hd] at h
  | ok r =>
    obtain ⟨f2, l2⟩ := r
    obtain ⟨q1, q2, q3, q4, q5⟩ := deleteLoop_links hc item _ _ _ _ l hinv.links f2 l2 hd
    have hlv : l2.level ≤ l.level := by omega
    have hinv2 : LinkInv cmp l2 := by
      refine ⟨q1, ?_, ?_, ?_⟩
      · rw [q4, q2]
        exact hinv.hdrItem
      · rw [q4, q3]
        exact hinv.hdrLen
      · have := hinv.lvl_lt
        omega
    simp only [hd, bind_ok] at h
    by_cases hf : f2 = true
    · rw [if_pos hf] at h
      simp only [pure_eq_ok, Except.ok.injEq, Prod.mk.injEq] at h
      obtain ⟨_, e⟩ := h
      subst e
      exact ⟨⟨hinv2.links, hinv2.hdrItem, hinv2.hdrLen, hinv2.lvl_lt⟩, hlv⟩
    · rw [if_neg hf] at h
      simp only [pure_eq_ok, Except.ok.injEq, Prod.mk.injEq] at h
      obtain ⟨_, e⟩ := h
      subst e
      exact ⟨hinv2, hlv⟩

/-- The writes that link `node` after `x` on level `i` keep the links ascending. -/
theorem link_links {α : Type} {cmp : α → α → Int} (hc : IsTotalOrder cmp) {item : α}
    {heap h1 h2 h3 : List (Node α)} {node x i : Nat} {nx : Option Nat}
    (hl : Links cmp heap) (hni : itemOf heap node = .ok item) (hb : Before cmp item heap x)
    (hnx : nextOf heap x i = .ok nx)
    (hgt : ∀ y, nx = some y → ∃ w, itemOf heap y = .ok w ∧ cmp w item = 1)
    (hs1 : setNext heap node i nx = .ok h1)
    (hn2 : ∀ b j, nextOf h2 b j = nextOf h1 b j) (hi2 : ∀ b, itemOf h2 b = itemOf h1 b)
    (hs3 : setNext h2 x i (some node) = .ok h3) : Links cmp h3 := by
  have hl1 : Links cmp h1 := by
    apply links_setNext hl hs1
    intro m hm
    subst hm
    obtain ⟨w, hw, hw1⟩ := hgt m rfl
    obtain ⟨w2, hw2, hq, _⟩ := hl x i m hnx
    refine ⟨w, hw, Or.inr hq, ?_⟩
    intro v hv
    rw [hni] at hv
    injection hv with hv
    subst hv
    exact cmp_flip hc hw1
  have hl2 : Links cmp h2 := links_frame hl1 hn2 hi2
  apply links_setNext hl2 hs3
  intro m hm
  injection hm with hm
  subst hm
  refine ⟨item, by rw [hi2, itemOf_setNext hs1]; exact hni, Or.inr ⟨nx, ?_⟩, ?_⟩
  · rw [hn2, nextOf_setNext hs1, if_pos ⟨rfl, rfl⟩]
  · intro v hv
    rw [hi2, itemOf_setNext hs1] at hv
    exact hb v hv

theorem walk_stop_great {α : Type} {cmp : α → α → Int} {item : α} {heap : List (Node α)}
    {i fuel x x1 : Nat} {st : Stop} (h : walk cmp item heap i fuel x = .ok (x1, st))
    (hst : st ≠ .same) {nx : Option Nat} (hnx : nextOf heap x1 i = .ok nx) :
    ∀ y, nx = some y → ∃ w, itemOf heap y = .ok w ∧ cmp w item = 1 := by
  obtain ⟨_, _, q, hq, r1, r2⟩ := walk_inv cmp item heap i fuel x x1 st h
  rw [hnx] at hq
  injection hq with hq
  subst hq
  intro y hy
  subst hy
  have hne : st ≠ .atNil := by
    intro e
    have := r1 e
    cases this
  obtain ⟨y2, w, e, hw, hcase⟩ := r2 hne
  injection e with e
  subst e
  rcases hcase with ⟨e, _⟩ | ⟨_, hw1⟩
  · exact absurd e hst
  · exact ⟨w, hw, hw1⟩

theorem insertV2Step_inv {α : Type} (cmp : α → α → Int) (item : α)
    (node level fuel i x : Nat) (ins : Bool) (l : SkipList α)
    {r : Option (Nat × Bool)} {l1 : SkipList α}
    (h : insertV2Step cmp item node level fuel i x ins l = .ok (r, l1)) :
    (∀ b, itemOf l1.heap b = itemOf l.heap b) ∧ (∀ b, nextLen l1.heap b = nextLen l.heap b) ∧
      l1.header = l.header ∧ l1.level = l.level ∧ l1.len = l.len ∧
      (∃ q, nextOf l.heap x i = .ok q) ∧
      (IsTotalOrder cmp → Links cmp l.heap → itemOf l.heap node = .ok item →
        Before cmp item l.heap x →
        Links cmp l1.heap ∧ ∀ x1 ins1, r = some (x1, ins1) → Before cmp item l1.heap x1) := by
  unfold insertV2Step at h
  cases hw : walk cmp item l.heap i fuel x with
  | error e => simp [hw] at h
  | ok rw1 =>
    obtain ⟨x1, st⟩ := rw1
    simp only [hw, bind_ok] at h
    have hq0 := (walk_inv cmp item l.heap i fuel x x1 st hw).1
    by_cases hst : st = .same
    · rw [if_pos hst] at h
      simp only [pure_eq_ok, Except.ok.injEq, Prod.mk.injEq] at h
      obtain ⟨e1, e2⟩ := h
      subst e1
      subst e2
      refine ⟨fun _ => rfl, fun _ => rfl, rfl, rfl, rfl, hq0, ?_⟩
      intro _ hl _ _
      exact ⟨hl, fun _ _ e => by cases e⟩
    · rw [if_neg hst] at h
      by_cases hlv : i > level
      · rw [if_pos hlv] at h
        simp only [pure_eq_ok, Except.ok.injEq, Prod.mk.injEq] at h
        obtain ⟨e1, e2⟩ := h
        subst e1
        subst e2
        refine ⟨fun _ => rfl, fun _ => rfl, rfl, rfl, rfl, hq0, ?_⟩
        intro hc hl _ hb
        refine ⟨hl, ?_⟩
        intro x2 ins2 e
        simp only [Option.some.injEq, Prod.mk.injEq] at e
        rw [← e.1]
        exact walk_before hc hw hb
      · rw [if_neg hlv] at h
        cases hnx : nextOf l.heap x1 i with
        | error e => simp [hnx] at h
        | ok nx =>
          simp only [hnx, bind_ok] at h
          cases hs1 : setNext l.heap node i nx with
          | error e => simp [hs1] at h
          | ok h1 =>
            simp only [hs1, bind_ok] at h
            have hex : ∃ h2 h3, setNext h2 x1 i (some node) = .ok h3 ∧
                r = some (x1, true) ∧ l1 = { l with heap := h3 } ∧
                (∀ b j, nextOf h2 b j = nextOf h1 b j) ∧
                (∀ b, itemOf h2 b = itemOf h1 b) ∧ (∀ b, nextLen h2 b = nextLen h1 b) := by
              by_cases hi : i = 0
              · rw [if_pos hi] at h
                cases hp1 : setPrev h1 node (some x1) with
                | error e => simp [hp1] at h
                | ok g1 =>
                  simp only [hp1, bind_ok] at h
                  cases hp2 : setPrevIf g1 nx (some node) with
                  | error e => simp [hp2] at h
                  | ok g2 =>
                    simp only [hp2, bind_ok] at h
                    cases hs3 : setNext g2 x1 i (some node) with
                    | error e => simp [hs3] at h
                    | ok h3 =>
                      simp only [hs3, bind_ok, pure_eq_ok, Except.ok.injEq, Prod.mk.injEq] at h
                      refine ⟨g2, h3, hs3, h.1.symm, h.2.symm, ?_, ?_, ?_⟩
                      · intro b j
                        rw [nextOf_setPrevIf hp2, nextOf_setPrev hp1]
                      · intro b
                        rw [itemOf_setPrevIf hp2, itemOf_setPrev hp1]
                      · intro b
                        rw [nextLen_setPrevIf hp2, nextLen_setPrev hp1]
              · rw [if_neg hi] at h
                simp only [pure_eq_ok, bind_ok] at h
                cases hs3 : setNext h1 x1 i (some node) with
                | error e => simp [hs3] at h
                | ok h3 =>
                  simp only [hs3, bind_ok, Except.ok.injEq, Prod.mk.injEq] at h
                  exact ⟨h1, h3, hs3, h.1.symm, h.2.symm, fun _ _ => rfl, fun _ => rfl,
                    fun _ => rfl⟩
            obtain ⟨h2, h3, hs3, er, el, hn2, hi2, hl2⟩ := hex
            subst er
            subst el
            have hit : ∀ b, itemOf h3 b = itemOf l.heap b := by
              intro b
              rw [itemOf_setNext hs3, hi2, itemOf_setNext hs1]
            refine ⟨hit, ?_, rfl, rfl, rfl, hq0, ?_⟩
            · intro b
              show nextLen h3 b = _
              rw [nextLen_setNext hs3, hl2, nextLen_setNext hs1]
            · intro hc hl hni hb
              have hb1 := walk_before hc hw hb
              refine ⟨link_links hc hl hni hb1 hnx (walk_stop_great hw hst hnx) hs1 hn2 hi2 hs3,
                ?_⟩
              intro x2 ins2 e
              simp only [Option.some.injEq, Prod.mk.injEq] at e
              rw [← e.1]
              intro v hv
              have hv2 : itemOf l.heap x1 = .ok v := by
                rw [← hit]
                exact hv
              exact hb1 v hv2

theorem before_frame {α : Type} {cmp : α → α → Int} {item : α} {heap heap1 : List (Node α)}
    {x : Nat} (hi : ∀ b, itemOf heap1 b = itemOf heap b) (hb : Before cmp item heap1 x) :
    Before cmp item heap x := by
  intro v hv
  rw [← hi] at hv
  exact hb v hv

theorem insertV2Loop_inv {α : Type} (cmp : α → α → Int) (item : α) (node level fuel : Nat) :
    ∀ (i x : Nat) (ins : Bool) (l : SkipList α) (r : Option Bool) (l1 : SkipList α),
      insertV2Loop cmp item node level fuel i x ins l = .ok (r, l1) →
      (∀ b, itemOf l1.heap b = itemOf l.heap b) ∧ (∀ b, nextLen l1.heap b = nextLen l.heap b) ∧
        l1.header = l.header ∧ l1.level = l.level ∧ l1.len = l.len ∧
        (∃ q, nextOf l.heap x i = .ok q) ∧
        (IsTotalOrder cmp → Links cmp l.heap → itemOf l.heap node = .ok item →
          Before cmp item l.heap x → Links cmp l1.heap) := by
  intro i
  induction i with
  | zero =>
    intro x ins l r l1 h
    rw [insertV2Loop] at h
    cases hs : insertV2Step cmp item node level fuel 0 x ins l with
    | error e => simp [hs] at h
    | ok rs =>
      obtain ⟨r2, l2⟩ := rs
      obtain ⟨q1, q2, q3, q4, q5, q6, q7⟩ := insertV2Step_inv cmp item node level fuel 0 x ins l hs
      have e : l1 = l2 := by
        cases r2 with
        | none =>
          simp only [hs, bind_ok, pure_eq_ok, Except.ok.injEq, Prod.mk.injEq] at h
          exact h.2.symm
        | some p =>
          obtain ⟨x2, ins2⟩ := p
          simp only [hs, bind_ok, pure_eq_ok, Except.ok.injEq, Prod.mk.injEq] at h
          exact h.2.symm
      subst e
      exact ⟨q1, q2, q3, q4, q5, q6, fun hc hl hni hb => (q7 hc hl hni hb).1⟩
  | succ i ih =>
    intro x ins l r l1 h
    rw [insertV2Loop] at h
    cases hs : insertV2Step cmp item node level fuel (i + 1) x ins l with
    | error e => simp [hs] at h
    | ok rs =>
      obtain ⟨r2, l2⟩ := rs
      obtain ⟨q1, q2, q3, q4, q5, q6, q7⟩ :=
        insertV2Step_inv cmp item node level fuel (i + 1) x ins l hs
      cases r2 with
      | none =>
        simp only [hs, bind_ok, pure_eq_ok, Except.ok.injEq, Prod.mk.injEq] at h
        obtain ⟨_, e⟩ := h
        subst e
        exact ⟨q1, q2, q3, q4, q5, q6, fun hc hl hni hb => (q7 hc hl hni hb).1⟩
      | some p =>
        obtain ⟨x2, ins2⟩ := p
        simp only [hs, bind_ok] at h
        obtain ⟨p1, p2, p3, p4, p5, _, p7⟩ := ih x2 ins2 l2 r l1 h
        refine ⟨fun b => by rw [p1, q1], fun b => by rw [p2, q2], by rw [p3, q3],
          by rw [p4, q4], by rw [p5, q5], q6, ?_⟩
        intro hc hl hni hb
        obtain ⟨t1, t2⟩ := q7 hc hl hni hb
        exact p7 hc t1 (by rw [q1]; exact hni) (t2 x2 ins2 rfl)

theorem randLevel_le {α : Type} (coins : Coins) (l : SkipList α) :
    ∃ n, randLevel coins l = .ok n ∧ n ≤ l.level + 1 ∧ n ≤ maxLevel :=
  ⟨_, randLevel_eq coins l, Nat.min_le_right _ _, by
    have : headRunFrom coins 0 maxLevel ≤ maxLevel := by
      have hgen : ∀ n k, headRunFrom coins k n ≤ n := by
        intro n
        induction n with
        | zero => intro k; simp [headRunFrom]
        | succ n ih =>
          intro k
          rw [headRunFrom]
          by_cases hk : coins k = true
          · rw [if_pos hk]
            have := ih (k + 1)
            omega
          · rw [if_neg hk]
            omega
      exact hgen _ _
    exact Nat.le_trans (Nat.min_le_left _ _) this⟩

theorem before_hdr {α : Type} (cmp : α → α → Int) (item : α) {heap : List (Node α)} {x : Nat}
    {e : Fault} (h : itemOf heap x = .error e) : Before cmp item heap x := by
  intro v hv
  rw [h] at hv
  cases hv

theorem insertV2_inv {α : Type} (cmp : α → α → Int) (coins : Coins) (item : α)
    {l l1 : SkipList α} {b : Bool} (h : InsertV2 cmp coins item l = .ok (b, l1)) :
    l.level ≤ l1.level ∧ l1.level ≤ l.level + 1 ∧ l1.header = l.header ∧
      (IsTotalOrder cmp → LinkInv cmp l → LinkInv cmp l1) := by
  unfold InsertV2 at h
  obtain ⟨n, hn, hn1, _⟩ := randLevel_le coins l
  simp only [hn, bind_ok] at h
  generalize hl0 : (if n > l.level then { l with level := n } else l : SkipList α) = l0 at h
  have h0 : l0.heap = l.heap ∧ l0.header = l.header ∧ l.level ≤ l0.level ∧
      l0.level ≤ l.level + 1 := by
    by_cases hc : n > l.level
    · rw [if_pos hc] at hl0
      subst hl0
      exact ⟨rfl, rfl, by show l.level ≤ n; omega, hn1⟩
    · rw [if_neg hc] at hl0
      subst hl0
      exact ⟨rfl, rfl, Nat.le_refl _, by omega⟩
  obtain ⟨e1, e2, e3, e4⟩ := h0
  generalize hnd : ({ item := some item, next := List.replicate (n + 1) none, prev := none } :
    Node α) = nd at h
  cases hlp : insertV2Loop cmp item l0.heap.length n (l0.heap ++ [nd]).length l0.level
      l0.header false { l0 with heap := l0.heap ++ [nd] } with
  | error e =>
    rw [hlp] at h
    cases h
  | ok rs =>
    obtain ⟨r2, l2⟩ := rs
    obtain ⟨p1, p2, p3, p4, p5, p6, p7⟩ := insertV2Loop_inv cmp item _ _ _ _ _ _ _ _ _ hlp
    simp only at p1 p2 p3 p4 p5 p6 p7
    have hfin : l1.heap = l2.heap ∧ l1.header = l2.header ∧ l1.level = l2.level := by
      simp only [hlp, bind_ok] at h
      cases r2 with
      | none =>
        simp only [pure_eq_ok, Except.ok.injEq, Prod.mk.injEq] at h
        rw [← h.2]
        exact ⟨rfl, rfl, rfl⟩
      | some ins =>
        cases ins with
        | true =>
          simp only [if_true, pure_eq_ok, Except.ok.injEq, Prod.mk.injEq] at h
          rw [← h.2]
          exact ⟨rfl, rfl, rfl⟩
        | false =>
          simp only [Bool.false_eq_true, if_false, pure_eq_ok, Except.ok.injEq,
            Prod.mk.injEq] at h
          rw [← h.2]
          exact ⟨rfl, rfl, rfl⟩
    obtain ⟨f1, f2, f3⟩ := hfin
    refine ⟨by omega, by omega, by rw [f2, p3, e2], ?_⟩
    intro hc hinv
    have hh : l.header < l.heap.length := by
      have := hinv.hdrLen
      unfold nextLen at this
      cases hx : l.heap[l.header]? with
      | none => simp [hx] at this
      | some nd => exact (List.getElem?_eq_some.mp hx).1
    have hne : l0.header ≠ l0.heap.length := by
      rw [e1, e2]
      omega
    have hhi : itemOf (l0.heap ++ [nd]) l0.header = .error .nilItem := by
      rw [itemOf_alloc _ _ hne, e1, e2]
      exact hinv.hdrItem
    have hl2 := p7 hc (by rw [e1, ← hnd]; exact links_alloc hinv.links _ _)
      (by rw [← hnd]; exact itemOf_alloc_new _ _ _ _) (before_hdr cmp item hhi)
    refine ⟨by rw [f1]; exact hl2, ?_, ?_, ?_⟩
    · rw [f1, f2, p3, p1]
      exact hhi
    · rw [f1, f2, p3, p2, nextLen_alloc _ _ hne, e1, e2]
      exact hinv.hdrLen
    · rw [f3, p4]
      obtain ⟨q, hq⟩ := p6
      obtain ⟨m, hm1, hm2⟩ := nextLen_of_nextOf hq
      rw [nextLen_alloc _ _ hne, e1, e2, hinv.hdrLen] at hm1
      injection hm1 with hm1
      show l0.level < maxLevel
      omega

theorem knotsOK_frame {α : Type} {cmp : α → α → Int} {item : α} {heap heap1 : List (Node α)}
    {lo : Nat} {knots : Nat → Option Nat} (hk : KnotsOK cmp item heap lo knots)
    (hn : ∀ b j, lo ≤ j → nextOf heap1 b j = nextOf heap b j)
    (hi : ∀ b, itemOf heap1 b = itemOf heap b) : KnotsOK cmp item heap1 lo knots := by
  intro j kn hj hkn
  obtain ⟨h1, q, h2, h3⟩ := hk j kn hj hkn
  refine ⟨?_, q, by rw [hn _ _ hj]; exact h2, ?_⟩
  · intro v hv
    rw [hi] at hv
    exact h1 v hv
  · intro y hy
    obtain ⟨w, hw, hw1⟩ := h3 y hy
    exact ⟨w, by rw [hi]; exact hw, hw1⟩

theorem insertStep_inv {α : Type} (cmp : α → α → Int) (item : α) (node fuel i x : Nat)
    (knots : Nat → Option Nat) (l : SkipList α)
    {r : Option (Nat × (Nat → Option Nat))} {l1 : SkipList α}
    (h : insertStep cmp item node fuel i x knots l = .ok (r, l1)) :
    (∀ b, itemOf l1.heap b = itemOf l.heap b) ∧ (∀ b, nextLen l1.heap b = nextLen l.heap b) ∧
      l1.header = l.header ∧ l1.level = l.level ∧
      (∀ b j, j ≠ 0 → nextOf l1.heap b j = nextOf l.heap b j) ∧
      (IsTotalOrder cmp → Links cmp l.heap → itemOf l.heap node = .ok item →
        Before cmp item l.heap x → KnotsOK cmp item l.heap 1 knots →
        Links cmp l1.heap ∧ ∀ x1 knots1, r = some (x1, knots1) →
          Before cmp item l1.heap x1 ∧ KnotsOK cmp item l1.heap 1 knots1) := by
  unfold insertStep at h
  cases hw : walk cmp item l.heap i fuel x with
  | error e => simp [hw] at h
  | ok rw1 =>
    obtain ⟨x1, st⟩ := rw1
    simp only [hw, bind_ok] at h
    by_cases hst : st = .same
    · rw [if_pos hst] at h
      simp only [pure_eq_ok, Except.ok.injEq, Prod.mk.injEq] at h
      obtain ⟨e1, e2⟩ := h
      subst e1
      subst e2
      refine ⟨fun _ => rfl, fun _ => rfl, rfl, rfl, fun _ _ _ => rfl, ?_⟩
      intro _ hl _ _ _
      exact ⟨hl, fun _ _ e => by cases e⟩
    · rw [if_neg hst] at h
      by_cases hi : i ≠ 0
      · rw [if_pos hi] at h
        simp only [pure_eq_ok, Except.ok.injEq, Prod.mk.injEq] at h
        obtain ⟨e1, e2⟩ := h
        subst e1
        subst e2
        refine ⟨fun _ => rfl, fun _ => rfl, rfl, rfl, fun _ _ _ => rfl, ?_⟩
        intro hc hl _ hb hk
        refine ⟨hl, ?_⟩
        intro x2 knots2 e
        simp only [Option.some.injEq, Prod.mk.injEq] at e
        obtain ⟨e1, e2⟩ := e
        subst e1
        subst e2
        have hb1 := walk_before hc hw hb
        refine ⟨hb1, ?_⟩
        intro j kn hj hkn
        by_cases hji : j = i
        · subst hji
          rw [Function.update_same] at hkn
          injection hkn with hkn
          subst hkn
          obtain ⟨_, _, q, hq, _⟩ := walk_inv cmp item l.heap j fuel x x1 st hw
          exact ⟨hb1, q, hq, walk_stop_great hw hst hq⟩
        · rw [Function.update_noteq hji] at hkn
          exact hk j kn hj hkn
      · rw [if_neg hi] at h
        have hi0 : i = 0 := by omega
        subst hi0
        cases hnx : nextOf l.heap x1 0 with
        | error e => simp [hnx] at h
        | ok nx =>
          simp only [hnx, bind_ok] at h
          cases hs1 : setNext l.heap node 0 nx with
          | error e => simp [hs1] at h
          | ok h1 =>
            simp only [hs1, bind_ok] at h
            cases hp1 : setPrev h1 node (some x1) with
            | error e => simp [hp1] at h
            | ok h2 =>
              simp only [hp1, bind_ok] at h
              cases hp2 : setPrevIf h2 nx (some node) with
              | error e => simp [hp2] at h
              | ok h3 =>
                simp only [hp2, bind_ok] at h
                cases hs4 : setNext h3 x1 0 (some node) with
                | error e => simp [hs4] at h
                | ok h4 =>
                  simp only [hs4, bind_ok, pure_eq_ok, Except.ok.injEq, Prod.mk.injEq] at h
                  obtain ⟨e1, e2⟩ := h
                  subst e1
                  subst e2
                  have hit : ∀ b, itemOf h4 b = itemOf l.heap b := by
                    intro b
                    rw [itemOf_setNext hs4, itemOf_setPrevIf hp2, itemOf_setPrev hp1,
                      itemOf_setNext hs1]
                  have hnf : ∀ b j, j ≠ 0 → nextOf h4 b j = nextOf l.heap b j := by
                    intro b j hj
                    rw [nextOf_setNext hs4, if_neg (fun hh => hj hh.2), nextOf_setPrevIf hp2,
                      nextOf_setPrev hp1, nextOf_setNext hs1, if_neg (fun hh => hj hh.2)]
                  refine ⟨hit, ?_, rfl, rfl, hnf, ?_⟩
                  · intro b
                    show nextLen h4 b = _
                    rw [nextLen_setNext hs4, nextLen_setPrevIf hp2, nextLen_setPrev hp1,
                      nextLen_setNext hs1]
                  · intro hc hl hni hb hk
                    have hb1 := walk_before hc hw hb
                    refine ⟨link_links hc hl hni hb1 hnx (walk_stop_great hw hst hnx) hs1
                      (fun b j => by rw [nextOf_setPrevIf hp2, nextOf_setPrev hp1])
                      (fun b => by rw [itemOf_setPrevIf hp2, itemOf_setPrev hp1]) hs4, ?_⟩
                    intro x2 knots2 e
                    simp only [Option.some.injEq, Prod.mk.injEq] at e
                    obtain ⟨e1, e2⟩ := e
                    subst e1
                    subst e2
                    refine ⟨fun v hv => hb1 v (by rw [← hit]; exact hv), ?_⟩
                    exact knotsOK_frame hk (fun b j hj => hnf b j (by omega)) hit

theorem insertLoop_inv {α : Type} (cmp : α → α → Int) (item : α) (node fuel : Nat) :
    ∀ (i x : Nat) (knots : Nat → Option Nat) (l : SkipList α)
      (r : Option (Nat → Option Nat)) (l1 : SkipList α),
      insertLoop cmp item node fuel i x knots l = .ok (r, l1) →
      (∀ b, itemOf l1.heap b = itemOf l.heap b) ∧ (∀ b, nextLen l1.heap b = nextLen l.heap b) ∧
        l1.header = l.header ∧ l1.level = l.level ∧
        (IsTotalOrder cmp → Links cmp l.heap → itemOf l.heap node = .ok item →
          Before cmp item l.heap x → KnotsOK cmp item l.heap 1 knots →
          Links cmp l1.heap ∧ ∀ knots1, r = some knots1 → KnotsOK cmp item l1.heap 1 knots1) := by
  intro i
  induction i with
  | zero =>
    intro x knots l r l1 h
    rw [insertLoop] at h
    cases hs : insertStep cmp item node fuel 0 x knots l with
    | error e => simp [hs] at h
    | ok rs =>
      obtain ⟨r2, l2⟩ := rs
      obtain ⟨q1, q2, q3, q4, _, q7⟩ := insertStep_inv cmp item node fuel 0 x knots l hs
      cases r2 with
      | none =>
        simp only [hs, bind_ok, pure_eq_ok, Except.ok.injEq, Prod.mk.injEq] at h
        obtain ⟨e1, e2⟩ := h
        subst e1
        subst e2
        exact ⟨q1, q2, q3, q4, fun hc hl hni hb hk =>
          ⟨(q7 hc hl hni hb hk).1, fun _ e => by cases e⟩⟩
      | some p =>
        obtain ⟨x2, knots2⟩ := p
        simp only [hs, bind_ok, pure_eq_ok, Except.ok.injEq, Prod.mk.injEq] at h
        obtain ⟨e1, e2⟩ := h
        subst e1
        subst e2
        refine ⟨q1, q2, q3, q4, ?_⟩
        intro hc hl hni hb hk
        obtain ⟨t1, t2⟩ := q7 hc hl hni hb hk
        refine ⟨t1, ?_⟩
        intro knots1 e
        injection e with e
        subst e
        exact (t2 x2 knots2 rfl).2
  | succ i ih =>
    intro x knots l r l1 h
    rw [insertLoop] at h
    cases hs : insertStep cmp item node fuel (i + 1) x knots l with
    | error e => simp [hs] at h
    | ok rs =>
      obtain ⟨r2, l2⟩ := rs
      obtain ⟨q1, q2, q3, q4, _, q7⟩ := insertStep_inv cmp item node fuel (i + 1) x knots l hs
      cases r2 with
      | none =>
        simp only [hs, bind_ok, pure_eq_ok, Except.ok.injEq, Prod.mk.injEq] at h
        obtain ⟨e1, e2⟩ := h
        subst e1
        subst e2
        exact ⟨q1, q2, q3, q4, fun hc hl hni hb hk =>
          ⟨(q7 hc hl hni hb hk).1, fun _ e => by cases e⟩⟩
      | some p =>
        obtain ⟨x2, knots2⟩ := p
        simp only [hs, bind_ok] at h
        obtain ⟨p1, p2, p3, p4, p7⟩ := ih x2 knots2 l2 r l1 h
        refine ⟨fun b => by rw [p1, q1], fun b => by rw [p2, q2], by rw [p3, q3],
          by rw [p4, q4], ?_⟩
        intro hc hl hni hb hk
        obtain ⟨t1, t2⟩ := q7 hc hl hni hb hk
        obtain ⟨t3, t4⟩ := t2 x2 knots2 rfl
        exact p7 hc t1 (by rw [q1]; exact hni) t3 t4

theorem promote_inv {α : Type} (cmp : α → α → Int) (item : α) (coins : Coins) (node : Nat)
    (knots : Nat → Option Nat) :
    ∀ (fuel level k : Nat) (l l1 : SkipList α),
      promote coins node knots fuel level k l = .ok l1 →
      (∀ b, itemOf l1.heap b = itemOf l.heap b) ∧ (∀ b, nextLen l1.heap b = nextLen l.heap b) ∧
        l1.header = l.header ∧ l1.len = l.len ∧
        (l1.level = l.level ∨ l1.level < maxLevel) ∧
        (level ≤ l.level + 1 → l.level ≤ l1.level ∧ l1.level ≤ l.level + 1) ∧
        (IsTotalOrder cmp → Links cmp l.heap → itemOf l.heap node = .ok item →
          (∀ v, itemOf l.heap l.header ≠ .ok v) →
          (∃ m, nextLen l.heap node = some m ∧ l.level + 2 ≤ m) → level ≤ l.level + 1 →
          KnotsOK cmp item l.heap level knots → Links cmp l1.heap) := by
  intro fuel
  induction fuel with
  | zero =>
    intro level k l l1 h
    simp [promote] at h
  | succ fuel ih =>
    intro level k l l1 h
    rw [promote] at h
    by_cases hcond : coins k = true ∧ level < maxLevel
    · rw [if_pos hcond] at h
      by_cases hgt : level > l.level
      · rw [if_pos hgt] at h
        cases hs : setNext l.heap l.header level (some node) with
        | error e => simp [hs] at h
        | ok h1 =>
          simp only [hs, bind_ok, pure_eq_ok, Except.ok.injEq] at h
          subst h
          refine ⟨itemOf_setNext hs, nextLen_setNext hs, rfl, rfl, Or.inr hcond.2,
            fun hle => ⟨by show l.level ≤ level; omega, hle⟩, ?_⟩
          intro _ hl hni hhd hm hle _
          apply links_setNext hl hs
          intro m e
          injection e with e
          subst e
          obtain ⟨mm, hm1, hm2⟩ := hm
          refine ⟨item, hni, Or.inr (nextOf_of_nextLen hm1 (by omega)), ?_⟩
          intro v hv
          exact absurd hv (hhd v)
      · rw [if_neg hgt] at h
        cases hkn : knots level with
        | none => simp [hkn] at h
        | some kn =>
          simp only [hkn] at h
          cases hp : nextOf l.heap kn level with
          | error e => simp [hp] at h
          | ok p =>
            simp only [hp, bind_ok] at h
            cases hs1 : setNext l.heap node level p with
            | error e => simp [hs1] at h
            | ok h1 =>
              simp only [hs1, bind_ok] at h
              cases hs2 : setNext h1 kn level (some node) with
              | error e => simp [hs2] at h
              | ok h2 =>
                simp only [hs2, bind_ok] at h
                obtain ⟨p1, p2, p3, p4, p5, p6, p7⟩ := ih (level + 1) (k + 1) _ l1 h
                simp only at p1 p2 p3 p4 p5 p6 p7
                have hit : ∀ b, itemOf h2 b = itemOf l.heap b := by
                  intro b
                  rw [itemOf_setNext hs2, itemOf_setNext hs1]
                have hnl : ∀ b, nextLen h2 b = nextLen l.heap b := by
                  intro b
                  rw [nextLen_setNext hs2, nextLen_setNext hs1]
                refine ⟨fun b => by rw [p1, hit], fun b => by rw [p2, hnl], p3, p4, p5,
                  fun _ => p6 (by omega), ?_⟩
                intro hc hl hni hhd hm hle hk
                obtain ⟨hb, q, hq, hgr⟩ := hk level kn (Nat.le_refl _) hkn
                rw [hp] at hq
                injection hq with hq
                subst hq
                have hl2 : Links cmp h2 := link_links hc hl hni hb hp hgr hs1
                  (fun _ _ => rfl) (fun _ => rfl) hs2
                refine p7 hc hl2 (by rw [hit]; exact hni) (fun v => by rw [hit]; exact hhd v)
                  (by rw [hnl]; exact hm) (by omega) ?_
                apply knotsOK_frame (fun j kn2 hj => hk j kn2 (by omega)) _ hit
                intro b j hj
                rw [nextOf_setNext hs2, if_neg (fun hh => by omega), nextOf_setNext hs1,
                  if_neg (fun hh => by omega)]
    · rw [if_neg hcond] at h
      simp only [pure_eq_ok, Except.ok.injEq] at h
      subst h
      exact ⟨fun _ => rfl, fun _ => rfl, rfl, rfl, Or.inl rfl, fun _ => ⟨Nat.le_refl _, by omega⟩,
        fun _ hl _ _ _ _ _ => hl⟩

theorem hdr_lt_of_nextLen {α : Type} {heap : List (Node α)} {x n : Nat}
    (h : nextLen heap x = some n) : x < heap.length := by
  unfold nextLen at h
  cases hx : heap[x]? with
  | none => simp [hx] at h
  | some nd => exact (List.getElem?_eq_some.mp hx).1

theorem nextLen_alloc_new {α : Type} (heap : List (Node α)) (nd : Node α) :
    nextLen (heap ++ [nd]) heap.length = some nd.next.length := by
  unfold nextLen
  rw [List.getElem?_concat_length]
  rfl

theorem insert_inv {α : Type} (cmp : α → α → Int) (coins : Coins) (item : α)
    {l l1 : SkipList α} {b : Bool} (h : Insert cmp coins item l = .ok (b, l1)) :
    l.level ≤ l1.level ∧ l1.level ≤ l.level + 1 ∧ l1.header = l.header ∧
      (IsTotalOrder cmp → LinkInv cmp l → LinkInv cmp l1) := by
  unfold Insert at h
  simp only [] at h
  generalize hnd :
    ({ item := some item, next := List.replicate (l.level + 2) none, prev := none } : Node α)
      = nd at h
  cases hlp : insertLoop cmp item l.heap.length (l.heap ++ [nd]).length l.level l.header
      (fun _ => none) { l with heap := l.heap ++ [nd] } with
  | error e =>
    rw [hlp] at h
    cases h
  | ok rs =>
    obtain ⟨r2, l2⟩ := rs
    obtain ⟨p1, p2, p3, p4, p7⟩ := insertLoop_inv cmp item _ _ _ _ _ _ _ _ hlp
    simp only at p1 p2 p3 p4 p7
    simp only [hlp, bind_ok] at h
    have hpre : IsTotalOrder cmp → LinkInv cmp l →
        Links cmp l2.heap ∧ itemOf l2.heap l2.header = .error .nilItem ∧
        nextLen l2.heap l2.header = some maxLevel ∧ itemOf l2.heap l.heap.length = .ok item ∧
        nextLen l2.heap l.heap.length = some (l.level + 2) ∧
        ∀ knots1, r2 = some knots1 → KnotsOK cmp item l2.heap 1 knots1 := by
      intro hc hinv
      have hne : l.header ≠ l.heap.length := Nat.ne_of_lt (hdr_lt_of_nextLen hinv.hdrLen)
      have hhi : itemOf (l.heap ++ [nd]) l.header = .error .nilItem := by
        rw [itemOf_alloc _ _ hne]
        exact hinv.hdrItem
      have hni : itemOf (l.heap ++ [nd]) l.heap.length = .ok item := by
        rw [← hnd]
        exact itemOf_alloc_new _ _ _ _
      obtain ⟨t1, t2⟩ := p7 hc (by rw [← hnd]; exact links_alloc hinv.links _ _) hni
        (before_hdr cmp item hhi) (fun j kn _ e => by cases e)
      refine ⟨t1, by rw [p3, p1]; exact hhi, ?_, by rw [p1]; exact hni, ?_, t2⟩
      · rw [p3, p2, nextLen_alloc _ _ hne]
        exact hinv.hdrLen
      · rw [p2, nextLen_alloc_new, ← hnd]
        simp
    cases r2 with
    | none =>
      simp only [pure_eq_ok, Except.ok.injEq, Prod.mk.injEq] at h
      obtain ⟨_, e⟩ := h
      subst e
      refine ⟨by omega, by omega, p3, ?_⟩
      intro hc hinv
      obtain ⟨t1, t2, t3, _⟩ := hpre hc hinv
      exact ⟨t1, t2, t3, by rw [p4]; exact hinv.lvl_lt⟩
    | some knots1 =>
      simp only at h
      cases hpr : promote coins l.heap.length knots1 (maxLevel + 1) 1 0 l2 with
      | error e =>
        rw [hpr] at h
        cases h
      | ok l3 =>
        simp only [hpr, bind_ok, pure_eq_ok, Except.ok.injEq, Prod.mk.injEq] at h
        obtain ⟨_, e⟩ := h
        subst e
        obtain ⟨q1, q2, q3, q4, q5, q6, q7⟩ :=
          promote_inv cmp item coins l.heap.length knots1 _ _ _ _ _ hpr
        have hb := q6 (by omega)
        refine ⟨by omega, by omega, by rw [q3, p3], ?_⟩
        intro hc hinv
        obtain ⟨t1, t2, t3, t4, t5, t6⟩ := hpre hc hinv
        refine ⟨?_, by rw [q3, q1]; exact t2, by rw [q3, q2]; exact t3, ?_⟩
        · refine q7 hc t1 t4 ?_ ⟨_, t5, by omega⟩ (by omega) (t6 knots1 rfl)
          intro v hv
          rw [t2] at hv
          cases hv
        · have := hinv.lvl_lt
          rcases q5 with e | e
          · omega
          · exact e

theorem linkInv_new {α : Type} (cmp : α → α → Int) : LinkInv cmp (NewList : SkipList α) := by
  have h32 : (0 : Nat) < maxLevel := by decide
  refine ⟨?_, rfl, rfl, h32⟩
  intro n i m h
  obtain ⟨nd, h1, h2⟩ := nextOf_eq_ok.mp h
  have hn : n = 0 := by
    have := (List.getElem?_eq_some.mp h1).1
    simp [NewList] at this
    exact this
  subst hn
  simp only [NewList, List.getElem?_cons_zero, Option.some.injEq] at h1
  subst h1
  have := List.getElem?_mem h2
  simp at this

theorem reachableV2_inv {α : Type} {cmp : α → α → Int} (hc : IsTotalOrder cmp)
    {l : SkipList α} (hr : ReachableV2 cmp l) : LinkInv cmp l := by
  induction hr with
  | new => exact linkInv_new cmp
  | insert coins item b _ h ih => exact (insert_inv cmp coins item h).2.2.2 hc ih
  | insertV2 coins item b _ h ih => exact (insertV2_inv cmp coins item h).2.2.2 hc ih
  | delete item b _ h ih => exact (delete_links hc item ih h).1

theorem reachable_reachableV2 {α : Type} {cmp : α → α → Int} {l : SkipList α}
    (hr : Reachable cmp l) : ReachableV2 cmp l := by
  induction hr with
  | new => exact ReachableV2.new
  | insert coins item b _ h ih => exact ReachableV2.insert coins item b ih h
  | delete item b _ h ih => exact ReachableV2.delete item b ih h

theorem c7After_reachable : ReachableV2 compareIntAsc c7After :=
  ReachableV2.insertV2 (heads 1) 5 false
    (ReachableV2.insert (heads 0) 5 true ReachableV2.new
      (rfl : Insert compareIntAsc (heads 0) 5 NewList = .ok (true, c7Before)))
    (rfl : InsertV2 compareIntAsc (heads 1) 5 c7Before = .ok (false, c7After))

/-- C14: in a state reachable from `NewList` by `Insert`, `InsertV2` and `Delete`
calls that return (total-order comparator, any coins), the traversal of every
level from 0 to `level` returns, and the items it meets are strictly
increasing under the comparator. -/
theorem C14_ordering_every_level {α : Type} (cmp : α → α → Int) (hc : IsTotalOrder cmp)
    (l : SkipList α) (hr : ReachableV2 cmp l) :
    ∀ i, i ≤ l.level → ∃ zs, levelItems l i = .ok zs ∧
      zs.Pairwise (fun a b => cmp a b = -1) := by
  intro i hi
  have hinv := reachableV2_inv hc hr
  exact levelItems_links hc hinv (Nat.lt_of_le_of_lt hi hinv.lvl_lt)

theorem C14_ordering_every_level_witness :
    (∀ i, i ≤ c7After.level → ∃ zs, levelItems c7After i = .ok zs ∧
      zs.Pairwise (fun a b => compareIntAsc a b = -1)) ∧
    c7After.level = 1 ∧ levelItems c7After 0 = .ok [5] ∧ levelItems c7After 1 = .ok [5] ∧
    (InsertV2 compareIntAsc (heads 2) 9 ascList >>= fun r =>
      Delete compareIntAsc 3 r.2 >>= fun r2 =>
        pure (r.1, r2.1, r2.2.level, levelItems r2.2 0, levelItems r2.2 1, levelItems r2.2 2,
          levelItems r2.2 3))
      = .ok (true, true, 3, .ok [1, 2, 4, 5, 6, 7, 9], .ok [1, 4, 7, 9], .ok [4, 9], .ok [4]) :=
  ⟨C14_ordering_every_level compareIntAsc compareIntAsc_total c7After c7After_reachable,
    rfl, rfl, rfl, rfl⟩

/-! ## InsertV2 on a represented list -/

theorem insertV2Step_same {α : Type} (cmp : α → α → Int) (item : α) (node level fuel i x : Nat)
    (ins : Bool) (l : SkipList α) {x1 : Nat}
    (hw : walk cmp item l.heap i fuel x = .ok (x1, .same)) :
    insertV2Step cmp item node level fuel i x ins l = .ok (none, l) := by
  simp [insertV2Step, hw]

theorem insertV2Step_skip {α : Type} (cmp : α → α → Int) (item : α) (node level fuel i x : Nat)
    (ins : Bool) (l : SkipList α) {x1 : Nat} {st : Stop}
    (hw : walk cmp item l.heap i fuel x = .ok (x1, st)) (hst : st ≠ .same) (hi : level < i) :
    insertV2Step cmp item node level fuel i x ins l = .ok (some (x1, ins), l) := by
  simp [insertV2Step, hw, hst, hi]

theorem insertV2Step_link {α : Type} (cmp : α → α → Int) (item : α) (node level fuel i x : Nat)
    (ins : Bool) (l : SkipList α) {x1 : Nat} {st : Stop} {nx q : Option Nat}
    (hw : walk cmp item l.heap i fuel x = .ok (x1, st)) (hst : st ≠ .same) (hi : i ≤ level)
    (hi0 : i ≠ 0) (hnx : nextOf l.heap x1 i = .ok nx) (hnw : nextOf l.heap node i = .ok q) :
    ∃ h3, insertV2Step cmp item node level fuel i x ins l
        = .ok (some (x1, true), { l with heap := h3 }) ∧
      (∀ b j, nextOf h3 b j = if b = x1 ∧ j = i then .ok (some node)
        else if b = node ∧ j = i then .ok nx else nextOf l.heap b j) ∧
      (∀ b, itemOf h3 b = itemOf l.heap b) ∧ (∀ b, prevOf h3 b = prevOf l.heap b) ∧
      (∀ b, nextLen h3 b = nextLen l.heap b) ∧ h3.length = l.heap.length := by
  obtain ⟨h1, e1⟩ := setNext_ok hnw nx
  have hx1 : ∃ q1, nextOf h1 x1 i = .ok q1 := by
    rw [nextOf_setNext e1]
    by_cases hc : x1 = node ∧ i = i
    · rw [if_pos hc]
      exact ⟨_, rfl⟩
    · rw [if_neg hc]
      exact ⟨_, hnx⟩
  obtain ⟨q1, hq1⟩ := hx1
  obtain ⟨h3, e3⟩ := setNext_ok hq1 (some node)
  have hnl : ¬ i > level := by omega
  refine ⟨h3, ?_, ?_, ?_, ?_, ?_, ?_⟩
  · simp [insertV2Step, hw, hst, hnl, hnx, e1, hi0, e3]
  · intro b j
    rw [nextOf_setNext e3, nextOf_setNext e1]
  · intro b
    rw [itemOf_setNext e3, itemOf_setNext e1]
  · intro b
    rw [prevOf_setNext e3, prevOf_setNext e1]
  · intro b
    rw [nextLen_setNext e3, nextLen_setNext e1]
  · rw [length_setNext e3, length_setNext e1]

theorem insertV2Step_link0 {α : Type} (cmp : α → α → Int) (item : α) (node level fuel x : Nat)
    (ins : Bool) (l : SkipList α) {x1 : Nat} {st : Stop} {nx q : Option Nat}
    (hw : walk cmp item l.heap 0 fuel x = .ok (x1, st)) (hst : st ≠ .same)
    (hnx : nextOf l.heap x1 0 = .ok nx) (hnw : nextOf l.heap node 0 = .ok q)
    (hxn : x1 ≠ node)
    (hnxl : ∀ a, nx = some a → a < l.heap.length) :
    ∃ h4, insertV2Step cmp item node level fuel 0 x ins l
        = .ok (some (x1, true), { l with heap := h4 }) ∧
      (∀ b j, nextOf h4 b j = if b = x1 ∧ j = 0 then .ok (some node)
        else if b = node ∧ j = 0 then .ok nx else nextOf l.heap b j) ∧
      (∀ b, itemOf h4 b = itemOf l.heap b) ∧
      (∀ b, prevOf h4 b = if nx = some b then .ok (some node)
        else if b = node then .ok (some x1) else prevOf l.heap b) ∧
      (∀ b, nextLen h4 b = nextLen l.heap b) ∧ h4.length = l.heap.length := by
  obtain ⟨h1, e1⟩ := setNext_ok hnw nx
  obtain ⟨h2, e2⟩ : ∃ h2, setPrev h1 node (some x1) = .ok h2 :=
    setPrev_ok (by rw [length_setNext e1]; exact nextOf_lt hnw) _
  obtain ⟨h3, e3⟩ : ∃ h3, setPrevIf h2 nx (some node) = .ok h3 :=
    setPrevIf_ok (by
    intro a ha
    rw [length_setPrev e2, length_setNext e1]
    exact hnxl a ha) _
  have hx3 : nextOf h3 x1 0 = .ok nx := by
    rw [nextOf_setPrevIf e3, nextOf_setPrev e2, nextOf_setNext e1, if_neg (by simp [hxn])]
    exact hnx
  obtain ⟨h4, e4⟩ := setNext_ok hx3 (some node)
  refine ⟨h4, ?_, ?_, ?_, ?_, ?_, ?_⟩
  · simp [insertV2Step, hw, hst, hnx, e1, e2, e3, e4]
  · intro b j
    rw [nextOf_setNext e4, nextOf_setPrevIf e3, nextOf_setPrev e2, nextOf_setNext e1]
  · intro b
    rw [itemOf_setNext e4, itemOf_setPrevIf e3, itemOf_setPrev e2, itemOf_setNext e1]
  · intro b
    rw [prevOf_setNext e4, prevOf_setPrevIf e3, prevOf_setPrev e2, prevOf_setNext e1]
  · intro b
    rw [nextLen_setNext e4, nextLen_setPrevIf e3, nextLen_setPrev e2, nextLen_setNext e1]
  · rw [length_setNext e4, length_setPrevIf e3, length_setPrev e2, length_setNext e1]

theorem sameBelow_walk {α : Type} (cmp : α → α → Int) (item : α) {base h : List (Node α)}
    {hdr i fuel : Nat} {A B : List (Tower α)}
    (hs : Shape base hdr (A ++ B)) (hsb : SameBelow base h i) (hi : i < maxLevel)
    (hlt : ∀ t ∈ A, cmp t.item item = -1)
    (hge : ∀ t ∈ B, cmp t.item item = 0 ∨ cmp t.item item = 1)
    (hf : A.length < fuel) :
    walk cmp item h i fuel (lastAddr hdr (atLevel (i + 1) A))
        = .ok (lastAddr hdr (atLevel i A), stopOf cmp item (atLevel i B)) ∧
      nextOf h (lastAddr hdr (atLevel i A)) i = .ok ((atLevel i B).head?.map Tower.addr) ∧
      Chain h i hdr (atLevel i (A ++ B)) := by
  have hch : Chain h i hdr (atLevel i (A ++ B)) :=
    chain_frame (fun b _ => hsb.1 i (Nat.le_refl _) b) (fun b _ => hsb.2.1 b) (hs.chains i hi)
  refine ⟨level_step cmp item hch hlt hge hf, ?_, hch⟩
  have hc2 := hch
  rw [atLevel_append, chain_append] at hc2
  exact chain_next hc2.2

theorem pred_mem {α : Type} (hdr i : Nat) (A B : List (Tower α)) :
    lastAddr hdr (atLevel i A) ∈ hdr :: (A ++ B).map Tower.addr := by
  have h := lastAddr_mem hdr (atLevel i A)
  rcases List.mem_cons.mp h with e | h
  · rw [e]
    simp
  · simp only [List.map_append, List.mem_cons, List.mem_append]
    right
    left
    exact ((atLevel_sublist i A).map Tower.addr).subset h

theorem insertV2Loop_fresh {α : Type} (cmp : α → α → Int) (item : α) (hdr new n fuel : Nat)
    {A B : List (Tower α)} {base : List (Node α)}
    (hs : Shape base hdr (A ++ B))
    (hlt : ∀ t ∈ A, cmp t.item item = -1)
    (hgt : ∀ t ∈ B, cmp t.item item = 1)
    (hf : A.length < fuel)
    (hnew : new ∉ hdr :: (A ++ B).map Tower.addr)
    (hnl : new < base.length)
    (hni : itemOf base new = .ok item)
    (hnn : ∀ j, j ≤ n → nextOf base new j = .ok none) :
    ∀ (i : Nat), i < maxLevel → ∀ (ins : Bool) (l : SkipList α), l.header = hdr →
      SameBelow base l.heap i →
      (∀ j, i < j → j < maxLevel →
        Chain l.heap j hdr (atLevel j (A ++ ⟨new, item, n⟩ :: B))) →
      ∃ h1, insertV2Loop cmp item new n fuel i (lastAddr hdr (atLevel (i + 1) A)) ins l
          = .ok (some true, { l with heap := h1 }) ∧
        Shape h1 hdr (A ++ ⟨new, item, n⟩ :: B) ∧ h1.length = base.length := by
  have hge : ∀ t ∈ B, cmp t.item item = 0 ∨ cmp t.item item = 1 := fun t ht => Or.inr (hgt t ht)
  have hne : ∀ i, stopOf cmp item (atLevel i B) ≠ .same := fun i =>
    stopOf_ne_same (fun t ht => hgt t (mem_atLevel ht))
  have hxn : ∀ i, lastAddr hdr (atLevel i A) ≠ new := fun i e => hnew (e ▸ pred_mem hdr i A B)
  intro i
  induction i with
  | zero =>
    intro _ ins l hh hsb hup
    obtain ⟨hw, hnx, hch⟩ := sameBelow_walk cmp item hs hsb (by decide) hlt hge hf
    have hnw : nextOf l.heap new 0 = .ok none := by
      rw [hsb.1 0 (Nat.le_refl _)]
      exact hnn 0 (Nat.zero_le _)
    obtain ⟨h4, r1, r2, r3, r4, r5, r6⟩ := insertV2Step_link0 cmp item new n fuel
      (lastAddr hdr (atLevel 1 A)) ins l hw (hne 0) hnx hnw (hxn 0) (by
        intro a ha
        rw [hsb.2.2.2.2]
        obtain ⟨t, ht, e⟩ := List.mem_map.mp (head_addr_mem ha)
        rw [← e]
        exact hs.inHeap t (List.mem_append_right _ (mem_atLevel ht)))
    refine ⟨h4, by simp [insertV2Loop, r1], ?_, by rw [r6, hsb.2.2.2.2]⟩
    rw [atLevel_zero] at hw hnx r2 r4
    rw [atLevel_zero] at hnx r2 r4
    have hne2 : ∀ c, c ∈ hdr :: (A ++ B).map Tower.addr → c ≠ new :=
      fun c hc e => hnew (e ▸ hc)
    have hBn : ∀ c, B.head?.map Tower.addr = some c → c ≠ new := by
      intro c hc e
      apply hnew
      rw [← e]
      simp only [List.map_append, List.mem_cons, List.mem_append]
      right
      right
      exact head_addr_mem hc
    have hhead : ∀ c, c ∈ hdr :: (A.map Tower.addr ++ B.tail.map Tower.addr) →
        ∀ z ∈ B.head?, c ≠ z.addr := by
      intro c hc z hz
      cases B with
      | nil => simp at hz
      | cons z1 B1 =>
        simp only [List.head?_cons, Option.mem_def, Option.some.injEq] at hz
        subst hz
        have h2 := (nodup_remove_mid hs.nodup).2
        intro e
        apply h2
        rw [← e]
        simpa using hc
    have hprev : ∀ b, b ≠ new → (∀ z ∈ B.head?, b ≠ z.addr) → prevOf h4 b = prevOf base b := by
      intro b hb hbz
      have hz1 : ¬ B.head?.map Tower.addr = some b := by
        intro e
        cases hB : B.head? with
        | none => simp [hB] at e
        | some z =>
          simp only [hB, Option.map_some', Option.some.injEq] at e
          exact hbz z (Option.mem_def.mpr hB) e.symm
      rw [r4, if_neg hz1, if_neg hb, hsb.2.2.1]
    constructor
    · have h1 : (hdr :: (A ++ (⟨new, item, n⟩ : Tower α) :: B).map Tower.addr)
          = [hdr] ++ (A.map Tower.addr ++ new :: B.map Tower.addr) := by simp
      have h2 : (hdr :: (A ++ B).map Tower.addr)
          = [hdr] ++ (A.map Tower.addr ++ B.map Tower.addr) := by simp
      rw [h1, ← List.append_assoc, List.nodup_middle, List.nodup_cons, List.append_assoc, ← h2]
      exact ⟨hnew, hs.nodup⟩
    · intro t ht
      rw [r6, hsb.2.2.2.2]
      rcases List.mem_append.mp ht with h | h
      · exact hs.inHeap t (List.mem_append_left _ h)
      · rcases List.mem_cons.mp h with e | h
        · rw [e]
          exact hnl
        · exact hs.inHeap t (List.mem_append_right _ h)
    · rw [r3, hsb.2.1]
      exact hs.hdrItem
    · rw [hprev hdr (hne2 hdr (by simp)) (hhead hdr (by simp))]
      exact hs.hdrPrev
    · rw [r5, hsb.2.2.2.1]
      exact hs.hdrLen
    · intro j hj
      by_cases hj0 : j = 0
      · subst hj0
        rw [atLevel_zero] at hch ⊢
        refine chain_insert item n hch hs.nodup hnew ?_ ?_ ?_ ?_ ?_
        · intro b hb hbn
          rw [r2, if_neg (fun hh => hb hh.1), if_neg (fun hh => hbn hh.1)]
        · intro b _
          exact r3 b
        · rw [r2, if_pos ⟨rfl, rfl⟩]
        · rw [r2, if_neg (fun hh => hxn 0 (by rw [atLevel_zero]; exact hh.1.symm)),
            if_pos ⟨rfl, rfl⟩]
          exact hnx.symm
        · rw [r3, hsb.2.1]
          exact hni
      · refine chain_frame ?_ ?_ (hup j (by omega) hj)
        · intro b _
          rw [r2, if_neg (fun hh => hj0 hh.2), if_neg (fun hh => hj0 hh.2)]
        · intro b _
          exact r3 b
    · have hp := hs.prevs
      rw [prev_append] at hp ⊢
      refine ⟨prev_frame ?_ hp.1, ?_, prev_rebase ?_ ?_ hp.2⟩
      · intro b hb
        exact hprev b (hne2 b (by
            simp only [List.map_append, List.mem_cons, List.mem_append]
            right
            left
            exact hb))
          (hhead b (by simp only [List.mem_cons, List.mem_append]; right; left; exact hb))
      · show prevOf h4 new = _
        rw [r4, if_neg (fun e => hBn new e rfl), if_pos rfl]
      · intro z hz
        have hz1 : B.head?.map Tower.addr = some z.addr := by
          rw [Option.mem_def.mp hz]
          rfl
        show prevOf h4 z.addr = _
        rw [r4, if_pos hz1]
      · intro b hb
        have hbB : b ∈ B.map Tower.addr := by
          cases B with
          | nil => simp at hb
          | cons z B1 =>
            simp only [List.map_cons]
            exact List.mem_cons_of_mem _ (by simpa using hb)
        exact hprev b (hne2 b (by
            simp only [List.map_append, List.mem_cons, List.mem_append]
            right
            right
            exact hbB))
          (hhead b (by simp only [List.mem_cons, List.mem_append]; right; right; exact hb))
  | succ i ih =>
    intro hi ins l hh hsb hup
    obtain ⟨hw, hnx, hch⟩ := sameBelow_walk cmp item hs hsb hi hlt hge hf
    have hsb1 : SameBelow base l.heap i :=
      ⟨fun j hj b => hsb.1 j (by omega) b, hsb.2.1, hsb.2.2.1, hsb.2.2.2.1, hsb.2.2.2.2⟩
    by_cases hin : n < i + 1
    · have hst := insertV2Step_skip cmp item new n fuel (i + 1)
        (lastAddr hdr (atLevel (i + 1 + 1) A)) ins l hw (hne (i + 1)) hin
      obtain ⟨h1, r1, r2, r3⟩ := ih (by omega) ins l hh hsb1 (by
        intro j hj hjm
        by_cases hji : j = i + 1
        · subst hji
          rw [atLevel_append, atLevel_cons_gt (t := ⟨new, item, n⟩) (by simpa using hin),
            ← atLevel_append]
          exact hch
        · exact hup j (by omega) hjm)
      exact ⟨h1, by simp [insertV2Loop, hst, r1], r2, r3⟩
    · have hnw : nextOf l.heap new (i + 1) = .ok none := by
        rw [hsb.1 (i + 1) (Nat.le_refl _)]
        exact hnn (i + 1) (by omega)
      obtain ⟨h3, q1, q2, q3, q4, q5, q6⟩ := insertV2Step_link cmp item new n fuel (i + 1)
        (lastAddr hdr (atLevel (i + 1 + 1) A)) ins l hw (hne (i + 1)) (by omega) (by omega)
        hnx hnw
      obtain ⟨h1, r1, r2, r3⟩ := ih (by omega) true { l with heap := h3 } hh
        ⟨fun j hj b => by
            show nextOf h3 b j = _
            rw [q2, if_neg (fun hh => by omega), if_neg (fun hh => by omega)]
            exact hsb.1 j (by omega) b,
          fun b => by show itemOf h3 b = _; rw [q3, hsb.2.1],
          fun b => by show prevOf h3 b = _; rw [q4, hsb.2.2.1],
          fun b => by show nextLen h3 b = _; rw [q5, hsb.2.2.2.1],
          by show h3.length = _; rw [q6, hsb.2.2.2.2]⟩ (by
        intro j hj hjm
        show Chain h3 j hdr _
        by_cases hji : j = i + 1
        · subst hji
          rw [atLevel_append, atLevel_cons_le (t := ⟨new, item, n⟩) (by simpa using Nat.not_lt.mp hin)]
          rw [atLevel_append] at hch
          refine chain_insert item n hch ?_ ?_ ?_ ?_ ?_ ?_ ?_
          · rw [← atLevel_append]
            exact nodup_atLevel (i + 1) hs.nodup
          · rw [← atLevel_append]
            exact not_mem_atLevel (i + 1) hnew
          · intro b hb hbn
            rw [q2, if_neg (fun hh => hb hh.1), if_neg (fun hh => hbn hh.1)]
          · intro b _
            exact q3 b
          · rw [q2, if_pos ⟨rfl, rfl⟩]
          · rw [q2, if_neg (fun hh => hxn (i + 1) hh.1.symm), if_pos ⟨rfl, rfl⟩]
            exact hnx.symm
          · rw [q3, hsb.2.1]
            exact hni
        · refine chain_frame ?_ ?_ (hup j (by omega) hjm)
          · intro b _
            rw [q2, if_neg (fun hh => hji hh.2), if_neg (fun hh => hji hh.2)]
          · intro b _
            exact q3 b)
      exact ⟨h1, by simp [insertV2Loop, q1, r1], r2, r3⟩

theorem insertV2Loop_dup {α : Type} (cmp : α → α → Int) (item : α) (hdr new n fuel : Nat)
    {A B : List (Tower α)} {T : Tower α} {base : List (Node α)}
    (hs : Shape base hdr (A ++ T :: B))
    (hlt : ∀ t ∈ A, cmp t.item item = -1)
    (hT : cmp T.item item = 0)
    (hgt : ∀ t ∈ B, cmp t.item item = 1)
    (hf : A.length < fuel)
    (hnn : ∀ j, j ≤ n → nextOf base new j = .ok none) :
    ∀ (i : Nat), i < maxLevel → ∀ (ins : Bool) (l : SkipList α), l.header = hdr →
      SameBelow base l.heap i →
      ∃ h1, insertV2Loop cmp item new n fuel i (lastAddr hdr (atLevel (i + 1) A)) ins l
          = .ok (none, { l with heap := h1 }) ∧ SameBelow base h1 0 := by
  have hge : ∀ t ∈ T :: B, cmp t.item item = 0 ∨ cmp t.item item = 1 := by
    intro t ht
    rcases List.mem_cons.mp ht with e | ht
    · rw [e]
      exact Or.inl hT
    · exact Or.inr (hgt t ht)
  have hweak : ∀ {h : List (Node α)} {i : Nat}, SameBelow base h i → SameBelow base h 0 :=
    fun hsb => ⟨fun j hj b => hsb.1 j (by omega) b, hsb.2.1, hsb.2.2.1, hsb.2.2.2.1,
      hsb.2.2.2.2⟩
  intro i
  induction i with
  | zero =>
    intro _ ins l hh hsb
    obtain ⟨hw, _, _⟩ := sameBelow_walk cmp item hs hsb (by decide) hlt hge hf
    rw [atLevel_zero (T :: B), stopOf_same hT] at hw
    have hst := insertV2Step_same cmp item new n fuel 0 (lastAddr hdr (atLevel 1 A)) ins l hw
    exact ⟨l.heap, by simp [insertV2Loop, hst], hsb⟩
  | succ i ih =>
    intro hi ins l hh hsb
    obtain ⟨hw, hnx, _⟩ := sameBelow_walk cmp item hs hsb hi hlt hge hf
    by_cases hh2 : i + 1 ≤ T.height
    · rw [atLevel_cons_le hh2, stopOf_same hT] at hw
      have hst := insertV2Step_same cmp item new n fuel (i + 1)
        (lastAddr hdr (atLevel (i + 1 + 1) A)) ins l hw
      exact ⟨l.heap, by simp [insertV2Loop, hst], hweak hsb⟩
    · rw [atLevel_cons_gt (Nat.not_le.mp hh2)] at hw hnx
      have hne : stopOf cmp item (atLevel (i + 1) B) ≠ .same :=
        stopOf_ne_same (fun t ht => hgt t (mem_atLevel ht))
      have hsb1 : SameBelow base l.heap i :=
        ⟨fun j hj b => hsb.1 j (by omega) b, hsb.2.1, hsb.2.2.1, hsb.2.2.2.1, hsb.2.2.2.2⟩
      by_cases hin : n < i + 1
      · have hst := insertV2Step_skip cmp item new n fuel (i + 1)
          (lastAddr hdr (atLevel (i + 1 + 1) A)) ins l hw hne hin
        obtain ⟨h1, r1, r2⟩ := ih (by omega) ins l hh hsb1
        exact ⟨h1, by simp [insertV2Loop, hst, r1], r2⟩
      · have hnw : nextOf l.heap new (i + 1) = .ok none := by
          rw [hsb.1 (i + 1) (Nat.le_refl _)]
          exact hnn (i + 1) (by omega)
        obtain ⟨h3, q1, q2, q3, q4, q5, q6⟩ := insertV2Step_link cmp item new n fuel (i + 1)
          (lastAddr hdr (atLevel (i + 1 + 1) A)) ins l hw hne (by omega) (by omega) hnx hnw
        obtain ⟨h1, r1, r2⟩ := ih (by omega) true { l with heap := h3 } hh
          ⟨fun j hj b => by
              show nextOf h3 b j = _
              rw [q2, if_neg (fun hh => by omega), if_neg (fun hh => by omega)]
              exact hsb.1 j (by omega) b,
            fun b => by show itemOf h3 b = _; rw [q3, hsb.2.1],
            fun b => by show prevOf h3 b = _; rw [q4, hsb.2.2.1],
            fun b => by show nextLen h3 b = _; rw [q5, hsb.2.2.2.1],
            by show h3.length = _; rw [q6, hsb.2.2.2.2]⟩
        exact ⟨h1, by simp [insertV2Loop, q1, r1], r2⟩

theorem sorted_insert {α : Type} {cmp : α → α → Int} (hc : IsTotalOrder cmp) {item : α}
    {A B : List (Tower α)} (new h : Nat)
    (hso : (A ++ B).Pairwise (fun s t => cmp s.item t.item = -1))
    (hlt : ∀ t ∈ A, cmp t.item item = -1) (hgt : ∀ t ∈ B, cmp t.item item = 1) :
    (A ++ ⟨new, item, h⟩ :: B).Pairwise (fun s t => cmp s.item t.item = -1) := by
  have hso := List.pairwise_append.mp hso
  rw [List.pairwise_append]
  refine ⟨hso.1, ?_, ?_⟩
  · rw [List.pairwise_cons]
    refine ⟨?_, hso.2.1⟩
    intro b hb
    have h1 := hgt b hb
    have h2 := hc.antisymm b.item item
    show cmp item b.item = -1
    omega
  · intro a ha b hb
    rcases List.mem_cons.mp hb with e | hb
    · rw [e]
      exact hlt a ha
    · exact hso.2.2 a ha b hb

/-- What `InsertV2` does to a represented list when `randLevel` returns a
value below `maxLevel` and no stored item equals the new one: the new node
becomes a tower of the height `randLevel` returned. -/
theorem insertV2_fresh_at {α : Type} {cmp : α → α → Int} (hc : IsTotalOrder cmp) (coins : Coins)
    (item : α) {l : SkipList α} {A B : List (Tower α)}
    (hinv : InvL cmp l (A ++ B)) {n : Nat} (hn : randLevel coins l = .ok n) (hnl : n < maxLevel)
    (hlt : ∀ t ∈ A, cmp t.item item = -1)
    (hgt : ∀ t ∈ B, cmp t.item item = 1) :
    ∃ l1, InsertV2 cmp coins item l = .ok (true, l1) ∧
      InvL cmp l1 (A ++ ⟨l.heap.length, item, n⟩ :: B) ∧ l1.header = l.header ∧
      l1.level = max l.level n := by
  have hl := hinv.lvl_lt
  have hhl := shape_hdr_lt hinv.shape
  generalize hnd :
    ({ item := some item, next := List.replicate (n + 1) none, prev := none } : Node α) = nd
  have hs1 := shape_alloc hinv.shape hhl nd
  have hsize := hinv.size
  simp only [List.length_append] at hsize
  have hnn : ∀ j, j ≤ n → nextOf (l.heap ++ [nd]) l.heap.length j = .ok none := by
    intro j hj
    rw [← hnd]
    exact nextOf_alloc_new _ _ _ _ (by omega)
  have hni : itemOf (l.heap ++ [nd]) l.heap.length = .ok item := by
    rw [← hnd]
    exact itemOf_alloc_new _ _ _ _
  have hAle : ∀ t ∈ A, t.height ≤ max l.level n := fun t ht =>
    Nat.le_trans (hinv.lvl_le t (List.mem_append_left _ ht)) (Nat.le_max_left _ _)
  have hsame : SameBelow (l.heap ++ [nd]) (l.heap ++ [nd]) (max l.level n) :=
    ⟨fun _ _ _ => rfl, fun _ => rfl, fun _ => rfl, fun _ => rfl, rfl⟩
  have htop : max l.level n < maxLevel := by
    rcases Nat.le_total l.level n with h | h
    · rw [Nat.max_eq_right h]
      omega
    · rw [Nat.max_eq_left h]
      omega
  obtain ⟨h1, r1, r2, r3⟩ := insertV2Loop_fresh cmp item l.header l.heap.length n
    (l.heap.length + 1) hs1 hlt hgt (by omega) (invL_fresh hinv) (by simp) hni hnn
    (max l.level n) htop false
    { heap := l.heap ++ [nd], header := l.header, len := l.len, level := max l.level n } rfl
    hsame (by
      intro j hj hjm
      show Chain (l.heap ++ [nd]) j l.header _
      have hnj : n < j := Nat.lt_of_le_of_lt (Nat.le_max_right _ _) hj
      rw [atLevel_append, atLevel_cons_gt (t := ⟨l.heap.length, item, n⟩) (by simpa using hnj),
        ← atLevel_append]
      exact hs1.chains j hjm)
  rw [pred_top l.header hAle] at r1
  have hl0 : (if n > l.level then { l with level := n } else l : SkipList α)
      = { heap := l.heap, header := l.header, len := l.len, level := max l.level n } := by
    by_cases hc2 : n > l.level
    · rw [if_pos hc2, Nat.max_eq_right (by omega)]
    · rw [if_neg hc2, Nat.max_eq_left (by omega)]
  refine ⟨{ heap := h1, header := l.header, len := l.len + 1, level := max l.level n },
    ?_, ?_, rfl, rfl⟩
  · unfold InsertV2
    simp only [hn, bind_ok, hl0, hnd, List.length_append, List.length_singleton]
    rw [r1]
    simp
  · constructor
    · exact sorted_insert hc _ _ hinv.sorted hlt hgt
    · exact r2
    · show l.len + 1 = _
      rw [hinv.len]
      simp only [List.length_append, List.length_cons]
      push_cast
      ring
    · show _ < h1.length
      rw [r3]
      simp only [List.length_append, List.length_cons, List.length_singleton]
      omega
    · intro t ht
      show t.height ≤ max l.level n
      rcases List.mem_append.mp ht with h2 | h2
      · exact hAle t h2
      · rcases List.mem_cons.mp h2 with e | h2
        · rw [e]
          exact Nat.le_max_right _ _
        · exact Nat.le_trans (hinv.lvl_le t (List.mem_append_right _ h2)) (Nat.le_max_left _ _)
    · show max l.level n = 0 ∨
        ∃ t ∈ A ++ (⟨l.heap.length, item, n⟩ : Tower α) :: B, t.height = max l.level n
      by_cases hh : n ≤ l.level
      · rw [Nat.max_eq_left hh]
        rcases hinv.lvl_top with h0 | ⟨t, ht, e⟩
        · exact Or.inl h0
        · refine Or.inr ⟨t, ?_, e⟩
          rcases List.mem_append.mp ht with h2 | h2
          · exact List.mem_append_left _ h2
          · exact List.mem_append_right _ (List.mem_cons_of_mem _ h2)
      · rw [Nat.max_eq_right (by omega)]
        exact Or.inr ⟨⟨l.heap.length, item, n⟩, by simp, rfl⟩
    · exact htop

/-- What `InsertV2` does to a represented list that stores an equal item when
`randLevel` returns a value below `maxLevel`: it returns false and leaves
`Len`, level 0 and the `prev` links as they were. -/
theorem insertV2_dup_at {α : Type} {cmp : α → α → Int} (coins : Coins)
    (item : α) {l : SkipList α} {A B : List (Tower α)} {T : Tower α}
    (hinv : InvL cmp l (A ++ T :: B)) {n : Nat} (hn : randLevel coins l = .ok n) (hnl : n < maxLevel)
    (hlt : ∀ t ∈ A, cmp t.item item = -1)
    (hT : cmp T.item item = 0)
    (hgt : ∀ t ∈ B, cmp t.item item = 1) :
    ∃ l1, InsertV2 cmp coins item l = .ok (false, l1) ∧ l1.len = l.len ∧
      l1.header = l.header ∧
      forward l1 = .ok ((A ++ T :: B).map Tower.item) ∧
      backward l1 = .ok ((A ++ T :: B).map Tower.item).reverse := by
  have hl := hinv.lvl_lt
  have hhl := shape_hdr_lt hinv.shape
  generalize hnd :
    ({ item := some item, next := List.replicate (n + 1) none, prev := none } : Node α) = nd
  have hs1 := shape_alloc hinv.shape hhl nd
  have hsize := hinv.size
  simp only [List.length_append, List.length_cons] at hsize
  have hnn : ∀ j, j ≤ n → nextOf (l.heap ++ [nd]) l.heap.length j = .ok none := by
    intro j hj
    rw [← hnd]
    exact nextOf_alloc_new _ _ _ _ (by omega)
  have hAle : ∀ t ∈ A, t.height ≤ max l.level n := fun t ht =>
    Nat.le_trans (hinv.lvl_le t (List.mem_append_left _ ht)) (Nat.le_max_left _ _)
  have hsame : SameBelow (l.heap ++ [nd]) (l.heap ++ [nd]) (max l.level n) :=
    ⟨fun _ _ _ => rfl, fun _ => rfl, fun _ => rfl, fun _ => rfl, rfl⟩
  have htop : max l.level n < maxLevel := by
    rcases Nat.le_total l.level n with h | h
    · rw [Nat.max_eq_right h]
      omega
    · rw [Nat.max_eq_left h]
      omega
  obtain ⟨h1, r1, r2⟩ := insertV2Loop_dup cmp item l.header l.heap.length n
    (l.heap.length + 1) hs1 hlt hT hgt (by omega) hnn
    (max l.level n) htop false
    { heap := l.heap ++ [nd], header := l.header, len := l.len, level := max l.level n } rfl
    hsame
  rw [pred_top l.header hAle] at r1
  have hl0 : (if n > l.level then { l with level := n } else l : SkipList α)
      = { heap := l.heap, header := l.header, len := l.len, level := max l.level n } := by
    by_cases hc2 : n > l.level
    · rw [if_pos hc2, Nat.max_eq_right (by omega)]
    · rw [if_neg hc2, Nat.max_eq_left (by omega)]
  have hc0 : Chain h1 0 l.header (A ++ T :: B) := by
    have h := hs1.chains 0 (by decide)
    rw [atLevel_zero] at h
    exact chain_frame (fun b _ => r2.1 0 (Nat.le_refl _) b) (fun b _ => r2.2.1 b) h
  have hp0 : PrevOK h1 l.header (A ++ T :: B) :=
    prev_frame (fun b _ => r2.2.2.1 b) hs1.prevs
  have hlen : h1.length = l.heap.length + 1 := by
    rw [r2.2.2.2.2]
    simp
  refine ⟨{ heap := h1, header := l.header, len := l.len, level := max l.level n },
    ?_, rfl, rfl, ?_, ?_⟩
  · unfold InsertV2
    simp only [hn, bind_ok, hl0, hnd, List.length_append, List.length_singleton]
    rw [r1]
    simp
  · show itemsFrom h1 0 h1.length l.header = _
    exact itemsFrom_chain _ _ _ hc0 (by
      rw [hlen]
      simp only [List.length_append, List.length_cons]
      omega)
  · have q1 := lastFrom_chain (A ++ T :: B) l.header h1.length hc0 (by
      rw [hlen]
      simp only [List.length_append, List.length_cons]
      omega)
    have q2 := backFrom_prev (A ++ T :: B) (h1.length + 1) hp0
      (fun t ht => by rw [r2.2.1]; exact shape_item hs1 ht)
      (fun t ht e => (List.nodup_cons.mp hs1.nodup).1
        (e ▸ List.mem_map_of_mem Tower.addr ht))
      (by
        rw [hlen]
        simp only [List.length_append, List.length_cons]
        omega)
    show (lastFrom h1 h1.length l.header >>= fun last =>
      backFrom h1 l.header (h1.length + 1) last) = _
    rw [q1]
    exact q2

/-- What `InsertV2` does to a represented list with room for one more level,
when no stored item equals the new one: the new node becomes a tower of the
height `randLevel` returned. -/
theorem insertV2_fresh {α : Type} {cmp : α → α → Int} (hc : IsTotalOrder cmp) (coins : Coins)
    (item : α) {l : SkipList α} {A B : List (Tower α)}
    (hinv : InvL cmp l (A ++ B)) (hl : l.level + 1 < maxLevel)
    (hlt : ∀ t ∈ A, cmp t.item item = -1)
    (hgt : ∀ t ∈ B, cmp t.item item = 1) :
    ∃ l1 n, InsertV2 cmp coins item l = .ok (true, l1) ∧
      InvL cmp l1 (A ++ ⟨l.heap.length, item, n⟩ :: B) ∧ l1.header = l.header ∧
      randLevel coins l = .ok n ∧ l1.level = max l.level n := by
  obtain ⟨n, hn, hn1, _⟩ := randLevel_le coins l
  obtain ⟨l1, r1, r2, r3, r4⟩ := insertV2_fresh_at hc coins item hinv hn (by omega) hlt hgt
  exact ⟨l1, n, r1, r2, r3, hn, r4⟩

/-- What `InsertV2` does to a represented list with room for one more level
that stores an equal item: it returns false and leaves `Len`, level 0 and the
`prev` links as they were. -/
theorem insertV2_dup {α : Type} {cmp : α → α → Int} (coins : Coins)
    (item : α) {l : SkipList α} {A B : List (Tower α)} {T : Tower α}
    (hinv : InvL cmp l (A ++ T :: B)) (hl : l.level + 1 < maxLevel)
    (hlt : ∀ t ∈ A, cmp t.item item = -1)
    (hT : cmp T.item item = 0)
    (hgt : ∀ t ∈ B, cmp t.item item = 1) :
    ∃ l1, InsertV2 cmp coins item l = .ok (false, l1) ∧ l1.len = l.len ∧
      l1.header = l.header ∧
      forward l1 = .ok ((A ++ T :: B).map Tower.item) ∧
      backward l1 = .ok ((A ++ T :: B).map Tower.item).reverse := by
  obtain ⟨n, hn, hn1, _⟩ := randLevel_le coins l
  exact insertV2_dup_at coins item hinv hn (by omega) hlt hT hgt

/-- What one call of `InsertV2` does to a represented list whose level is
below 31: either an equal item is stored and the call returns false with `Len`
and both level-0 traversals unchanged, or the item is new and the list gains a
tower for it. -/
theorem insertV2_spec {α : Type} {cmp : α → α → Int} (hc : IsTotalOrder cmp) (coins : Coins)
    (item : α) {l : SkipList α} {L : List (Tower α)} (hinv : InvL cmp l L)
    (hl : l.level + 1 < maxLevel) :
    ((∃ t ∈ L, cmp t.item item = 0) ∧
      ∃ l1, InsertV2 cmp coins item l = .ok (false, l1) ∧ l1.len = l.len ∧
        forward l1 = .ok (L.map Tower.item) ∧ backward l1 = .ok (L.map Tower.item).reverse) ∨
    ((∀ t ∈ L, cmp t.item item ≠ 0) ∧
      ∃ l1 A B n, L = A ++ B ∧ (∀ t ∈ A, cmp t.item item = -1) ∧
        (∀ t ∈ B, cmp t.item item = 1) ∧
        InsertV2 cmp coins item l = .ok (true, l1) ∧
        InvL cmp l1 (A ++ ⟨l.heap.length, item, n⟩ :: B) ∧ l1.header = l.header) := by
  obtain ⟨A, B, e, hlt, hB⟩ := split_sorted hc item L hinv.sorted
  subst e
  rcases hB with hgt | ⟨T, B1, e, hT, hgt⟩
  · right
    refine ⟨?_, ?_⟩
    · intro t ht
      rcases List.mem_append.mp ht with h | h
      · rw [hlt t h]
        decide
      · rw [hgt t h]
        decide
    · obtain ⟨l1, n, r1, r2, r3, _, _⟩ := insertV2_fresh hc coins item hinv hl hlt hgt
      exact ⟨l1, A, B, n, rfl, hlt, hgt, r1, r2, r3⟩
  · left
    subst e
    obtain ⟨l1, r1, r2, _, r4, r5⟩ := insertV2_dup coins item hinv hl hlt hT hgt
    exact ⟨⟨T, by simp, hT⟩, l1, r1, r2, r4, r5⟩

/-- C18: `randLevel` returns a value of at most the list's level plus one,
whatever the coins; a call of `Insert` or of `InsertV2` that returns leaves a
level that is at least the old one and at most the old one plus one; and in a
state reachable by `Insert` and `Delete` calls `Insert` returns, and so does
`InsertV2` when the level is below 31. -/
theorem C18_level_rises_by_at_most_one {α : Type} (cmp : α → α → Int) (coins : Coins)
    (item : α) (l : SkipList α) :
    (∃ n, randLevel coins l = .ok n ∧ n ≤ l.level + 1) ∧
    (∀ b l1, Insert cmp coins item l = .ok (b, l1) →
      l.level ≤ l1.level ∧ l1.level ≤ l.level + 1) ∧
    (∀ b l1, InsertV2 cmp coins item l = .ok (b, l1) →
      l.level ≤ l1.level ∧ l1.level ≤ l.level + 1) ∧
    (IsTotalOrder cmp → Reachable cmp l →
      (∃ b l1, Insert cmp coins item l = .ok (b, l1)) ∧
      (l.level < 31 → ∃ b l1, InsertV2 cmp coins item l = .ok (b, l1))) := by
  refine ⟨?_, ?_, ?_, ?_⟩
  · obtain ⟨n, h1, h2, _⟩ := randLevel_le coins l
    exact ⟨n, h1, h2⟩
  · intro b l1 h
    obtain ⟨h1, h2, _⟩ := insert_inv cmp coins item h
    exact ⟨h1, h2⟩
  · intro b l1 h
    obtain ⟨h1, h2, _⟩ := insertV2_inv cmp coins item h
    exact ⟨h1, h2⟩
  · intro hc hr
    obtain ⟨L, hinv⟩ := reachable_inv hc hr
    constructor
    · rcases insert_spec hc coins item hinv with ⟨_, r1, _⟩ | ⟨_, l1, _, _, _, _, _, _, r1, _⟩
      · exact ⟨_, _, r1⟩
      · exact ⟨_, _, r1⟩
    · intro hl
      have hl1 : l.level + 1 < maxLevel := by
        have : maxLevel = 32 := rfl
        omega
      rcases insertV2_spec hc coins item hinv hl1 with ⟨_, l1, r1, _⟩ |
        ⟨_, l1, _, _, _, _, _, _, r1, _⟩
      · exact ⟨_, _, r1⟩
      · exact ⟨_, _, r1⟩

theorem C18_level_rises_by_at_most_one_witness :
    ((∃ n, randLevel (heads 9) ascList = .ok n ∧ n ≤ ascList.level + 1) ∧
    (∀ b l1, Insert compareIntAsc (heads 9) 8 ascList = .ok (b, l1) →
      ascList.level ≤ l1.level ∧ l1.level ≤ ascList.level + 1) ∧
    (∀ b l1, InsertV2 compareIntAsc (heads 9) 8 ascList = .ok (b, l1) →
      ascList.level ≤ l1.level ∧ l1.level ≤ ascList.level + 1) ∧
    (IsTotalOrder compareIntAsc → Reachable compareIntAsc ascList →
      (∃ b l1, Insert compareIntAsc (heads 9) 8 ascList = .ok (b, l1)) ∧
      (ascList.level < 31 → ∃ b l1, InsertV2 compareIntAsc (heads 9) 8 ascList = .ok (b, l1)))) ∧
    randLevel (heads 9) ascList = .ok 4 ∧ ascList.level = 3 ∧
    (Insert compareIntAsc (heads 9) 8 ascList >>= fun r => pure r.2.level) = .ok 4 ∧
    (InsertV2 compareIntAsc (heads 9) 8 ascList >>= fun r => pure r.2.level) = .ok 4 ∧
    (Insert compareIntAsc (heads 1) 8 ascList >>= fun r => pure r.2.level) = .ok 3 ∧
    (InsertV2 compareIntAsc (heads 1) 8 ascList >>= fun r => pure r.2.level) = .ok 3 :=
  ⟨C18_level_rises_by_at_most_one compareIntAsc (heads 9) 8 ascList, rfl, rfl, rfl, rfl, rfl,
    rfl⟩

/-! ## Any comparator: the structure of the list is kept -/

theorem ends_nil {α : Type} (k : Nat) : Ends k ([] : List (Tower α)) := Or.inl rfl

theorem ends_mono {α : Type} {k j : Nat} {A : List (Tower α)} (h : Ends k A) (hj : j ≤ k) :
    Ends j A := by
  rcases h with h | ⟨A1, t, e, ht⟩
  · exact Or.inl h
  · exact Or.inr ⟨A1, t, e, by omega⟩

theorem ends_last {α : Type} {k j : Nat} {A : List (Tower α)} (hdr : Nat) (h : Ends k A)
    (hj : j ≤ k) : lastAddr hdr (atLevel j A) = lastAddr hdr A := by
  rcases h with h | ⟨A1, t, e, ht⟩
  · subst h
    rfl
  · subst e
    rw [atLevel_append, atLevel_cons_le (by omega), lastAddr_append, lastAddr_append]
    rfl

theorem ends_append {α : Type} {k : Nat} (A : List (Tower α)) {C : List (Tower α)}
    (h : Ends k C) (hne : C ≠ []) : Ends k (A ++ C) := by
  rcases h with h | ⟨C1, t, e, ht⟩
  · exact absurd h hne
  · subst e
    exact Or.inr ⟨A ++ C1, t, by simp, ht⟩

theorem filter_split {α : Type} (i : Nat) : ∀ (B ys zs : List (Tower α)),
    atLevel i B = ys ++ zs →
    ∃ C B1, B = C ++ B1 ∧ atLevel i C = ys ∧ atLevel i B1 = zs ∧ Ends i C ∧
      (ys = [] → C = []) := by
  intro B
  induction B with
  | nil =>
    intro ys zs h
    have h2 : ys ++ zs = [] := h.symm
    obtain ⟨e1, e2⟩ := List.append_eq_nil.mp h2
    subst e1
    subst e2
    exact ⟨[], [], rfl, rfl, rfl, ends_nil i, fun _ => rfl⟩
  | cons b B0 ih =>
    intro ys zs h
    cases ys with
    | nil => exact ⟨[], b :: B0, rfl, rfl, h, ends_nil i, fun _ => rfl⟩
    | cons y ys1 =>
      by_cases hb : i ≤ b.height
      · rw [atLevel_cons_le hb] at h
        simp only [List.cons_append, List.cons.injEq] at h
        obtain ⟨e, h⟩ := h
        subst e
        obtain ⟨C0, B1, e1, e2, e3, e4, _⟩ := ih ys1 zs h
        refine ⟨b :: C0, B1, by rw [e1]; rfl, by rw [atLevel_cons_le hb, e2], e3, ?_,
          fun hh => by cases hh⟩
        rcases e4 with e4 | ⟨C1, t, e4, ht⟩
        · subst e4
          exact Or.inr ⟨[], b, rfl, hb⟩
        · subst e4
          exact Or.inr ⟨b :: C1, t, rfl, ht⟩
      · rw [atLevel_cons_gt (Nat.not_le.mp hb)] at h
        obtain ⟨C0, B1, e1, e2, e3, e4, _⟩ := ih (y :: ys1) zs h
        refine ⟨b :: C0, B1, by rw [e1]; rfl, by rw [atLevel_cons_gt (Nat.not_le.mp hb), e2],
          e3, ?_, fun hh => by cases hh⟩
        rcases e4 with e4 | ⟨C1, t, e4, ht⟩
        · subst e4
          simp [atLevel] at e2
        · subst e4
          exact Or.inr ⟨b :: C1, t, rfl, ht⟩

theorem split_pass {α : Type} (cmp : α → α → Int) (item : α) : ∀ (ts : List (Tower α)),
    ∃ ys zs, ts = ys ++ zs ∧ (∀ y ∈ ys, Passes cmp item y) ∧
      ∀ z ∈ zs.head?, Stops cmp item z := by
  intro ts
  induction ts with
  | nil => exact ⟨[], [], rfl, by simp, by simp⟩
  | cons t ts ih =>
    by_cases h : cmp t.item item = 0 ∨ cmp t.item item = 1
    · refine ⟨[], t :: ts, rfl, by simp, ?_⟩
      intro z hz
      simp only [List.head?_cons, Option.mem_def, Option.some.injEq] at hz
      subst hz
      exact h
    · obtain ⟨ys, zs, e, h1, h2⟩ := ih
      refine ⟨t :: ys, zs, by rw [e]; rfl, ?_, h2⟩
      intro y hy
      rcases List.mem_cons.mp hy with e1 | hy
      · subst e1
        exact ⟨fun e0 => h (Or.inl e0), fun e1 => h (Or.inr e1)⟩
      · exact h1 y hy

theorem tail_split {α : Type} (k : Nat) : ∀ (A : List (Tower α)),
    ∃ A1 A2, A = A1 ++ A2 ∧ Ends k A1 ∧ atLevel k A2 = [] := by
  intro A
  induction A using List.reverseRecOn with
  | nil => exact ⟨[], [], rfl, ends_nil k, rfl⟩
  | append_singleton A0 t ih =>
    by_cases ht : k ≤ t.height
    · exact ⟨A0 ++ [t], [], by simp, Or.inr ⟨A0, t, rfl, ht⟩, rfl⟩
    · obtain ⟨A1, A2, e, h1, h2⟩ := ih
      refine ⟨A1, A2 ++ [t], by rw [e]; simp, h1, ?_⟩
      rw [atLevel_append, h2, atLevel_cons_gt (Nat.not_le.mp ht)]
      rfl

theorem filter_head {α : Type} (i : Nat) : ∀ (B : List (Tower α)) (T : Tower α)
    (rest : List (Tower α)), atLevel i B = T :: rest →
    ∃ P R, B = P ++ T :: R ∧ atLevel i P = [] ∧ i ≤ T.height ∧ atLevel i R = rest := by
  intro B
  induction B with
  | nil =>
    intro T rest h
    simp [atLevel] at h
  | cons b B0 ih =>
    intro T rest h
    by_cases hb : i ≤ b.height
    · rw [atLevel_cons_le hb] at h
      simp only [List.cons.injEq] at h
      obtain ⟨e, h⟩ := h
      subst e
      exact ⟨[], B0, rfl, rfl, hb, h⟩
    · rw [atLevel_cons_gt (Nat.not_le.mp hb)] at h
      obtain ⟨P, R, e1, e2, e3, e4⟩ := ih T rest h
      exact ⟨b :: P, R, by rw [e1]; rfl, by rw [atLevel_cons_gt (Nat.not_le.mp hb), e2], e3, e4⟩

theorem atLevel_nil_mono {α : Type} {i j : Nat} {C : List (Tower α)} (h : atLevel i C = [])
    (hj : i ≤ j) : atLevel j C = [] :=
  atLevel_eq_nil (fun _ ht => Nat.lt_of_lt_of_le (atLevel_nil_lt h ht) hj)

theorem walk_chain_gen {α : Type} (cmp : α → α → Int) (item : α) {heap : List (Node α)}
    {i : Nat} (ys zs : List (Tower α)) (a fuel : Nat)
    (hc : Chain heap i a (ys ++ zs))
    (hp : ∀ y ∈ ys, Passes cmp item y)
    (hge : ∀ z ∈ zs.head?, Stops cmp item z)
    (hf : ys.length < fuel) :
    walk cmp item heap i fuel a = .ok (lastAddr a ys, stopOf cmp item zs) := by
  induction ys generalizing a fuel with
  | nil =>
    obtain ⟨f, rfl⟩ : ∃ f, fuel = f + 1 := ⟨fuel - 1, by simp at hf; omega⟩
    cases zs with
    | nil =>
      have h := hc.2
      simp only [List.append_nil, lastAddr] at h
      simp [walk, h, lastAddr, stopOf]
    | cons z zs =>
      obtain ⟨⟨h1, h2, _⟩, _⟩ := hc
      rcases hge z (by simp) with h0 | h0
      · simp [walk, h1, h2, h0, lastAddr, stopOf]
      · simp [walk, h1, h2, h0, lastAddr, stopOf]
  | cons y ys ih =>
    obtain ⟨f, rfl⟩ : ∃ f, fuel = f + 1 := ⟨fuel - 1, by simp at hf; omega⟩
    have hc1 : Chain heap i y.addr (ys ++ zs) := ⟨hc.1.2.2, hc.2⟩
    obtain ⟨hy0, hy1⟩ := hp y (by simp)
    have h := ih y.addr f hc1 (fun t ht => hp t (List.mem_cons_of_mem _ ht))
      (by simp at hf; omega)
    simp [walk, hc.1.1, hc.1.2.1, hy0, hy1, lastAddr, h]

/-- The inner loop at level `i`, entered at the last tower of `A` (the header
when `A` is empty): it moves over a part `C` of the towers that follow and stops
in front of the first tower of level `i` on which the comparator returns 0 or 1. -/
theorem level_step_gen {α : Type} (cmp : α → α → Int) (item : α) {heap : List (Node α)}
    {hdr i fuel : Nat} {A B : List (Tower α)}
    (hc : Chain heap i hdr (atLevel i (A ++ B))) (hA : Ends i A)
    (hf : (A ++ B).length < fuel) :
    ∃ C B1, B = C ++ B1 ∧ Ends i (A ++ C) ∧ (∀ t ∈ atLevel i C, Passes cmp item t) ∧
      (∀ z ∈ (atLevel i B1).head?, Stops cmp item z) ∧
      walk cmp item heap i fuel (lastAddr hdr A)
        = .ok (lastAddr hdr (A ++ C), stopOf cmp item (atLevel i B1)) ∧
      nextOf heap (lastAddr hdr (A ++ C)) i = .ok ((atLevel i B1).head?.map Tower.addr) := by
  obtain ⟨ys, zs, e, hp, hs⟩ := split_pass cmp item (atLevel i B)
  obtain ⟨C, B1, e1, e2, e3, e4, e5⟩ := filter_split i B ys zs e
  have hE : Ends i (A ++ C) := by
    by_cases hC : C = []
    · subst hC
      rw [List.append_nil]
      exact hA
    · exact ends_append A e4 hC
  have hlast : lastAddr hdr (A ++ C) = lastAddr (lastAddr hdr A) ys := by
    rw [← ends_last hdr hE (Nat.le_refl _), atLevel_append, lastAddr_append, e2,
      ends_last hdr hA (Nat.le_refl _)]
  rw [atLevel_append, chain_append, ends_last hdr hA (Nat.le_refl _)] at hc
  have hc2 := hc.2
  rw [e] at hc2
  have hlen : ys.length ≤ B.length := by
    have h1 : (atLevel i B).length ≤ B.length := (atLevel_sublist i B).length_le
    rw [e, List.length_append] at h1
    omega
  have hw := walk_chain_gen cmp item ys zs (lastAddr hdr A) fuel hc2 hp hs (by
    rw [List.length_append] at hf
    omega)
  refine ⟨C, B1, e1, hE, by rw [e2]; exact hp, by rw [e3]; exact hs, ?_, ?_⟩
  · rw [hw, hlast, e3]
  · rw [hlast, e3]
    rw [chain_append] at hc2
    exact chain_next hc2.2

theorem pass_above {α : Type} {cmp : α → α → Int} {item : α} {i : Nat}
    {C B1 : List (Tower α)}
    (hstop : ∀ z ∈ (atLevel (i + 1) (C ++ B1)).head?, Stops cmp item z)
    (hpass : ∀ t ∈ atLevel i C, Passes cmp item t) : atLevel (i + 1) C = [] := by
  cases hC : atLevel (i + 1) C with
  | nil => rfl
  | cons c cs =>
    exfalso
    have h1 : Stops cmp item c := hstop c (by rw [atLevel_append, hC]; simp)
    have hm : c ∈ atLevel (i + 1) C := by rw [hC]; simp
    have hm2 : c ∈ atLevel i C := by
      simp only [atLevel, List.mem_filter, decide_eq_true_eq] at hm ⊢
      exact ⟨hm.1, by omega⟩
    obtain ⟨p0, p1⟩ := hpass c hm2
    rcases h1 with h | h
    · exact p0 h
    · exact p1 h

theorem stopOf_cases {α : Type} {cmp : α → α → Int} {item : α} {zs : List (Tower α)}
    (hs : ∀ z ∈ zs.head?, Stops cmp item z) :
    (stopOf cmp item zs ≠ .same ∧ ∀ z ∈ zs.head?, cmp z.item item = 1) ∨
    (stopOf cmp item zs = .same ∧ ∃ T rest, zs = T :: rest ∧ cmp T.item item = 0) := by
  cases zs with
  | nil =>
    left
    exact ⟨by simp [stopOf], by simp⟩
  | cons z zs =>
    by_cases h0 : cmp z.item item = 0
    · right
      exact ⟨by simp [stopOf, h0], z, zs, rfl, h0⟩
    · left
      refine ⟨by simp [stopOf, h0], ?_⟩
      intro t ht
      simp only [List.head?_cons, Option.mem_def, Option.some.injEq] at ht
      rw [← ht]
      rcases hs z (by simp) with h | h
      · exact absurd h h0
      · exact h

theorem existsLoop_ok {α : Type} (cmp : α → α → Int) (item : α) {heap : List (Node α)}
    {hdr fuel : Nat} : ∀ (i : Nat), i < maxLevel → ∀ (A B : List (Tower α)),
      Shape heap hdr (A ++ B) → Ends (i + 1) A → (A ++ B).length < fuel →
      ∃ b, existsLoop cmp item heap fuel i (lastAddr hdr A) = .ok b := by
  intro i
  induction i with
  | zero =>
    intro hi A B hs hA hf
    obtain ⟨C, B1, _, _, _, _, hw, _⟩ :=
      level_step_gen cmp item (hs.chains 0 hi) (ends_mono hA (Nat.zero_le _)) hf
    by_cases hst : stopOf cmp item (atLevel 0 B1) = .same
    · exact ⟨true, by simp [existsLoop, hw, hst]⟩
    · exact ⟨false, by simp [existsLoop, hw, hst]⟩
  | succ i ih =>
    intro hi A B hs hA hf
    obtain ⟨C, B1, e, hE, _, _, hw, _⟩ :=
      level_step_gen cmp item (hs.chains (i + 1) hi) (ends_mono hA (Nat.le_succ _)) hf
    subst e
    by_cases hst : stopOf cmp item (atLevel (i + 1) B1) = .same
    · exact ⟨true, by simp [existsLoop, hw, hst]⟩
    · obtain ⟨b, hb⟩ := ih (by omega) (A ++ C) B1 (by rw [List.append_assoc]; exact hs) hE
        (by rw [List.append_assoc]; exact hf)
      exact ⟨b, by simp [existsLoop, hw, hst, hb]⟩

theorem exists_ok {α : Type} (cmp : α → α → Int) (item : α) {l : SkipList α}
    {L : List (Tower α)} (hinv : InvS l L) : ∃ b, Exists cmp item l = .ok (b, l) := by
  obtain ⟨b, hb⟩ := existsLoop_ok cmp item l.level hinv.lvl_lt [] L hinv.shape
    (ends_nil _) (by simpa using hinv.size)
  simp only [lastAddr] at hb
  exact ⟨b, by simp [Exists, hb]⟩

theorem insertLoop_link_gen {α : Type} (cmp : α → α → Int) (item : α) (l : SkipList α)
    (new fuel m x : Nat) {A B : List (Tower α)} {st : Stop}
    (hs : Shape l.heap l.header (A ++ B))
    (hw : walk cmp item l.heap 0 fuel x = .ok (lastAddr l.header A, st))
    (hne : st ≠ .same)
    (hnew : new ∉ l.header :: (A ++ B).map Tower.addr)
    (hnl : new < l.heap.length)
    (hni : itemOf l.heap new = .ok item)
    (hm : 0 < m) (hnn : ∀ j, j < m → nextOf l.heap new j = .ok none)
    (knots : Nat → Option Nat) :
    ∃ h4, insertLoop cmp item new fuel 0 x knots l
        = .ok (some knots, { l with heap := h4, len := l.len + 1 }) ∧
      Shape h4 l.header (A ++ ⟨new, item, 0⟩ :: B) ∧ h4.length = l.heap.length ∧
      ∀ j, 1 ≤ j → j < m → nextOf h4 new j = .ok none := by
  have hc0 := hs.chains 0 (by decide)
  rw [atLevel_zero, chain_append] at hc0
  have hnx := chain_next hc0.2
  have hxm : lastAddr l.header A ∈ l.header :: (A ++ B).map Tower.addr := by
    have h := lastAddr_mem l.header A
    rcases List.mem_cons.mp h with e | h
    · rw [e]
      simp
    · simp only [List.map_append, List.mem_cons, List.mem_append]
      right
      left
      exact h
  have hxn : lastAddr l.header A ≠ new := fun e => hnew (e ▸ hxm)
  have hBn : ∀ c, B.head?.map Tower.addr = some c → c ≠ new := by
    intro c hc e
    apply hnew
    rw [← e]
    simp only [List.map_append, List.mem_cons, List.mem_append]
    right
    right
    exact head_addr_mem hc
  obtain ⟨h1, e1⟩ := setNext_ok (hnn 0 hm) (B.head?.map Tower.addr)
  obtain ⟨h2, e2⟩ : ∃ h2, setPrev h1 new (some (lastAddr l.header A)) = .ok h2 :=
    setPrev_ok (by rw [length_setNext e1]; exact hnl) _
  obtain ⟨h3, e3⟩ : ∃ h3, setPrevIf h2 (B.head?.map Tower.addr) (some new) = .ok h3 :=
    setPrevIf_ok (by
    intro a ha
    rw [length_setPrev e2, length_setNext e1]
    obtain ⟨t, ht, e⟩ := List.mem_map.mp (head_addr_mem ha)
    rw [← e]
    exact hs.inHeap t (List.mem_append_right _ ht)) _
  have hx3 : nextOf h3 (lastAddr l.header A) 0 = .ok (B.head?.map Tower.addr) := by
    rw [nextOf_setPrevIf e3, nextOf_setPrev e2, nextOf_setNext e1, if_neg (by simp [hxn])]
    exact hnx
  obtain ⟨h4, e4⟩ := setNext_ok hx3 (some new)
  refine ⟨h4, ?_, ?_, ?_, ?_⟩
  · simp [insertLoop, insertStep, hw, hne, hnx, e1, e2, e3, e4]
  · apply shape_link0 hs hnew
    · rw [length_setNext e4, length_setPrevIf e3, length_setPrev e2, length_setNext e1]
    · rw [length_setNext e4, length_setPrevIf e3, length_setPrev e2, length_setNext e1]
      exact hnl
    · intro b j hj hb
      rw [nextOf_setNext e4, nextOf_setPrevIf e3, nextOf_setPrev e2, nextOf_setNext e1]
      simp [hj]
    · intro b hb hbn
      rw [nextOf_setNext e4, nextOf_setPrevIf e3, nextOf_setPrev e2, nextOf_setNext e1]
      simp [hb, hbn]
    · rw [nextOf_setNext e4]
      simp
    · rw [nextOf_setNext e4, if_neg (by simp [Ne.symm hxn]), nextOf_setPrevIf e3,
        nextOf_setPrev e2, nextOf_setNext e1, if_pos ⟨rfl, rfl⟩]
      exact hnx.symm
    · intro b _
      rw [itemOf_setNext e4, itemOf_setPrevIf e3, itemOf_setPrev e2, itemOf_setNext e1]
    · rw [itemOf_setNext e4, itemOf_setPrevIf e3, itemOf_setPrev e2, itemOf_setNext e1]
      exact hni
    · rw [prevOf_setNext e4, prevOf_setPrevIf e3, if_neg (fun e => hBn new e rfl),
        prevOf_setPrev e2, if_pos rfl]
    · intro z hz
      have hz1 : B.head?.map Tower.addr = some z.addr := by
        rw [Option.mem_def.mp hz]
        rfl
      rw [prevOf_setNext e4, prevOf_setPrevIf e3, if_pos hz1]
    · intro b hb hbz
      have hz1 : ¬ B.head?.map Tower.addr = some b := by
        intro e
        cases hB : B.head? with
        | none => simp [hB] at e
        | some z =>
          simp only [hB, Option.map_some', Option.some.injEq] at e
          exact hbz z (Option.mem_def.mpr hB) e.symm
      rw [prevOf_setNext e4, prevOf_setPrevIf e3, if_neg hz1, prevOf_setPrev e2, if_neg hb,
        prevOf_setNext e1]
    · rw [nextLen_setNext e4, nextLen_setPrevIf e3, nextLen_setPrev e2, nextLen_setNext e1]
  · rw [length_setNext e4, length_setPrevIf e3, length_setPrev e2, length_setNext e1]
  · intro j hj hjm
    have hj0 : j ≠ 0 := by omega
    rw [nextOf_setNext e4, nextOf_setPrevIf e3, nextOf_setPrev e2, nextOf_setNext e1]
    simp only [hj0, and_false, if_false]
    exact hnn j hjm

/-- The descent of `Insert` from level `i` under any comparator: either an item
on which the comparator returns 0 is met and nothing is written, or the new
node is linked on level 0 after a part `C` of the towers that follow, and
`knots` holds the last tower of each level before it. -/
theorem insertLoop_gen {α : Type} (cmp : α → α → Int) (item : α) (l : SkipList α)
    (new fuel m : Nat) (hnl : new < l.heap.length) (hni : itemOf l.heap new = .ok item)
    (hm : 0 < m) (hnn : ∀ j, j < m → nextOf l.heap new j = .ok none) :
    ∀ (i : Nat), i < maxLevel → ∀ (A B : List (Tower α)) (knots : Nat → Option Nat),
      Shape l.heap l.header (A ++ B) → new ∉ l.header :: (A ++ B).map Tower.addr →
      Ends (i + 1) A → (∀ z ∈ (atLevel (i + 1) B).head?, Stops cmp item z) →
      (A ++ B).length < fuel →
      insertLoop cmp item new fuel i (lastAddr l.header A) knots l = .ok (none, l) ∨
      ∃ C B1 h4 knots1, B = C ++ B1 ∧ (∀ j, i < j → atLevel j C = []) ∧
        insertLoop cmp item new fuel i (lastAddr l.header A) knots l
          = .ok (some knots1, { l with heap := h4, len := l.len + 1 }) ∧
        Shape h4 l.header ((A ++ C) ++ ⟨new, item, 0⟩ :: B1) ∧ h4.length = l.heap.length ∧
        (∀ j, 1 ≤ j → j < m → nextOf h4 new j = .ok none) ∧
        (∀ j, 1 ≤ j → j ≤ i → knots1 j = some (lastAddr l.header (atLevel j (A ++ C)))) ∧
        (∀ j, i < j → knots1 j = knots j) := by
  intro i
  induction i with
  | zero =>
    intro hi A B knots hs hnew hA hstop hf
    obtain ⟨C, B1, e, hE, hpass, hstopB, hw, _⟩ :=
      level_step_gen cmp item (hs.chains 0 hi) (ends_mono hA (Nat.zero_le _)) hf
    subst e
    rcases stopOf_cases hstopB with ⟨hne, _⟩ | ⟨hsame, _⟩
    · right
      have hs2 : Shape l.heap l.header ((A ++ C) ++ B1) := by
        rw [List.append_assoc]
        exact hs
      obtain ⟨h4, r1, r2, r3, r4⟩ := insertLoop_link_gen cmp item l new fuel m
        (lastAddr l.header A) hs2 hw hne (by rw [List.append_assoc]; exact hnew) hnl hni hm hnn
        knots
      refine ⟨C, B1, h4, knots, rfl, ?_, r1, r2, r3, r4, ?_, fun _ _ => rfl⟩
      · intro j hj
        exact atLevel_nil_mono (pass_above hstop hpass) (by omega)
      · intro j h1 h2
        omega
    · left
      simp [insertLoop, insertStep, hw, hsame]
  | succ i ih =>
    intro hi A B knots hs hnew hA hstop hf
    obtain ⟨C, B1, e, hE, hpass, hstopB, hw, _⟩ :=
      level_step_gen cmp item (hs.chains (i + 1) hi) (ends_mono hA (Nat.le_succ _)) hf
    subst e
    rcases stopOf_cases hstopB with ⟨hne, _⟩ | ⟨hsame, _⟩
    · have hstep : insertLoop cmp item new fuel (i + 1) (lastAddr l.header A) knots l
          = insertLoop cmp item new fuel i (lastAddr l.header (A ++ C))
              (Function.update knots (i + 1) (some (lastAddr l.header (A ++ C)))) l := by
        simp [insertLoop, insertStep, hw, hne]
      rw [hstep]
      rcases ih (by omega) (A ++ C) B1
          (Function.update knots (i + 1) (some (lastAddr l.header (A ++ C))))
          (by rw [List.append_assoc]; exact hs) (by rw [List.append_assoc]; exact hnew) hE hstopB
          (by rw [List.append_assoc]; exact hf) with
        h | ⟨C1, B2, h4, knots2, e1, hC1, hrun, hshape, hlen, hnn1, hk, hkeep⟩
      · exact Or.inl h
      · right
        subst e1
        have hCtop : atLevel (i + 2) C = [] := pass_above hstop hpass
        refine ⟨C ++ C1, B2, h4, knots2, by simp, ?_, hrun, ?_, hlen, hnn1, ?_, ?_⟩
        · intro j hj
          rw [atLevel_append, atLevel_nil_mono hCtop (by omega), hC1 j (by omega)]
          rfl
        · rw [← List.append_assoc A C C1]
          exact hshape
        · intro j h1 h2
          by_cases hj : j ≤ i
          · rw [hk j h1 hj, List.append_assoc]
          · have hji : j = i + 1 := by omega
            subst hji
            rw [hkeep (i + 1) (by omega), Function.update_same, ← List.append_assoc,
              atLevel_append, hC1 (i + 1) (by omega), List.append_nil,
              ends_last l.header hE (Nat.le_refl _)]
        · intro j hj
          rw [hkeep j (by omega), Function.update_noteq (by omega)]
    · left
      simp [insertLoop, insertStep, hw, hsame]

/-- Under any comparator `Insert` returns and keeps the structural invariant. -/
theorem insert_ok {α : Type} (cmp : α → α → Int) (coins : Coins) (item : α)
    {l : SkipList α} {L : List (Tower α)} (hinv : InvS l L) :
    ∃ b l1 L1, Insert cmp coins item l = .ok (b, l1) ∧ InvS l1 L1 := by
  have hhl := shape_hdr_lt hinv.shape
  generalize hnd :
    ({ item := some item, next := List.replicate (l.level + 2) none, prev := none } : Node α)
      = nd
  have hs1 := shape_alloc hinv.shape hhl nd
  have hsize := hinv.size
  have hnew : l.heap.length ∉ l.header :: L.map Tower.addr := by
    intro hm
    rcases List.mem_cons.mp hm with e | hm
    · omega
    · obtain ⟨t, ht, e⟩ := List.mem_map.mp hm
      have := hinv.shape.inHeap t ht
      omega
  have hrun : Insert cmp coins item l
      = (insertLoop cmp item l.heap.length (l.heap.length + 1) l.level l.header (fun _ => none)
          { heap := l.heap ++ [nd], header := l.header, len := l.len, level := l.level }
        >>= fun r => match r with
          | (none, l2) => pure (false, l2)
          | (some knots, l2) =>
            promote coins l.heap.length knots (maxLevel + 1) 1 0 l2 >>= fun l3 =>
              pure (true, l3)) := by
    unfold Insert
    simp only [hnd, List.length_append, List.length_singleton]
  rcases insertLoop_gen cmp item
      { heap := l.heap ++ [nd], header := l.header, len := l.len, level := l.level }
      l.heap.length (l.heap.length + 1) (l.level + 2) (by simp)
      (by rw [← hnd]; exact itemOf_alloc_new _ _ _ _) (by omega)
      (fun j hj => by rw [← hnd]; exact nextOf_alloc_new _ _ _ _ hj)
      l.level hinv.lvl_lt [] L (fun _ => none) hs1 hnew (ends_nil _)
      (by
        intro z hz
        rw [atLevel_eq_nil (fun t ht => Nat.lt_succ_of_le (hinv.lvl_le t ht))] at hz
        simp at hz)
      (by simp only [List.nil_append]; omega) with
    h | ⟨C, B1, h4, knots1, e1, _, hlp, hshape, hlen, hnn1, hk, _⟩
  · simp only [lastAddr] at h
    refine ⟨false, _, L, by rw [hrun, h]; rfl, ?_⟩
    exact ⟨hs1, hinv.len, by
      simp only [List.length_append, List.length_singleton]
      omega, hinv.lvl_le, hinv.lvl_top, hinv.lvl_lt⟩
  · simp only [lastAddr, List.nil_append] at hlp hshape hk
    subst e1
    obtain ⟨l1, h, p1, p2, p3, p4, p5, p6, p7, p8, _⟩ := promote_ok coins
      l.header l.heap.length l.level C B1 item knots1
      (fun j hj1 hj2 => hk j hj1 hj2)
      hinv.lvl_le hinv.lvl_lt (maxLevel + 1) 0 0
      { heap := h4, header := l.header, len := l.len + 1, level := l.level }
      hshape rfl rfl (Nat.zero_le _) (by omega)
      (fun j hj1 hj2 => hnn1 j hj1 hj2)
    refine ⟨true, l1, C ++ ⟨l.heap.length, item, h⟩ :: B1, ?_, ?_⟩
    · rw [hrun, hlp]
      simp [p1]
    · constructor
      · exact p4
      · rw [p6]
        have := hinv.len
        simp only [List.length_append, List.length_cons] at this ⊢
        show l.len + 1 = _
        rw [this]
        push_cast
        ring
      · rw [p7, hlen]
        simp only [List.length_append, List.length_cons, List.length_singleton] at hsize ⊢
        omega
      · intro t ht
        rw [p8]
        rcases List.mem_append.mp ht with h1 | h1
        · have := hinv.lvl_le t (List.mem_append_left _ h1)
          omega
        · rcases List.mem_cons.mp h1 with e | h1
          · rw [e]
            simp
          · have := hinv.lvl_le t (List.mem_append_right _ h1)
            omega
      · rw [p8]
        by_cases hh : h ≤ l.level
        · rw [Nat.max_eq_left hh]
          rcases hinv.lvl_top with h0 | ⟨t, ht, e⟩
          · exact Or.inl h0
          · refine Or.inr ⟨t, ?_, e⟩
            rcases List.mem_append.mp ht with h1 | h1
            · exact List.mem_append_left _ h1
            · exact List.mem_append_right _ (List.mem_cons_of_mem _ h1)
        · rw [Nat.max_eq_right (by omega)]
          exact Or.inr ⟨⟨l.heap.length, item, h⟩, by simp, rfl⟩
      · rw [p8]
        have := hinv.lvl_lt
        omega

theorem deleteStep_hit_gen {α : Type} (cmp : α → α → Int) (item : α) (l : SkipList α)
    (fuel i x : Nat) (found : Bool) {A B : List (Tower α)} {a : Nat} {v : α} {st : Stop}
    (hs : Shape l.heap l.header (A ++ ⟨a, v, i⟩ :: B))
    (hw : walk cmp item l.heap i fuel x = .ok (lastAddr l.header (atLevel i A), st))
    (hfd : (found || decide (st = .same)) = true)
    (hi : i < maxLevel) :
    ∃ h2, deleteStep cmp item fuel i x found l
        = .ok (lastAddr l.header (atLevel i A), true,
            { l with heap := h2, level :=
                if (atLevel i B).head?.map Tower.addr = none ∧
                    lastAddr l.header (atLevel i A) = l.header ∧ i > 0
                then i - 1 else l.level }) ∧
      h2.length = l.heap.length ∧
      (i = 0 → Shape h2 l.header (A ++ B)) ∧
      (∀ k, i = k + 1 → Shape h2 l.header (A ++ ⟨a, v, k⟩ :: B)) := by
  have hc := hs.chains i hi
  rw [atLevel_append, atLevel_cons_le (t := ⟨a, v, i⟩) (Nat.le_refl _), chain_append] at hc
  have hxa : nextOf l.heap (lastAddr l.header (atLevel i A)) i = .ok (some a) := hc.2.1.1
  have hca : Chain l.heap i a (atLevel i B) := ⟨hc.2.1.2.2, hc.2.2⟩
  have hnx := chain_next hca
  obtain ⟨h1, e1⟩ := setNext_ok hxa ((atLevel i B).head?.map Tower.addr)
  have hcase : found = true ∨ st = .same := by
    cases found with
    | true => exact Or.inl rfl
    | false =>
      right
      simpa using hfd
  cases i with
  | zero =>
    obtain ⟨h2, e2⟩ : ∃ h2, setPrevIf h1 ((atLevel 0 B).head?.map Tower.addr)
        (some (lastAddr l.header (atLevel 0 A))) = .ok h2 :=
      setPrevIf_ok (by
        intro c hc2
        rw [length_setNext e1]
        obtain ⟨t, ht, e⟩ := List.mem_map.mp (head_addr_mem hc2)
        rw [← e]
        exact hs.inHeap t (List.mem_append_right _ (List.mem_cons_of_mem _ (mem_atLevel ht)))) _
    refine ⟨h2, ?_, ?_, ?_, ?_⟩
    · rcases hcase with hf | hf
      · subst hf
        simp [deleteStep, hw, hxa, hnx, e1, e2]
      · subst hf
        simp [deleteStep, hw, hxa, hnx, e1, e2]
    · rw [length_setPrevIf e2, length_setNext e1]
    · intro _
      rw [atLevel_zero] at e1 e2 hnx hxa
      rw [atLevel_zero] at e1 e2
      apply shape_unlink0 hs
      · rw [length_setPrevIf e2, length_setNext e1]
      · intro b j hj
        rw [nextOf_setPrevIf e2, nextOf_setNext e1]
        simp [hj]
      · intro b hb
        rw [nextOf_setPrevIf e2, nextOf_setNext e1]
        simp [hb]
      · rw [nextOf_setPrevIf e2, nextOf_setNext e1, if_pos ⟨rfl, rfl⟩]
        exact hnx.symm
      · intro b
        rw [itemOf_setPrevIf e2, itemOf_setNext e1]
      · intro z hz
        have hz1 : B.head?.map Tower.addr = some z.addr := by
          rw [Option.mem_def.mp hz]
          rfl
        rw [prevOf_setPrevIf e2, if_pos hz1]
      · intro b hbz
        have hz1 : ¬ B.head?.map Tower.addr = some b := by
          intro e
          cases hB : B.head? with
          | none => simp [hB] at e
          | some z =>
            simp only [hB, Option.map_some', Option.some.injEq] at e
            exact hbz z (Option.mem_def.mpr hB) e.symm
        rw [prevOf_setPrevIf e2, if_neg hz1, prevOf_setNext e1]
      · intro b
        rw [nextLen_setPrevIf e2, nextLen_setNext e1]
    · intro k hk
      omega
  | succ k =>
    refine ⟨h1, ?_, length_setNext e1, ?_, ?_⟩
    · have hpos : k + 1 > 0 := Nat.succ_pos k
      rcases hcase with hf | hf
      · subst hf
        simp [deleteStep, hw, hxa, hnx, e1]
        by_cases hcnd : Option.map Tower.addr (atLevel (k + 1) B).head? = none ∧
            lastAddr l.header (atLevel (k + 1) A) = l.header
        · rw [if_pos hcnd, if_pos ⟨hcnd.1, hcnd.2, hpos⟩]
        · rw [if_neg hcnd, if_neg (fun h => hcnd ⟨h.1, h.2.1⟩)]
      · subst hf
        simp [deleteStep, hw, hxa, hnx, e1]
        by_cases hcnd : Option.map Tower.addr (atLevel (k + 1) B).head? = none ∧
            lastAddr l.header (atLevel (k + 1) A) = l.header
        · rw [if_pos hcnd, if_pos ⟨hcnd.1, hcnd.2, hpos⟩]
        · rw [if_neg hcnd, if_neg (fun h => hcnd ⟨h.1, h.2.1⟩)]
    · intro h0
      omega
    · intro k1 hk1
      have hkk : k1 = k := by omega
      subst hkk
      apply shape_unlink hs (length_setNext e1)
      · intro b j hj
        rw [nextOf_setNext e1]
        simp [hj]
      · intro b hb
        rw [nextOf_setNext e1]
        simp [hb]
      · rw [nextOf_setNext e1, if_pos ⟨rfl, rfl⟩]
        exact hnx.symm
      · intro b
        exact itemOf_setNext e1 b
      · intro b
        exact prevOf_setNext e1 b
      · intro b
        exact nextLen_setNext e1 b

/-- With `found` set, the inner loop at level `i` starts at the node before
which the last unlinked tower stood on level `i + 1`, and stops in front of a
tower of height `i`: that tower itself or one before it. -/
theorem found_walk {α : Type} (cmp : α → α → Int) (item : α) {heap : List (Node α)}
    {hdr i fuel a : Nat} {u : α} {A B : List (Tower α)}
    (hs : Shape heap hdr (A ++ ⟨a, u, i⟩ :: B)) (hi : i < maxLevel)
    (hT : Stops cmp item ⟨a, u, i⟩)
    (hf : (A ++ (⟨a, u, i⟩ : Tower α) :: B).length < fuel) :
    ∃ A1 a1 u1 R st, A ++ (⟨a, u, i⟩ : Tower α) :: B = A1 ++ ⟨a1, u1, i⟩ :: R ∧
      Stops cmp item ⟨a1, u1, i⟩ ∧
      walk cmp item heap i fuel (lastAddr hdr (atLevel (i + 1) A))
        = .ok (lastAddr hdr (atLevel i A1), st) := by
  obtain ⟨A1, A2, eA, hE1, hA2⟩ := tail_split (i + 1) A
  subst eA
  have hstart : lastAddr hdr (atLevel (i + 1) (A1 ++ A2)) = lastAddr hdr A1 := by
    rw [atLevel_append, hA2, List.append_nil, ends_last hdr hE1 (Nat.le_refl _)]
  have hc := hs.chains i hi
  rw [List.append_assoc] at hc hf
  obtain ⟨C, B1, e, hE, hpass, hstopB, hw, _⟩ :=
    level_step_gen cmp item hc (ends_mono hE1 (Nat.le_succ _)) hf
  have hTnotC : (⟨a, u, i⟩ : Tower α) ∉ atLevel i C := by
    intro hm
    obtain ⟨p0, p1⟩ := hpass _ hm
    rcases hT with h | h
    · exact p0 h
    · exact p1 h
  have hTlev : ∀ X : List (Tower α), (⟨a, u, i⟩ : Tower α) ∈ X →
      (⟨a, u, i⟩ : Tower α) ∈ atLevel i X := by
    intro X hX
    simp only [atLevel, List.mem_filter, decide_eq_true_eq]
    exact ⟨hX, Nat.le_refl _⟩
  have hTin : (⟨a, u, i⟩ : Tower α) ∈ atLevel i B1 := by
    have h1 : (⟨a, u, i⟩ : Tower α) ∈ atLevel i (C ++ B1) := by
      rw [← e]
      exact hTlev _ (by simp)
    rw [atLevel_append] at h1
    rcases List.mem_append.mp h1 with h | h
    · exact absurd h hTnotC
    · exact h
  cases hB1 : atLevel i B1 with
  | nil =>
    rw [hB1] at hTin
    simp at hTin
  | cons T1 rest =>
    have hst1 : Stops cmp item T1 := hstopB T1 (by rw [hB1]; simp)
    obtain ⟨P, R, eB, hP, hge, _⟩ := filter_head i B1 T1 rest hB1
    subst eB
    have hTnotP : (⟨a, u, i⟩ : Tower α) ∉ P := by
      intro hm
      have := hTlev P hm
      rw [hP] at this
      simp at this
    have hTnotCP : (⟨a, u, i⟩ : Tower α) ∉ C ++ P := by
      intro hm
      rcases List.mem_append.mp hm with h | h
      · exact hTnotC (hTlev C h)
      · exact hTnotP h
    have hle : T1.height ≤ i := by
      have e2 : (A2 ++ [(⟨a, u, i⟩ : Tower α)]) ++ B = (C ++ P) ++ (T1 :: R) := by
        simp only [List.append_assoc, List.singleton_append]
        exact e
      rcases List.append_eq_append_iff.mp e2 with ⟨a1, h1, _⟩ | ⟨c1, h1, h2⟩
      · exfalso
        apply hTnotCP
        rw [h1]
        simp
      · cases c1 with
        | nil =>
          exfalso
          apply hTnotCP
          rw [List.append_nil] at h1
          rw [← h1]
          simp
        | cons t c2 =>
          simp only [List.cons_append, List.cons.injEq] at h2
          obtain ⟨e3, _⟩ := h2
          subst e3
          have hm : T1 ∈ A2 ++ [(⟨a, u, i⟩ : Tower α)] := by
            rw [h1]
            simp
          rcases List.mem_append.mp hm with h | h
          · have := atLevel_nil_lt hA2 h
            omega
          · simp only [List.mem_singleton] at h
            rw [h]
    obtain ⟨a1, u1, h1⟩ := T1
    simp only at hge hle
    have hh : h1 = i := by omega
    subst hh
    refine ⟨A1 ++ C ++ P, a1, u1, R,
      stopOf cmp item (atLevel h1 (P ++ (⟨a1, u1, h1⟩ : Tower α) :: R)), ?_, hst1, ?_⟩
    · rw [List.append_assoc A1 A2, e]
      simp only [List.append_assoc]
    · rw [hstart, hw]
      congr 2
      rw [← ends_last hdr hE (Nat.le_refl _), atLevel_append (A := A1 ++ C), hP, List.append_nil]

theorem deleteLoop_found {α : Type} (cmp : α → α → Int) (item : α) (fuel : Nat) :
    ∀ (i : Nat), i < maxLevel → ∀ (l : SkipList α) (A B : List (Tower α)) (a : Nat) (u : α),
      Shape l.heap l.header (A ++ ⟨a, u, i⟩ :: B) →
      LvlOK l.level (A ++ ⟨a, u, i⟩ :: B) →
      Stops cmp item ⟨a, u, i⟩ →
      (A ++ (⟨a, u, i⟩ : Tower α) :: B).length < fuel →
      ∃ l1 L1, deleteLoop cmp item fuel i (lastAddr l.header (atLevel (i + 1) A)) true l
          = .ok (true, l1) ∧
        Shape l1.heap l1.header L1 ∧ LvlOK l1.level L1 ∧
        L1.length + 1 = (A ++ (⟨a, u, i⟩ : Tower α) :: B).length ∧
        l1.level ≤ l.level ∧ l1.header = l.header ∧ l1.len = l.len ∧
        l1.heap.length = l.heap.length := by
  intro i
  induction i with
  | zero =>
    intro hi l A B a u hs hl hT hf
    obtain ⟨A1, a1, u1, R, st, e, hT1, hw⟩ := found_walk cmp item hs hi hT hf
    rw [e] at hs hl hf ⊢
    obtain ⟨h2, r1, r2, r3, _⟩ := deleteStep_hit_gen cmp item l fuel 0
      (lastAddr l.header (atLevel (0 + 1) A)) true hs hw (by simp) hi
    have hlvl : (if (atLevel 0 R).head?.map Tower.addr = none ∧
        lastAddr l.header (atLevel 0 A1) = l.header ∧ 0 > 0 then 0 - 1 else l.level)
        = l.level := by
      simp
    rw [hlvl] at r1
    refine ⟨{ l with heap := h2 }, A1 ++ R, ?_, r3 rfl, lvlOK_remove hl, ?_, Nat.le_refl _,
      rfl, rfl, r2⟩
    · simp [deleteLoop, r1]
    · simp only [List.length_append, List.length_cons]
      omega
  | succ k ih =>
    intro hi l A B a u hs hl hT hf
    obtain ⟨A1, a1, u1, R, st, e, hT1, hw⟩ := found_walk cmp item hs hi hT hf
    rw [e] at hs hl hf ⊢
    obtain ⟨h2, r1, r2, _, r4⟩ := deleteStep_hit_gen cmp item l fuel (k + 1)
      (lastAddr l.header (atLevel (k + 1 + 1) A)) true hs hw (by simp) hi
    have hnA : l.header ∉ A1.map Tower.addr := by
      have h1 := (List.nodup_cons.mp hs.nodup).1
      intro hm
      apply h1
      simp only [List.map_append, List.mem_append]
      left
      exact hm
    have hlvl : (if (atLevel (k + 1) R).head?.map Tower.addr = none ∧
        lastAddr l.header (atLevel (k + 1) A1) = l.header ∧ k + 1 > 0 then k + 1 - 1
          else l.level)
        = (if (atLevel (k + 1) R).head?.map Tower.addr = none ∧
        lastAddr l.header (atLevel (k + 1) A1) = l.header ∧ k + 1 > 0 then k
          else l.level) := by
      rw [Nat.add_sub_cancel]
    rw [hlvl] at r1
    have hle2 : (if (atLevel (k + 1) R).head?.map Tower.addr = none ∧
        lastAddr l.header (atLevel (k + 1) A1) = l.header ∧ k + 1 > 0 then k
          else l.level) ≤ l.level := by
      have hT2 : k + 1 ≤ l.level := hl.1 ⟨a1, u1, k + 1⟩ (by simp)
      split <;> omega
    obtain ⟨l1, L1, q1, q2, q3, q4, q5, q6, q7, q8⟩ := ih (by omega)
      { l with heap := h2,
               level := if (atLevel (k + 1) R).head?.map Tower.addr = none ∧
                  lastAddr l.header (atLevel (k + 1) A1) = l.header ∧ k + 1 > 0 then k
                  else l.level }
      A1 R a1 u1 (r4 k rfl) (lvlOK_unlink (collapse_cond hnA) hl)
      (by
        rcases hT1 with h | h
        · exact Or.inl h
        · exact Or.inr h)
      (by
        simp only [List.length_append, List.length_cons] at hf ⊢
        exact hf)
    refine ⟨l1, L1, ?_, q2, q3, ?_, Nat.le_trans q5 hle2, q6, q7, ?_⟩
    · simp [deleteLoop, r1, q1]
    · rw [q4]
      simp only [List.length_append, List.length_cons]
    · rw [q8]
      exact r2

theorem deleteStep_miss_gen {α : Type} (cmp : α → α → Int) (item : α) (l : SkipList α)
    (fuel i x x1 : Nat) {st : Stop}
    (hw : walk cmp item l.heap i fuel x = .ok (x1, st)) (hne : st ≠ .same) :
    deleteStep cmp item fuel i x false l = .ok (x1, false, l) := by
  simp [deleteStep, hw, hne]

/-- The outer loop of `Delete` from level `i` under any comparator, before an
item on which the comparator returns 0 is met: either none is met on any level
and nothing is written, or the loop returns with one tower fewer. -/
theorem deleteLoop_gen {α : Type} (cmp : α → α → Int) (item : α) (fuel : Nat)
    (l : SkipList α) :
    ∀ (i : Nat), i < maxLevel → ∀ (A B : List (Tower α)),
      Shape l.heap l.header (A ++ B) → LvlOK l.level (A ++ B) →
      Ends (i + 1) A → (∀ z ∈ (atLevel (i + 1) B).head?, cmp z.item item = 1) →
      (A ++ B).length < fuel →
      deleteLoop cmp item fuel i (lastAddr l.header A) false l = .ok (false, l) ∨
      ∃ l1 L1, deleteLoop cmp item fuel i (lastAddr l.header A) false l = .ok (true, l1) ∧
        Shape l1.heap l1.header L1 ∧ LvlOK l1.level L1 ∧
        L1.length + 1 = (A ++ B).length ∧
        l1.level ≤ l.level ∧ l1.header = l.header ∧ l1.len = l.len ∧
        l1.heap.length = l.heap.length := by
  have hhit : ∀ (i : Nat), i < maxLevel → ∀ (A C B1 : List (Tower α)),
      Shape l.heap l.header (A ++ (C ++ B1)) →
      (∀ z ∈ (atLevel (i + 1) (C ++ B1)).head?, cmp z.item item = 1) →
      Ends i (A ++ C) → (∀ t ∈ atLevel i C, Passes cmp item t) →
      (∃ T rest, atLevel i B1 = T :: rest ∧ cmp T.item item = 0) →
      ∃ A1 a u R, A ++ (C ++ B1) = A1 ++ (⟨a, u, i⟩ : Tower α) :: R ∧ cmp u item = 0 ∧
        lastAddr l.header (A ++ C) = lastAddr l.header (atLevel i A1) := by
    intro i hi A C B1 hs hstop hE hpass hsame
    obtain ⟨T, rest, hB1, hT0⟩ := hsame
    obtain ⟨P, R, eB, hP, hge, _⟩ := filter_head i B1 T rest hB1
    subst eB
    have hCtop : atLevel (i + 1) C = [] :=
      pass_above (fun z hz => Or.inr (hstop z hz)) hpass
    have hle : T.height ≤ i := by
      by_contra hcon
      have hT1 : i + 1 ≤ T.height := by omega
      have hhead : cmp T.item item = 1 := by
        apply hstop T
        rw [atLevel_append, hCtop, List.nil_append, atLevel_append,
          atLevel_nil_mono hP (Nat.le_succ _), List.nil_append, atLevel_cons_le hT1]
        simp
      omega
    obtain ⟨a, u, h⟩ := T
    simp only at hge hle hT0
    have hh : h = i := by omega
    subst hh
    refine ⟨A ++ C ++ P, a, u, R, by simp only [List.append_assoc], hT0, ?_⟩
    rw [← ends_last l.header hE (Nat.le_refl _), atLevel_append (A := A ++ C), hP,
      List.append_nil]
  intro i
  induction i with
  | zero =>
    intro hi A B hs hl hA hstop hf
    obtain ⟨C, B1, e, hE, hpass, hstopB, hw, _⟩ :=
      level_step_gen cmp item (hs.chains 0 hi) (ends_mono hA (Nat.zero_le _)) hf
    subst e
    rcases stopOf_cases hstopB with ⟨hne, _⟩ | ⟨hsame, hex⟩
    · left
      have r := deleteStep_miss_gen cmp item l fuel 0 (lastAddr l.header A) _ hw hne
      simp [deleteLoop, r]
    · right
      obtain ⟨A1, a, u, R, e, hu, hx⟩ := hhit 0 hi A C B1 hs hstop hE hpass hex
      rw [hx, hsame] at hw
      rw [e] at hs hl hf ⊢
      obtain ⟨h2, r1, r2, r3, _⟩ := deleteStep_hit_gen cmp item l fuel 0
        (lastAddr l.header A) false hs hw (by simp) hi
      have hlvl : (if (atLevel 0 R).head?.map Tower.addr = none ∧
          lastAddr l.header (atLevel 0 A1) = l.header ∧ 0 > 0 then 0 - 1 else l.level)
          = l.level := by
        simp
      rw [hlvl] at r1
      refine ⟨{ l with heap := h2 }, A1 ++ R, ?_, r3 rfl, lvlOK_remove hl, ?_, Nat.le_refl _,
        rfl, rfl, r2⟩
      · simp [deleteLoop, r1]
      · simp only [List.length_append, List.length_cons]
        omega
  | succ k ih =>
    intro hi A B hs hl hA hstop hf
    obtain ⟨C, B1, e, hE, hpass, hstopB, hw, _⟩ :=
      level_step_gen cmp item (hs.chains (k + 1) hi) (ends_mono hA (Nat.le_succ _)) hf
    subst e
    rcases stopOf_cases hstopB with ⟨hne, hgreat⟩ | ⟨hsame, hex⟩
    · have r := deleteStep_miss_gen cmp item l fuel (k + 1) (lastAddr l.header A) _ hw hne
      have hstep : deleteLoop cmp item fuel (k + 1) (lastAddr l.header A) false l
          = deleteLoop cmp item fuel k (lastAddr l.header (A ++ C)) false l := by
        simp [deleteLoop, r]
      rw [hstep]
      rcases ih (by omega) (A ++ C) B1 (by rw [List.append_assoc]; exact hs)
          (by rw [List.append_assoc]; exact hl) hE hgreat
          (by rw [List.append_assoc]; exact hf) with
        h | ⟨l1, L1, q1, q2, q3, q4, q5⟩
      · exact Or.inl h
      · right
        refine ⟨l1, L1, q1, q2, q3, ?_, q5⟩
        rw [q4, List.append_assoc]
    · right
      obtain ⟨A1, a, u, R, e, hu, hx⟩ := hhit (k + 1) hi A C B1 hs hstop hE hpass hex
      rw [hx, hsame] at hw
      rw [e] at hs hl hf ⊢
      obtain ⟨h2, r1, r2, _, r4⟩ := deleteStep_hit_gen cmp item l fuel (k + 1)
        (lastAddr l.header A) false hs hw (by simp) hi
      have hnA : l.header ∉ A1.map Tower.addr := by
        have h1 := (List.nodup_cons.mp hs.nodup).1
        intro hm
        apply h1
        simp only [List.map_append, List.mem_append]
        left
        exact hm
      have hlvl : (if (atLevel (k + 1) R).head?.map Tower.addr = none ∧
          lastAddr l.header (atLevel (k + 1) A1) = l.header ∧ k + 1 > 0 then k + 1 - 1
            else l.level)
          = (if (atLevel (k + 1) R).head?.map Tower.addr = none ∧
          lastAddr l.header (atLevel (k + 1) A1) = l.header ∧ k + 1 > 0 then k
            else l.level) := by
        rw [Nat.add_sub_cancel]
      rw [hlvl] at r1
      have hle2 : (if (atLevel (k + 1) R).head?.map Tower.addr = none ∧
          lastAddr l.header (atLevel (k + 1) A1) = l.header ∧ k + 1 > 0 then k
            else l.level) ≤ l.level := by
        have hT2 : k + 1 ≤ l.level := hl.1 ⟨a, u, k + 1⟩ (by simp)
        split <;> omega
      obtain ⟨l1, L1, q1, q2, q3, q4, q5, q6, q7, q8⟩ := deleteLoop_found cmp item fuel k
        (by omega)
        { l with heap := h2,
                 level := if (atLevel (k + 1) R).head?.map Tower.addr = none ∧
                    lastAddr l.header (atLevel (k + 1) A1) = l.header ∧ k + 1 > 0 then k
                    else l.level }
        A1 R a u (r4 k rfl) (lvlOK_unlink (collapse_cond hnA) hl) (Or.inl hu)
        (by
          simp only [List.length_append, List.length_cons] at hf ⊢
          exact hf)
      refine ⟨l1, L1, ?_, q2, q3, ?_, Nat.le_trans q5 hle2, q6, q7, ?_⟩
      · simp [deleteLoop, r1, q1]
      · rw [q4]
        simp only [List.length_append, List.length_cons]
      · rw [q8]
        exact r2

/-- Under any comparator `Delete` returns and keeps the structural invariant. -/
theorem delete_ok {α : Type} (cmp : α → α → Int) (item : α)
    {l : SkipList α} {L : List (Tower α)} (hinv : InvS l L) :
    ∃ b l1 L1, Delete cmp item l = .ok (b, l1) ∧ InvS l1 L1 := by
  rcases deleteLoop_gen cmp item l.heap.length l l.level hinv.lvl_lt [] L hinv.shape
      ⟨hinv.lvl_le, hinv.lvl_top⟩ (ends_nil _)
      (by
        intro z hz
        rw [atLevel_eq_nil (fun t ht => Nat.lt_succ_of_le (hinv.lvl_le t ht))] at hz
        simp at hz)
      (by simpa using hinv.size) with
    h | ⟨l1, L1, q1, q2, q3, q4, q5, q6, q7, q8⟩
  · simp only [lastAddr] at h
    exact ⟨false, l, L, by simp [Delete, h], hinv⟩
  · simp only [lastAddr, List.nil_append] at q1 q4
    refine ⟨true, { l1 with len := l1.len - 1 }, L1, by simp [Delete, q1], ?_⟩
    constructor
    · exact q2
    · show l1.len - 1 = _
      rw [q7, hinv.len, ← q4]
      push_cast
      ring
    · show L1.length < l1.heap.length
      rw [q8]
      have := hinv.size
      omega
    · exact q3.1
    · exact q3.2
    · show l1.level < maxLevel
      have := hinv.lvl_lt
      omega

theorem invS_new {α : Type} : InvS (NewList : SkipList α) [] := by
  have h := invL_new (fun (_ _ : α) => (0 : Int))
  exact ⟨h.shape, h.len, h.size, h.lvl_le, h.lvl_top, h.lvl_lt⟩

theorem runOp_ok {α : Type} (cmp : α → α → Int) (op : Op α) {l : SkipList α}
    {L : List (Tower α)} (hinv : InvS l L) :
    ∃ l1 L1, runOp cmp op l = .ok l1 ∧ InvS l1 L1 := by
  cases op with
  | insert coins item =>
    obtain ⟨b, l1, L1, h, hi⟩ := insert_ok cmp coins item hinv
    exact ⟨l1, L1, by simp [runOp, h], hi⟩
  | delete item =>
    obtain ⟨b, l1, L1, h, hi⟩ := delete_ok cmp item hinv
    exact ⟨l1, L1, by simp [runOp, h], hi⟩
  | exist item =>
    obtain ⟨b, h⟩ := exists_ok cmp item hinv
    exact ⟨l, L, by simp [runOp, h], hinv⟩
  | len => exact ⟨l, L, rfl, hinv⟩

theorem runOps_ok {α : Type} (cmp : α → α → Int) (ops : List (Op α)) :
    ∀ (l : SkipList α) (L : List (Tower α)), InvS l L →
      ∃ l1 L1, runOps cmp ops l = .ok l1 ∧ InvS l1 L1 := by
  induction ops with
  | nil =>
    intro l L hinv
    exact ⟨l, L, rfl, hinv⟩
  | cons op rest ih =>
    intro l L hinv
    obtain ⟨l1, L1, h1, hi1⟩ := runOp_ok cmp op hinv
    obtain ⟨l2, L2, h2, hi2⟩ := ih l1 L1 hi1
    exact ⟨l2, L2, by simp [runOps, h1, h2], hi2⟩

/-- C19: for every comparator function (any integers, no order law assumed),
every finite sequence of `Insert`, `Delete`, `Exists` and `Len` calls from
`NewList` and every coin outcomes, every call returns: the run ends in a state
and never in a fault (no nil dereference, no index out of range, no dangling
node), and every single call made in that final state returns as well. -/
theorem C19_no_fault_any_comparator {α : Type} (cmp : α → α → Int) (ops : List (Op α)) :
    ∃ l, runOps cmp ops NewList = .ok l ∧
      (∀ coins item, ∃ b l1, Insert cmp coins item l = .ok (b, l1)) ∧
      (∀ item, ∃ b l1, Delete cmp item l = .ok (b, l1)) ∧
      (∀ item, ∃ b, Exists cmp item l = .ok (b, l)) := by
  obtain ⟨l, L, h, hinv⟩ := runOps_ok cmp ops NewList [] invS_new
  refine ⟨l, h, ?_, ?_, ?_⟩
  · intro coins item
    obtain ⟨b, l1, _, h1, _⟩ := insert_ok cmp coins item hinv
    exact ⟨b, l1, h1⟩
  · intro item
    obtain ⟨b, l1, _, h1, _⟩ := delete_ok cmp item hinv
    exact ⟨b, l1, h1⟩
  · intro item
    exact exists_ok cmp item hinv

theorem C19_no_fault_any_comparator_witness :
    (∃ l, runOps cycleCmp cycleOps NewList = .ok l ∧
      (∀ coins item, ∃ b l1, Insert cycleCmp coins item l = .ok (b, l1)) ∧
      (∀ item, ∃ b l1, Delete cycleCmp item l = .ok (b, l1)) ∧
      (∀ item, ∃ b, Exists cycleCmp item l = .ok (b, l))) ∧
    cycleCmp 3 3 = -2 ∧ cycleCmp 3 2 = 0 ∧ cycleCmp 2 3 = 1 ∧
    (runOps cycleCmp (cycleOps.take 3) NewList >>= fun l =>
        pure (Len l, l.level, forward l, backward l, levelItems l 1))
      = .ok (3, 1, .ok [4, 3, 1], .ok [1, 3, 4], .ok [3, 1]) ∧
    (runOps cycleCmp cycleOps NewList >>= fun l =>
        pure (Len l, l.level, forward l, backward l, levelItems l 1))
      = .ok (2, 1, .ok [4, 1], .ok [1, 4], .ok [1]) :=
  ⟨C19_no_fault_any_comparator cycleCmp cycleOps, rfl, rfl, rfl, rfl, rfl⟩

/-! ## Insert and InsertV2 compared -/

/-- At level 31 a call of `InsertV2` whose `randLevel` returns 32 indexes the
header beyond its 32 links, whatever the coins that gave 32. -/
theorem insertV2_fault_of_cap {α : Type} (cmp : α → α → Int) (coins : Coins) (item : α)
    (l : SkipList α) (h : l.level = 31) (hr : randLevel coins l = .ok 32)
    (hn : nextLen l.heap l.header = some maxLevel) :
    InsertV2 cmp coins item l = .error .indexOutOfRange := by
  unfold nextLen at hn
  cases hx : l.heap[l.header]? with
  | none => simp [hx] at hn
  | some n =>
    simp only [hx, Option.map_some', Option.some.injEq] at hn
    have hlt : l.header < l.heap.length := (List.getElem?_eq_some.mp hx).1
    have hnx : ∀ n0 : Node α, nextOf (l.heap ++ [n0]) l.header 32 = .error .indexOutOfRange := by
      intro n0
      unfold nextOf
      rw [List.getElem?_append_left hlt, hx]
      have : n.next[32]? = none := List.getElem?_eq_none (by rw [hn]; decide)
      simp [this]
    have hgt : 32 > l.level := by omega
    have hloop : ∀ (n0 : Node α) (node fuel : Nat),
        insertV2Loop cmp item node 32 (fuel + 1) (31 + 1) l.header false
          { heap := l.heap ++ [n0], header := l.header, len := l.len, level := 32 }
          = .error .indexOutOfRange := by
      intro n0 node fuel
      simp only [insertV2Loop, insertV2Step, walk, hnx, bind_error]
    unfold InsertV2
    rw [hr]
    simp only [bind_ok, if_pos hgt, List.length_append, List.length_singleton]
    rw [show (32 : Nat) = 31 + 1 from rfl, hloop]
    rfl

/-- A call of `InsertV2` on a represented list that returns true leaves a
represented list, at whatever level it was made. -/
theorem insertV2_true_inv {α : Type} {cmp : α → α → Int} (hc : IsTotalOrder cmp)
    (coins : Coins) (item : α) {l l1 : SkipList α} {L : List (Tower α)} (hinv : InvL cmp l L)
    (h : InsertV2 cmp coins item l = .ok (true, l1)) : ∃ L1, InvL cmp l1 L1 := by
  obtain ⟨n, hn, hn1, hn2⟩ := randLevel_le coins l
  have hlv := hinv.lvl_lt
  have h32 : maxLevel = 32 := rfl
  by_cases hnl : n < maxLevel
  · obtain ⟨A, B, e, hlt, hB⟩ := split_sorted hc item L hinv.sorted
    subst e
    rcases hB with hgt | ⟨T, B1, e, hT, hgt⟩
    · obtain ⟨l2, r1, r2, _⟩ := insertV2_fresh_at hc coins item hinv hn hnl hlt hgt
      rw [r1] at h
      injection h with h
      injection h with _ h
      subst h
      exact ⟨_, r2⟩
    · subst e
      obtain ⟨l2, r1, _⟩ := insertV2_dup_at coins item hinv hn hnl hlt hT hgt
      rw [r1] at h
      injection h with h
      injection h with h _
      cases h
  · have e1 : n = 32 := by omega
    have e2 : l.level = 31 := by omega
    subst e1
    rw [insertV2_fault_of_cap cmp coins item l e2 hn hinv.shape.hdrLen] at h
    cases h

theorem reachableFresh_inv {α : Type} {cmp : α → α → Int} (hc : IsTotalOrder cmp)
    {l : SkipList α} (hr : ReachableFresh cmp l) : ∃ L, InvL cmp l L := by
  induction hr with
  | new => exact ⟨[], invL_new cmp⟩
  | insert coins item b _ hi ih =>
    obtain ⟨L, hinv⟩ := ih
    rcases insert_spec hc coins item hinv with ⟨_, h1, h2⟩ | ⟨_, l1, A, B, h, _, _, _, h1, h2, _⟩
    · rw [h1] at hi
      injection hi with hi
      injection hi with _ hi
      subst hi
      exact ⟨L, h2⟩
    · rw [h1] at hi
      injection hi with hi
      injection hi with _ hi
      subst hi
      exact ⟨_, h2⟩
  | insertV2 coins item _ hi ih =>
    obtain ⟨L, hinv⟩ := ih
    exact insertV2_true_inv hc coins item hinv hi
  | delete item b _ hi ih =>
    obtain ⟨L, hinv⟩ := ih
    rcases delete_spec hc item hinv with ⟨_, h1⟩ | ⟨l1, A, T, B, _, _, _, h1, h2, _, _⟩
    · rw [h1] at hi
      injection hi with hi
      injection hi with _ hi
      subst hi
      exact ⟨L, hinv⟩
    · rw [h1] at hi
      injection hi with hi
      injection hi with _ hi
      subst hi
      exact ⟨_, h2⟩

/-- Every state reachable by `Insert` and `Delete` calls alone is reachable
when `InsertV2` calls that return true are allowed too. -/
theorem reachable_reachableFresh {α : Type} {cmp : α → α → Int} {l : SkipList α}
    (hr : Reachable cmp l) : ReachableFresh cmp l := by
  induction hr with
  | new => exact ReachableFresh.new
  | insert coins item b _ h ih => exact ReachableFresh.insert coins item b ih h
  | delete item b _ h ih => exact ReachableFresh.delete item b ih h

theorem c16State_reachable : ReachableV2 compareIntAsc c16State := by
  have h1 : ReachableV2 compareIntAsc c16a := ReachableV2.insert (heads 1) 5 true
    ReachableV2.new (rfl : Insert compareIntAsc (heads 1) 5 NewList = .ok (true, c16a))
  have h2 : ReachableV2 compareIntAsc c16b := ReachableV2.insertV2 (heads 2) 5 false h1
    (rfl : InsertV2 compareIntAsc (heads 2) 5 c16a = .ok (false, c16b))
  have h3 : ReachableV2 compareIntAsc c16c := ReachableV2.insert (heads 2) 7 true h2
    (rfl : Insert compareIntAsc (heads 2) 7 c16b = .ok (true, c16c))
  have h4 : ReachableV2 compareIntAsc c16d := ReachableV2.delete 5 true h3
    (rfl : Delete compareIntAsc 5 c16c = .ok (true, c16d))
  exact ReachableV2.insertV2 (heads 1) 8 true h4
    (rfl : InsertV2 compareIntAsc (heads 1) 8 c16d = .ok (true, c16State))

theorem freshList_reachable : ReachableFresh compareIntAsc freshList := by
  have h1 : ReachableFresh compareIntAsc
      (stateOf (InsertV2 compareIntAsc (heads 1) 3 NewList)) :=
    ReachableFresh.insertV2 (heads 1) 3 ReachableFresh.new rfl
  have h2 : ReachableFresh compareIntAsc
      (stateOf (InsertV2 compareIntAsc (heads 2) 1
        (stateOf (InsertV2 compareIntAsc (heads 1) 3 NewList)))) :=
    ReachableFresh.insertV2 (heads 2) 1 h1 rfl
  have h3 : ReachableFresh compareIntAsc
      (stateOf (InsertV2 compareIntAsc (heads 0) 4
        (stateOf (InsertV2 compareIntAsc (heads 2) 1
          (stateOf (InsertV2 compareIntAsc (heads 1) 3 NewList)))))) :=
    ReachableFresh.insertV2 (heads 0) 4 h2 rfl
  exact ReachableFresh.insert (heads 0) 2 true h3 rfl

/-- C16: `Insert` and `InsertV2` disagree on a reachable state of level 1.
The list `c16State` is reached from `NewList` by `Insert(5)`, `InsertV2(5)`
(returns false after it linked a second node 5 to the header on level 2),
`Insert(7)`, `Delete(5)` and `InsertV2(8)`: its level is 1, its level-0
traversal is `[8]`, and the header still has a link on level 2, to the node 7.
There `Insert(9)` and `InsertV2(9)`, both with two heads, both return true with
`Len` 3; `Insert` starts at level 1 and links 9 behind 8, so that the level-0
traversals are `[8, 9]` and `[9, 8]`; `InsertV2` raises the level to 2, follows
the header link of level 2 to 7 and links 9 behind it on every level, so that
the level-0 traversals stay `[8]` and `[8]`. -/
theorem C16_equivalence_fails_after_duplicate :
    Insert compareIntAsc (heads 1) 5 NewList = .ok (true, c16a) ∧
    InsertV2 compareIntAsc (heads 2) 5 c16a = .ok (false, c16b) ∧
    Insert compareIntAsc (heads 2) 7 c16b = .ok (true, c16c) ∧
    Delete compareIntAsc 5 c16c = .ok (true, c16d) ∧
    InsertV2 compareIntAsc (heads 1) 8 c16d = .ok (true, c16State) ∧
    ReachableV2 compareIntAsc c16State ∧ c16State.level = 1 ∧
    forward c16State = .ok [8] ∧ levelItems c16State 2 = .ok [7] ∧
    (Insert compareIntAsc (heads 2) 9 c16State >>= fun r =>
        pure (r.1, Len r.2, forward r.2, backward r.2))
      = .ok (true, 3, .ok [8, 9], .ok [9, 8]) ∧
    (InsertV2 compareIntAsc (heads 2) 9 c16State >>= fun r =>
        pure (r.1, Len r.2, forward r.2, backward r.2))
      = .ok (true, 3, .ok [8], .ok [8]) ∧
    (Insert compareIntAsc (heads 2) 9 c16State >>= fun r =>
        pure (r.2.level, levelItems r.2 1, levelItems r.2 2))
      = .ok (2, .ok [8, 9], .ok [9]) ∧
    (InsertV2 compareIntAsc (heads 2) 9 c16State >>= fun r =>
        pure (r.2.level, levelItems r.2 1, levelItems r.2 2))
      = .ok (2, .ok [8], .ok [7, 9]) :=
  ⟨rfl, rfl, rfl, rfl, rfl, c16State_reachable, rfl, rfl, rfl, rfl, rfl, rfl, rfl⟩

/-- In a state reachable by `Insert` and `Delete` calls and by `InsertV2` calls
that return true, whose level is below 31, `Insert` and `InsertV2` of the same
item, each with coins of its own, both return, with the same boolean, and
leave lists with the same `Len`, the same level-0 forward traversal and the
same backward traversal (its reverse). -/
theorem insert_insertV2_agree {α : Type} (cmp : α → α → Int) (hc : IsTotalOrder cmp)
    (l : SkipList α) (hr : ReachableFresh cmp l) (hl : l.level < 31)
    (coins1 coins2 : Coins) (item : α) :
    ∃ b l1 l2 ys, Insert cmp coins1 item l = .ok (b, l1) ∧
      InsertV2 cmp coins2 item l = .ok (b, l2) ∧ Len l1 = Len l2 ∧
      forward l1 = .ok ys ∧ forward l2 = .ok ys ∧
      backward l1 = .ok ys.reverse ∧ backward l2 = .ok ys.reverse := by
  obtain ⟨L, hinv⟩ := reachableFresh_inv hc hr
  have hl1 : l.level + 1 < maxLevel := by
    have : maxLevel = 32 := rfl
    omega
  rcases insert_spec hc coins1 item hinv with ⟨hex, r1, r2⟩ |
    ⟨hno, l1, A, B, h, eL, hlt, hgt, r1, r2, _⟩
  · rcases insertV2_spec hc coins2 item hinv hl1 with ⟨_, l2, q1, q2, q3, q4⟩ |
      ⟨hno, _⟩
    · exact ⟨false, _, l2, L.map Tower.item, r1, q1, q2.symm, forward_inv r2, q3,
        backward_inv r2, q4⟩
    · obtain ⟨t, ht, e⟩ := hex
      exact absurd e (hno t ht)
  · subst eL
    obtain ⟨l2, n, q1, q2, _, _, _⟩ := insertV2_fresh hc coins2 item hinv hl1 hlt hgt
    refine ⟨true, l1, l2, (A ++ (⟨l.heap.length, item, h⟩ : Tower α) :: B).map Tower.item,
      r1, q1, ?_, forward_inv r2, ?_, backward_inv r2, ?_⟩
    · show l1.len = l2.len
      rw [r2.len, q2.len]
      simp
    · rw [forward_inv q2]
      simp
    · rw [backward_inv q2]
      simp

theorem insert_insertV2_agree_witness :
    (∃ b l1 l2 ys, Insert compareIntAsc (heads 0) 8 freshList = .ok (b, l1) ∧
      InsertV2 compareIntAsc (heads 3) 8 freshList = .ok (b, l2) ∧ Len l1 = Len l2 ∧
      forward l1 = .ok ys ∧ forward l2 = .ok ys ∧
      backward l1 = .ok ys.reverse ∧ backward l2 = .ok ys.reverse) ∧
    forward freshList = .ok [1, 2, 3, 4] ∧ freshList.level = 2 ∧
    (Insert compareIntAsc (heads 0) 8 freshList >>= fun r =>
        pure (r.1, Len r.2, forward r.2, backward r.2, levelItems r.2 1))
      = .ok (true, 5, .ok [1, 2, 3, 4, 8], .ok [8, 4, 3, 2, 1], .ok [1, 3]) ∧
    (InsertV2 compareIntAsc (heads 3) 8 freshList >>= fun r =>
        pure (r.1, Len r.2, forward r.2, backward r.2, levelItems r.2 1))
      = .ok (true, 5, .ok [1, 2, 3, 4, 8], .ok [8, 4, 3, 2, 1], .ok [1, 3, 8]) ∧
    (Insert compareIntAsc (heads 2) 3 freshList >>= fun r =>
        pure (r.1, Len r.2, forward r.2)) = .ok (false, 4, .ok [1, 2, 3, 4]) ∧
    (InsertV2 compareIntAsc (heads 2) 3 freshList >>= fun r =>
        pure (r.1, Len r.2, forward r.2)) = .ok (false, 4, .ok [1, 2, 3, 4]) :=
  ⟨insert_insertV2_agree compareIntAsc compareIntAsc_total freshList
    freshList_reachable (by decide) (heads 0) (heads 3) 8, rfl, rfl, rfl, rfl, rfl, rfl⟩

/-! ## Further properties of InsertV2 -/

/-- After a rejected `InsertV2` duplicate `Delete` can dereference nil under
the ascending integer comparator: `InsertV2(3)`, `Insert(1)`, `InsertV2(1)`
(returns false, leaving a second node 1 on levels 2 and 1) reach `ghostList`,
where `Delete(3)` finds 3 on level 1 behind that node and then evaluates
`v.next[0].next[0]` with `v.next[0]` nil. -/
theorem delete_nil_deref_after_rejected_insertV2 :
    InsertV2 compareIntAsc (heads 2) 3 NewList
      = .ok (true, stateOf (InsertV2 compareIntAsc (heads 2) 3 NewList)) ∧
    Insert compareIntAsc (heads 0) 1 (stateOf (InsertV2 compareIntAsc (heads 2) 3 NewList))
      = .ok (true, stateOf (Insert compareIntAsc (heads 0) 1
          (stateOf (InsertV2 compareIntAsc (heads 2) 3 NewList)))) ∧
    InsertV2 compareIntAsc (heads 2) 1 (stateOf (Insert compareIntAsc (heads 0) 1
        (stateOf (InsertV2 compareIntAsc (heads 2) 3 NewList))))
      = .ok (false, ghostList) ∧
    ReachableV2 compareIntAsc ghostList ∧
    forward ghostList = .ok [1, 3] ∧ levelItems ghostList 1 = .ok [1, 3] ∧
    levelItems ghostList 2 = .ok [1] ∧ Len ghostList = 2 ∧ ghostList.level = 2 ∧
    Exists compareIntAsc 3 ghostList = .ok (true, ghostList) ∧
    Delete compareIntAsc 3 ghostList = .error .nilDeref :=
  ⟨rfl, rfl, rfl,
    ReachableV2.insertV2 (heads 2) 1 false
      (ReachableV2.insert (heads 0) 1 true
        (ReachableV2.insertV2 (heads 2) 3 true ReachableV2.new
          (rfl : InsertV2 compareIntAsc (heads 2) 3 NewList
            = .ok (true, stateOf (InsertV2 compareIntAsc (heads 2) 3 NewList))))
        (rfl : Insert compareIntAsc (heads 0) 1
            (stateOf (InsertV2 compareIntAsc (heads 2) 3 NewList))
          = .ok (true, stateOf (Insert compareIntAsc (heads 0) 1
              (stateOf (InsertV2 compareIntAsc (heads 2) 3 NewList))))))
      (rfl : InsertV2 compareIntAsc (heads 2) 1 (stateOf (Insert compareIntAsc (heads 0) 1
            (stateOf (InsertV2 compareIntAsc (heads 2) 3 NewList))))
          = .ok (false, ghostList)),
    rfl, rfl, rfl, rfl, rfl, rfl, rfl⟩

/-- In a state reachable by `Insert` and `Delete` calls and by `InsertV2` calls
that return true, whose level is below 31, `InsertV2` of an item equal to no
stored one returns true whatever the coins, raises `Len` by one, places the
item on level 0 between the items less than it and the items greater than it,
and leaves the items of every level up to `level` strictly increasing. -/
theorem insertV2_absent_sorted {α : Type} (cmp : α → α → Int) (hc : IsTotalOrder cmp)
    (l : SkipList α) (hr : ReachableFresh cmp l) (hl : l.level < 31) (coins : Coins) (item : α)
    (ys : List α) (hf : forward l = .ok ys) (hn : ∀ y ∈ ys, cmp y item ≠ 0) :
    ∃ l1 ys1 ys2, InsertV2 cmp coins item l = .ok (true, l1) ∧ Len l1 = Len l + 1 ∧
      ys = ys1 ++ ys2 ∧ (∀ y ∈ ys1, cmp y item = -1) ∧ (∀ y ∈ ys2, cmp y item = 1) ∧
      forward l1 = .ok (ys1 ++ item :: ys2) ∧
      backward l1 = .ok (ys1 ++ item :: ys2).reverse ∧
      ∀ i, i ≤ l1.level → ∃ zs, levelItems l1 i = .ok zs ∧
        zs.Pairwise (fun a b => cmp a b = -1) := by
  obtain ⟨L, hinv⟩ := reachableFresh_inv hc hr
  rw [forward_inv hinv] at hf
  injection hf with hf
  subst hf
  rcases insertV2_spec hc coins item hinv (Nat.add_lt_add_right hl 1) with
    ⟨⟨t, ht, e⟩, _⟩ | ⟨_, l1, A, B, n, eL, hlt, hgt, r1, r2, _⟩
  · exact absurd e (hn t.item (List.mem_map_of_mem Tower.item ht))
  · subst eL
    refine ⟨l1, A.map Tower.item, B.map Tower.item, r1, ?_, by simp, ?_, ?_, ?_, ?_, ?_⟩
    · show l1.len = l.len + 1
      rw [r2.len, hinv.len]
      simp only [List.length_append, List.length_cons]
      push_cast
      ring
    · intro y hy
      obtain ⟨t, ht, e⟩ := List.mem_map.mp hy
      rw [← e]
      exact hlt t ht
    · intro y hy
      obtain ⟨t, ht, e⟩ := List.mem_map.mp hy
      rw [← e]
      exact hgt t ht
    · rw [forward_inv r2]
      simp
    · rw [backward_inv r2]
      simp
    · intro i hi
      refine ⟨_, levelItems_inv r2 (Nat.lt_of_le_of_lt hi r2.lvl_lt), ?_⟩
      rw [List.pairwise_map]
      exact r2.sorted.sublist (atLevel_sublist i _)

theorem insertV2_absent_sorted_witness :
    (∃ l1 ys1 ys2, InsertV2 compareIntAsc (heads 3) 8 freshList = .ok (true, l1) ∧
      Len l1 = Len freshList + 1 ∧
      [1, 2, 3, 4] = ys1 ++ ys2 ∧ (∀ y ∈ ys1, compareIntAsc y 8 = -1) ∧
      (∀ y ∈ ys2, compareIntAsc y 8 = 1) ∧
      forward l1 = .ok (ys1 ++ 8 :: ys2) ∧
      backward l1 = .ok (ys1 ++ 8 :: ys2).reverse ∧
      ∀ i, i ≤ l1.level → ∃ zs, levelItems l1 i = .ok zs ∧
        zs.Pairwise (fun a b => compareIntAsc a b = -1)) ∧
    (InsertV2 compareIntAsc (heads 3) 8 freshList >>= fun r =>
        pure (r.1, Len r.2, r.2.level, forward r.2, levelItems r.2 3))
      = .ok (true, 5, 3, .ok [1, 2, 3, 4, 8], .ok [8]) :=
  ⟨insertV2_absent_sorted compareIntAsc compareIntAsc_total freshList freshList_reachable
    (by decide) (heads 3) 8 [1, 2, 3, 4] rfl (by decide), rfl⟩

end Skiplist
